import Mathlib

/-!
# jom build engine: dependency graph and target executor

A shallow embedding of `src/jomlib/dependencygraph.cpp` and
`src/jomlib/targetexecutor.cpp`, followed by theorems about it.

Conventions of the embedding.

* Pointers are addresses (`Nat`) into an explicit store.  A `Node*` is a
  `NodeId` into `DependencyGraph.heap`, a `DescriptionBlock*` is a `TargetId`
  into `Makefile.blocks`.  Dereferencing a `Node*` that is not live is
  undefined behaviour in C++; the embedding returns `none` there.
* A `QDateTime` is `Option Int`: `none` is the invalid date-time, `some t`
  a valid one (milliseconds, local time line).
* Recursion that the C++ code performs without a bound takes a `fuel`
  argument that bounds the recursion depth; `none` also means "fuel exhausted".
* The file probe and the clock are a `World`, which a call of
  `isTargetUpToDate` observes.  The search for an available target is given
  twice: in one world, which every call observes, and under `Timed` with a
  world for each call, as the files and the clock may change while it runs.
* Output is the list of the texts written, one for each call of `printf`.
-/

namespace NMakeFile

/-! ## Time stamps and the file probe -/

abbrev QString := String

/-- Values of `QDateTime`; `none` is the invalid (default constructed) one. -/
abbrev QDateTime := Option Int

/-- Method `QDateTime::isValid`. -/
def QDateTime.isValid (t : QDateTime) : Bool := t.isSome

/-- Comparison `operator<` of `QDateTime`: the invalid date-time sorts before every valid one. -/
def QDateTime.lt : QDateTime → QDateTime → Bool
  | none, none => false
  | none, some _ => true
  | some _, none => false
  | some a, some b => decide (a < b)

/-- Comparison `operator>=` of `QDateTime`, the negation of `operator<`. -/
def QDateTime.ge (a b : QDateTime) : Bool := !(QDateTime.lt a b)

/-- The seed `QDateTime(QDate(1900, 1, 1))` of `isTargetUpToDate`: midnight of 1900-01-01,
in milliseconds relative to 1970-01-01. -/
def seed1900 : Int := -2208988800000

/-- What a `FileInfo` object answers for one path. -/
structure FileInfo where
  exists_ : Bool
  lastModified : QDateTime
  deriving DecidableEq, Repr

/-- The outside world as `isTargetUpToDate` observes it: the file probe and the clock. -/
structure World where
  fileInfo : QString → FileInfo
  currentDateTime : Int

/-! ## Makefile model -/

/-- A `DescriptionBlock*`. -/
abbrev TargetId := Nat

/-- The fields of `DescriptionBlock` that the build engine reads or writes. -/
structure DescriptionBlock where
  targetName : QString
  m_dependents : List QString
  m_commands : List QString
  m_inferenceRules : List QString
  m_bFileExists : Bool
  m_timeStamp : QDateTime
  deriving DecidableEq, Repr

/-- The parsed makefile: the store of its description blocks and the lookup
`Makefile::target(name)` (a parameter: the class is not part of the sources at hand). -/
structure Makefile where
  blocks : TargetId → DescriptionBlock
  target : QString → Option TargetId

/-! ## `DependencyGraph::isTargetUpToDate` -/

/-- The loop of `isTargetUpToDate` that finds the latest time stamp of the dependents;
a dependent that does not exist sets the result to the current time and leaves the loop. -/
def latestDependentTimeStamp (w : World) : QDateTime → List QString → QDateTime
  | ts, [] => ts
  | ts, dependentName :: rest =>
    let fi := w.fileInfo dependentName
    if fi.exists_ then
      let ts2 := fi.lastModified
      latestDependentTimeStamp w (if QDateTime.lt ts ts2 then ts2 else ts) rest
    else
      some w.currentDateTime

/-- The first part of `isTargetUpToDate`: re-probe a target that was not an existing file.
Returns `targetIsExistingFile` and the (possibly refreshed) description block. -/
def probeTarget (w : World) (target : DescriptionBlock) : Bool × DescriptionBlock :=
  if !target.m_bFileExists then
    let fi := w.fileInfo target.targetName
    if fi.exists_ then (true, { target with m_timeStamp := fi.lastModified })
    else (false, target)
  else (true, target)

/-- Function `DependencyGraph::isTargetUpToDate`; returns the answer and the description block
with its refreshed time stamp. -/
def isTargetUpToDate (w : World) (target : DescriptionBlock) : Bool × DescriptionBlock :=
  let (targetIsExistingFile, target) := probeTarget w target
  if !targetIsExistingFile || !target.m_timeStamp.isValid then
    (false, target)
  else
    (QDateTime.ge target.m_timeStamp
      (latestDependentTimeStamp w (some seed1900) target.m_dependents), target)

/-- The enumeration `Node::State`. -/
inductive NodeState where
  | UnknownState
  | ExecutingState
  | UpToDateState
  | UnbuildableState
  deriving DecidableEq, Repr

/-- A `Node*`: the address of a `Node` object in `DependencyGraph.heap`. -/
abbrev NodeId := Nat

/-- The struct `DependencyGraph::Node`. -/
structure Node where
  target : TargetId
  children : List NodeId
  parents : List NodeId
  state : NodeState
  deriving DecidableEq, Repr

/-- The members of `DependencyGraph`, together with the memory that holds its `Node` objects:
`heap id = some nd` when `id` is the address of a live `Node`, and `nextAddr` is the address
that the next `new Node` returns. `m_nodeContainer` is the `QHash<DescriptionBlock*, Node*>`
as an association list with one entry per key. -/
structure DependencyGraph where
  m_root : Option NodeId
  m_nodeContainer : List (TargetId × NodeId)
  m_nodesToRemove : List NodeId
  m_leaves : List TargetId
  heap : NodeId → Option Node
  nextAddr : NodeId

/-- The graph after the constructor `DependencyGraph()`; `base` is the first free address. -/
def DependencyGraph.init (base : NodeId) : DependencyGraph where
  m_root := none
  m_nodeContainer := []
  m_nodesToRemove := []
  m_leaves := []
  heap := fun _ => none
  nextAddr := base

/-- Method `QHash::value`: the entry for a key, `none` for the null pointer of a missing key. -/
def hashValue : List (TargetId × NodeId) → TargetId → Option NodeId
  | [], _ => none
  | (k, v) :: rest, t => if k = t then some v else hashValue rest t

/-- Method `QHash::contains`. -/
def hashContains (h : List (TargetId × NodeId)) (t : TargetId) : Bool := (hashValue h t).isSome

/-- Method `QHash::remove`. -/
def hashRemove (h : List (TargetId × NodeId)) (t : TargetId) : List (TargetId × NodeId) :=
  h.filter (fun e => decide (e.1 ≠ t))

/-- The assignment `hash[key] = value`: replaces the entry of the key. -/
def hashInsert (h : List (TargetId × NodeId)) (t : TargetId) (n : NodeId) :
    List (TargetId × NodeId) :=
  hashRemove h t ++ [(t, n)]

/-- Store `nd` at the address `id`. -/
def DependencyGraph.setNode (g : DependencyGraph) (id : NodeId) (nd : Node) : DependencyGraph :=
  { g with heap := Function.update g.heap id (some nd) }

/-! ## `DependencyGraph`: construction -/

/-- First statement of `addEdge`: append `child` to `parent->children` unless it is there. -/
def DependencyGraph.appendChild (g : DependencyGraph) (parent child : NodeId) :
    Option DependencyGraph :=
  match g.heap parent with
  | none => none
  | some p =>
    some (if child ∈ p.children then g
      else g.setNode parent { p with children := p.children ++ [child] })

/-- Second statement of `addEdge`: append `parent` to `child->parents` unless it is there. -/
def DependencyGraph.appendParent (g : DependencyGraph) (parent child : NodeId) :
    Option DependencyGraph :=
  match g.heap child with
  | none => none
  | some c =>
    some (if parent ∈ c.parents then g
      else g.setNode child { c with parents := c.parents ++ [parent] })

/-- Function `DependencyGraph::addEdge`. -/
def DependencyGraph.addEdge (g : DependencyGraph) (parent child : NodeId) :
    Option DependencyGraph :=
  match g.appendChild parent child with
  | none => none
  | some g1 => g1.appendParent parent child

/-- The first three statements of `createNode`: `new Node` at the next free address, with the
target set and the state Unknown. -/
def DependencyGraph.allocNode (g : DependencyGraph) (target : TargetId) : DependencyGraph :=
  { g with
    heap := Function.update g.heap g.nextAddr (some ⟨target, [], [], NodeState.UnknownState⟩)
    nextAddr := g.nextAddr + 1 }

/-- Function `DependencyGraph::createNode`; returns the new node and the new graph. -/
def DependencyGraph.createNode (g : DependencyGraph) (target : TargetId)
    (parent : Option NodeId) : Option (NodeId × DependencyGraph) :=
  let node := g.nextAddr
  let g1 := g.allocNode target
  match parent with
  | some p =>
    match g1.addEdge p node with
    | none => none
    | some g2 =>
      some (node, { g2 with m_nodeContainer := hashInsert g2.m_nodeContainer target node })
  | none =>
    some (node, { g1 with m_nodeContainer := hashInsert g1.m_nodeContainer target node })

/-- The body of the `foreach` loop of `internalBuild`, run over the remaining dependent names;
`recurse` is the recursive call `internalBuild(child)`. -/
def internalBuildLoop (mk : Makefile) (recurse : DependencyGraph → NodeId → Option DependencyGraph)
    (node : NodeId) : List QString → DependencyGraph → Option DependencyGraph
  | [], g => some g
  | dependentName :: rest, g =>
    match mk.target dependentName with
    | none => internalBuildLoop mk recurse node rest g
    | some dependent =>
      let linked : Option (NodeId × DependencyGraph) :=
        match hashValue g.m_nodeContainer dependent with
        | some child => (g.addEdge node child).map (fun g1 => (child, g1))
        | none => g.createNode dependent (some node)
      match linked with
      | none => none
      | some (child, g1) =>
        match recurse g1 child with
        | none => none
        | some g2 => internalBuildLoop mk recurse node rest g2

/-- Function `DependencyGraph::internalBuild`; `fuel` bounds the depth of the recursion. -/
def internalBuild (mk : Makefile) : Nat → DependencyGraph → NodeId → Option DependencyGraph
  | 0, _, _ => none
  | fuel + 1, g, node =>
    match g.heap node with
    | none => none
    | some nd =>
      internalBuildLoop mk (internalBuild mk fuel) node (mk.blocks nd.target).m_dependents g

/-- Function `DependencyGraph::build`. -/
def DependencyGraph.build (mk : Makefile) (fuel : Nat) (g : DependencyGraph)
    (target : TargetId) : Option DependencyGraph :=
  match g.createNode target none with
  | none => none
  | some (root, g1) => internalBuild mk fuel { g1 with m_root := some root } root

/-- Function `DependencyGraph::clear`; `qDeleteAll` frees every node of the node container. -/
def DependencyGraph.clear (g : DependencyGraph) : DependencyGraph :=
  { g with
    m_root := none
    m_nodesToRemove := []
    heap := fun id => if id ∈ g.m_nodeContainer.map Prod.snd then none else g.heap id
    m_nodeContainer := []
    m_leaves := [] }

/-- Function `DependencyGraph::isEmpty`. -/
def DependencyGraph.isEmpty (g : DependencyGraph) : Bool := g.m_nodeContainer.isEmpty

/-! ## `DependencyGraph`: removal -/

/-- Function `DependencyGraph::deleteNode`. -/
def DependencyGraph.deleteNode (g : DependencyGraph) (node : NodeId) : Option DependencyGraph :=
  match g.heap node with
  | none => none
  | some nd =>
    some { g with
      m_nodeContainer := hashRemove g.m_nodeContainer nd.target
      m_root := if g.m_root = some node then none else g.m_root
      heap := Function.update g.heap node none }

/-- One step of the first loop of `remove(Node*)`: erase `node` from the children of `parent`.
`qFind` must find it: erasing at `end()` is undefined. -/
def DependencyGraph.eraseChild (node : NodeId) (g : DependencyGraph) (parent : NodeId) :
    Option DependencyGraph :=
  match g.heap parent with
  | none => none
  | some p =>
    if node ∈ p.children then
      some (g.setNode parent { p with children := p.children.erase node })
    else none

/-- One step of the second loop of `remove(Node*)`: erase `node` from the parents of `child`. -/
def DependencyGraph.eraseParent (node : NodeId) (g : DependencyGraph) (child : NodeId) :
    Option DependencyGraph :=
  match g.heap child with
  | none => none
  | some c =>
    if node ∈ c.parents then
      some (g.setNode child { c with parents := c.parents.erase node })
    else none

/-- Function `DependencyGraph::remove(Node*)`. -/
def DependencyGraph.removeNode (g : DependencyGraph) (node : NodeId) : Option DependencyGraph :=
  match g.heap node with
  | none => none
  | some nd =>
    match nd.parents.foldlM (DependencyGraph.eraseChild node) g with
    | none => none
    | some g1 =>
      match g1.heap node with
      | none => none
      | some nd1 =>
        match nd1.children.foldlM (DependencyGraph.eraseParent node) g1 with
        | none => none
        | some g2 => g2.deleteNode node

/-- Function `DependencyGraph::remove(DescriptionBlock*)`. -/
def DependencyGraph.remove (g : DependencyGraph) (target : TargetId) : Option DependencyGraph :=
  match hashValue g.m_nodeContainer target with
  | none => some g
  | some nodeToRemove => g.removeNode nodeToRemove

/-! ## Makefiles used as examples -/

/-- A description block with the given name, dependents and commands, not yet probed. -/
def mkBlock (name : QString) (deps cmds : List QString) : DescriptionBlock where
  targetName := name
  m_dependents := deps
  m_commands := cmds
  m_inferenceRules := []
  m_bFileExists := false
  m_timeStamp := none

/-- The makefile `A: A`: its only target depends on itself. -/
def selfMakefile : Makefile where
  blocks := fun _ => mkBlock "A" ["A"] ["touch A"]
  target := fun n => if n = "A" then some 0 else none

/-- The makefile `A: B`, `B: A`. -/
def cycleMakefile : Makefile where
  blocks := fun t =>
    match t with
    | 0 => mkBlock "A" ["B"] ["touch A"]
    | _ => mkBlock "B" ["A"] ["touch B"]
  target := fun n => if n = "A" then some 0 else if n = "B" then some 1 else none

/-- The makefile `A: B C missing B`, `B: D`, `C: D`, `D:` (a diamond); the name `missing`
names no target. -/
def diamondMakefile : Makefile where
  blocks := fun t =>
    match t with
    | 0 => mkBlock "A" ["B", "C", "missing", "B"] ["link A"]
    | 1 => mkBlock "B" ["D"] ["cl B"]
    | 2 => mkBlock "C" ["D"] ["cl C"]
    | _ => mkBlock "D" [] ["touch D"]
  target := fun n =>
    if n = "A" then some 0 else if n = "B" then some 1 else if n = "C" then some 2
    else if n = "D" then some 3 else none

/-! ## Invariants of the graph -/

/-- The effect of the first statement of `addEdge(parent, child)` on the node stored at `id`. -/
def linkChild (parent child id : NodeId) (nd : Node) : Node :=
  { nd with
    children := if id = parent ∧ child ∉ nd.children then nd.children ++ [child] else nd.children }

/-- The effect of the second statement of `addEdge(parent, child)` on the node stored at `id`. -/
def linkParent (parent child id : NodeId) (nd : Node) : Node :=
  { nd with
    parents := if id = child ∧ parent ∉ nd.parents then nd.parents ++ [parent] else nd.parents }

/-- The effect of `addEdge(parent, child)` on the node stored at `id`. -/
def linkNode (parent child id : NodeId) (nd : Node) : Node :=
  linkParent parent child id (linkChild parent child id nd)

/-- The effect of `remove(node)` on another node: `node` leaves its edge lists. -/
def unlinkNode (node : NodeId) (nd : Node) : Node :=
  { nd with children := nd.children.erase node, parents := nd.parents.erase node }

/-- The representation invariant of the node memory: edge lists point to live nodes, hold no
node twice, are symmetric, addresses from `nextAddr` on are free, and every entry of the node
container points to a live node of that target. -/
structure HeapInv (g : DependencyGraph) : Prop where
  closedC : ∀ id nd, g.heap id = some nd → ∀ c ∈ nd.children, ∃ cn, g.heap c = some cn
  closedP : ∀ id nd, g.heap id = some nd → ∀ p ∈ nd.parents, ∃ pn, g.heap p = some pn
  sym : ∀ p c pn cn, g.heap p = some pn → g.heap c = some cn →
    (c ∈ pn.children ↔ p ∈ cn.parents)
  nodupC : ∀ id nd, g.heap id = some nd → nd.children.Nodup
  nodupP : ∀ id nd, g.heap id = some nd → nd.parents.Nodup
  fresh : ∀ id, g.nextAddr ≤ id → g.heap id = none
  mapLive : ∀ t id, hashValue g.m_nodeContainer t = some id →
    ∃ nd, g.heap id = some nd ∧ nd.target = t

/-- Edge symmetry over the nodes of the node map: for nodes `p` and `c` of the map,
`c ∈ p.children` if and only if `p ∈ c.parents`. -/
def EdgeSymmetric (g : DependencyGraph) : Prop :=
  ∀ tp tc p c pn cn,
    hashValue g.m_nodeContainer tp = some p → hashValue g.m_nodeContainer tc = some c →
    g.heap p = some pn → g.heap c = some cn →
    (c ∈ pn.children ↔ p ∈ cn.parents)

/-- The graph states reachable from an empty graph by `build(root)`, `createNode`, `addEdge`
and `remove(target)`; a step exists only where the operation is defined (no dangling pointer
is dereferenced, `build` returns). -/
inductive GraphReach (mk : Makefile) : DependencyGraph → Prop where
  | init (base : NodeId) : GraphReach mk (DependencyGraph.init base)
  | build {g g1 : DependencyGraph} (fuel : Nat) (target : TargetId) :
      GraphReach mk g → g.build mk fuel target = some g1 → GraphReach mk g1
  | createNode {g g1 : DependencyGraph} (target : TargetId) (parent : Option NodeId)
      (node : NodeId) :
      GraphReach mk g → g.createNode target parent = some (node, g1) → GraphReach mk g1
  | addEdge {g g1 : DependencyGraph} (parent child : NodeId) :
      GraphReach mk g → g.addEdge parent child = some g1 → GraphReach mk g1
  | remove {g g1 : DependencyGraph} (target : TargetId) :
      GraphReach mk g → g.remove target = some g1 → GraphReach mk g1

/-- The effect of the first loop of `remove(node)` on a parent of `node`. -/
def eraseChildNode (node : NodeId) (nd : Node) : Node :=
  { nd with children := nd.children.erase node }

/-- The effect of the second loop of `remove(node)` on a child of `node`. -/
def eraseParentNode (node : NodeId) (nd : Node) : Node :=
  { nd with parents := nd.parents.erase node }

/-- The graph built from the diamond makefile with root `A`. -/
def diamondGraph : DependencyGraph :=
  (DependencyGraph.build diamondMakefile 4 (DependencyGraph.init 0) 0).getD
    (DependencyGraph.init 0)

/-- The diamond graph after `remove(D)`. -/
def diamondGraphWithoutD : DependencyGraph :=
  (diamondGraph.remove 3).getD (DependencyGraph.init 0)

/-! ## Makefile relations used to state what `build` constructs -/

/-- The dependents of a target that name a target of the makefile, in declaration order. -/
def Makefile.resolvedDependents (mk : Makefile) (t : TargetId) : List TargetId :=
  (mk.blocks t).m_dependents.filterMap mk.target

/-- A list with the later repetitions of every element dropped. -/
def dropRepetitions (l : List TargetId) : List TargetId :=
  l.foldl (fun acc x => if x ∈ acc then acc else acc ++ [x]) []

/-- Target `d` is reachable from target `t` through dependent names that resolve. -/
def Makefile.Reaches (mk : Makefile) (t d : TargetId) : Prop :=
  Relation.ReflTransGen (fun a b => b ∈ mk.resolvedDependents a) t d

/-- The dependents relation is acyclic, witnessed by `rank`: every resolved dependent has a
smaller rank than the target that declares it. -/
def Makefile.RankedBy (mk : Makefile) (rank : TargetId → Nat) : Prop :=
  ∀ t d, d ∈ mk.resolvedDependents t → rank d < rank t

/-- The dependents relation of the makefile is acyclic. -/
def Makefile.Acyclic (mk : Makefile) : Prop := ∃ rank, mk.RankedBy rank

/-- A cycle of the dependents relation can be reached from the target: some target `c` is
reachable from it and from itself, the latter through at least one dependent. -/
def Makefile.ReachesCycle (mk : Makefile) (t : TargetId) : Prop :=
  ∃ c, mk.Reaches t c ∧ Relation.TransGen (fun a b => b ∈ mk.resolvedDependents a) c c

/-- Every live node is the entry of its target in the node container. -/
def RegInv (g : DependencyGraph) : Prop :=
  ∀ id nd, g.heap id = some nd → hashValue g.m_nodeContainer nd.target = some id

/-- The target has an entry in the node container. -/
def InMap (g : DependencyGraph) (t : TargetId) : Prop :=
  ∃ id, hashValue g.m_nodeContainer t = some id

/-- The targets of the nodes in a list of node addresses. -/
def DependencyGraph.targetsOf (g : DependencyGraph) (l : List NodeId) : List TargetId :=
  l.filterMap (fun c => (g.heap c).map Node.target)

/-- The node of target `t` is in the node container and its children are the resolved
dependents of `t` in declaration order, repetitions dropped. -/
def NodeDone (mk : Makefile) (g : DependencyGraph) (t : TargetId) : Prop :=
  ∃ id nd, hashValue g.m_nodeContainer t = some id ∧ g.heap id = some nd ∧
    g.targetsOf nd.children = dropRepetitions (mk.resolvedDependents t)

/-- Every target reachable from `t` has its finished node. -/
def Complete (mk : Makefile) (g : DependencyGraph) (t : TargetId) : Prop :=
  ∀ v, mk.Reaches t v → NodeDone mk g v

/-- From `g` to `g1` the node container keeps its entries and every live node keeps its
target, its state and, unless it is `n`, its children. -/
def ExtendsAt (g g1 : DependencyGraph) (n : NodeId) : Prop :=
  (∀ u id, hashValue g.m_nodeContainer u = some id → hashValue g1.m_nodeContainer u = some id) ∧
  (∀ id x, g.heap id = some x → ∃ x1, g1.heap id = some x1 ∧ x1.target = x.target ∧
    x1.state = x.state ∧ (id ≠ n → x1.children = x.children))

/-- What `internalBuild(n)` has achieved when it returns `g1` from `g`, for a node `n` of
target `t` that had no children yet. -/
structure BuildPost (mk : Makefile) (g : DependencyGraph) (n : NodeId) (t : TargetId)
    (g1 : DependencyGraph) : Prop where
  inv : HeapInv g1
  reg : RegInv g1
  complete : Complete mk g1 t
  ext : ExtendsAt g g1 n
  keys : ∀ v, InMap g1 v → InMap g v ∨ mk.Reaches t v

/-- A rank for the diamond makefile: `A` 3, `B` 2, `C` 1, `D` 0. -/
def diamondRank (t : TargetId) : Nat := 3 - t

/-- The node container holds every key once. -/
def KeysNodup (g : DependencyGraph) : Prop :=
  (g.m_nodeContainer.map Prod.fst).Nodup

/-! ## Structural view of a graph

Two graphs are structurally equal when they agree up to the addresses of their nodes. The view
of a graph names every node by its target. -/

/-- A node with its edges named by targets. -/
structure NodeView where
  target : TargetId
  children : List (Option TargetId)
  parents : List (Option TargetId)
  state : NodeState
  deriving DecidableEq, Repr

/-- A graph with its nodes named by targets: the root, the node container in insertion order,
the deferred-removal list and the list of collected leaves. -/
structure GraphView where
  root : Option (Option TargetId)
  nodes : List (TargetId × Option NodeView)
  nodesToRemove : List (Option TargetId)
  leaves : List TargetId
  deriving DecidableEq, Repr

/-- The target of the node at an address, `none` for an address that is not live. -/
def DependencyGraph.targetAt (g : DependencyGraph) (id : NodeId) : Option TargetId :=
  (g.heap id).map Node.target

/-- The view of the node at an address. -/
def DependencyGraph.nodeView (g : DependencyGraph) (id : NodeId) : Option NodeView :=
  (g.heap id).map fun nd =>
    { target := nd.target
      children := nd.children.map g.targetAt
      parents := nd.parents.map g.targetAt
      state := nd.state }

/-- The structural view of a graph. -/
def DependencyGraph.view (g : DependencyGraph) : GraphView where
  root := g.m_root.map g.targetAt
  nodes := g.m_nodeContainer.map (fun e => (e.1, g.nodeView e.2))
  nodesToRemove := g.m_nodesToRemove.map g.targetAt
  leaves := g.m_leaves

/-- A node with every address in it moved up by `k`. -/
def Node.shift (k : Nat) (nd : Node) : Node :=
  { nd with children := nd.children.map (· + k), parents := nd.parents.map (· + k) }

/-- A graph with every node moved up by `k` addresses. -/
def DependencyGraph.shift (k : Nat) (g : DependencyGraph) : DependencyGraph where
  m_root := g.m_root.map (· + k)
  m_nodeContainer := g.m_nodeContainer.map (fun e => (e.1, e.2 + k))
  m_nodesToRemove := g.m_nodesToRemove.map (· + k)
  m_leaves := g.m_leaves
  heap := fun id => if id < k then none else (g.heap (id - k)).map (Node.shift k)
  nextAddr := g.nextAddr + k

/-- Every node is in state Unknown and the auxiliary lists are empty. -/
def Pristine (g : DependencyGraph) : Prop :=
  (∀ id nd, g.heap id = some nd → nd.state = NodeState.UnknownState) ∧
    g.m_nodesToRemove = [] ∧ g.m_leaves = []

/-! ## `DependencyGraph`: finding an available target -/

/-- Assignment through a `DescriptionBlock*`. -/
def Makefile.setBlock (mk : Makefile) (t : TargetId) (b : DescriptionBlock) : Makefile :=
  { mk with blocks := Function.update mk.blocks t b }

/-- The `foreach` loop over the children in `findAvailableTarget(Node*)`; `recurse` is the
recursive call. -/
def findAvailableTargetLoop
    (recurse : Makefile → DependencyGraph → NodeId →
      Option (Option TargetId × Makefile × DependencyGraph)) :
    List NodeId → Makefile → DependencyGraph →
      Option (Option TargetId × Makefile × DependencyGraph)
  | [], mk, g => some (none, mk, g)
  | child :: rest, mk, g =>
    match recurse mk g child with
    | none => none
    | some (some result, mk1, g1) => some (some result, mk1, g1)
    | some (none, mk1, g1) => findAvailableTargetLoop recurse rest mk1 g1

/-- Function `DependencyGraph::findAvailableTarget(Node*)` in one world: every call of
`isTargetUpToDate` observes the same files and the same clock (`Timed.findAvailableTargetNode`
is the function with a world for each call). `fuel` bounds the depth of the recursion. The
makefile is part of the state because `isTargetUpToDate` refreshes the time stamp of the
target. The output of `displayNodeBuildInfo` is not modelled. -/
def findAvailableTargetNode (w : World) :
    Nat → Makefile → DependencyGraph → NodeId →
      Option (Option TargetId × Makefile × DependencyGraph)
  | 0, _, _, _ => none
  | fuel + 1, mk, g, node =>
    match g.heap node with
    | none => none
    | some nd =>
      if nd.children.isEmpty then
        if nd.state = NodeState.ExecutingState then some (none, mk, g)
        else
          let r := isTargetUpToDate w (mk.blocks nd.target)
          let mk1 := mk.setBlock nd.target r.2
          if r.1 then
            if nd.state ≠ NodeState.UpToDateState then
              some (none, mk1,
                { g.setNode node { nd with state := NodeState.UpToDateState } with
                  m_nodesToRemove := g.m_nodesToRemove ++ [node] })
            else some (none, mk1, g)
          else
            some (some nd.target, mk1,
              g.setNode node { nd with state := NodeState.ExecutingState })
      else findAvailableTargetLoop (findAvailableTargetNode w fuel) nd.children mk g

/-- How the inner `do ... while` of `findAvailableTarget()` ends: with `return 0` because the
root is null, or with the `result` of the last search. -/
inductive Pass where
  | returned
  | result (r : Option TargetId)
  deriving DecidableEq, Repr

/-- The loop `foreach (Node* node, m_nodesToRemove) remove(node);`. -/
def DependencyGraph.removeNodes (g : DependencyGraph) (l : List NodeId) :
    Option DependencyGraph :=
  l.foldlM (fun g node => g.removeNode node) g

/-- The inner `do ... while (!result && !m_nodesToRemove.isEmpty())` of
`findAvailableTarget()`; `fuel` bounds the number of passes. -/
def searchPasses (w : World) (searchFuel : Nat) :
    Nat → Makefile → DependencyGraph → Option (Pass × Makefile × DependencyGraph)
  | 0, _, _ => none
  | fuel + 1, mk, g =>
    match g.removeNodes g.m_nodesToRemove with
    | none => none
    | some g1 =>
      let g2 := { g1 with m_nodesToRemove := [] }
      match g2.m_root with
      | none => some (Pass.returned, mk, g2)
      | some root =>
        match findAvailableTargetNode w searchFuel mk g2 root with
        | none => none
        | some (result, mk3, g3) =>
          if result.isNone && !g3.m_nodesToRemove.isEmpty then
            searchPasses w searchFuel fuel mk3 g3
          else some (Pass.result result, mk3, g3)

/-- The outer `do ... while (result)` of `findAvailableTarget()`, which appends every found
target to `m_leaves`; `fuel` bounds the number of iterations. -/
def collectLeaves (w : World) (searchFuel passFuel : Nat) :
    Nat → Makefile → DependencyGraph → Option (Pass × Makefile × DependencyGraph)
  | 0, _, _ => none
  | fuel + 1, mk, g =>
    match searchPasses w searchFuel passFuel mk g with
    | none => none
    | some (Pass.returned, mk1, g1) => some (Pass.returned, mk1, g1)
    | some (Pass.result none, mk1, g1) => some (Pass.result none, mk1, g1)
    | some (Pass.result (some result), mk1, g1) =>
      collectLeaves w searchFuel passFuel fuel mk1
        { g1 with m_leaves := g1.m_leaves ++ [result] }

/-- Function `DependencyGraph::findAvailableTarget()`. `applyInferenceRules` is the method
`Makefile::applyInferenceRules` (a parameter: the class is not part of the sources at hand);
all targets belong to the one makefile, so the second part calls it once, with the leaves in
the order of `QMultiHash::values`, latest insertion first. `fuel` bounds each of the loops. -/
def DependencyGraph.findAvailableTarget (w : World)
    (applyInferenceRules : List TargetId → Makefile → Makefile) (fuel : Nat) (mk : Makefile)
    (g : DependencyGraph) : Option (Option TargetId × Makefile × DependencyGraph) :=
  match g.m_leaves with
  | leaf :: rest =>
    let g1 := { g with m_leaves := rest }
    let mk1 :=
      if (mk.blocks leaf).m_commands.isEmpty && !(mk.blocks leaf).m_inferenceRules.isEmpty then
        applyInferenceRules [leaf] mk
      else mk
    some (some leaf, mk1, g1)
  | [] =>
    match collectLeaves w fuel fuel fuel mk g with
    | none => none
    | some (Pass.returned, mk1, g1) => some (none, mk1, g1)
    | some (Pass.result _, mk1, g1) =>
      let mk2 := if g1.m_leaves.isEmpty then mk1 else applyInferenceRules g1.m_leaves.reverse mk1
      match g1.m_leaves with
      | [] => some (none, mk2, g1)
      | leaf :: rest => some (some leaf, mk2, { g1 with m_leaves := rest })

/-- A world in which no file exists. -/
def emptyWorld : World where
  fileInfo := fun _ => ⟨false, none⟩
  currentDateTime := 1000

/-- An `applyInferenceRules` that finds no rule to apply. -/
def noRules : List TargetId → Makefile → Makefile := fun _ mk => mk

/-! ## Invariants of the search for an available target -/

/-- The target, the children and the parents of a node: everything but its state. -/
def Node.edges (nd : Node) : TargetId × List NodeId × List NodeId :=
  (nd.target, nd.children, nd.parents)

/-- The target has a `Node` in the node map and the state of that node is Executing. -/
def ExecutingInMap (g : DependencyGraph) (t : TargetId) : Prop :=
  ∃ id nd, hashValue g.m_nodeContainer t = some id ∧ g.heap id = some nd ∧
    nd.state = NodeState.ExecutingState

/-- Every collected leaf has its node in the node map, in state Executing. -/
def LeavesExecuting (g : DependencyGraph) : Prop :=
  ∀ t ∈ g.m_leaves, ExecutingInMap g t

/-- The invariant of the graph between the steps of `findAvailableTarget()`. -/
structure CoreInv (g : DependencyGraph) : Prop where
  heap : HeapInv g
  reg : RegInv g
  leaves : LeavesExecuting g

/-- The nodes of a deferred-removal list are distinct live nodes in state UpToDate whose
targets the up-to-date check accepts. -/
def RemovalInv (w : World) (mk : Makefile) (g : DependencyGraph) (l : List NodeId) : Prop :=
  l.Nodup ∧ ∀ id ∈ l, ∃ nd, g.heap id = some nd ∧ nd.state = NodeState.UpToDateState ∧
    (isTargetUpToDate w (mk.blocks nd.target)).1 = true

/-- The invariant of the graph during `findAvailableTarget()`. -/
structure SearchInv (w : World) (mk : Makefile) (g : DependencyGraph) : Prop where
  core : CoreInv g
  removal : RemovalInv w mk g g.m_nodesToRemove

/-! ## `TargetExecutor`: data model

The scheduler of `targetexecutor.cpp`. The classes it calls that are not part of the sources
at hand (`Makefile`, `Options`, `JobClient`, `CommandExecutor`, `FastFileInfo`, and the
`DependencyGraph` interface of its version: `findAvailableTarget(bool)`, `removeLeaf`,
`isUnbuildable`, `markParentsRecursivlyUnbuildable`) are parameters, collected in
`Collaborators`; `G` is the state they act on (graph, makefile, file-info cache). -/

/-- The options read by the scheduler. -/
structure Options where
  maxNumberOfJobs : Nat
  buildAllTargets : Bool
  buildUnrelatedTargetsOnError : Bool
  dumpDependencyGraph : Bool
  dumpDependencyGraphDot : Bool
  deriving DecidableEq, Repr

/-- A `CommandExecutor*`. -/
abbrev ExecId := Nat

/-- Modelled from the spec: the state of a `CommandExecutor` that the scheduler reads: its
current target, whether it is active, and its buffered-output flag. -/
structure CommandExecutor where
  m_pTarget : Option TargetId
  m_active : Bool
  m_bufferedOutput : Bool
  deriving DecidableEq, Repr

/-- Modelled from the spec: the `JobClient`. `isAcquiring` is true between `asyncAcquire` and
`acquired`; `tokens` counts the tokens held (acquired and not yet released). -/
structure JobClient where
  isAcquiring : Bool
  tokens : Int
  deriving DecidableEq, Repr

/-- Method `JobClient::asyncAcquire`. -/
def JobClient.asyncAcquire (j : JobClient) : JobClient := { j with isAcquiring := true }

/-- The token request is granted: the signal `acquired` is about to be emitted. -/
def JobClient.grant (j : JobClient) : JobClient :=
  { j with isAcquiring := false, tokens := j.tokens + 1 }

/-- Method `JobClient::release`. -/
def JobClient.release (j : JobClient) : JobClient := { j with tokens := j.tokens - 1 }

/-- A line written to `stderr` by the scheduler. -/
inductive StderrLine where
  | error (message : String)
  | continuing
  | cannotBeBuilt (target : TargetId)
  deriving DecidableEq, Repr

/-- The code that the scheduler calls and that is not part of the sources at hand. A call that
may throw an `Exception` returns its message in `Except.error`. -/
structure Collaborators (G : Type) where
  options : Options
  targetsIsEmpty : Bool
  firstTarget : TargetId
  target : QString → Option TargetId
  fileName : QString
  jobClientStart : Bool
  jobClientErrorString : String
  build : TargetId → G → Except String Unit × G
  clear : G → G
  dump : G → G
  findAvailableTarget : Bool → G → Except String (Option TargetId) × G
  removeLeaf : TargetId → G → G
  isUnbuildable : TargetId → G → Bool
  markParentsRecursivlyUnbuildable : TargetId → G → G
  commandsIsEmpty : TargetId → G → Bool
  invalidateTimeStamps : G → G
  clearCacheForFile : TargetId → G → G
  start : ExecId → TargetId → G → Except String Unit × G

/-- The members of `TargetExecutor`: `executors` is the memory of the `CommandExecutor`
objects, `m_depgraph` the state of the collaborators, `finishedSignals` the exit codes passed
to the signal `finished(exitCode)` so far, `stderr` the lines written to `stderr` so far. -/
structure TargetExecutor (G : Type) where
  m_processes : List ExecId
  m_availableProcesses : List ExecId
  executors : ExecId → CommandExecutor
  m_nextTarget : Option TargetId
  m_pendingTargets : List (Option TargetId)
  m_jobAcquisitionCount : Int
  m_bAborted : Bool
  m_allCommandsSuccessfullyExecuted : Bool
  m_jobClient : Option JobClient
  m_depgraph : G
  finishedSignals : List Int
  stderr : List StderrLine

/-- The constructor `TargetExecutor::TargetExecutor`: a pool of `maxNumberOfJobs` executors,
all available, the first of them with unbuffered output. `m_jobAcquisitionCount` is not
initialized by the constructor; `apply` sets it. -/
def TargetExecutor.construct {G : Type} (maxNumberOfJobs : Nat) (depgraph : G) :
    TargetExecutor G where
  m_processes := List.range maxNumberOfJobs
  m_availableProcesses := List.range maxNumberOfJobs
  executors := fun i => ⟨none, false, decide (i ≠ 0)⟩
  m_nextTarget := none
  m_pendingTargets := []
  m_jobAcquisitionCount := 0
  m_bAborted := false
  m_allCommandsSuccessfullyExecuted := true
  m_jobClient := none
  m_depgraph := depgraph
  finishedSignals := []
  stderr := []

/-- Function `TargetExecutor::numberOfRunningProcesses`. -/
def TargetExecutor.numberOfRunningProcesses {G : Type} (s : TargetExecutor G) : Int :=
  (s.m_processes.length : Int) - (s.m_availableProcesses.length : Int)

/-- Function `TargetExecutor::finishBuild`. -/
def TargetExecutor.finishBuild {G : Type} (api : Collaborators G) (s : TargetExecutor G)
    (exitCode : Int) : TargetExecutor G :=
  let exitCode :=
    if exitCode = 0 && !s.m_allCommandsSuccessfullyExecuted
        && api.options.buildUnrelatedTargetsOnError then 1
    else exitCode
  { s with finishedSignals := s.finishedSignals ++ [exitCode] }

/-- The `catch` blocks of `startProcesses` and `buildNextTarget`. -/
def TargetExecutor.catchException {G : Type} (api : Collaborators G) (s : TargetExecutor G)
    (message : String) : TargetExecutor G :=
  TargetExecutor.finishBuild api
    { s with m_bAborted := true, stderr := s.stderr ++ [StderrLine.error message] } 1

/-- Function `TargetExecutor::findNextTarget`; the result is `Except.error` when
`findAvailableTarget` throws. `fuel` bounds the iterations of the `forever` loop. -/
def TargetExecutor.findNextTarget {G : Type} (api : Collaborators G) :
    Nat → TargetExecutor G → Option (Except String Unit × TargetExecutor G)
  | 0, _ => none
  | fuel + 1, s =>
    match api.findAvailableTarget api.options.buildAllTargets s.m_depgraph with
    | (Except.error e, d) => some (Except.error e, { s with m_depgraph := d })
    | (Except.ok next, d) =>
      let s1 := { s with m_nextTarget := next, m_depgraph := d }
      match next with
      | none => some (Except.ok (), s1)
      | some t =>
        if api.commandsIsEmpty t d then
          TargetExecutor.findNextTarget api fuel { s1 with m_depgraph := api.removeLeaf t d }
        else if api.options.buildUnrelatedTargetsOnError && api.isUnbuildable t d then
          TargetExecutor.findNextTarget api fuel
            { s1 with
              m_depgraph := api.removeLeaf t d
              stderr := s1.stderr ++ [StderrLine.cannotBeBuilt t] }
        else some (Except.ok (), s1)

/-- Function `TargetExecutor::buildNextTarget`. Undefined (`none`) when `m_nextTarget` is null
(the `Q_ASSERT`) or no process is available for `takeFirst`. -/
def TargetExecutor.buildNextTarget {G : Type} (api : Collaborators G) (s : TargetExecutor G) :
    Option (TargetExecutor G) :=
  match s.m_nextTarget with
  | none => none
  | some next =>
    if s.m_bAborted then some s
    else
      match s.m_availableProcesses with
      | [] => none
      | executor :: rest =>
        let s1 := { s with m_availableProcesses := rest }
        match api.start executor next s1.m_depgraph with
        | (Except.error e, d) =>
          some (TargetExecutor.catchException api { s1 with m_depgraph := d } e)
        | (Except.ok _, d) =>
          some { s1 with
            m_depgraph := d
            executors := Function.update s1.executors executor
              { s1.executors executor with m_pTarget := some next, m_active := true }
            m_nextTarget := none }

/-- The statement `if (!m_nextTarget) findNextTarget();` of `startProcesses`. -/
def TargetExecutor.ensureNextTarget {G : Type} (api : Collaborators G) (fuel : Nat)
    (s : TargetExecutor G) : Option (Except String Unit × TargetExecutor G) :=
  if s.m_nextTarget.isNone then TargetExecutor.findNextTarget api fuel s
  else some (Except.ok (), s)

/-- The branch `if (m_nextTarget) ... else ...` of `startProcesses`; `jc` is the job client.
The result is `Except.error` when `build` throws. -/
def TargetExecutor.dispatch {G : Type} (api : Collaborators G) (jc : JobClient)
    (s1 : TargetExecutor G) : Option (Except String Unit × TargetExecutor G) :=
  match s1.m_nextTarget with
  | some _ =>
    if s1.numberOfRunningProcesses = 0 then
      (TargetExecutor.buildNextTarget api s1).map (fun s2 => (Except.ok (), s2))
    else
      some (Except.ok (),
        { s1 with
          m_jobAcquisitionCount := s1.m_jobAcquisitionCount + 1
          m_jobClient := some jc.asyncAcquire })
  | none =>
    if s1.numberOfRunningProcesses = 0 then
      match s1.m_pendingTargets with
      | [] => some (Except.ok (), TargetExecutor.finishBuild api s1 0)
      | next :: rest =>
        match next with
        | none => none
        | some t =>
          match api.build t (api.invalidateTimeStamps (api.clear s1.m_depgraph)) with
          | (Except.error e, d) =>
            some (Except.error e, { s1 with m_pendingTargets := rest, m_depgraph := d })
          | (Except.ok _, d) =>
            some (Except.ok (), { s1 with m_pendingTargets := rest, m_depgraph := d })
    else some (Except.ok (), s1)

/-- Function `TargetExecutor::startProcesses`. Undefined (`none`) when `m_jobClient` is null
and dereferenced, when a null pending target is built, and where `buildNextTarget` is. -/
def TargetExecutor.startProcesses {G : Type} (api : Collaborators G) (fuel : Nat)
    (s : TargetExecutor G) : Option (TargetExecutor G) :=
  if s.m_bAborted then some s
  else
    match s.m_jobClient with
    | none => none
    | some jc =>
      if jc.isAcquiring || s.m_availableProcesses.isEmpty then some s
      else
        match TargetExecutor.ensureNextTarget api fuel s with
        | none => none
        | some (Except.error e, s1) => some (TargetExecutor.catchException api s1 e)
        | some (Except.ok _, s1) =>
          match TargetExecutor.dispatch api jc s1 with
          | none => none
          | some (Except.error e, s2) => some (TargetExecutor.catchException api s2 e)
          | some (Except.ok _, s2) => some s2

/-- The statement `if (m_jobAcquisitionCount > 0) { release(); m_jobAcquisitionCount--; }` of
`onChildFinished`. -/
def TargetExecutor.releaseToken {G : Type} (s : TargetExecutor G) :
    Option (TargetExecutor G) :=
  if s.m_jobAcquisitionCount > 0 then
    match s.m_jobClient with
    | none => none
    | some jc =>
      some { s with
        m_jobClient := some jc.release
        m_jobAcquisitionCount := s.m_jobAcquisitionCount - 1 }
  else some s

/-- Method `CommandExecutor::setBufferedOutput` on the executor at `e`. -/
def setBufferedOutput (executors : ExecId → CommandExecutor) (e : ExecId) (b : Bool) :
    ExecId → CommandExecutor :=
  Function.update executors e { executors e with m_bufferedOutput := b }

/-- The part of `onChildFinished` that hands the unbuffered output on when the finished
executor had it: every active executor of the pool is set to unbuffered; if none is active,
the first available one is. -/
def TargetExecutor.electStreaming {G : Type} (s : TargetExecutor G) (executor : ExecId) :
    Option (TargetExecutor G) :=
  if !(s.executors executor).m_bufferedOutput then
    let ex1 := setBufferedOutput s.executors executor true
    let active := s.m_processes.filter (fun c => (ex1 c).m_active)
    let ex2 := active.foldl (fun ex c => setBufferedOutput ex c false) ex1
    if active.isEmpty then
      match s.m_availableProcesses with
      | [] => none
      | first :: _ => some { s with executors := setBufferedOutput ex2 first false }
    else some { s with executors := ex2 }
  else some s

/-- Function `TargetExecutor::waitForJobClient`, called when the build is aborted: a pending
request is awaited (the slot `buildNextTarget` then returns at once, `m_bAborted` being set)
and the token is released. -/
def TargetExecutor.waitForJobClient {G : Type} (s : TargetExecutor G) :
    Option (TargetExecutor G) :=
  match s.m_jobClient with
  | none => none
  | some jc =>
    if !jc.isAcquiring then some s
    else some { s with m_jobClient := some jc.grant.release }

/-- Function `TargetExecutor::onChildFinished`. Undefined (`none`) when the executor has no
target (`Q_CHECK_PTR`) or a null pointer is dereferenced. `waitForProcesses` changes nothing
here: the processes it waits for report through further `onChildFinished` calls. -/
def TargetExecutor.onChildFinished {G : Type} (api : Collaborators G) (s : TargetExecutor G)
    (executor : ExecId) (commandFailed : Bool) : Option (TargetExecutor G) :=
  match (s.executors executor).m_pTarget with
  | none => none
  | some target =>
    let keepGoing := api.options.buildUnrelatedTargetsOnError
    let s1 :=
      if commandFailed then
        if keepGoing then
          { s with
            m_allCommandsSuccessfullyExecuted := false
            m_depgraph := api.markParentsRecursivlyUnbuildable target s.m_depgraph
            stderr := s.stderr ++ [StderrLine.continuing] }
        else { s with m_allCommandsSuccessfullyExecuted := false }
      else s
    let s2 :=
      { s1 with m_depgraph := api.removeLeaf target (api.clearCacheForFile target s1.m_depgraph) }
    match s2.releaseToken with
    | none => none
    | some s3 =>
      let s4 := { s3 with m_availableProcesses := s3.m_availableProcesses ++ [executor] }
      match s4.electStreaming executor with
      | none => none
      | some s5 =>
        if commandFailed && !keepGoing then
          let s6 :=
            { s5 with
              m_bAborted := true
              m_depgraph := api.clear s5.m_depgraph
              m_pendingTargets := [] }
          match s6.waitForJobClient with
          | none => none
          | some s7 => some (TargetExecutor.finishBuild api s7 2)
        else some s5

/-- The part of `apply` that picks the first goal and queues the others. -/
def TargetExecutor.selectGoals {G : Type} (api : Collaborators G) (s : TargetExecutor G)
    (targets : List QString) : Except String TargetId × TargetExecutor G :=
  match targets with
  | [] =>
    if api.targetsIsEmpty then (Except.error "no targets in makefile", s)
    else (Except.ok api.firstTarget, s)
  | targetName :: others =>
    match api.target targetName with
    | none =>
      (Except.error ("Target " ++ targetName ++ " does not exist in " ++ api.fileName ++ "."), s)
    | some descblock =>
      (Except.ok descblock,
        { s with m_pendingTargets := s.m_pendingTargets ++ others.map api.target })

/-- Function `TargetExecutor::apply`; an exception that leaves `apply` is returned as
`Except.error` together with the state reached. -/
def TargetExecutor.apply {G : Type} (api : Collaborators G) (s : TargetExecutor G)
    (targets : List QString) : Except String Unit × TargetExecutor G :=
  let s1 :=
    { s with
      m_bAborted := false
      m_allCommandsSuccessfullyExecuted := true
      m_jobAcquisitionCount := 0
      m_nextTarget := none }
  let started : Except String Unit × TargetExecutor G :=
    match s1.m_jobClient with
    | some _ => (Except.ok (), s1)
    | none =>
      if api.jobClientStart then (Except.ok (), { s1 with m_jobClient := some ⟨false, 0⟩ })
      else
        (Except.error ("Can't connect to job server: " ++ api.jobClientErrorString),
          { s1 with m_jobClient := some ⟨false, 0⟩ })
  match started with
  | (Except.error e, s2) => (Except.error e, s2)
  | (Except.ok _, s2) =>
    match TargetExecutor.selectGoals api s2 targets with
    | (Except.error e, s3) => (Except.error e, s3)
    | (Except.ok descblock, s3) =>
      match api.build descblock s3.m_depgraph with
      | (Except.error e, d) => (Except.error e, { s3 with m_depgraph := d })
      | (Except.ok _, d) =>
        if api.options.dumpDependencyGraph then
          (Except.ok (), TargetExecutor.finishBuild api { s3 with m_depgraph := api.dump d } 0)
        else (Except.ok (), { s3 with m_depgraph := d })

/-- The events of the event loop that drive the scheduler: a posted `startProcesses`, the
signal `acquired` of the job client (connected to `buildNextTarget`), and the signal
`finished(executor, commandFailed)` of a running executor. -/
inductive Event where
  | startProcesses
  | acquired
  | childFinished (executor : ExecId) (commandFailed : Bool)
  deriving DecidableEq, Repr

/-- The scheduler handles one event. `acquired` can occur while a request is pending;
`childFinished` comes from an executor of the pool that is not available, which is no longer
active when it reports. -/
def TargetExecutor.step {G : Type} (api : Collaborators G) (fuel : Nat) :
    Event → TargetExecutor G → Option (TargetExecutor G)
  | Event.startProcesses, s => s.startProcesses api fuel
  | Event.acquired, s =>
    match s.m_jobClient with
    | none => none
    | some jc =>
      if jc.isAcquiring then
        TargetExecutor.buildNextTarget api { s with m_jobClient := some jc.grant }
      else none
  | Event.childFinished executor commandFailed, s =>
    if executor ∈ s.m_processes ∧ executor ∉ s.m_availableProcesses then
      TargetExecutor.onChildFinished api
        { s with
          executors := Function.update s.executors executor
            { s.executors executor with m_active := false } }
        executor commandFailed
    else none

/-- The scheduler handles a list of events, one after the other. -/
def TargetExecutor.run {G : Type} (api : Collaborators G) (fuel : Nat) :
    List Event → TargetExecutor G → Option (TargetExecutor G)
  | [], s => some s
  | ev :: rest, s =>
    match TargetExecutor.step api fuel ev s with
    | none => none
    | some s1 => TargetExecutor.run api fuel rest s1

/-- The scheduler states reachable from `apply` on a newly constructed `TargetExecutor`
through the events of the event loop. -/
inductive SchedReach {G : Type} (api : Collaborators G) : TargetExecutor G → Prop where
  | applied (depgraph : G) (targets : List QString) (s : TargetExecutor G) :
      TargetExecutor.apply api
        (TargetExecutor.construct api.options.maxNumberOfJobs depgraph) targets =
          (Except.ok (), s) →
      SchedReach api s
  | step {s s1 : TargetExecutor G} (fuel : Nat) (ev : Event) :
      SchedReach api s → TargetExecutor.step api fuel ev s = some s1 → SchedReach api s1

/-- Whether the job client has a token request pending. -/
def TargetExecutor.isAcquiring {G : Type} (s : TargetExecutor G) : Bool :=
  match s.m_jobClient with
  | none => false
  | some jc => jc.isAcquiring

/-! ## The token accounting of the scheduler -/

/-- The part of the scheduler state that the token accounting depends on. -/
structure TokenView where
  processes : List ExecId
  available : List ExecId
  count : Int
  aborted : Bool
  acquiring : Bool
  deriving DecidableEq, Repr

/-- The token view of a scheduler state. -/
def TargetExecutor.tokenView {G : Type} (s : TargetExecutor G) : TokenView where
  processes := s.m_processes
  available := s.m_availableProcesses
  count := s.m_jobAcquisitionCount
  aborted := s.m_bAborted
  acquiring := s.isAcquiring

/-- The number of running processes of a token view. -/
def TokenView.running (v : TokenView) : Int :=
  (v.processes.length : Int) - (v.available.length : Int)

/-- What one event can do to the token view. -/
inductive TokenStep : TokenView → TokenView → Prop where
  | stay (v : TokenView) : TokenStep v v
  | caught (v : TokenView) : v.aborted = false → v.acquiring = false →
      TokenStep v { v with aborted := true }
  | freeStart (v : TokenView) (e : ExecId) (rest : List ExecId) (ab : Bool) :
      v.aborted = false → v.acquiring = false → v.available = e :: rest → v.running = 0 →
      TokenStep v { v with available := rest, aborted := ab }
  | request (v : TokenView) : v.aborted = false → v.acquiring = false → v.running ≠ 0 →
      TokenStep v { v with count := v.count + 1, acquiring := true }
  | grantedAborted (v : TokenView) : v.acquiring = true → v.aborted = true →
      TokenStep v { v with acquiring := false }
  | grantedStart (v : TokenView) (e : ExecId) (rest : List ExecId) (ab : Bool) :
      v.acquiring = true → v.aborted = false → v.available = e :: rest →
      TokenStep v { v with acquiring := false, available := rest, aborted := ab }
  | finish (v : TokenView) (e : ExecId) (abort : Bool) :
      e ∈ v.processes → e ∉ v.available →
      TokenStep v
        { v with
          available := v.available ++ [e]
          count := if v.count > 0 then v.count - 1 else v.count
          aborted := v.aborted || abort
          acquiring := v.acquiring && !abort }

/-- The invariant of the token accounting. While the build is not aborted, the count is the
number of running processes when a token request is pending, and that number less one (or 0)
otherwise; after an abort no request is pending and the count is one of the two. -/
structure TokenInv (v : TokenView) : Prop where
  availNodup : v.available.Nodup
  availSub : ∀ x ∈ v.available, x ∈ v.processes
  live : v.aborted = false →
    (v.acquiring = true → v.count = v.running) ∧
    (v.acquiring = false → v.count = max 0 (v.running - 1))
  dead : v.aborted = true →
    v.acquiring = false ∧ 0 ≤ v.count ∧ v.running - 1 ≤ v.count ∧ v.count ≤ v.running

/-- Collaborators over a trivial state: the goal `0` exists, `findAvailableTarget` answers
`find`, every target has commands, nothing else throws. -/
def simpleApi (opts : Options) (find : Except String (Option TargetId)) :
    Collaborators Unit where
  options := opts
  targetsIsEmpty := false
  firstTarget := 0
  target := fun n => if n = "all" then some 0 else none
  fileName := "Makefile"
  jobClientStart := true
  jobClientErrorString := ""
  build := fun _ d => (Except.ok (), d)
  clear := fun d => d
  dump := fun d => d
  findAvailableTarget := fun _ d => (find, d)
  removeLeaf := fun _ d => d
  isUnbuildable := fun _ _ => false
  markParentsRecursivlyUnbuildable := fun _ d => d
  commandsIsEmpty := fun _ _ => false
  invalidateTimeStamps := fun d => d
  clearCacheForFile := fun _ d => d
  start := fun _ _ d => (Except.ok (), d)

/-- Two jobs, fail-fast. -/
def twoJobs : Options := ⟨2, false, false, false, false⟩

/-- Collaborators whose graph always has the target `0` ready to build. -/
def busyApi : Collaborators Unit := simpleApi twoJobs (Except.ok (some 0))

/-- Collaborators whose `findAvailableTarget` throws. -/
def throwingApi : Collaborators Unit := simpleApi twoJobs (Except.error "boom")

/-- The state after `apply` on a new `TargetExecutor` with the given collaborators. -/
def appliedState (api : Collaborators Unit) : TargetExecutor Unit :=
  (TargetExecutor.apply api (TargetExecutor.construct api.options.maxNumberOfJobs ()) []).2

/-- What is observed of a scheduler state in the examples: the job acquisition count, the
number of running processes, the pending request, the abort flag, the success flag, the
emitted exit codes. -/
def TargetExecutor.observe {G : Type} (s : TargetExecutor G) :
    Int × Int × Bool × Bool × Bool × List Int :=
  (s.m_jobAcquisitionCount, s.numberOfRunningProcesses, s.isAcquiring, s.m_bAborted,
    s.m_allCommandsSuccessfullyExecuted, s.finishedSignals)

/-- The state reached with `busyApi` after `apply` and two scheduler ticks: the first starts a
process on the free slot, the second requests a token for the next target. -/
def requestedState : TargetExecutor Unit :=
  (TargetExecutor.run busyApi 1 [Event.startProcesses, Event.startProcesses]
    (appliedState busyApi)).getD (appliedState busyApi)

/-- The state reached with `throwingApi` after `apply` and one scheduler tick, in which
`findAvailableTarget` throws. -/
def thrownState : TargetExecutor Unit :=
  (TargetExecutor.run throwingApi 1 [Event.startProcesses]
    (appliedState throwingApi)).getD (appliedState throwingApi)

/-! ## The exit codes of the scheduler -/

/-- Whether a line on `stderr` is the `Error: ...` line of a `catch` block. -/
def StderrLine.isError : StderrLine → Bool
  | StderrLine.error _ => true
  | _ => false

/-- The number of `Error: ...` lines written so far, one per exception caught. -/
def TargetExecutor.errorLines {G : Type} (s : TargetExecutor G) : Nat :=
  (s.stderr.filter StderrLine.isError).length

/-- The part of the scheduler state that the exit codes depend on. -/
structure SignalView where
  signals : List Int
  errors : Nat
  allOk : Bool
  deriving DecidableEq, Repr

/-- The signal view of a scheduler state. -/
def TargetExecutor.signalView {G : Type} (s : TargetExecutor G) : SignalView where
  signals := s.finishedSignals
  errors := s.errorLines
  allOk := s.m_allCommandsSuccessfullyExecuted

/-- The signal view after a `catch` block: `finished(1)` and one more `Error:` line. -/
def SignalView.caught (v : SignalView) : SignalView :=
  { v with signals := v.signals ++ [1], errors := v.errors + 1 }

/-- The signal view after `finishBuild(0)`. -/
def SignalView.finished (keepGoing : Bool) (v : SignalView) : SignalView :=
  { v with signals := v.signals ++ [if !v.allOk && keepGoing then 1 else 0] }

/-- The signal view after `onChildFinished(executor, commandFailed)`. -/
def SignalView.childFinished (keepGoing commandFailed : Bool) (v : SignalView) : SignalView :=
  { v with
    signals := v.signals ++ (if commandFailed && !keepGoing then [2] else [])
    allOk := v.allOk && !commandFailed }

/-- The event is a fail-fast abort: a command failed with keep-going off. -/
def FailFastAbort {G : Type} (api : Collaborators G) (ev : Event) : Prop :=
  ∃ e, ev = Event.childFinished e true ∧ api.options.buildUnrelatedTargetsOnError = false

/-- At least one command failed during the events. -/
def CommandFailedIn (evs : List Event) : Prop :=
  ∃ e, Event.childFinished e true ∈ evs

/-- An exception was caught by `startProcesses` or `buildNextTarget` between the two states. -/
def ExceptionCaught {G : Type} (s s1 : TargetExecutor G) : Prop :=
  s1.errorLines = s.errorLines + 1

/-- The event finds the build complete: it is a `startProcesses` that is not held back (the
build is not aborted, no token request is pending, an executor is free) and that finds no
next target, no running process and no pending target. -/
def BuildComplete {G : Type} (api : Collaborators G) (fuel : Nat) (ev : Event)
    (s : TargetExecutor G) : Prop :=
  ev = Event.startProcesses ∧ s.m_bAborted = false ∧
    (∃ jc, s.m_jobClient = some jc ∧ jc.isAcquiring = false) ∧ s.m_availableProcesses ≠ [] ∧
    ∃ s0, TargetExecutor.ensureNextTarget api fuel s = some (Except.ok (), s0) ∧
      s0.m_nextTarget = none ∧ s0.numberOfRunningProcesses = 0 ∧ s0.m_pendingTargets = []

/-! ## The streaming executor -/

/-- Three jobs, fail-fast. -/
def threeJobs : Options := ⟨3, false, false, false, false⟩

/-- Collaborators over a counter: `findAvailableTarget` hands out the targets 0, 1, 2, ... one
after the other, every target has commands, nothing throws. -/
def countingApi (opts : Options) : Collaborators Nat where
  options := opts
  targetsIsEmpty := false
  firstTarget := 0
  target := fun n => if n = "all" then some 0 else none
  fileName := "Makefile"
  jobClientStart := true
  jobClientErrorString := ""
  build := fun _ d => (Except.ok (), d)
  clear := fun d => d
  dump := fun d => d
  findAvailableTarget := fun _ d => (Except.ok (some d), d + 1)
  removeLeaf := fun _ d => d
  isUnbuildable := fun _ _ => false
  markParentsRecursivlyUnbuildable := fun _ d => d
  commandsIsEmpty := fun _ _ => false
  invalidateTimeStamps := fun d => d
  clearCacheForFile := fun _ d => d
  start := fun _ _ d => (Except.ok (), d)

/-- The executors of the pool whose output is not buffered. -/
def TargetExecutor.streaming {G : Type} (s : TargetExecutor G) : List ExecId :=
  s.m_processes.filter (fun e => !(s.executors e).m_bufferedOutput)

/-- The executors of the pool that are active. -/
def TargetExecutor.active {G : Type} (s : TargetExecutor G) : List ExecId :=
  s.m_processes.filter (fun e => (s.executors e).m_active)

/-- The state after `apply` with three jobs and the default goal. -/
def threeApplied : TargetExecutor Nat :=
  (TargetExecutor.apply (countingApi threeJobs) (TargetExecutor.construct 3 0) []).2

/-- Three jobs, all three executors running: the first was started on the free slot, the
other two after a token was acquired for each. -/
def threeRunning : TargetExecutor Nat :=
  (TargetExecutor.run (countingApi threeJobs) 1
    [Event.startProcesses, Event.startProcesses, Event.acquired, Event.startProcesses,
      Event.acquired] threeApplied).getD threeApplied

/-- The state after executor 0, the one with unbuffered output, has finished its target
successfully while executors 1 and 2 are still running. -/
def streamerFinished : TargetExecutor Nat :=
  (TargetExecutor.step (countingApi threeJobs) 1 (Event.childFinished 0 false)
    threeRunning).getD threeRunning

/-! ## Goals of `apply` -/

/-- Collaborators whose graph state is the log of the targets passed to `build`: the makefile
has the targets `all` (0) and `tests` (1), `findAvailableTarget` finds nothing to do. -/
def loggingApi : Collaborators (List TargetId) where
  options := twoJobs
  targetsIsEmpty := false
  firstTarget := 0
  target := fun n => if n = "all" then some 0 else if n = "tests" then some 1 else none
  fileName := "Makefile"
  jobClientStart := true
  jobClientErrorString := ""
  build := fun t d => (Except.ok (), d ++ [t])
  clear := fun d => d
  dump := fun d => d
  findAvailableTarget := fun _ d => (Except.ok none, d)
  removeLeaf := fun _ d => d
  isUnbuildable := fun _ _ => false
  markParentsRecursivlyUnbuildable := fun _ d => d
  commandsIsEmpty := fun _ _ => false
  invalidateTimeStamps := fun d => d
  clearCacheForFile := fun _ d => d
  start := fun _ _ d => (Except.ok (), d)

/-- The state after `apply(makefile, ["all", "nosuch"])` on a new `TargetExecutor`. -/
def unknownLaterGoal : TargetExecutor (List TargetId) :=
  (TargetExecutor.apply loggingApi (TargetExecutor.construct 2 []) ["all", "nosuch"]).2

/-! ## The aborted scheduler -/

/-- The state reached with `busyApi` when the running command fails while a token request is
pending: the build is aborted fail-fast and `m_nextTarget` still holds the target that was to
be built next. -/
def abortedState : TargetExecutor Unit :=
  (TargetExecutor.run busyApi 1
    [Event.startProcesses, Event.startProcesses, Event.childFinished 0 true]
    (appliedState busyApi)).getD (appliedState busyApi)

/-! ## What `findNextTarget` skips -/

/-- The test by which `findNextTarget` skips a target it was handed: its command list is
empty, or keep-going is on and the target is marked unbuildable. -/
def Collaborators.skips {G : Type} (api : Collaborators G) (t : TargetId) (d : G) : Bool :=
  api.commandsIsEmpty t d ||
    (api.options.buildUnrelatedTargetsOnError && api.isUnbuildable t d)

/-- The graph after the targets of the list were, one after the other, handed out by
`findAvailableTarget`, met the test for skipping, and were removed with `removeLeaf`; `none`
when the list is not what `findAvailableTarget` hands out or one of its targets does not meet
the test. -/
def Collaborators.skipAll {G : Type} (api : Collaborators G) : List TargetId → G → Option G
  | [], d => some d
  | t :: rest, d =>
    match api.findAvailableTarget api.options.buildAllTargets d with
    | (Except.ok (some t1), d1) =>
      if t1 = t ∧ api.skips t d1 = true then api.skipAll rest (api.removeLeaf t d1) else none
    | _ => none

/-- Two jobs, keep-going. -/
def keepGoingJobs : Options := ⟨2, false, true, false, false⟩

/-- Collaborators over a queue of leaves: `findAvailableTarget` hands out the head of the
queue, `removeLeaf` takes a target out of it; targets with an even number have no commands,
target 7 is marked unbuildable. -/
def queueApi : Collaborators (List TargetId) where
  options := keepGoingJobs
  targetsIsEmpty := false
  firstTarget := 0
  target := fun n => if n = "all" then some 0 else none
  fileName := "Makefile"
  jobClientStart := true
  jobClientErrorString := ""
  build := fun _ d => (Except.ok (), d)
  clear := fun _ => []
  dump := fun d => d
  findAvailableTarget := fun _ d => (Except.ok d.head?, d)
  removeLeaf := fun t d => d.erase t
  isUnbuildable := fun t _ => t == 7
  markParentsRecursivlyUnbuildable := fun _ d => d
  commandsIsEmpty := fun t _ => t % 2 == 0
  invalidateTimeStamps := fun d => d
  clearCacheForFile := fun _ d => d
  start := fun _ _ d => (Except.ok (), d)

/-- A scheduler whose graph has the leaves 0, 7 and 5 ready, in this order. -/
def queueState : TargetExecutor (List TargetId) := TargetExecutor.construct 2 [0, 7, 5]

/-- The state in which `findNextTarget` leaves `queueState`. -/
def queueStateNext : TargetExecutor (List TargetId) :=
  ((TargetExecutor.findNextTarget queueApi 5 queueState).map Prod.snd).getD queueState

/-! ## `isSubJOM` (application.cpp) -/

/-- The Windows type `DWORD`; process ids are only compared, never computed with. -/
abbrev DWORD := Nat

/-- The fields of `PROCESSENTRY32` that `isSubJOM` reads. -/
structure PROCESSENTRY32 where
  th32ProcessID : DWORD
  th32ParentProcessID : DWORD
  szExeFile : QString
  deriving DecidableEq, Repr

/-- Method `QHash::find` on the `QHash<DWORD, PROCESSENTRY32>`; `none` is `end()`. -/
def processFind : List (DWORD × PROCESSENTRY32) → DWORD → Option PROCESSENTRY32
  | [], _ => none
  | (k, v) :: rest, pid => if k = pid then some v else processFind rest pid

/-- Method `QHash::erase` of the entry with key `pid`. -/
def processErase (h : List (DWORD × PROCESSENTRY32)) (pid : DWORD) :
    List (DWORD × PROCESSENTRY32) :=
  h.filter (fun e => decide (e.1 ≠ pid))

/-- Method `QHash::insert`: replaces the entry of the key. -/
def processInsert (h : List (DWORD × PROCESSENTRY32)) (pid : DWORD) (pe : PROCESSENTRY32) :
    List (DWORD × PROCESSENTRY32) :=
  processErase h pid ++ [(pid, pe)]

/-- The loop `do { processEntries.insert(pe.th32ProcessID, pe); } while (Process32Next(...))`
over the entries that the snapshot enumerates. -/
def processTable (entries : List PROCESSENTRY32) : List (DWORD × PROCESSENTRY32) :=
  entries.foldl (fun h pe => processInsert h pe.th32ProcessID pe) []

/-- The loop `while (dwProcessId)` of `isSubJOM`; `fuel` bounds the number of iterations. -/
def ancestorLoop (processExeName : QString) (dwCurrentProcessId : DWORD) :
    Nat → List (DWORD × PROCESSENTRY32) → DWORD → Option Bool
  | 0, _, _ => none
  | fuel + 1, processEntries, dwProcessId =>
    if dwProcessId = 0 then some false
    else
      match processFind processEntries dwProcessId with
      | none => some false
      | some pe =>
        if pe.th32ProcessID ≠ dwCurrentProcessId ∧ pe.szExeFile = processExeName then some true
        else
          ancestorLoop processExeName dwCurrentProcessId fuel
            (processErase processEntries dwProcessId) pe.th32ParentProcessID

/-- Function `isSubJOM`. The snapshot is `none` when `CreateToolhelp32Snapshot` returns
`INVALID_HANDLE_VALUE`, else the entries that `Process32First` and `Process32Next` enumerate
(none when `Process32First` fails); `dwCurrentProcessId` is what `GetCurrentProcessId`
returns. -/
def isSubJOM (fuel : Nat) (snapshot : Option (List PROCESSENTRY32))
    (dwCurrentProcessId : DWORD) (processExeName : QString) : Option Bool :=
  match snapshot with
  | none => some false
  | some entries =>
    ancestorLoop processExeName dwCurrentProcessId fuel (processTable entries)
      dwCurrentProcessId

/-- The parent link of the process table: `a` is not 0, has an entry, and `b` is the parent
process id of that entry. -/
def ParentLink (h : List (DWORD × PROCESSENTRY32)) (a b : DWORD) : Prop :=
  a ≠ 0 ∧ ∃ pe, processFind h a = some pe ∧ pe.th32ParentProcessID = b

/-- Process `p`, with the entry `pe`, is reached from `pid` by following parent links through
entries of the table, stopping at process id 0 or at an id without entry. -/
def ReachedProcess (h : List (DWORD × PROCESSENTRY32)) (pid p : DWORD)
    (pe : PROCESSENTRY32) : Prop :=
  Relation.ReflTransGen (ParentLink h) pid p ∧ p ≠ 0 ∧ processFind h p = some pe

/-- Every entry of the table is stored under its own process id. -/
def KeyIsPid (h : List (DWORD × PROCESSENTRY32)) : Prop :=
  ∀ e ∈ h, e.2.th32ProcessID = e.1

/-- A snapshot: `jom.exe` (30) started by `cmd.exe` (20), started by `jom.exe` (10), started
by `explorer.exe` (4), whose parent 2 has exited; process 99 is another `jom.exe`. -/
def nestedSnapshot : List PROCESSENTRY32 :=
  [⟨4, 2, "explorer.exe"⟩, ⟨10, 4, "jom.exe"⟩, ⟨20, 10, "cmd.exe"⟩, ⟨30, 20, "jom.exe"⟩,
    ⟨99, 4, "jom.exe"⟩]

/-- The process ids whose entries the loop `while (dwProcessId)` of `isSubJOM` looks up and
finds, in the order of the walk: the same loop as `ancestorLoop`, recording its visits. -/
def ancestorVisits (processExeName : QString) (dwCurrentProcessId : DWORD) :
    Nat → List (DWORD × PROCESSENTRY32) → DWORD → Option (List DWORD)
  | 0, _, _ => none
  | fuel + 1, processEntries, dwProcessId =>
    if dwProcessId = 0 then some []
    else
      match processFind processEntries dwProcessId with
      | none => some []
      | some pe =>
        if pe.th32ProcessID ≠ dwCurrentProcessId ∧ pe.szExeFile = processExeName then
          some [dwProcessId]
        else
          (ancestorVisits processExeName dwCurrentProcessId fuel
            (processErase processEntries dwProcessId) pe.th32ParentProcessID).map
              (fun l => dwProcessId :: l)

/-- A snapshot with a cycle of parent links (process ids reused): 1 and 2 are each the parent
of the other, and 3 is its own parent. -/
def cyclicSnapshot : List PROCESSENTRY32 :=
  [⟨1, 2, "jom.exe"⟩, ⟨2, 1, "cmd.exe"⟩, ⟨3, 3, "jom.exe"⟩]

/-! ## The pending token request -/

/-- While a token request is pending, the target to build next and a free executor are
there. -/
def AcquiringInv {G : Type} (s : TargetExecutor G) : Prop :=
  s.isAcquiring = true → s.m_nextTarget.isSome = true ∧ s.m_availableProcesses ≠ []

/-! ## The search for an available target, leaf by leaf -/

/-- The children relation of the graph is acyclic, witnessed by `rank`: every child of a live
node has a smaller rank than the node. -/
def NodeRankedBy (g : DependencyGraph) (rank : NodeId → Nat) : Prop :=
  ∀ id nd, g.heap id = some nd → ∀ c ∈ nd.children, rank c < rank id

/-- The two graphs have the same live nodes with the same targets and edges; the states of the
nodes may differ. -/
def SameShape (g g1 : DependencyGraph) : Prop :=
  ∀ id, (g1.heap id).map Node.edges = (g.heap id).map Node.edges

/-- The leaves under a node in depth-first, first-child order: the node itself when it has no
children, else the leaves under its first child, then those under its second child, and so
on. A leaf that is reached through several parents is listed once for each. `fuel` bounds
the depth. -/
def leavesUnder (g : DependencyGraph) : Nat → NodeId → List NodeId
  | 0, _ => []
  | fuel + 1, node =>
    match g.heap node with
    | none => []
    | some nd =>
      if nd.children.isEmpty then [node] else nd.children.flatMap (leavesUnder g fuel)

/-- What `findAvailableTarget(Node*)` does at a leaf `node` that holds `nd`: an executing leaf
is passed over; an up-to-date leaf is marked UpToDate and listed for removal, unless it is
marked already, and passed over; any other leaf is marked Executing and its target
returned. -/
def visitLeaf (w : World) (mk : Makefile) (g : DependencyGraph) (node : NodeId) (nd : Node) :
    Option TargetId × Makefile × DependencyGraph :=
  if nd.state = NodeState.ExecutingState then (none, mk, g)
  else
    let r := isTargetUpToDate w (mk.blocks nd.target)
    let mk1 := mk.setBlock nd.target r.2
    if r.1 then
      if nd.state ≠ NodeState.UpToDateState then
        (none, mk1,
          { g.setNode node { nd with state := NodeState.UpToDateState } with
            m_nodesToRemove := g.m_nodesToRemove ++ [node] })
      else (none, mk1, g)
    else (some nd.target, mk1, g.setNode node { nd with state := NodeState.ExecutingState })

/-- The leaves of the list are visited one after the other until one of them is returned. -/
def visitLeaves (w : World) :
    List NodeId → Makefile → DependencyGraph →
      Option (Option TargetId × Makefile × DependencyGraph)
  | [], mk, g => some (none, mk, g)
  | leaf :: rest, mk, g =>
    match g.heap leaf with
    | none => none
    | some nd =>
      match visitLeaf w mk g leaf nd with
      | (some t, mk1, g1) => some (some t, mk1, g1)
      | (none, mk1, g1) => visitLeaves w rest mk1 g1

/-- The leaf is passed over by the search: it is Executing, or it is up to date. -/
def LeafSkipped (w : World) (mk : Makefile) (g : DependencyGraph) (id : NodeId) : Prop :=
  ∃ nd, g.heap id = some nd ∧
    (nd.state = NodeState.ExecutingState ∨ (isTargetUpToDate w (mk.blocks nd.target)).1 = true)

/-- The node is marked UpToDate and its target is up to date: the search passes it over
without changing it. -/
def LeafSettled (w : World) (mk : Makefile) (g : DependencyGraph) (id : NodeId) : Prop :=
  ∃ nd, g.heap id = some nd ∧ nd.state = NodeState.UpToDateState ∧
    (isTargetUpToDate w (mk.blocks nd.target)).1 = true

/-- The node is live and its state is Executing. -/
def IsExecuting (g : DependencyGraph) (id : NodeId) : Prop :=
  ∃ nd, g.heap id = some nd ∧ nd.state = NodeState.ExecutingState

/-- The rank of a node: the rank of its target, 0 for an address that is not live. -/
def nodeRank (g : DependencyGraph) (rank : TargetId → Nat) (id : NodeId) : Nat :=
  match g.heap id with
  | some nd => rank nd.target
  | none => 0

/-! ## A search pass over the diamond -/

/-- A node with the nodes of `l` taken out of its edge lists. -/
def pruneNode (l : List NodeId) (nd : Node) : Node :=
  { nd with
    children := nd.children.filter (fun c => decide (c ∉ l))
    parents := nd.parents.filter (fun p => decide (p ∉ l)) }

/-- The number of nodes of the graph: the size of the node container. -/
def DependencyGraph.size (g : DependencyGraph) : Nat := g.m_nodeContainer.length

/-- The root pointer, when it is not null, points to a live node. -/
def RootLive (g : DependencyGraph) : Prop :=
  ∀ r, g.m_root = some r → ∃ nd, g.heap r = some nd

/-- The makefile with the one target `A`, which has a command and no dependents. -/
def singleMakefile : Makefile where
  blocks := fun _ => mkBlock "A" [] ["touch A"]
  target := fun n => if n = "A" then some 0 else none

/-- The graph built from `singleMakefile` with root `A`: one node. -/
def singleGraph : DependencyGraph :=
  (DependencyGraph.build singleMakefile 1 (DependencyGraph.init 0) 0).getD
    (DependencyGraph.init 0)

/-! ## Graphs whose targets are all up to date -/

/-- Node `b` is reached from node `a` through children edges. -/
def NodeReach (g : DependencyGraph) (a b : NodeId) : Prop :=
  Relation.ReflTransGen (fun x y => ∃ nd, g.heap x = some nd ∧ y ∈ nd.children) a b

/-- Every live node is reached from the root; when the root is null there is no live node. -/
def Rooted (g : DependencyGraph) : Prop :=
  (∀ r, g.m_root = some r → ∀ id nd, g.heap id = some nd → NodeReach g r id) ∧
  (g.m_root = none → ∀ id, g.heap id = none)

/-- The target of every node of the graph is up to date under the file probe. -/
def AllUpToDate (w : World) (mk : Makefile) (g : DependencyGraph) : Prop :=
  ∀ id nd, g.heap id = some nd → (isTargetUpToDate w (mk.blocks nd.target)).1 = true

/-- The invariant of the search passes over a graph in which every target is up to date and
no node is Executing: the nodes marked UpToDate are the leaves listed for removal. -/
structure UpToDateInv (w : World) (rank : NodeId → Nat) (mk : Makefile)
    (g : DependencyGraph) : Prop where
  inv : SearchInv w mk g
  ranked : NodeRankedBy g rank
  rootLive : RootLive g
  rooted : Rooted g
  noLeaves : g.m_leaves = []
  noExec : ∀ id, ¬ IsExecuting g id
  upToDate : AllUpToDate w mk g
  listed : ∀ id nd, g.heap id = some nd → nd.state = NodeState.UpToDateState →
    id ∈ g.m_nodesToRemove
  listLeaves : ∀ id ∈ g.m_nodesToRemove, ∀ nd, g.heap id = some nd → nd.children = []

/-! ## The scheduler on top of the dependency graph -/

/-- The `findAvailableTarget` of the collaborators is the `findAvailableTarget()` of the
dependency graph, run on the makefile and the graph that the scheduler holds. -/
def SearchesGraph (w : World) (applyInferenceRules : List TargetId → Makefile → Makefile)
    (fuel : Nat) (api : Collaborators (Makefile × DependencyGraph)) : Prop :=
  ∀ (b : Bool) (mk : Makefile) (g : DependencyGraph) (r : Option TargetId) (mk1 : Makefile)
    (g1 : DependencyGraph),
    g.findAvailableTarget w applyInferenceRules fuel mk = some (r, mk1, g1) →
    api.findAvailableTarget b (mk, g) = (Except.ok r, (mk1, g1))

/-- Collaborators whose graph is the `DependencyGraph` of dependencygraph.cpp: `build`,
`clear`, `findAvailableTarget` and `remove` act on the pair of makefile and graph. A call that
does not return within `fuel` is reported as an exception. -/
def graphApi (w : World) (applyInferenceRules : List TargetId → Makefile → Makefile)
    (fuel : Nat) (opts : Options) (mk0 : Makefile) :
    Collaborators (Makefile × DependencyGraph) where
  options := opts
  targetsIsEmpty := false
  firstTarget := 0
  target := mk0.target
  fileName := "Makefile"
  jobClientStart := true
  jobClientErrorString := ""
  build := fun t d =>
    match d.2.build d.1 fuel t with
    | some g1 => (Except.ok (), (d.1, g1))
    | none => (Except.error "build does not return", d)
  clear := fun d => (d.1, d.2.clear)
  dump := fun d => d
  findAvailableTarget := fun _ d =>
    match d.2.findAvailableTarget w applyInferenceRules fuel d.1 with
    | some (r, mk1, g1) => (Except.ok r, (mk1, g1))
    | none => (Except.error "findAvailableTarget does not return", d)
  removeLeaf := fun t d => (d.1, (d.2.remove t).getD d.2)
  isUnbuildable := fun _ _ => false
  markParentsRecursivlyUnbuildable := fun _ d => d
  commandsIsEmpty := fun t d => (d.1.blocks t).m_commands.isEmpty
  invalidateTimeStamps := fun d => d
  clearCacheForFile := fun _ d => d
  start := fun _ _ d => (Except.ok (), d)

/-- A world in which every file exists, with the time stamp 5. -/
def settledWorld : World where
  fileInfo := fun _ => ⟨true, some 5⟩
  currentDateTime := 1000

/-- The scheduler on the diamond makefile in `settledWorld`, after `apply` with the default
goal `A`. -/
def settledApplied : TargetExecutor (Makefile × DependencyGraph) :=
  (TargetExecutor.apply (graphApi settledWorld noRules 6 twoJobs diamondMakefile)
    (TargetExecutor.construct 2 (diamondMakefile, DependencyGraph.init 0)) []).2

/-! ## `DependencyGraph::dotDump` -/

/-- The `foreach` loop over the children in `internalDotDump`; `recurse` is the recursive call
on a child. The result is the list of the lines printed, in order. -/
def internalDotDumpLoop (recurse : NodeId → Option (List QString)) :
    List NodeId → Option (List QString)
  | [] => some []
  | child :: rest =>
    match recurse child with
    | none => none
    | some lines => (internalDotDumpLoop recurse rest).map (fun more => lines ++ more)

/-- Method `QString::toAscii` where no codec for C strings is set: the Latin-1 conversion,
which keeps a character up to U+00FF and puts `?` for any other. -/
def toAscii (s : QString) : List Char :=
  s.toList.map (fun c => if c.toNat < 256 then c else '?')

/-- The characters that `printf` writes for a format when no further argument is passed. The
format ends at the first NUL; `%%` writes `%`; any other conversion specification reads an
argument that was not passed, which is undefined (`none`). -/
def printfChars : List Char → Option (List Char)
  | [] => some []
  | c :: rest =>
    if c.toNat = 0 then some []
    else if c = '%' then
      match rest with
      | [] => none
      | d :: rest1 => if d = '%' then (printfChars rest1).map (fun t => '%' :: t) else none
    else (printfChars rest).map (fun t => c :: t)

/-- The C library function `printf`, called with a format and no further argument: the text
written. -/
def printf (format : List Char) : Option String :=
  (printfChars format).map String.mk

/-- Function `DependencyGraph::internalDotDump`. The result is the list of the texts written by
the calls of `printf`, in order; `parent` is `none` for the null `QString` (a target name is
never null). `fuel` bounds the depth of the recursion. -/
def internalDotDump (mk : Makefile) (g : DependencyGraph) :
    Nat → NodeId → Option QString → Option (List String)
  | 0, _, _ => none
  | fuel + 1, node, parent =>
    match g.heap node with
    | none => none
    | some nd =>
      let written : Option (List String) :=
        match parent with
        | some p =>
          let line := "  \"" ++ p ++ "\" -> \"" ++ (mk.blocks nd.target).targetName ++ "\";\n"
          (printf (toAscii line)).map (fun text => [text])
        | none => some []
      match written with
      | none => none
      | some texts =>
        (internalDotDumpLoop
          (fun child => internalDotDump mk g fuel child (some (mk.blocks nd.target).targetName))
          nd.children).map (fun more => texts ++ more)

/-- Function `DependencyGraph::dotDump`: the texts written by the calls of `printf`, in order.
Undefined (`none`) when `m_root` is null. -/
def DependencyGraph.dotDump (mk : Makefile) (fuel : Nat) (g : DependencyGraph) :
    Option (List String) :=
  match printf "digraph G \x7b\n".toList with
  | none => none
  | some opening =>
    match g.m_root with
    | none => none
    | some root =>
      match internalDotDump mk g fuel root none with
      | none => none
      | some lines =>
        (printf "\x7d\n".toList).map (fun closing => [opening] ++ lines ++ [closing])

/-- The edges that the walk of `dotDump` comes by under a node, in depth-first, first-child
order: for each child the edge to it, then the edges under it. -/
def dotEdges (g : DependencyGraph) : Nat → NodeId → List (NodeId × NodeId)
  | 0, _ => []
  | fuel + 1, node =>
    match g.heap node with
    | none => []
    | some nd => nd.children.flatMap (fun c => (node, c) :: dotEdges g fuel c)

/-- The name of the target of a node, the empty string for an address that is not live. -/
def nodeName (mk : Makefile) (g : DependencyGraph) (id : NodeId) : QString :=
  match g.heap id with
  | some nd => (mk.blocks nd.target).targetName
  | none => ""

/-- The line of the DOT output for an edge from parent to child. -/
def edgeLine (mk : Makefile) (g : DependencyGraph) (e : NodeId × NodeId) : QString :=
  "  \"" ++ nodeName mk g e.1 ++ "\" -> \"" ++ nodeName mk g e.2 ++ "\";\n"

/-- There is an edge from the live node `p` to its child `c`. -/
def HasEdge (g : DependencyGraph) (p c : NodeId) : Prop :=
  ∃ pn, g.heap p = some pn ∧ c ∈ pn.children

/-- Every node that has children has at most one parent: only leaves are shared. -/
def OnlyLeavesShared (g : DependencyGraph) : Prop :=
  ∀ id nd, g.heap id = some nd → nd.children ≠ [] → nd.parents.length ≤ 1

/-- The makefile `A: B C`, `B: D`, `C: D`, `D: E`, `E:`: a diamond whose shared node `D` has a
child. -/
def tailMakefile : Makefile where
  blocks := fun t =>
    match t with
    | 0 => mkBlock "A" ["B", "C"] ["link A"]
    | 1 => mkBlock "B" ["D"] ["cl B"]
    | 2 => mkBlock "C" ["D"] ["cl C"]
    | 3 => mkBlock "D" ["E"] ["cl D"]
    | _ => mkBlock "E" [] ["touch E"]
  target := fun n =>
    if n = "A" then some 0 else if n = "B" then some 1 else if n = "C" then some 2
    else if n = "D" then some 3 else if n = "E" then some 4 else none

/-- The graph built from `tailMakefile` with root `A`. -/
def tailGraph : DependencyGraph :=
  (DependencyGraph.build tailMakefile 5 (DependencyGraph.init 0) 0).getD
    (DependencyGraph.init 0)

/-- A rank for `tailMakefile`: `A` 4, `B` 3, `C` 2, `D` 1, `E` 0. -/
def tailRank (t : TargetId) : Nat := 4 - t

/-- The character is one that `toAscii` keeps and `printf` writes as it is: up to U+00FF, not
NUL and not `%`. -/
def PlainChar (c : Char) : Prop := c.toNat < 256 ∧ c.toNat ≠ 0 ∧ c ≠ '%'

instance PlainChar.decidable (c : Char) : Decidable (PlainChar c) :=
  inferInstanceAs (Decidable (c.toNat < 256 ∧ c.toNat ≠ 0 ∧ c ≠ '%'))

/-- The target names of the nodes of the graph consist of plain characters. -/
def PlainNames (mk : Makefile) (g : DependencyGraph) : Prop :=
  ∀ id nd, g.heap id = some nd → ∀ c ∈ (mk.blocks nd.target).targetName.toList, PlainChar c

/-- The list `l` holds the nodes that follow `a` on a path of child edges from `a` to `b`; it
is empty for the path that stays at `a`. -/
def IsPath (g : DependencyGraph) : NodeId → List NodeId → NodeId → Prop
  | a, [], b => a = b
  | a, x :: rest, b => HasEdge g a x ∧ IsPath g x rest b

/-- The paths of child edges from `a` to `b`, each as the list of the nodes that follow `a`;
`fuel` bounds their length. -/
def pathsTo (g : DependencyGraph) : Nat → NodeId → NodeId → List (List NodeId)
  | 0, _, _ => []
  | fuel + 1, a, b =>
    (if a = b then [[]] else []) ++
      match g.heap a with
      | none => []
      | some nd => nd.children.flatMap (fun x => (pathsTo g fuel x b).map (fun l => x :: l))

/-- The makefile `A: a%%b`, `a%%b:`, whose second target has two percent signs in its name. -/
def percentMakefile : Makefile where
  blocks := fun t =>
    match t with
    | 0 => mkBlock "A" ["a%%b"] ["link A"]
    | _ => mkBlock "a%%b" [] ["touch"]
  target := fun n => if n = "A" then some 0 else if n = "a%%b" then some 1 else none

/-- The graph built from `percentMakefile` with root `A`. -/
def percentGraph : DependencyGraph :=
  (DependencyGraph.build percentMakefile 2 (DependencyGraph.init 0) 0).getD
    (DependencyGraph.init 0)

/-- The makefile `A: Ω`, `Ω:`, whose second target has a name beyond Latin-1. -/
def omegaMakefile : Makefile where
  blocks := fun t =>
    match t with
    | 0 => mkBlock "A" ["Ω"] ["link A"]
    | _ => mkBlock "Ω" [] ["touch"]
  target := fun n => if n = "A" then some 0 else if n = "Ω" then some 1 else none

/-- The graph built from `omegaMakefile` with root `A`. -/
def omegaGraph : DependencyGraph :=
  (DependencyGraph.build omegaMakefile 2 (DependencyGraph.init 0) 0).getD
    (DependencyGraph.init 0)

/-! ## The search for an available target while the files and the clock change

`isTargetUpToDate` asks the file probe and the clock anew at every call. In the functions of
this section the world that the call number `n` observes is `ws n`, and the number of calls
made so far is part of the state. -/

/-- The `foreach` loop over the children in `findAvailableTarget(Node*)`; `recurse` is the
recursive call, `n` the number of calls of `isTargetUpToDate` made so far. -/
def Timed.findAvailableTargetLoop
    (recurse : Nat → Makefile → DependencyGraph → NodeId →
      Option (Option TargetId × Nat × Makefile × DependencyGraph)) :
    List NodeId → Nat → Makefile → DependencyGraph →
      Option (Option TargetId × Nat × Makefile × DependencyGraph)
  | [], n, mk, g => some (none, n, mk, g)
  | child :: rest, n, mk, g =>
    match recurse n mk g child with
    | none => none
    | some (some result, n1, mk1, g1) => some (some result, n1, mk1, g1)
    | some (none, n1, mk1, g1) => Timed.findAvailableTargetLoop recurse rest n1 mk1 g1

/-- Function `DependencyGraph::findAvailableTarget(Node*)`, each call of `isTargetUpToDate`
observing its own world; `fuel` bounds the depth of the recursion. The output of
`displayNodeBuildInfo` is not modelled. -/
def Timed.findAvailableTargetNode (ws : Nat → World) :
    Nat → Nat → Makefile → DependencyGraph → NodeId →
      Option (Option TargetId × Nat × Makefile × DependencyGraph)
  | 0, _, _, _, _ => none
  | fuel + 1, n, mk, g, node =>
    match g.heap node with
    | none => none
    | some nd =>
      if nd.children.isEmpty then
        if nd.state = NodeState.ExecutingState then some (none, n, mk, g)
        else
          let r := isTargetUpToDate (ws n) (mk.blocks nd.target)
          let mk1 := mk.setBlock nd.target r.2
          if r.1 then
            if nd.state ≠ NodeState.UpToDateState then
              some (none, n + 1, mk1,
                { g.setNode node { nd with state := NodeState.UpToDateState } with
                  m_nodesToRemove := g.m_nodesToRemove ++ [node] })
            else some (none, n + 1, mk1, g)
          else
            some (some nd.target, n + 1, mk1,
              g.setNode node { nd with state := NodeState.ExecutingState })
      else
        Timed.findAvailableTargetLoop (Timed.findAvailableTargetNode ws fuel) nd.children n mk g

/-- The inner `do ... while (!result && !m_nodesToRemove.isEmpty())` of
`findAvailableTarget()`; `fuel` bounds the number of passes. -/
def Timed.searchPasses (ws : Nat → World) (searchFuel : Nat) :
    Nat → Nat → Makefile → DependencyGraph → Option (Pass × Nat × Makefile × DependencyGraph)
  | 0, _, _, _ => none
  | fuel + 1, n, mk, g =>
    match g.removeNodes g.m_nodesToRemove with
    | none => none
    | some g1 =>
      let g2 := { g1 with m_nodesToRemove := [] }
      match g2.m_root with
      | none => some (Pass.returned, n, mk, g2)
      | some root =>
        match Timed.findAvailableTargetNode ws searchFuel n mk g2 root with
        | none => none
        | some (result, n3, mk3, g3) =>
          if result.isNone && !g3.m_nodesToRemove.isEmpty then
            Timed.searchPasses ws searchFuel fuel n3 mk3 g3
          else some (Pass.result result, n3, mk3, g3)

/-- The outer `do ... while (result)` of `findAvailableTarget()`, which appends every found
target to `m_leaves`; `fuel` bounds the number of iterations. -/
def Timed.collectLeaves (ws : Nat → World) (searchFuel passFuel : Nat) :
    Nat → Nat → Makefile → DependencyGraph → Option (Pass × Nat × Makefile × DependencyGraph)
  | 0, _, _, _ => none
  | fuel + 1, n, mk, g =>
    match Timed.searchPasses ws searchFuel passFuel n mk g with
    | none => none
    | some (Pass.returned, n1, mk1, g1) => some (Pass.returned, n1, mk1, g1)
    | some (Pass.result none, n1, mk1, g1) => some (Pass.result none, n1, mk1, g1)
    | some (Pass.result (some result), n1, mk1, g1) =>
      Timed.collectLeaves ws searchFuel passFuel fuel n1 mk1
        { g1 with m_leaves := g1.m_leaves ++ [result] }

/-- Function `DependencyGraph::findAvailableTarget()`, the first call of `isTargetUpToDate`
in it observing `ws 0`. `applyInferenceRules` is the method `Makefile::applyInferenceRules`
(a parameter: the class is not part of the sources at hand); all targets belong to the one
makefile, so the second part calls it once, with the leaves in the order of
`QMultiHash::values`, latest insertion first. `fuel` bounds each of the loops. -/
def Timed.findAvailableTarget (ws : Nat → World)
    (applyInferenceRules : List TargetId → Makefile → Makefile) (fuel : Nat) (mk : Makefile)
    (g : DependencyGraph) : Option (Option TargetId × Makefile × DependencyGraph) :=
  match g.m_leaves with
  | leaf :: rest =>
    let g1 := { g with m_leaves := rest }
    let mk1 :=
      if (mk.blocks leaf).m_commands.isEmpty && !(mk.blocks leaf).m_inferenceRules.isEmpty then
        applyInferenceRules [leaf] mk
      else mk
    some (some leaf, mk1, g1)
  | [] =>
    match Timed.collectLeaves ws fuel fuel fuel 0 mk g with
    | none => none
    | some (Pass.returned, _, mk1, g1) => some (none, mk1, g1)
    | some (Pass.result _, _, mk1, g1) =>
      let mk2 := if g1.m_leaves.isEmpty then mk1 else applyInferenceRules g1.m_leaves.reverse mk1
      match g1.m_leaves with
      | [] => some (none, mk2, g1)
      | leaf :: rest => some (some leaf, mk2, { g1 with m_leaves := rest })

end NMakeFile

/-! # Theorems -/

namespace NMakeFile

/-! ## The up-to-date check -/

theorem hashValue_append (h1 h2 : List (TargetId × NodeId)) (t : TargetId) :
    hashValue (h1 ++ h2) t =
      match hashValue h1 t with
      | some v => some v
      | none => hashValue h2 t := by
  induction h1 with
  | nil => simp [hashValue]
  | cons e rest ih =>
    obtain ⟨k, v⟩ := e
    by_cases hk : k = t
    · simp [hashValue, hk]
    · simp [hashValue, hk, ih]

theorem hashValue_remove (h : List (TargetId × NodeId)) (t u : TargetId) :
    hashValue (hashRemove h t) u = if u = t then none else hashValue h u := by
  induction h with
  | nil => simp [hashRemove, hashValue]
  | cons e rest ih =>
    obtain ⟨k, v⟩ := e
    unfold hashRemove at ih ⊢
    by_cases hk : k = t
    · subst hk
      by_cases hu : u = k
      · subst hu
        simpa [List.filter, hashValue] using ih
      · have hu2 : ¬ k = u := fun h => hu h.symm
        simpa [List.filter, hashValue, hu, hu2] using ih
    · by_cases hu : u = t
      · subst hu
        have hk2 : ¬ k = u := hk
        simpa [List.filter, hashValue, hk] using ih
      · by_cases hku : k = u
        · simp [List.filter, hashValue, hk, hku, hu]
        · simpa [List.filter, hashValue, hk, hku, hu] using ih

theorem hashValue_insert (h : List (TargetId × NodeId)) (t : TargetId) (n : NodeId)
    (u : TargetId) :
    hashValue (hashInsert h t n) u = if u = t then some n else hashValue h u := by
  unfold hashInsert
  rw [hashValue_append, hashValue_remove]
  by_cases hu : u = t
  · subst hu
    simp [hashValue]
  · have hu2 : ¬ t = u := fun h => hu h.symm
    simp only [hu, if_false]
    cases hv : hashValue h u with
    | none => simp [hashValue, hu2]
    | some v => simp

theorem hashValue_mem (h : List (TargetId × NodeId)) (t : TargetId) (n : NodeId)
    (hv : hashValue h t = some n) : (t, n) ∈ h := by
  induction h with
  | nil => simp [hashValue] at hv
  | cons e rest ih =>
    obtain ⟨k, v⟩ := e
    by_cases hk : k = t
    · simp [hashValue, hk] at hv
      simp [hk, hv]
    · simp [hashValue, hk] at hv
      exact List.mem_cons_of_mem _ (ih hv)

/-! ## `addEdge` -/

theorem mem_linkNode_children (parent child id : NodeId) (nd : Node) (x : NodeId) :
    x ∈ (linkNode parent child id nd).children ↔
      x ∈ nd.children ∨ (id = parent ∧ x = child) := by
  unfold linkNode linkParent linkChild
  by_cases h : id = parent ∧ child ∉ nd.children
  · simp only [h, and_self, not_false_eq_true, if_true, List.mem_append, List.mem_singleton,
      true_and]
  · simp only [h, if_false]
    constructor
    · exact Or.inl
    · rintro (h1 | ⟨h1, h2⟩)
      · exact h1
      · subst h2
        by_contra hx
        exact h ⟨h1, hx⟩

theorem mem_linkNode_parents (parent child id : NodeId) (nd : Node) (x : NodeId) :
    x ∈ (linkNode parent child id nd).parents ↔
      x ∈ nd.parents ∨ (id = child ∧ x = parent) := by
  unfold linkNode linkParent linkChild
  by_cases h : id = child ∧ parent ∉ nd.parents
  · simp only [h, and_self, not_false_eq_true, if_true, List.mem_append, List.mem_singleton,
      true_and]
  · simp only [h, if_false]
    constructor
    · exact Or.inl
    · rintro (h1 | ⟨h1, h2⟩)
      · exact h1
      · subst h2
        by_contra hx
        exact h ⟨h1, hx⟩

theorem linkNode_target (parent child id : NodeId) (nd : Node) :
    (linkNode parent child id nd).target = nd.target := rfl

theorem linkNode_state (parent child id : NodeId) (nd : Node) :
    (linkNode parent child id nd).state = nd.state := rfl

theorem appendChild_eq (g : DependencyGraph) (parent child : NodeId) (p : Node)
    (hp : g.heap parent = some p) :
    g.appendChild parent child =
      some { g with heap := fun id => (g.heap id).map (linkChild parent child id) } := by
  unfold DependencyGraph.appendChild
  rw [hp]
  simp only [Option.some.injEq]
  cases g with
  | mk r m tr lv heap na =>
    simp only at hp
    by_cases h1 : child ∈ p.children
    · simp only [h1, if_true, DependencyGraph.mk.injEq, true_and, and_true]
      funext id
      cases hid : heap id with
      | none => rfl
      | some nd =>
        have e1 : ¬ (id = parent ∧ child ∉ nd.children) := by
          rintro ⟨rfl, hn⟩
          rw [hp] at hid
          cases hid
          exact hn h1
        simp [linkChild, e1]
    · simp only [h1, if_false, DependencyGraph.setNode, DependencyGraph.mk.injEq, true_and,
        and_true]
      funext id
      by_cases hip : id = parent
      · subst hip
        simp [hp, linkChild, h1]
      · rw [Function.update_noteq hip]
        cases hid : heap id with
        | none => rfl
        | some nd => simp [linkChild, hip]

theorem appendParent_eq (g : DependencyGraph) (parent child : NodeId) (c : Node)
    (hc : g.heap child = some c) :
    g.appendParent parent child =
      some { g with heap := fun id => (g.heap id).map (linkParent parent child id) } := by
  unfold DependencyGraph.appendParent
  rw [hc]
  simp only [Option.some.injEq]
  cases g with
  | mk r m tr lv heap na =>
    simp only at hc
    by_cases h1 : parent ∈ c.parents
    · simp only [h1, if_true, DependencyGraph.mk.injEq, true_and, and_true]
      funext id
      cases hid : heap id with
      | none => rfl
      | some nd =>
        have e1 : ¬ (id = child ∧ parent ∉ nd.parents) := by
          rintro ⟨rfl, hn⟩
          rw [hc] at hid
          cases hid
          exact hn h1
        simp [linkParent, e1]
    · simp only [h1, if_false, DependencyGraph.setNode, DependencyGraph.mk.injEq, true_and,
        and_true]
      funext id
      by_cases hic : id = child
      · subst hic
        simp [hc, linkParent, h1]
      · rw [Function.update_noteq hic]
        cases hid : heap id with
        | none => rfl
        | some nd => simp [linkParent, hic]

/-- What `addEdge` computes when both nodes are live. -/
theorem addEdge_eq (g : DependencyGraph) (parent child : NodeId) (p c : Node)
    (hp : g.heap parent = some p) (hc : g.heap child = some c) :
    g.addEdge parent child =
      some { g with heap := fun id => (g.heap id).map (linkNode parent child id) } := by
  unfold DependencyGraph.addEdge
  rw [appendChild_eq g parent child p hp]
  simp only
  rw [appendParent_eq _ parent child (linkChild parent child child c) (by simp [hc])]
  simp only [Option.some.injEq, DependencyGraph.mk.injEq, true_and, and_true]
  funext id
  cases hid : g.heap id with
  | none => rfl
  | some nd => simp [linkNode]

/-- The call `addEdge` dereferences both nodes. -/
theorem addEdge_live (g g1 : DependencyGraph) (parent child : NodeId)
    (h : g.addEdge parent child = some g1) :
    (∃ p, g.heap parent = some p) ∧ (∃ c, g.heap child = some c) := by
  unfold DependencyGraph.addEdge at h
  cases hp : g.heap parent with
  | none => simp [DependencyGraph.appendChild, hp] at h
  | some p =>
    refine ⟨⟨p, rfl⟩, ?_⟩
    rw [appendChild_eq g parent child p hp] at h
    simp only [DependencyGraph.appendParent] at h
    cases hc : g.heap child with
    | none => simp [hc] at h
    | some c => exact ⟨c, rfl⟩


theorem nodup_linkNode_children (parent child id : NodeId) (nd : Node)
    (h : nd.children.Nodup) : (linkNode parent child id nd).children.Nodup := by
  unfold linkNode linkParent linkChild
  by_cases hc : id = parent ∧ child ∉ nd.children
  · simp only [hc, and_self, not_false_eq_true, if_true]
    exact List.Nodup.append h (List.nodup_singleton child)
      (by
        intro a ha hb
        rw [List.mem_singleton] at hb
        exact hc.2 (hb ▸ ha))
  · simpa only [hc, if_false] using h

theorem nodup_linkNode_parents (parent child id : NodeId) (nd : Node)
    (h : nd.parents.Nodup) : (linkNode parent child id nd).parents.Nodup := by
  unfold linkNode linkParent linkChild
  by_cases hc : id = child ∧ parent ∉ nd.parents
  · simp only [hc, and_self, not_false_eq_true, if_true]
    exact List.Nodup.append h (List.nodup_singleton parent)
      (by
        intro a ha hb
        rw [List.mem_singleton] at hb
        exact hc.2 (hb ▸ ha))
  · simpa only [hc, if_false] using h

/-- The invariant is kept by linking two live nodes. -/
theorem heapInv_link (g : DependencyGraph) (parent child : NodeId) (p c : Node)
    (hI : HeapInv g) (hp : g.heap parent = some p) (hc : g.heap child = some c) :
    HeapInv { g with heap := fun id => (g.heap id).map (linkNode parent child id) } := by
  have live : ∀ id nd, g.heap id = some nd →
      ∃ nd1, (g.heap id).map (linkNode parent child id) = some nd1 :=
    fun id nd h => ⟨_, by rw [h]; rfl⟩
  constructor
  · intro id nd1 h x hx
    simp only [Option.map_eq_some'] at h
    obtain ⟨nd, hnd, rfl⟩ := h
    rw [mem_linkNode_children] at hx
    rcases hx with hx | ⟨_, rfl⟩
    · obtain ⟨cn, hcn⟩ := hI.closedC id nd hnd x hx
      exact live x cn hcn
    · exact live x c hc
  · intro id nd1 h x hx
    simp only [Option.map_eq_some'] at h
    obtain ⟨nd, hnd, rfl⟩ := h
    rw [mem_linkNode_parents] at hx
    rcases hx with hx | ⟨_, rfl⟩
    · obtain ⟨pn, hpn⟩ := hI.closedP id nd hnd x hx
      exact live x pn hpn
    · exact live x p hp
  · intro p0 c0 pn1 cn1 h1 h2
    simp only [Option.map_eq_some'] at h1 h2
    obtain ⟨pn, hpn, rfl⟩ := h1
    obtain ⟨cn, hcn, rfl⟩ := h2
    rw [mem_linkNode_children, mem_linkNode_parents, hI.sym p0 c0 pn cn hpn hcn]
    constructor
    · rintro (h | ⟨h1, h2⟩)
      · exact Or.inl h
      · exact Or.inr ⟨h2, h1⟩
    · rintro (h | ⟨h1, h2⟩)
      · exact Or.inl h
      · exact Or.inr ⟨h2, h1⟩
  · intro id nd1 h
    simp only [Option.map_eq_some'] at h
    obtain ⟨nd, hnd, rfl⟩ := h
    exact nodup_linkNode_children parent child id nd (hI.nodupC id nd hnd)
  · intro id nd1 h
    simp only [Option.map_eq_some'] at h
    obtain ⟨nd, hnd, rfl⟩ := h
    exact nodup_linkNode_parents parent child id nd (hI.nodupP id nd hnd)
  · intro id hid
    simp only [Option.map_eq_none']
    exact hI.fresh id hid
  · intro t id h
    obtain ⟨nd, hnd, ht⟩ := hI.mapLive t id h
    exact ⟨linkNode parent child id nd, by simp [hnd], ht⟩

theorem addEdge_heapInv (g g1 : DependencyGraph) (parent child : NodeId) (hI : HeapInv g)
    (h : g.addEdge parent child = some g1) : HeapInv g1 := by
  obtain ⟨⟨p, hp⟩, ⟨c, hc⟩⟩ := addEdge_live g g1 parent child h
  rw [addEdge_eq g parent child p c hp hc] at h
  cases h
  exact heapInv_link g parent child p c hI hp hc


/-! ## `createNode` and `build` keep the invariant -/

/-- The invariant mentions the node memory, the next free address and the node container only. -/
theorem heapInv_congr (g g1 : DependencyGraph) (hI : HeapInv g) (h1 : g1.heap = g.heap)
    (h2 : g1.nextAddr = g.nextAddr) (h3 : g1.m_nodeContainer = g.m_nodeContainer) :
    HeapInv g1 := by
  constructor
  · rw [h1]; exact hI.closedC
  · rw [h1]; exact hI.closedP
  · rw [h1]; exact hI.sym
  · rw [h1]; exact hI.nodupC
  · rw [h1]; exact hI.nodupP
  · rw [h1, h2]; exact hI.fresh
  · rw [h1, h3]; exact hI.mapLive

theorem heapInv_alloc (g : DependencyGraph) (target : TargetId) (hI : HeapInv g) :
    HeapInv (g.allocNode target) := by
  unfold DependencyGraph.allocNode
  have hfree : g.heap g.nextAddr = none := hI.fresh _ (Nat.le_refl _)
  have old : ∀ id nd, Function.update g.heap g.nextAddr
      (some ⟨target, [], [], NodeState.UnknownState⟩) id = some nd →
      (id = g.nextAddr ∧ nd = ⟨target, [], [], NodeState.UnknownState⟩) ∨
      (id ≠ g.nextAddr ∧ g.heap id = some nd) := by
    intro id nd h
    by_cases hid : id = g.nextAddr
    · subst hid
      rw [Function.update_same] at h
      cases h
      exact Or.inl ⟨rfl, rfl⟩
    · rw [Function.update_noteq hid] at h
      exact Or.inr ⟨hid, h⟩
  have keep : ∀ id nd, g.heap id = some nd → Function.update g.heap g.nextAddr
      (some ⟨target, [], [], NodeState.UnknownState⟩) id = some nd := by
    intro id nd h
    have hid : id ≠ g.nextAddr := by
      rintro rfl
      rw [hfree] at h
      cases h
    rw [Function.update_noteq hid]
    exact h
  constructor
  · intro id nd h x hx
    rcases old id nd h with ⟨_, rfl⟩ | ⟨_, h1⟩
    · cases hx
    · obtain ⟨cn, hcn⟩ := hI.closedC id nd h1 x hx
      exact ⟨cn, keep x cn hcn⟩
  · intro id nd h x hx
    rcases old id nd h with ⟨_, rfl⟩ | ⟨_, h1⟩
    · cases hx
    · obtain ⟨pn, hpn⟩ := hI.closedP id nd h1 x hx
      exact ⟨pn, keep x pn hpn⟩
  · intro p c pn cn h1 h2
    rcases old p pn h1 with ⟨hp, rfl⟩ | ⟨hp, h1⟩
    · rcases old c cn h2 with ⟨_, rfl⟩ | ⟨_, h2⟩
      · simp
      · simp only [List.not_mem_nil, false_iff]
        intro hm
        obtain ⟨pn, hpn⟩ := hI.closedP c cn h2 p hm
        rw [hp, hfree] at hpn
        cases hpn
    · rcases old c cn h2 with ⟨hc, rfl⟩ | ⟨_, h2⟩
      · simp only [List.not_mem_nil, iff_false]
        intro hm
        obtain ⟨cn, hcn⟩ := hI.closedC p pn h1 c hm
        rw [hc, hfree] at hcn
        cases hcn
      · exact hI.sym p c pn cn h1 h2
  · intro id nd h
    rcases old id nd h with ⟨_, rfl⟩ | ⟨_, h1⟩
    · exact List.nodup_nil
    · exact hI.nodupC id nd h1
  · intro id nd h
    rcases old id nd h with ⟨_, rfl⟩ | ⟨_, h1⟩
    · exact List.nodup_nil
    · exact hI.nodupP id nd h1
  · intro id hid
    have hid2 : g.nextAddr + 1 ≤ id := hid
    have hne : id ≠ g.nextAddr := Nat.ne_of_gt hid2
    show Function.update g.heap g.nextAddr _ id = none
    rw [Function.update_noteq hne]
    exact hI.fresh id (Nat.le_of_succ_le hid2)
  · intro t id h
    obtain ⟨nd, hnd, ht⟩ := hI.mapLive t id h
    exact ⟨nd, keep id nd hnd, ht⟩

theorem heapInv_insert (g : DependencyGraph) (target : TargetId) (node : NodeId) (nd : Node)
    (hI : HeapInv g) (hn : g.heap node = some nd) (ht : nd.target = target) :
    HeapInv { g with m_nodeContainer := hashInsert g.m_nodeContainer target node } := by
  constructor
  · exact hI.closedC
  · exact hI.closedP
  · exact hI.sym
  · exact hI.nodupC
  · exact hI.nodupP
  · exact hI.fresh
  · intro t id h
    simp only [hashValue_insert] at h
    by_cases htt : t = target
    · subst htt
      simp only [if_true, Option.some.injEq] at h
      subst h
      exact ⟨nd, hn, ht⟩
    · simp only [htt, if_false] at h
      exact hI.mapLive t id h

/-- What `createNode` returns: the new node lives at the old `nextAddr` and carries the
target. -/
theorem createNode_spec (g g1 : DependencyGraph) (target : TargetId) (parent : Option NodeId)
    (node : NodeId) (hI : HeapInv g) (h : g.createNode target parent = some (node, g1)) :
    HeapInv g1 ∧ node = g.nextAddr ∧ g1.nextAddr = g.nextAddr + 1 ∧
      g1.m_nodeContainer = hashInsert g.m_nodeContainer target node ∧
      g1.m_root = g.m_root ∧ g1.m_nodesToRemove = g.m_nodesToRemove ∧
      g1.m_leaves = g.m_leaves := by
  unfold DependencyGraph.createNode at h
  have hA := heapInv_alloc g target hI
  cases parent with
  | none =>
    simp only [Option.some.injEq, Prod.mk.injEq] at h
    obtain ⟨h1, h2⟩ := h
    subst h1 h2
    refine ⟨?_, rfl, rfl, rfl, rfl, rfl, rfl⟩
    exact heapInv_insert _ target g.nextAddr ⟨target, [], [], NodeState.UnknownState⟩ hA
      (by simp [DependencyGraph.allocNode]) rfl
  | some p =>
    simp only at h
    cases hE : (g.allocNode target).addEdge p g.nextAddr with
    | none => simp [hE] at h
    | some g2 =>
      simp only [hE, Option.some.injEq, Prod.mk.injEq] at h
      obtain ⟨h1, h2⟩ := h
      subst h1 h2
      have hI2 := addEdge_heapInv _ g2 p g.nextAddr hA hE
      obtain ⟨⟨pn, hp⟩, ⟨cn, hc⟩⟩ := addEdge_live _ g2 p g.nextAddr hE
      rw [addEdge_eq _ p g.nextAddr pn cn hp hc] at hE
      cases hE
      refine ⟨?_, rfl, rfl, rfl, rfl, rfl, rfl⟩
      refine heapInv_insert _ target g.nextAddr
        (linkNode p g.nextAddr g.nextAddr ⟨target, [], [], NodeState.UnknownState⟩) hI2
        (by simp [DependencyGraph.allocNode]) rfl

/-- A property kept by `addEdge` and `createNode` is kept by the loop of `internalBuild`. -/
theorem internalBuildLoop_preserves (P : DependencyGraph → Prop) (mk : Makefile)
    (recurse : DependencyGraph → NodeId → Option DependencyGraph) (node : NodeId)
    (hadd : ∀ g p c g1, P g → g.addEdge p c = some g1 → P g1)
    (hcreate : ∀ g t p n g1, P g → g.createNode t p = some (n, g1) → P g1)
    (hrec : ∀ g n g1, P g → recurse g n = some g1 → P g1) :
    ∀ (deps : List QString) (g g1 : DependencyGraph), P g →
      internalBuildLoop mk recurse node deps g = some g1 → P g1 := by
  intro deps
  induction deps with
  | nil =>
    intro g g1 hI h
    simp only [internalBuildLoop, Option.some.injEq] at h
    exact h ▸ hI
  | cons d rest ih =>
    intro g g1 hI h
    unfold internalBuildLoop at h
    cases ht : mk.target d with
    | none =>
      simp only [ht] at h
      exact ih g g1 hI h
    | some dependent =>
      simp only [ht] at h
      cases hv : hashValue g.m_nodeContainer dependent with
      | some child =>
        simp only [hv] at h
        cases hE : g.addEdge node child with
        | none => simp [hE] at h
        | some g2 =>
          simp only [hE, Option.map_some'] at h
          cases hR : recurse g2 child with
          | none => simp [hR] at h
          | some g3 =>
            simp only [hR] at h
            exact ih g3 g1 (hrec g2 child g3 (hadd g node child g2 hI hE) hR) h
      | none =>
        simp only [hv] at h
        cases hC : g.createNode dependent (some node) with
        | none => simp [hC] at h
        | some r =>
          obtain ⟨child, g2⟩ := r
          simp only [hC] at h
          cases hR : recurse g2 child with
          | none => simp [hR] at h
          | some g3 =>
            simp only [hR] at h
            exact ih g3 g1 (hrec g2 child g3 (hcreate g dependent (some node) child g2 hI hC) hR) h

/-- A property kept by `addEdge` and `createNode` is kept by `internalBuild`. -/
theorem internalBuild_preserves (P : DependencyGraph → Prop) (mk : Makefile)
    (hadd : ∀ g p c g1, P g → g.addEdge p c = some g1 → P g1)
    (hcreate : ∀ g t p n g1, P g → g.createNode t p = some (n, g1) → P g1) :
    ∀ (fuel : Nat) (g : DependencyGraph) (node : NodeId) (g1 : DependencyGraph), P g →
      internalBuild mk fuel g node = some g1 → P g1 := by
  intro fuel
  induction fuel with
  | zero =>
    intro g node g1 _ h
    simp [internalBuild] at h
  | succ fuel ih =>
    intro g node g1 hI h
    unfold internalBuild at h
    cases hn : g.heap node with
    | none => simp [hn] at h
    | some nd =>
      simp only [hn] at h
      exact internalBuildLoop_preserves P mk (internalBuild mk fuel) node hadd hcreate
        (fun g n g1 hI h => ih g n g1 hI h) _ g g1 hI h

theorem internalBuild_heapInv (mk : Makefile) (fuel : Nat) (g : DependencyGraph)
    (node : NodeId) (g1 : DependencyGraph) (hI : HeapInv g)
    (h : internalBuild mk fuel g node = some g1) : HeapInv g1 :=
  internalBuild_preserves HeapInv mk (fun g p c g1 hI h => addEdge_heapInv g g1 p c hI h)
    (fun g t p n g1 hI h => (createNode_spec g g1 t p n hI h).1) fuel g node g1 hI h

theorem build_heapInv (mk : Makefile) (fuel : Nat) (g g1 : DependencyGraph)
    (target : TargetId) (hI : HeapInv g) (h : g.build mk fuel target = some g1) :
    HeapInv g1 := by
  unfold DependencyGraph.build at h
  cases hC : g.createNode target none with
  | none => simp [hC] at h
  | some r =>
    obtain ⟨root, g2⟩ := r
    simp only [hC] at h
    have h2 := (createNode_spec g g2 target none root hI hC).1
    exact internalBuild_heapInv mk fuel { g2 with m_root := some root } root g1
      (heapInv_congr g2 _ h2 rfl rfl rfl) h


/-! ## `remove` -/

theorem foldlM_eraseChild (node : NodeId) :
    ∀ (ps : List NodeId) (g : DependencyGraph), ps.Nodup →
      (∀ p ∈ ps, ∃ pn, g.heap p = some pn ∧ node ∈ pn.children) →
      ps.foldlM (DependencyGraph.eraseChild node) g =
        some { g with heap := fun id =>
          if id ∈ ps then (g.heap id).map (eraseChildNode node) else g.heap id } := by
  intro ps
  induction ps with
  | nil =>
    intro g _ _
    simp
  | cons p rest ih =>
    intro g hnd hall
    obtain ⟨pn, hpn, hmem⟩ := hall p (List.mem_cons_self p rest)
    have hp : p ∉ rest := (List.nodup_cons.1 hnd).1
    rw [List.foldlM_cons]
    have hstep : DependencyGraph.eraseChild node g p =
        some (g.setNode p { pn with children := pn.children.erase node }) := by
      simp [DependencyGraph.eraseChild, hpn, hmem]
    rw [hstep]
    simp only [Option.bind_eq_bind, Option.some_bind]
    rw [ih _ (List.nodup_cons.1 hnd).2]
    · simp only [DependencyGraph.setNode, Option.some.injEq, DependencyGraph.mk.injEq, true_and,
        and_true]
      funext id
      by_cases hid : id = p
      · subst hid
        simp [hp, hpn, eraseChildNode]
      · simp [hid, Function.update_noteq hid]
    · intro q hq
      have hqp : q ≠ p := fun h => hp (h ▸ hq)
      obtain ⟨qn, hqn, hqm⟩ := hall q (List.mem_cons_of_mem p hq)
      exact ⟨qn, by simp [DependencyGraph.setNode, Function.update_noteq hqp, hqn], hqm⟩

theorem foldlM_eraseParent (node : NodeId) :
    ∀ (cs : List NodeId) (g : DependencyGraph), cs.Nodup →
      (∀ c ∈ cs, ∃ cn, g.heap c = some cn ∧ node ∈ cn.parents) →
      cs.foldlM (DependencyGraph.eraseParent node) g =
        some { g with heap := fun id =>
          if id ∈ cs then (g.heap id).map (eraseParentNode node) else g.heap id } := by
  intro cs
  induction cs with
  | nil =>
    intro g _ _
    simp
  | cons c rest ih =>
    intro g hnd hall
    obtain ⟨cn, hcn, hmem⟩ := hall c (List.mem_cons_self c rest)
    have hc : c ∉ rest := (List.nodup_cons.1 hnd).1
    rw [List.foldlM_cons]
    have hstep : DependencyGraph.eraseParent node g c =
        some (g.setNode c { cn with parents := cn.parents.erase node }) := by
      simp [DependencyGraph.eraseParent, hcn, hmem]
    rw [hstep]
    simp only [Option.bind_eq_bind, Option.some_bind]
    rw [ih _ (List.nodup_cons.1 hnd).2]
    · simp only [DependencyGraph.setNode, Option.some.injEq, DependencyGraph.mk.injEq, true_and,
        and_true]
      funext id
      by_cases hid : id = c
      · subst hid
        simp [hc, hcn, eraseParentNode]
      · simp [hid, Function.update_noteq hid]
    · intro q hq
      have hqc : q ≠ c := fun h => hc (h ▸ hq)
      obtain ⟨qn, hqn, hqm⟩ := hall q (List.mem_cons_of_mem c hq)
      exact ⟨qn, by simp [DependencyGraph.setNode, Function.update_noteq hqc, hqn], hqm⟩

/-- What `remove(Node*)` computes on a graph that satisfies the invariant: it is defined, the
node is freed, every other node loses `node` from its edge lists, the entry of the node's
target leaves the node container, and the root is nulled if it was `node`. -/
theorem removeNode_spec (g : DependencyGraph) (node : NodeId) (nd : Node) (hI : HeapInv g)
    (hn : g.heap node = some nd) :
    ∃ g1, g.removeNode node = some g1 ∧
      (∀ id, g1.heap id = if id = node then none else (g.heap id).map (unlinkNode node)) ∧
      g1.m_nodeContainer = hashRemove g.m_nodeContainer nd.target ∧
      g1.m_root = (if g.m_root = some node then none else g.m_root) ∧
      g1.m_nodesToRemove = g.m_nodesToRemove ∧ g1.m_leaves = g.m_leaves ∧
      g1.nextAddr = g.nextAddr := by
  have h1 := foldlM_eraseChild node nd.parents g (hI.nodupP node nd hn) (by
    intro p hp
    obtain ⟨pn, hpn⟩ := hI.closedP node nd hn p hp
    exact ⟨pn, hpn, (hI.sym p node pn nd hpn hn).2 hp⟩)
  -- the node itself after the first loop
  have hself : ∃ nd1, (if node ∈ nd.parents then (g.heap node).map (eraseChildNode node)
      else g.heap node) = some nd1 ∧ nd1.children = nd.children.erase node ∧
      nd1.target = nd.target := by
    by_cases hs : node ∈ nd.parents
    · exact ⟨eraseChildNode node nd, by simp [hs, hn], rfl, rfl⟩
    · refine ⟨nd, by simp [hs, hn], ?_, rfl⟩
      have : node ∉ nd.children := fun h => hs ((hI.sym node node nd nd hn hn).1 h)
      rw [List.erase_of_not_mem this]
  obtain ⟨nd1, hnd1, hch, htg⟩ := hself
  have hndc : (nd.children.erase node).Nodup := (hI.nodupC node nd hn).erase node
  have h2 := foldlM_eraseParent node (nd.children.erase node)
    { g with heap := fun id =>
      if id ∈ nd.parents then (g.heap id).map (eraseChildNode node) else g.heap id } hndc (by
    intro c hc
    have hc2 : c ∈ nd.children := List.mem_of_mem_erase hc
    obtain ⟨cn, hcn⟩ := hI.closedC node nd hn c hc2
    have hm : node ∈ cn.parents := (hI.sym node c nd cn hn hcn).1 hc2
    by_cases hcp : c ∈ nd.parents
    · exact ⟨eraseChildNode node cn, by simp [hcp, hcn], hm⟩
    · exact ⟨cn, by simp [hcp, hcn], hm⟩)
  have hnotin : node ∉ nd.children.erase node := by
    intro h
    exact (List.Nodup.mem_erase_iff (hI.nodupC node nd hn)).1 h |>.1 rfl
  have heq : g.removeNode node = some
      { m_root := if g.m_root = some node then none else g.m_root
        m_nodeContainer := hashRemove g.m_nodeContainer nd.target
        m_nodesToRemove := g.m_nodesToRemove
        m_leaves := g.m_leaves
        heap := Function.update (fun id =>
          if id ∈ nd.children.erase node then
            (if id ∈ nd.parents then (g.heap id).map (eraseChildNode node)
              else g.heap id).map (eraseParentNode node)
          else if id ∈ nd.parents then (g.heap id).map (eraseChildNode node)
            else g.heap id) node none
        nextAddr := g.nextAddr } := by
    unfold DependencyGraph.removeNode
    rw [hn]
    simp only
    rw [h1]
    simp only [hnd1]
    rw [hch, h2]
    simp only [DependencyGraph.deleteNode, hnotin, if_false, hnd1, htg]
  refine ⟨_, heq, ?_, rfl, rfl, rfl, rfl, rfl⟩
  intro id
  simp only
  by_cases hid : id = node
  · subst hid
    simp
  · rw [Function.update_noteq hid]
    simp only [hid, if_false]
    cases hx : g.heap id with
    | none => simp
    | some x =>
      have e1 : id ∉ nd.parents → x.children.erase node = x.children := by
        intro hnp
        apply List.erase_of_not_mem
        intro hm
        exact hnp ((hI.sym id node x nd hx hn).1 hm)
      have e2 : id ∉ nd.children.erase node → x.parents.erase node = x.parents := by
        intro hnc
        apply List.erase_of_not_mem
        intro hm
        have : id ∈ nd.children := (hI.sym node id nd x hn hx).2 hm
        exact hnc ((List.Nodup.mem_erase_iff (hI.nodupC node nd hn)).2 ⟨hid, this⟩)
      by_cases ha : id ∈ nd.parents <;> by_cases hb : id ∈ nd.children.erase node
      · simp [ha, hb, unlinkNode, eraseChildNode, eraseParentNode]
      · simp [ha, hb, unlinkNode, eraseChildNode, e2 hb]
      · simp [ha, hb, unlinkNode, eraseParentNode, e1 ha]
      · simp [ha, hb, unlinkNode, e1 ha, e2 hb]


theorem mem_unlinkNode_children (node : NodeId) (nd : Node) (h : nd.children.Nodup)
    (x : NodeId) : x ∈ (unlinkNode node nd).children ↔ x ≠ node ∧ x ∈ nd.children :=
  List.Nodup.mem_erase_iff h

theorem mem_unlinkNode_parents (node : NodeId) (nd : Node) (h : nd.parents.Nodup)
    (x : NodeId) : x ∈ (unlinkNode node nd).parents ↔ x ≠ node ∧ x ∈ nd.parents :=
  List.Nodup.mem_erase_iff h

/-- The invariant is kept when a live node is unlinked and freed. -/
theorem heapInv_unlink (g g1 : DependencyGraph) (node : NodeId) (nd : Node) (hI : HeapInv g)
    (hn : g.heap node = some nd)
    (hheap : ∀ id, g1.heap id = if id = node then none else (g.heap id).map (unlinkNode node))
    (hmap : g1.m_nodeContainer = hashRemove g.m_nodeContainer nd.target)
    (hnext : g1.nextAddr = g.nextAddr) : HeapInv g1 := by
  have old : ∀ id x1, g1.heap id = some x1 →
      id ≠ node ∧ ∃ x, g.heap id = some x ∧ x1 = unlinkNode node x := by
    intro id x1 h
    rw [hheap] at h
    by_cases hid : id = node
    · simp [hid] at h
    · simp only [hid, if_false, Option.map_eq_some'] at h
      obtain ⟨x, hx, rfl⟩ := h
      exact ⟨hid, x, hx, rfl⟩
  have keep : ∀ id x, id ≠ node → g.heap id = some x →
      g1.heap id = some (unlinkNode node x) := by
    intro id x hid hx
    rw [hheap]
    simp [hid, hx]
  constructor
  · intro id x1 h c hc
    obtain ⟨_, x, hx, rfl⟩ := old id x1 h
    rw [mem_unlinkNode_children node x (hI.nodupC id x hx)] at hc
    obtain ⟨cn, hcn⟩ := hI.closedC id x hx c hc.2
    exact ⟨_, keep c cn hc.1 hcn⟩
  · intro id x1 h p hp
    obtain ⟨_, x, hx, rfl⟩ := old id x1 h
    rw [mem_unlinkNode_parents node x (hI.nodupP id x hx)] at hp
    obtain ⟨pn, hpn⟩ := hI.closedP id x hx p hp.2
    exact ⟨_, keep p pn hp.1 hpn⟩
  · intro p c pn1 cn1 h1 h2
    obtain ⟨hp, pn, hpn, rfl⟩ := old p pn1 h1
    obtain ⟨hc, cn, hcn, rfl⟩ := old c cn1 h2
    rw [mem_unlinkNode_children node pn (hI.nodupC p pn hpn),
      mem_unlinkNode_parents node cn (hI.nodupP c cn hcn), hI.sym p c pn cn hpn hcn]
    simp [hp, hc]
  · intro id x1 h
    obtain ⟨_, x, hx, rfl⟩ := old id x1 h
    exact (hI.nodupC id x hx).erase node
  · intro id x1 h
    obtain ⟨_, x, hx, rfl⟩ := old id x1 h
    exact (hI.nodupP id x hx).erase node
  · intro id hid
    rw [hheap]
    rw [hnext] at hid
    simp [hI.fresh id hid]
  · intro t id h
    rw [hmap, hashValue_remove] at h
    by_cases ht : t = nd.target
    · simp [ht] at h
    · simp only [ht, if_false] at h
      obtain ⟨x, hx, hxt⟩ := hI.mapLive t id h
      have hid : id ≠ node := by
        rintro rfl
        rw [hn] at hx
        cases hx
        exact ht hxt.symm
      exact ⟨_, keep id x hid hx, hxt⟩

theorem removeNode_heapInv (g g1 : DependencyGraph) (node : NodeId) (hI : HeapInv g)
    (h : g.removeNode node = some g1) : HeapInv g1 := by
  cases hn : g.heap node with
  | none => simp [DependencyGraph.removeNode, hn] at h
  | some nd =>
    obtain ⟨g2, h2, hheap, hmap, _, _, _, hnext⟩ := removeNode_spec g node nd hI hn
    have h3 : g2 = g1 := by
      rw [h2] at h
      exact Option.some.inj h
    exact h3 ▸ heapInv_unlink g g2 node nd hI hn hheap hmap hnext

theorem remove_heapInv (g g1 : DependencyGraph) (target : TargetId) (hI : HeapInv g)
    (h : g.remove target = some g1) : HeapInv g1 := by
  unfold DependencyGraph.remove at h
  cases hv : hashValue g.m_nodeContainer target with
  | none =>
    simp only [hv, Option.some.injEq] at h
    exact h ▸ hI
  | some node =>
    simp only [hv] at h
    exact removeNode_heapInv g g1 node hI h

theorem init_heapInv (base : NodeId) : HeapInv (DependencyGraph.init base) := by
  constructor <;> simp [DependencyGraph.init, hashValue]

/-- Every reachable graph state satisfies the representation invariant. -/
theorem graphReach_heapInv (mk : Makefile) (g : DependencyGraph) (h : GraphReach mk g) :
    HeapInv g := by
  induction h with
  | init base => exact init_heapInv base
  | build fuel target _ hb ih => exact build_heapInv mk fuel _ _ target ih hb
  | createNode target parent node _ hc ih =>
    exact (createNode_spec _ _ target parent node ih hc).1
  | addEdge parent child _ ha ih => exact addEdge_heapInv _ _ parent child ih ha
  | remove target _ hr ih => exact remove_heapInv _ _ target ih hr

/-- C1: edge symmetry is an invariant of `DependencyGraph`. In every graph state reachable
from the empty graph by `build(root)`, `createNode`, `addEdge` and `remove(target)`, for all
nodes `p` and `c` of the node map, `c` is in `p.children` if and only if `p` is in
`c.parents`. -/
theorem C1_edge_symmetry (mk : Makefile) (g : DependencyGraph) (h : GraphReach mk g) :
    EdgeSymmetric g := by
  intro tp tc p c pn cn _ _ hp hc
  exact (graphReach_heapInv mk g h).sym p c pn cn hp hc


theorem diamondGraph_built :
    DependencyGraph.build diamondMakefile 4 (DependencyGraph.init 0) 0 = some diamondGraph := by
  rfl

theorem diamondGraphWithoutD_removed :
    diamondGraph.remove 3 = some diamondGraphWithoutD := by
  rfl

theorem C1_edge_symmetry_witness :
    GraphReach diamondMakefile diamondGraphWithoutD ∧ EdgeSymmetric diamondGraphWithoutD :=
  ⟨GraphReach.remove 3 (GraphReach.build 4 0 (GraphReach.init 0) diamondGraph_built)
      diamondGraphWithoutD_removed,
    C1_edge_symmetry diamondMakefile diamondGraphWithoutD
      (GraphReach.remove 3 (GraphReach.build 4 0 (GraphReach.init 0) diamondGraph_built)
        diamondGraphWithoutD_removed)⟩


/-! ## `build` on a cyclic makefile -/

theorem internalBuild_self_diverges :
    ∀ (fuel : Nat) (g : DependencyGraph), (∃ nd, g.heap 0 = some nd ∧ nd.target = 0) →
      hashValue g.m_nodeContainer 0 = some 0 → internalBuild selfMakefile fuel g 0 = none := by
  intro fuel
  induction fuel with
  | zero =>
    intro g _ _
    rfl
  | succ fuel ih =>
    rintro g ⟨nd, hnd, htg⟩ hmap
    unfold internalBuild
    rw [hnd]
    have hdeps : (selfMakefile.blocks nd.target).m_dependents = ["A"] := rfl
    simp only [hdeps]
    unfold internalBuildLoop
    have htarget : selfMakefile.target "A" = some 0 := by decide
    simp only [htarget, hmap]
    rw [addEdge_eq g 0 0 nd nd hnd hnd]
    simp only [Option.map_some']
    rw [ih { g with heap := fun id => (g.heap id).map (linkNode 0 0 id) }
      ⟨linkNode 0 0 0 nd, by simp only [hnd, Option.map_some'], htg⟩ hmap]

/-- On the makefile `A: A` the recursion of `build(A)` never ends: whatever bound is put on the
recursion depth, `build` does not return within it. When `internalBuild` meets the existing
node of `A` it adds the edge and recurses into that node again. -/
theorem selfMakefile_build_diverges :
    selfMakefile.target "A" = some 0 ∧ (selfMakefile.blocks 0).m_dependents = ["A"] ∧
    ∀ fuel, DependencyGraph.build selfMakefile fuel (DependencyGraph.init 0) 0 = none := by
  refine ⟨by decide, rfl, ?_⟩
  intro fuel
  unfold DependencyGraph.build
  simp only [DependencyGraph.createNode, DependencyGraph.allocNode, DependencyGraph.init]
  apply internalBuild_self_diverges
  · exact ⟨⟨0, [], [], NodeState.UnknownState⟩, by simp, rfl⟩
  · simp [hashInsert, hashRemove, hashValue]


theorem reachesCycle_step (mk : Makefile) (c : TargetId)
    (hc : Relation.TransGen (fun a b => b ∈ mk.resolvedDependents a) c c) (u : TargetId)
    (hu : mk.Reaches u c) : ∃ d ∈ mk.resolvedDependents u, mk.Reaches d c := by
  rcases Relation.ReflTransGen.cases_head hu with e | ⟨d, hd, hrest⟩
  · subst e
    rcases Relation.TransGen.head'_iff.1 hc with ⟨d, hd, hrest⟩
    exact ⟨d, hd, hrest⟩
  · exact ⟨d, hd, hrest⟩

theorem internalBuildLoop_diverges (mk : Makefile) (Q : TargetId → Prop)
    (recurse : DependencyGraph → NodeId → Option DependencyGraph) (node : NodeId)
    (hinv : ∀ g n g1, HeapInv g → recurse g n = some g1 → HeapInv g1)
    (hrec : ∀ g n nd, HeapInv g → g.heap n = some nd → Q nd.target → recurse g n = none) :
    ∀ (deps : List QString) (g : DependencyGraph), HeapInv g →
      (∃ d ∈ deps.filterMap mk.target, Q d) →
      internalBuildLoop mk recurse node deps g = none := by
  intro deps
  induction deps with
  | nil =>
    rintro g _ ⟨d, hd, _⟩
    cases hd
  | cons name rest ih =>
    rintro g hI ⟨d, hd, hQ⟩
    unfold internalBuildLoop
    cases ht : mk.target name with
    | none =>
      simp only [ht]
      rw [List.filterMap_cons_none ht] at hd
      exact ih g hI ⟨d, hd, hQ⟩
    | some dependent =>
      simp only [ht]
      rw [List.filterMap_cons_some ht] at hd
      cases hv : hashValue g.m_nodeContainer dependent with
      | some child =>
        simp only [hv]
        cases hadd : g.addEdge node child with
        | none => rfl
        | some g1 =>
          simp only [Option.map_some']
          have hI1 := addEdge_heapInv g g1 node child hI hadd
          cases hr : recurse g1 child with
          | none => rfl
          | some g2 =>
            simp only []
            rcases List.mem_cons.1 hd with e | hd
            · subst e
              obtain ⟨x, hx, hxt⟩ := hI.mapLive d child hv
              obtain ⟨⟨p, hp⟩, _⟩ := addEdge_live g g1 node child hadd
              rw [addEdge_eq g node child p x hp hx] at hadd
              cases hadd
              have := hrec _ child (linkNode node child child x) hI1
                (by simp only [hx, Option.map_some']) (by rw [linkNode_target, hxt]; exact hQ)
              rw [this] at hr
              cases hr
            · exact ih g2 (hinv g1 child g2 hI1 hr) ⟨d, hd, hQ⟩
      | none =>
        simp only [hv]
        cases hcr : g.createNode dependent (some node) with
        | none => rfl
        | some res =>
          obtain ⟨child, g1⟩ := res
          simp only []
          obtain ⟨hI1, _, _, hmap, _⟩ := createNode_spec g g1 dependent (some node) child hI hcr
          cases hr : recurse g1 child with
          | none => rfl
          | some g2 =>
            simp only []
            rcases List.mem_cons.1 hd with e | hd
            · subst e
              have hv1 : hashValue g1.m_nodeContainer d = some child := by
                rw [hmap, hashValue_insert, if_pos rfl]
              obtain ⟨x, hx, hxt⟩ := hI1.mapLive d child hv1
              have := hrec g1 child x hI1 hx (by rw [hxt]; exact hQ)
              rw [this] at hr
              cases hr
            · exact ih g2 (hinv g1 child g2 hI1 hr) ⟨d, hd, hQ⟩

theorem internalBuild_diverges (mk : Makefile) (Q : TargetId → Prop)
    (hQ : ∀ u, Q u → ∃ d ∈ mk.resolvedDependents u, Q d) :
    ∀ (fuel : Nat) (g : DependencyGraph) (node : NodeId) (nd : Node), HeapInv g →
      g.heap node = some nd → Q nd.target → internalBuild mk fuel g node = none := by
  intro fuel
  induction fuel with
  | zero =>
    intro g node nd _ _ _
    rfl
  | succ fuel ih =>
    intro g node nd hI hn hq
    unfold internalBuild
    rw [hn]
    exact internalBuildLoop_diverges mk Q (internalBuild mk fuel) node
      (fun g n g1 hI h => internalBuild_heapInv mk fuel g n g1 hI h) ih _ g hI (hQ _ hq)

theorem cycleMakefile_reachesCycle : cycleMakefile.ReachesCycle 0 := by
  refine ⟨0, Relation.ReflTransGen.refl, ?_⟩
  have h01 : (1 : TargetId) ∈ cycleMakefile.resolvedDependents 0 := by decide
  have h10 : (0 : TargetId) ∈ cycleMakefile.resolvedDependents 1 := by decide
  exact Relation.TransGen.tail (Relation.TransGen.single h01) h10

/-- C4 (the code at the failing input): when a cycle of the dependents relation can be reached
from the root, `build(root)` on an empty graph does not return, whatever bound is put on the
depth of the recursion. `internalBuild` adds the edge to a node that exists already and then
calls itself on that node as on a new one. -/
theorem C4_build_diverges_on_cycle (mk : Makefile) (target : TargetId)
    (h : mk.ReachesCycle target) (fuel : Nat) (base : NodeId) :
    (DependencyGraph.init base).build mk fuel target = none := by
  obtain ⟨c, hreach, hcyc⟩ := h
  unfold DependencyGraph.build
  cases hcr : (DependencyGraph.init base).createNode target none with
  | none => rfl
  | some res =>
    obtain ⟨root, g1⟩ := res
    simp only []
    obtain ⟨hI1, _, hnext, hmap, hroot, hrem, hlv⟩ :=
      createNode_spec _ g1 target none root (init_heapInv base) hcr
    have hv : hashValue g1.m_nodeContainer target = some root := by
      rw [hmap, hashValue_insert, if_pos rfl]
    obtain ⟨x, hx, hxt⟩ := hI1.mapLive target root hv
    have hI2 : HeapInv { g1 with m_root := some root } := heapInv_congr g1 _ hI1 rfl rfl rfl
    exact internalBuild_diverges mk (fun u => mk.Reaches u c)
      (fun u hu => reachesCycle_step mk c hcyc u hu) fuel _ root x hI2 hx
      (by rw [hxt]; exact hreach)

theorem C4_build_diverges_on_cycle_witness :
    cycleMakefile.ReachesCycle 0 ∧
    ∀ fuel, (DependencyGraph.init 0).build cycleMakefile fuel 0 = none :=
  ⟨cycleMakefile_reachesCycle,
    fun fuel => C4_build_diverges_on_cycle cycleMakefile 0 cycleMakefile_reachesCycle fuel 0⟩


/-! ## `build` on an acyclic makefile: auxiliary facts -/

theorem dropRepetitions_append_singleton (l : List TargetId) (x : TargetId) :
    dropRepetitions (l ++ [x]) =
      if x ∈ dropRepetitions l then dropRepetitions l else dropRepetitions l ++ [x] := by
  simp [dropRepetitions, List.foldl_append]

theorem dropRepetitions_nil : dropRepetitions [] = [] := rfl

theorem reaches_refl (mk : Makefile) (t : TargetId) : mk.Reaches t t :=
  Relation.ReflTransGen.refl

theorem reaches_head (mk : Makefile) (t d v : TargetId) (hd : d ∈ mk.resolvedDependents t)
    (h : mk.Reaches d v) : mk.Reaches t v :=
  Relation.ReflTransGen.head hd h

theorem reaches_trans (mk : Makefile) (a b c : TargetId) (h1 : mk.Reaches a b)
    (h2 : mk.Reaches b c) : mk.Reaches a c :=
  Relation.ReflTransGen.trans h1 h2

theorem reaches_cases (mk : Makefile) (t v : TargetId) (h : mk.Reaches t v) :
    v = t ∨ ∃ d ∈ mk.resolvedDependents t, mk.Reaches d v := by
  rcases Relation.ReflTransGen.cases_head h with h1 | ⟨d, hd, h2⟩
  · exact Or.inl h1.symm
  · exact Or.inr ⟨d, hd, h2⟩

theorem reaches_rank (mk : Makefile) (rank : TargetId → Nat) (hR : mk.RankedBy rank)
    (t v : TargetId) (h : mk.Reaches t v) : rank v ≤ rank t := by
  induction h with
  | refl => exact Nat.le_refl _
  | tail _ hstep ih => exact Nat.le_trans (Nat.le_of_lt (hR _ _ hstep)) ih

theorem complete_of_reaches (mk : Makefile) (g : DependencyGraph) (t v : TargetId)
    (h : Complete mk g t) (hr : mk.Reaches t v) : Complete mk g v :=
  fun w hw => h w (reaches_trans mk t v w hr hw)

theorem targetsOf_append (g : DependencyGraph) (l1 l2 : List NodeId) :
    g.targetsOf (l1 ++ l2) = g.targetsOf l1 ++ g.targetsOf l2 := by
  simp [DependencyGraph.targetsOf, List.filterMap_append]

theorem targetsOf_singleton (g : DependencyGraph) (c : NodeId) (cn : Node)
    (h : g.heap c = some cn) : g.targetsOf [c] = [cn.target] := by
  simp [DependencyGraph.targetsOf, List.filterMap, h]

theorem mem_targetsOf (g : DependencyGraph) (l : List NodeId) (u : TargetId) :
    u ∈ g.targetsOf l ↔ ∃ c ∈ l, ∃ cn, g.heap c = some cn ∧ cn.target = u := by
  simp [DependencyGraph.targetsOf, List.mem_filterMap]

theorem extendsAt_refl (g : DependencyGraph) (n : NodeId) : ExtendsAt g g n :=
  ⟨fun _ _ h => h, fun _ x h => ⟨x, h, rfl, rfl, fun _ => rfl⟩⟩

theorem extendsAt_trans (g g1 g2 : DependencyGraph) (n c : NodeId) (h1 : ExtendsAt g g1 n)
    (h2 : ExtendsAt g1 g2 c) (hc : c = n ∨ g.heap c = none) : ExtendsAt g g2 n := by
  refine ⟨fun u id h => h2.1 u id (h1.1 u id h), ?_⟩
  intro id x hx
  obtain ⟨x1, hx1, ht1, hs1, hc1⟩ := h1.2 id x hx
  obtain ⟨x2, hx2, ht2, hs2, hc2⟩ := h2.2 id x1 hx1
  refine ⟨x2, hx2, ht2.trans ht1, hs2.trans hs1, ?_⟩
  intro hid
  have hidc : id ≠ c := by
    rcases hc with rfl | hc
    · exact hid
    · rintro rfl
      rw [hc] at hx
      cases hx
  exact (hc2 hidc).trans (hc1 hid)

theorem targetsOf_extends (g g1 : DependencyGraph) (n : NodeId) (h : ExtendsAt g g1 n) :
    ∀ (l : List NodeId), (∀ c ∈ l, ∃ cn, g.heap c = some cn) →
      g1.targetsOf l = g.targetsOf l := by
  intro l
  induction l with
  | nil => intro _; rfl
  | cons c rest ih =>
    intro hl
    obtain ⟨cn, hcn⟩ := hl c (List.mem_cons_self c rest)
    obtain ⟨cn1, hcn1, ht, _, _⟩ := h.2 c cn hcn
    have hrest := ih (fun d hd => hl d (List.mem_cons_of_mem c hd))
    unfold DependencyGraph.targetsOf at hrest ⊢
    simp only [List.filterMap_cons, hcn, hcn1, Option.map_some', ht, hrest]

theorem inMap_extends (g g1 : DependencyGraph) (n : NodeId) (h : ExtendsAt g g1 n)
    (v : TargetId) (hv : InMap g v) : InMap g1 v := by
  obtain ⟨id, hid⟩ := hv
  exact ⟨id, h.1 v id hid⟩

/-- Finished nodes stay finished when the graph grows at a node whose target they do not
reach. -/
theorem complete_of_extends (mk : Makefile) (g g1 : DependencyGraph) (n : NodeId)
    (v : TargetId) (hI : HeapInv g) (h : ExtendsAt g g1 n)
    (hn : ∀ nd, g.heap n = some nd → ¬ mk.Reaches v nd.target) (hC : Complete mk g v) :
    Complete mk g1 v := by
  intro w hw
  obtain ⟨id, x, hmap, hheap, hch⟩ := hC w hw
  obtain ⟨x0, hx0, hx0t⟩ := hI.mapLive w id hmap
  rw [hheap] at hx0
  cases hx0
  have hid : id ≠ n := by
    rintro rfl
    exact hn x hheap (hx0t ▸ hw)
  obtain ⟨x1, hx1, _, _, hc1⟩ := h.2 id x hheap
  refine ⟨id, x1, h.1 w id hmap, hx1, ?_⟩
  rw [hc1 hid, targetsOf_extends g g1 n h x.children (hI.closedC id x hheap), hch]

theorem regInv_link (g : DependencyGraph) (parent child : NodeId) (hR : RegInv g) :
    RegInv { g with heap := fun id => (g.heap id).map (linkNode parent child id) } := by
  intro id nd1 h
  simp only [Option.map_eq_some'] at h
  obtain ⟨nd, hnd, rfl⟩ := h
  exact hR id nd hnd

theorem extendsAt_link (g : DependencyGraph) (parent child : NodeId) :
    ExtendsAt g { g with heap := fun id => (g.heap id).map (linkNode parent child id) }
      parent := by
  refine ⟨fun _ _ h => h, ?_⟩
  intro id x hx
  refine ⟨linkNode parent child id x, by simp [hx], rfl, rfl, ?_⟩
  intro hid
  simp [linkNode, linkParent, linkChild, hid]


/-- What `createNode(target, parent)` computes for a live parent: the new node gets the next
free address, has `parent` as its only parent and no children, and is appended to the
children of `parent`; nothing else changes in the node memory. -/
theorem createNode_child_spec (g : DependencyGraph) (n : NodeId) (nd : Node) (u : TargetId)
    (hI : HeapInv g) (hn : g.heap n = some nd) :
    ∃ g1, g.createNode u (some n) = some (g.nextAddr, g1) ∧ HeapInv g1 ∧
      g1.heap g.nextAddr = some ⟨u, [], [n], NodeState.UnknownState⟩ ∧
      g1.heap n = some { nd with children := nd.children ++ [g.nextAddr] } ∧
      (∀ id, id ≠ n → id ≠ g.nextAddr → g1.heap id = g.heap id) ∧
      g1.m_nodeContainer = hashInsert g.m_nodeContainer u g.nextAddr ∧
      g1.nextAddr = g.nextAddr + 1 := by
  have hfree : g.heap g.nextAddr = none := hI.fresh _ (Nat.le_refl _)
  have hne : n ≠ g.nextAddr := by
    rintro rfl
    rw [hfree] at hn
    cases hn
  have hnotin : g.nextAddr ∉ nd.children := by
    intro hm
    obtain ⟨cn, hcn⟩ := hI.closedC n nd hn _ hm
    rw [hfree] at hcn
    cases hcn
  cases hC : g.createNode u (some n) with
  | none =>
    exfalso
    unfold DependencyGraph.createNode at hC
    simp only at hC
    rw [addEdge_eq _ n g.nextAddr nd ⟨u, [], [], NodeState.UnknownState⟩
      (by simp [DependencyGraph.allocNode, Function.update_noteq hne, hn])
      (by simp [DependencyGraph.allocNode])] at hC
    simp at hC
  | some r =>
    obtain ⟨c, g1⟩ := r
    obtain ⟨hI1, hc, hnext, hmap, _, _, _⟩ := createNode_spec g g1 u (some n) c hI hC
    subst hc
    refine ⟨g1, rfl, hI1, ?_, ?_, ?_, hmap, hnext⟩
    all_goals
      unfold DependencyGraph.createNode at hC
      simp only at hC
      rw [addEdge_eq _ n g.nextAddr nd ⟨u, [], [], NodeState.UnknownState⟩
        (by simp [DependencyGraph.allocNode, Function.update_noteq hne, hn])
        (by simp [DependencyGraph.allocNode])] at hC
      simp only [Option.some.injEq, Prod.mk.injEq, true_and] at hC
      subst hC
      simp only [DependencyGraph.allocNode]
    · simp [linkNode, linkParent, linkChild, hne.symm]
    · simp [Function.update_noteq hne, hn, linkNode, linkParent, linkChild, hnotin, hne]
    · intro id h1 h2
      rw [Function.update_noteq h2]
      cases hx : g.heap id with
      | none => rfl
      | some x => simp [linkNode, linkParent, linkChild, h1, h2]

theorem createNode_child_regInv (g g1 : DependencyGraph) (n : NodeId) (nd : Node)
    (u : TargetId) (hR : RegInv g) (hu : hashValue g.m_nodeContainer u = none)
    (hn : g.heap n = some nd)
    (hc : g1.heap g.nextAddr = some ⟨u, [], [n], NodeState.UnknownState⟩)
    (hn1 : g1.heap n = some { nd with children := nd.children ++ [g.nextAddr] })
    (hrest : ∀ id, id ≠ n → id ≠ g.nextAddr → g1.heap id = g.heap id)
    (hmap : g1.m_nodeContainer = hashInsert g.m_nodeContainer u g.nextAddr) : RegInv g1 := by
  intro id x hx
  rw [hmap, hashValue_insert]
  by_cases h2 : id = g.nextAddr
  · subst h2
    rw [hc] at hx
    cases hx
    simp
  · have hold : ∃ x0, g.heap id = some x0 ∧ x0.target = x.target := by
      by_cases h1 : id = n
      · subst h1
        rw [hn1] at hx
        cases hx
        exact ⟨nd, hn, rfl⟩
      · rw [hrest id h1 h2] at hx
        exact ⟨x, hx, rfl⟩
    obtain ⟨x0, hx0, ht⟩ := hold
    have hreg := hR id x0 hx0
    rw [ht] at hreg
    have hxu : x.target ≠ u := by
      intro h
      rw [h, hu] at hreg
      cases hreg
    simp [hxu, hreg]

theorem createNode_child_extends (g g1 : DependencyGraph) (n : NodeId) (nd : Node)
    (u : TargetId) (hI : HeapInv g) (hu : hashValue g.m_nodeContainer u = none)
    (hn : g.heap n = some nd)
    (hn1 : g1.heap n = some { nd with children := nd.children ++ [g.nextAddr] })
    (hrest : ∀ id, id ≠ n → id ≠ g.nextAddr → g1.heap id = g.heap id)
    (hmap : g1.m_nodeContainer = hashInsert g.m_nodeContainer u g.nextAddr) :
    ExtendsAt g g1 n := by
  constructor
  · intro v id hv
    rw [hmap, hashValue_insert]
    have : v ≠ u := by
      rintro rfl
      rw [hu] at hv
      cases hv
    simp [this, hv]
  · intro id x hx
    by_cases h1 : id = n
    · subst h1
      rw [hn] at hx
      cases hx
      exact ⟨_, hn1, rfl, rfl, fun h => absurd rfl h⟩
    · have h2 : id ≠ g.nextAddr := by
        rintro rfl
        rw [hI.fresh _ (Nat.le_refl _)] at hx
        cases hx
      exact ⟨x, by rw [hrest id h1 h2]; exact hx, rfl, rfl, fun _ => rfl⟩


theorem mem_dropRepetitions (l : List TargetId) (x : TargetId) :
    x ∈ dropRepetitions l ↔ x ∈ l := by
  induction l using List.reverseRecOn with
  | nil => simp [dropRepetitions]
  | append_singleton l y ih =>
    rw [dropRepetitions_append_singleton]
    by_cases hy : y ∈ dropRepetitions l
    · simp only [hy, if_true, List.mem_append, List.mem_singleton]
      constructor
      · intro h
        exact Or.inl (ih.1 h)
      · rintro (h | rfl)
        · exact ih.2 h
        · exact hy
    · simp only [hy, if_false, List.mem_append, List.mem_singleton, ih]

theorem mem_resolvedDependents (mk : Makefile) (t u : TargetId) (name : QString)
    (hname : name ∈ (mk.blocks t).m_dependents) (hu : mk.target name = some u) :
    u ∈ mk.resolvedDependents t := by
  unfold Makefile.resolvedDependents
  rw [List.mem_filterMap]
  exact ⟨name, hname, hu⟩

/-- Adding an edge that is already there changes nothing. -/
theorem addEdge_noop (g : DependencyGraph) (n c : NodeId) (nd cn : Node)
    (hn : g.heap n = some nd) (hc : g.heap c = some cn) (h1 : c ∈ nd.children)
    (h2 : n ∈ cn.parents) : g.addEdge n c = some g := by
  rw [addEdge_eq g n c nd cn hn hc]
  congr 1
  cases g with
  | mk r m tr lv heap na =>
    simp only [DependencyGraph.mk.injEq, true_and, and_true]
    simp only at hn hc
    funext id
    cases hx : heap id with
    | none => rfl
    | some x =>
      have e1 : ¬ (id = n ∧ c ∉ x.children) := by
        rintro ⟨rfl, hnot⟩
        rw [hn] at hx
        cases hx
        exact hnot h1
      have e2 : ¬ (id = c ∧ n ∉ x.parents) := by
        rintro ⟨rfl, hnot⟩
        rw [hc] at hx
        cases hx
        exact hnot h2
      simp [linkNode, linkParent, linkChild, e1, e2]

theorem internalBuildLoop_noop (mk : Makefile)
    (recurse : DependencyGraph → NodeId → Option DependencyGraph) (n : NodeId)
    (g : DependencyGraph) :
    ∀ (deps : List QString),
      (∀ name ∈ deps, ∀ u, mk.target name = some u →
        ∃ c, hashValue g.m_nodeContainer u = some c ∧ g.addEdge n c = some g ∧
          recurse g c = some g) →
      internalBuildLoop mk recurse n deps g = some g := by
  intro deps
  induction deps with
  | nil => intro _; rfl
  | cons d rest ih =>
    intro h
    unfold internalBuildLoop
    cases ht : mk.target d with
    | none =>
      simp only
      exact ih (fun name hname => h name (List.mem_cons_of_mem d hname))
    | some u =>
      obtain ⟨c, hc, hadd, hrec⟩ := h d (List.mem_cons_self d rest) u ht
      simp only [hc, hadd, Option.map_some', hrec]
      exact ih (fun name hname => h name (List.mem_cons_of_mem d hname))

/-- Running `internalBuild` on a node whose whole subgraph is finished changes nothing. -/
theorem internalBuild_complete (mk : Makefile) (rank : TargetId → Nat)
    (hR : mk.RankedBy rank) :
    ∀ (fuel : Nat) (g : DependencyGraph) (n : NodeId) (t : TargetId), HeapInv g → RegInv g →
      hashValue g.m_nodeContainer t = some n → rank t < fuel → Complete mk g t →
      internalBuild mk fuel g n = some g := by
  intro fuel
  induction fuel with
  | zero =>
    intro g n t _ _ _ hlt _
    exact absurd hlt (Nat.not_lt_zero _)
  | succ fuel ih =>
    intro g n t hI hG hmap hlt hC
    obtain ⟨nd, hnd, ht⟩ := hI.mapLive t n hmap
    unfold internalBuild
    rw [hnd]
    simp only [ht]
    apply internalBuildLoop_noop
    intro name hname u hu
    have hmem := mem_resolvedDependents mk t u name hname hu
    have hreach : mk.Reaches t u := reaches_head mk t u u hmem (reaches_refl mk u)
    obtain ⟨c, cn, hcmap, hcheap, _⟩ := hC u hreach
    obtain ⟨n1, nd1, hn1map, hn1heap, hch⟩ := hC t (reaches_refl mk t)
    rw [hmap] at hn1map
    cases hn1map
    rw [hnd] at hn1heap
    cases hn1heap
    have hin : u ∈ g.targetsOf nd.children := by
      rw [hch, mem_dropRepetitions]
      exact hmem
    obtain ⟨c1, hc1, cn1, hcn1, hcn1t⟩ := (mem_targetsOf g nd.children u).1 hin
    have hreg := hG c1 cn1 hcn1
    rw [hcn1t, hcmap] at hreg
    cases hreg
    refine ⟨c, hcmap, ?_, ?_⟩
    · exact addEdge_noop g n c nd cn hnd hcheap hc1 ((hI.sym n c nd cn hnd hcheap).1 hc1)
    · have hru : rank u < rank t := hR t u hmem
      exact ih g c u hI hG hcmap (by omega) (complete_of_reaches mk g t u hC hreach)


theorem not_reaches_of_rank (mk : Makefile) (rank : TargetId → Nat) (hR : mk.RankedBy rank)
    (v t : TargetId) (h : rank v < rank t) : ¬ mk.Reaches v t := by
  intro hr
  have := reaches_rank mk rank hR v t hr
  omega

/-- The loop of `internalBuild` at a node `n` of target `t`, started after the resolved
dependents `doneT` have been handled: it returns, and then the children of `n` are the
resolved dependents of `t` without repetitions and every target below `t` is finished. -/
theorem internalBuildLoop_fresh (mk : Makefile) (rank : TargetId → Nat)
    (hR : mk.RankedBy rank)
    (recurse : DependencyGraph → NodeId → Option DependencyGraph) (n : NodeId) (t : TargetId)
    (hA : ∀ g c u, HeapInv g → RegInv g → hashValue g.m_nodeContainer u = some c →
      rank u < rank t → Complete mk g u → recurse g c = some g)
    (hB : ∀ g c cn, HeapInv g → RegInv g → g.heap c = some cn → rank cn.target < rank t →
      cn.children = [] → (∀ v, InMap g v → rank v < rank cn.target → Complete mk g v) →
      ∃ g1, recurse g c = some g1 ∧ BuildPost mk g c cn.target g1) :
    ∀ (suf : List QString) (doneT : List TargetId) (g : DependencyGraph) (nd : Node),
      doneT ++ suf.filterMap mk.target = mk.resolvedDependents t →
      HeapInv g → RegInv g → g.heap n = some nd → nd.target = t →
      g.targetsOf nd.children = dropRepetitions doneT →
      (∀ d ∈ doneT, InMap g d) →
      (∀ v, InMap g v → rank v < rank t → Complete mk g v) →
      ∃ g1 nd1, internalBuildLoop mk recurse n suf g = some g1 ∧ HeapInv g1 ∧ RegInv g1 ∧
        ExtendsAt g g1 n ∧
        (∀ v, InMap g1 v → InMap g v ∨ ∃ d ∈ suf.filterMap mk.target, mk.Reaches d v) ∧
        g1.heap n = some nd1 ∧
        g1.targetsOf nd1.children = dropRepetitions (mk.resolvedDependents t) ∧
        (∀ d ∈ mk.resolvedDependents t, InMap g1 d) ∧
        (∀ v, InMap g1 v → rank v < rank t → Complete mk g1 v) := by
  intro suf
  induction suf with
  | nil =>
    intro doneT g nd hsplit hI hG hnd _ hch hdone hinv
    simp only [List.filterMap_nil, List.append_nil] at hsplit
    subst hsplit
    exact ⟨g, nd, rfl, hI, hG, extendsAt_refl g n, fun v hv => Or.inl hv, hnd, hch, hdone, hinv⟩
  | cons name rest ih =>
    intro doneT g nd hsplit hI hG hnd ht hch hdone hinv
    unfold internalBuildLoop
    cases htarget : mk.target name with
    | none =>
      simp only [List.filterMap_cons, htarget] at hsplit ⊢
      exact ih doneT g nd hsplit hI hG hnd ht hch hdone hinv
    | some u =>
      simp only [List.filterMap_cons, htarget] at hsplit ⊢
      have hsplit2 : (doneT ++ [u]) ++ rest.filterMap mk.target = mk.resolvedDependents t := by
        rw [List.append_assoc]
        exact hsplit
      have humem : u ∈ mk.resolvedDependents t := by
        rw [← hsplit]
        simp
      have hrank : rank u < rank t := hR t u humem
      cases hv : hashValue g.m_nodeContainer u with
      | some c =>
        simp only
        obtain ⟨cn, hcn, hcnt⟩ := hI.mapLive u c hv
        have hCu : Complete mk g u := hinv u ⟨c, hv⟩ hrank
        have hI1 := heapInv_link g n c nd cn hI hnd hcn
        have hG1 := regInv_link g n c hG
        have hE1 := extendsAt_link g n c
        have hkeep : ∀ v, rank v < rank t → Complete mk g v →
            Complete mk { g with heap := fun id => (g.heap id).map (linkNode n c id) } v := by
          intro v hvr hCv
          refine complete_of_extends mk g _ n v hI hE1 ?_ hCv
          intro nd0 h0
          rw [hnd] at h0
          cases h0
          rw [ht]
          exact not_reaches_of_rank mk rank hR v t hvr
        have hrec := hA _ c u hI1 hG1 hv hrank (hkeep u hrank hCu)
        rw [addEdge_eq g n c nd cn hnd hcn]
        simp only [Option.map_some', hrec]
        have hkey : c ∈ nd.children ↔ u ∈ dropRepetitions doneT := by
          rw [← hch, mem_targetsOf]
          constructor
          · intro hc
            exact ⟨c, hc, cn, hcn, hcnt⟩
          · rintro ⟨c1, hc1, cn1, hcn1, hcn1t⟩
            have hreg := hG c1 cn1 hcn1
            rw [hcn1t, hv] at hreg
            cases hreg
            exact hc1
        have hlive := hI.closedC n nd hnd
        have hch1 : DependencyGraph.targetsOf
            { g with heap := fun id => (g.heap id).map (linkNode n c id) }
            (linkNode n c n nd).children = dropRepetitions (doneT ++ [u]) := by
          rw [dropRepetitions_append_singleton]
          by_cases hc : c ∈ nd.children
          · have e : (linkNode n c n nd).children = nd.children := by
              simp [linkNode, linkParent, linkChild, hc]
            rw [e, targetsOf_extends g _ n hE1 nd.children hlive, hch]
            simp [hkey.1 hc]
          · have e : (linkNode n c n nd).children = nd.children ++ [c] := by
              simp [linkNode, linkParent, linkChild, hc]
            have hnot : u ∉ dropRepetitions doneT := fun h => hc (hkey.2 h)
            rw [e, targetsOf_append, targetsOf_extends g _ n hE1 nd.children hlive, hch,
              targetsOf_singleton _ c (linkNode n c c cn) (by simp [hcn])]
            simp [hnot, linkNode_target, hcnt]
        obtain ⟨g3, nd3, hloop, hI3, hG3, hE3, hkeys3, hnd3, hch3, hdone3, hinv3⟩ :=
          ih (doneT ++ [u]) _ (linkNode n c n nd) hsplit2 hI1 hG1
            (by simp [hnd]) (by rw [linkNode_target]; exact ht) hch1
            (by
              intro d hd
              rcases List.mem_append.1 hd with hd | hd
              · exact hdone d hd
              · rw [List.mem_singleton] at hd
                subst hd
                exact ⟨c, hv⟩)
            (fun v hvin hvr => hkeep v hvr (hinv v hvin hvr))
        refine ⟨g3, nd3, hloop, hI3, hG3, extendsAt_trans g _ g3 n n hE1 hE3 (Or.inl rfl),
          ?_, hnd3, hch3, hdone3, hinv3⟩
        intro v hvin
        rcases hkeys3 v hvin with h | ⟨d, hd, hr⟩
        · exact Or.inl h
        · exact Or.inr ⟨d, List.mem_cons_of_mem u hd, hr⟩
      | none =>
        simp only
        obtain ⟨g1, hcreate, hI1, hc1, hn1, hrest1, hmap1, _⟩ :=
          createNode_child_spec g n nd u hI hnd
        have hG1 := createNode_child_regInv g g1 n nd u hG hv hnd hc1 hn1 hrest1 hmap1
        have hE1 := createNode_child_extends g g1 n nd u hI hv hnd hn1 hrest1 hmap1
        have hfree : g.heap g.nextAddr = none := hI.fresh _ (Nat.le_refl _)
        have hne : n ≠ g.nextAddr := by
          rintro rfl
          rw [hfree] at hnd
          cases hnd
        have hin1 : ∀ v, InMap g1 v → v = u ∨ InMap g v := by
          rintro v ⟨id, hid⟩
          rw [hmap1, hashValue_insert] at hid
          by_cases hvu : v = u
          · exact Or.inl hvu
          · simp only [hvu, if_false] at hid
            exact Or.inr ⟨id, hid⟩
        have hkeep : ∀ v, rank v < rank t → Complete mk g v → Complete mk g1 v := by
          intro v hvr hCv
          refine complete_of_extends mk g g1 n v hI hE1 ?_ hCv
          intro nd0 h0
          rw [hnd] at h0
          cases h0
          rw [ht]
          exact not_reaches_of_rank mk rank hR v t hvr
        obtain ⟨g2, hrec, hP⟩ := hB g1 g.nextAddr ⟨u, [], [n], NodeState.UnknownState⟩
          hI1 hG1 hc1 hrank rfl (by
            intro v hvin hvr
            have hvr2 : rank v < rank u := hvr
            rcases hin1 v hvin with rfl | h
            · omega
            · exact hkeep v (by omega) (hinv v h (by omega)))
        rw [hcreate]
        simp only [hrec]
        obtain ⟨x2, hx2, hx2t, _, hx2c⟩ := hP.ext.2 n _ hn1
        have hx2c2 : x2.children = nd.children ++ [g.nextAddr] := hx2c hne
        have hnot : u ∉ dropRepetitions doneT := by
          rw [← hch, mem_targetsOf]
          rintro ⟨c1, _, cn1, hcn1, hcn1t⟩
          have hreg := hG c1 cn1 hcn1
          rw [hcn1t, hv] at hreg
          cases hreg
        have hch2 : g2.targetsOf x2.children = dropRepetitions (doneT ++ [u]) := by
          rw [dropRepetitions_append_singleton, hx2c2,
            targetsOf_extends g1 g2 g.nextAddr hP.ext _ (hI1.closedC n _ hn1),
            targetsOf_append, targetsOf_extends g g1 n hE1 nd.children (hI.closedC n nd hnd),
            hch, targetsOf_singleton g1 g.nextAddr _ hc1]
          simp [hnot]
        have hu1 : InMap g1 u := ⟨g.nextAddr, by rw [hmap1, hashValue_insert]; simp⟩
        have hinv2 : ∀ v, InMap g2 v → rank v < rank t → Complete mk g2 v := by
          intro v hvin hvr
          rcases hP.keys v hvin with h1 | hr
          · rcases hin1 v h1 with rfl | h
            · exact hP.complete
            · have hCv := hinv v h hvr
              refine complete_of_extends mk g1 g2 g.nextAddr v hI1 hP.ext ?_ (hkeep v hvr hCv)
              intro nd0 h0
              rw [hc1] at h0
              cases h0
              intro hreach
              obtain ⟨id, _, hid, _, _⟩ := hCv u hreach
              rw [hv] at hid
              cases hid
          · exact complete_of_reaches mk g2 u v hP.complete hr
        obtain ⟨g3, nd3, hloop, hI3, hG3, hE3, hkeys3, hnd3, hch3, hdone3, hinv3⟩ :=
          ih (doneT ++ [u]) g2 x2 hsplit2 hP.inv hP.reg hx2 (by rw [hx2t]; exact ht) hch2
            (by
              intro d hd
              rcases List.mem_append.1 hd with hd | hd
              · exact inMap_extends g1 g2 _ hP.ext d (inMap_extends g g1 n hE1 d (hdone d hd))
              · rw [List.mem_singleton] at hd
                subst hd
                exact inMap_extends g1 g2 _ hP.ext d hu1)
            hinv2
        refine ⟨g3, nd3, hloop, hI3, hG3, ?_, ?_, hnd3, hch3, hdone3, hinv3⟩
        · exact extendsAt_trans g g2 g3 n n
            (extendsAt_trans g g1 g2 n g.nextAddr hE1 hP.ext (Or.inr hfree)) hE3 (Or.inl rfl)
        · intro v hvin
          rcases hkeys3 v hvin with h | ⟨d, hd, hr⟩
          · rcases hP.keys v h with h1 | hr
            · rcases hin1 v h1 with rfl | h0
              · exact Or.inr ⟨v, List.mem_cons_self v _, reaches_refl mk v⟩
              · exact Or.inl h0
            · exact Or.inr ⟨u, List.mem_cons_self u _, hr⟩
          · exact Or.inr ⟨d, List.mem_cons_of_mem u hd, hr⟩


/-- On an acyclic makefile `internalBuild` returns for a node without children, given fuel
beyond the rank of its target, and finishes the whole subgraph below it. -/
theorem internalBuild_fresh (mk : Makefile) (rank : TargetId → Nat) (hR : mk.RankedBy rank) :
    ∀ (fuel : Nat) (g : DependencyGraph) (n : NodeId) (nd : Node), HeapInv g → RegInv g →
      g.heap n = some nd → rank nd.target < fuel → nd.children = [] →
      (∀ v, InMap g v → rank v < rank nd.target → Complete mk g v) →
      ∃ g1, internalBuild mk fuel g n = some g1 ∧ BuildPost mk g n nd.target g1 := by
  intro fuel
  induction fuel with
  | zero =>
    intro g n nd _ _ _ hlt _ _
    exact absurd hlt (Nat.not_lt_zero _)
  | succ fuel ih =>
    intro g n nd hI hG hnd hlt hch hinv
    unfold internalBuild
    rw [hnd]
    simp only
    obtain ⟨g1, nd1, hloop, hI1, hG1, hE1, hkeys1, hnd1, hch1, hdone1, hinv1⟩ :=
      internalBuildLoop_fresh mk rank hR (internalBuild mk fuel) n nd.target
        (fun g c u hI hG hmap hr hC =>
          internalBuild_complete mk rank hR fuel g c u hI hG hmap (by omega) hC)
        (fun g c cn hI hG hc hr hcc hinv => ih g c cn hI hG hc (by omega) hcc hinv)
        (mk.blocks nd.target).m_dependents [] g nd
        (by simp [Makefile.resolvedDependents]) hI hG hnd rfl
        (by rw [hch]; rfl) (by intro d hd; cases hd) hinv
    refine ⟨g1, hloop, hI1, hG1, ?_, hE1, ?_⟩
    · intro v hv
      rcases reaches_cases mk nd.target v hv with rfl | ⟨d, hd, hr⟩
      · obtain ⟨x1, hx1, hx1t, _, _⟩ := hE1.2 n nd hnd
        rw [hnd1] at hx1
        cases hx1
        have hreg := hG1 n nd1 hnd1
        rw [hx1t] at hreg
        exact ⟨n, nd1, hreg, hnd1, hch1⟩
      · exact hinv1 d (hdone1 d hd) (hR nd.target d hd) v hr
    · intro v hv
      rcases hkeys1 v hv with h | ⟨d, hd, hr⟩
      · exact Or.inl h
      · exact Or.inr (reaches_head mk nd.target d v hd hr)

/-- The state in which `build` calls `internalBuild`: the graph `init base` after
`createNode(target, 0)` and the assignment of `m_root`. -/
theorem build_init_eq (mk : Makefile) (fuel : Nat) (base : NodeId) (target : TargetId) :
    (DependencyGraph.init base).build mk fuel target =
      internalBuild mk fuel
        { m_root := some base
          m_nodeContainer := [(target, base)]
          m_nodesToRemove := []
          m_leaves := []
          heap := Function.update (fun _ => none) base
            (some ⟨target, [], [], NodeState.UnknownState⟩)
          nextAddr := base + 1 } base := by
  rfl

/-- On an acyclic makefile `build(T)` on an empty graph returns, given fuel beyond the rank of
`T`; the result satisfies the invariants, every target reachable from `T` is finished, and
only reachable targets are in the node container. -/
theorem build_init_spec (mk : Makefile) (rank : TargetId → Nat) (hR : mk.RankedBy rank)
    (fuel : Nat) (base : NodeId) (target : TargetId) (hfuel : rank target < fuel) :
    ∃ g1, (DependencyGraph.init base).build mk fuel target = some g1 ∧
      HeapInv g1 ∧ RegInv g1 ∧ Complete mk g1 target ∧
      (∀ v, InMap g1 v → mk.Reaches target v) ∧
      hashValue g1.m_nodeContainer target = some base := by
  rw [build_init_eq]
  have hI0 : HeapInv (DependencyGraph.init base) := init_heapInv base
  have hI : HeapInv
      { m_root := some base
        m_nodeContainer := [(target, base)]
        m_nodesToRemove := []
        m_leaves := []
        heap := Function.update (fun _ => none) base
          (some ⟨target, [], [], NodeState.UnknownState⟩)
        nextAddr := base + 1 } :=
    heapInv_congr _ _ (heapInv_insert _ target base ⟨target, [], [], NodeState.UnknownState⟩
      (heapInv_alloc (DependencyGraph.init base) target hI0)
      (by simp [DependencyGraph.init, DependencyGraph.allocNode]) rfl) rfl rfl rfl
  have hG : RegInv
      { m_root := some base
        m_nodeContainer := [(target, base)]
        m_nodesToRemove := []
        m_leaves := []
        heap := Function.update (fun _ => none) base
          (some ⟨target, [], [], NodeState.UnknownState⟩)
        nextAddr := base + 1 } := by
    intro id x hx
    by_cases hid : id = base
    · subst hid
      simp only [Function.update_same, Option.some.injEq] at hx
      subst hx
      simp [hashValue]
    · simp [Function.update_noteq hid] at hx
  obtain ⟨g1, hb, hP⟩ := internalBuild_fresh mk rank hR fuel _ base
    ⟨target, [], [], NodeState.UnknownState⟩ hI hG (by simp) hfuel rfl (by
      rintro v ⟨id, hid⟩ hvr
      have hvr2 : rank v < rank target := hvr
      by_cases hvt : target = v
      · subst hvt
        omega
      · simp [hashValue, hvt] at hid)
  refine ⟨g1, hb, hP.inv, hP.reg, hP.complete, ?_, ?_⟩
  · intro v hv
    rcases hP.keys v hv with ⟨id, hid⟩ | hr
    · by_cases hvt : target = v
      · subst hvt
        exact reaches_refl mk _
      · simp [hashValue, hvt] at hid
    · exact hr
  · exact hP.ext.1 target base (by simp [hashValue])


/-! ## More fuel does not change the result of `build` -/

theorem internalBuildLoop_mono (mk : Makefile)
    (rec1 rec2 : DependencyGraph → NodeId → Option DependencyGraph) (node : NodeId)
    (hrec : ∀ g n g1, rec1 g n = some g1 → rec2 g n = some g1) :
    ∀ (deps : List QString) (g g1 : DependencyGraph),
      internalBuildLoop mk rec1 node deps g = some g1 →
      internalBuildLoop mk rec2 node deps g = some g1 := by
  intro deps
  induction deps with
  | nil => intro g g1 h; exact h
  | cons d rest ih =>
    intro g g1 h
    unfold internalBuildLoop at h ⊢
    cases ht : mk.target d with
    | none =>
      simp only [ht] at h ⊢
      exact ih g g1 h
    | some dependent =>
      simp only [ht] at h ⊢
      cases hl : (match hashValue g.m_nodeContainer dependent with
        | some child => (g.addEdge node child).map (fun g1 => (child, g1))
        | none => g.createNode dependent (some node)) with
      | none => simp [hl] at h
      | some r =>
        obtain ⟨child, g2⟩ := r
        simp only [hl] at h ⊢
        cases hR : rec1 g2 child with
        | none => simp [hR] at h
        | some g3 =>
          simp only [hR] at h
          simp only [hrec g2 child g3 hR]
          exact ih g3 g1 h

theorem internalBuild_mono (mk : Makefile) :
    ∀ (fuel : Nat) (g : DependencyGraph) (n : NodeId) (g1 : DependencyGraph),
      internalBuild mk fuel g n = some g1 → internalBuild mk (fuel + 1) g n = some g1 := by
  intro fuel
  induction fuel with
  | zero =>
    intro g n g1 h
    simp [internalBuild] at h
  | succ fuel ih =>
    intro g n g1 h
    unfold internalBuild at h ⊢
    cases hn : g.heap n with
    | none => simp [hn] at h
    | some nd =>
      simp only [hn] at h ⊢
      exact internalBuildLoop_mono mk (internalBuild mk fuel) (internalBuild mk (fuel + 1)) n
        ih _ g g1 h

theorem internalBuild_mono_le (mk : Makefile) (fuel fuel1 : Nat) (hle : fuel ≤ fuel1)
    (g : DependencyGraph) (n : NodeId) (g1 : DependencyGraph)
    (h : internalBuild mk fuel g n = some g1) : internalBuild mk fuel1 g n = some g1 := by
  induction hle with
  | refl => exact h
  | step _ ih => exact internalBuild_mono mk _ g n g1 ih

theorem build_mono_le (mk : Makefile) (fuel fuel1 : Nat) (hle : fuel ≤ fuel1)
    (g : DependencyGraph) (target : TargetId) (g1 : DependencyGraph)
    (h : g.build mk fuel target = some g1) : g.build mk fuel1 target = some g1 := by
  unfold DependencyGraph.build at h ⊢
  cases hC : g.createNode target none with
  | none => simp [hC] at h
  | some r =>
    obtain ⟨root, g2⟩ := r
    simp only [hC] at h ⊢
    exact internalBuild_mono_le mk fuel fuel1 hle _ root g1 h

theorem diamond_ranked : diamondMakefile.RankedBy diamondRank := by
  intro t d hd
  match t with
  | 0 =>
    have : d = 1 ∨ d = 2 ∨ d = 1 := by
      simpa [Makefile.resolvedDependents, diamondMakefile, mkBlock] using hd
    rcases this with rfl | rfl | rfl <;> decide
  | 1 =>
    have : d = 3 := by
      simpa [Makefile.resolvedDependents, diamondMakefile, mkBlock] using hd
    subst this
    decide
  | 2 =>
    have : d = 3 := by
      simpa [Makefile.resolvedDependents, diamondMakefile, mkBlock] using hd
    subst this
    decide
  | n + 3 =>
    simp [Makefile.resolvedDependents, diamondMakefile, mkBlock] at hd

theorem diamond_acyclic : diamondMakefile.Acyclic := ⟨diamondRank, diamond_ranked⟩

/-- On an empty graph `build(root)` returns for every makefile whose dependents relation is
acyclic: from some bound on the recursion depth on, `build` returns one and the same graph. -/
theorem build_terminates_acyclic (mk : Makefile) (hA : mk.Acyclic) (base : NodeId)
    (target : TargetId) :
    ∃ fuel g1, ∀ fuel1, fuel ≤ fuel1 →
      (DependencyGraph.init base).build mk fuel1 target = some g1 := by
  obtain ⟨rank, hR⟩ := hA
  obtain ⟨g1, hb, _⟩ :=
    build_init_spec mk rank hR (rank target + 1) base target (Nat.lt_succ_self _)
  exact ⟨rank target + 1, g1, fun fuel1 hle => build_mono_le mk _ fuel1 hle _ target g1 hb⟩

theorem diamond_build_terminates :
    ∃ fuel g1, ∀ fuel1, fuel ≤ fuel1 →
      (DependencyGraph.init 0).build diamondMakefile fuel1 0 = some g1 :=
  build_terminates_acyclic diamondMakefile diamond_acyclic 0 0


/-! ## What `build` constructs on an acyclic makefile -/

theorem keys_hashInsert_nodup (h : List (TargetId × NodeId)) (t : TargetId) (n : NodeId)
    (hn : (h.map Prod.fst).Nodup) : ((hashInsert h t n).map Prod.fst).Nodup := by
  unfold hashInsert hashRemove
  rw [List.map_append]
  refine List.Nodup.append ?_ (by simp) ?_
  · exact List.Nodup.sublist ((List.filter_sublist h).map Prod.fst) hn
  · intro a ha hb
    simp only [List.map_cons, List.map_nil, List.mem_singleton] at hb
    subst hb
    rw [List.mem_map] at ha
    obtain ⟨e, he, rfl⟩ := ha
    simp [List.mem_filter] at he

theorem addEdge_nodeContainer (g g1 : DependencyGraph) (p c : NodeId)
    (h : g.addEdge p c = some g1) : g1.m_nodeContainer = g.m_nodeContainer := by
  obtain ⟨⟨pn, hp⟩, ⟨cn, hc⟩⟩ := addEdge_live g g1 p c h
  rw [addEdge_eq g p c pn cn hp hc] at h
  cases h
  rfl

theorem build_keysNodup (mk : Makefile) (fuel : Nat) (base : NodeId) (target : TargetId)
    (g1 : DependencyGraph) (h : (DependencyGraph.init base).build mk fuel target = some g1) :
    KeysNodup g1 := by
  rw [build_init_eq] at h
  have hP := internalBuild_preserves (fun g => HeapInv g ∧ KeysNodup g) mk
    (fun g p c g1 hI h =>
      ⟨addEdge_heapInv g g1 p c hI.1 h, by
        unfold KeysNodup
        rw [addEdge_nodeContainer g g1 p c h]
        exact hI.2⟩)
    (fun g t p n g1 hI h => by
      obtain ⟨h1, _, _, hmap, _⟩ := createNode_spec g g1 t p n hI.1 h
      refine ⟨h1, ?_⟩
      unfold KeysNodup
      rw [hmap]
      exact keys_hashInsert_nodup _ t n hI.2)
    fuel _ base g1 ⟨?_, ?_⟩ h
  · exact hP.2
  · exact heapInv_congr _ _ (heapInv_insert _ target base
      ⟨target, [], [], NodeState.UnknownState⟩
      (heapInv_alloc (DependencyGraph.init base) target (init_heapInv base))
      (by simp [DependencyGraph.init, DependencyGraph.allocNode]) rfl) rfl rfl rfl
  · simp [KeysNodup]

theorem map_target_eq_targetsOf (g : DependencyGraph) :
    ∀ (l : List NodeId), (∀ c ∈ l, ∃ cn, g.heap c = some cn) →
      l.map (fun c => (g.heap c).map Node.target) = (g.targetsOf l).map some := by
  intro l
  induction l with
  | nil => intro _; rfl
  | cons c rest ih =>
    intro hl
    obtain ⟨cn, hcn⟩ := hl c (List.mem_cons_self c rest)
    have hrest := ih (fun d hd => hl d (List.mem_cons_of_mem c hd))
    unfold DependencyGraph.targetsOf at hrest ⊢
    simp only [List.map_cons, List.filterMap_cons, hcn, Option.map_some', hrest]

/-- C5: for every makefile with an acyclic dependents relation and every root target `T`,
`build(T)` on an empty graph returns a graph in which (a) the node container holds every key
once, (b) a target has an entry exactly when it is reachable from `T` through dependent names
that resolve to a target, (c) every `Node` is the entry of its own target, so there is one
`Node` per reachable target and none besides, and (d) the children of the `Node` of a target
are live nodes whose targets are the resolved dependents of the target in declaration order
with later repetitions dropped; names that do not resolve contribute neither node nor edge. -/
theorem C5_build_acyclic (mk : Makefile) (hA : mk.Acyclic) (base : NodeId)
    (target : TargetId) :
    ∃ fuel g1, (DependencyGraph.init base).build mk fuel target = some g1 ∧
      KeysNodup g1 ∧
      (∀ v, InMap g1 v ↔ mk.Reaches target v) ∧
      (∀ id nd, g1.heap id = some nd → hashValue g1.m_nodeContainer nd.target = some id) ∧
      (∀ v id, hashValue g1.m_nodeContainer v = some id →
        ∃ nd, g1.heap id = some nd ∧ nd.target = v ∧
          nd.children.map (fun c => (g1.heap c).map Node.target) =
            (dropRepetitions (mk.resolvedDependents v)).map some) := by
  obtain ⟨rank, hR⟩ := hA
  obtain ⟨g1, hb, hI, hG, hC, hkeys, _⟩ :=
    build_init_spec mk rank hR (rank target + 1) base target (Nat.lt_succ_self _)
  refine ⟨rank target + 1, g1, hb, build_keysNodup mk _ base target g1 hb, ?_, hG, ?_⟩
  · intro v
    constructor
    · exact hkeys v
    · intro hr
      obtain ⟨id, _, hid, _, _⟩ := hC v hr
      exact ⟨id, hid⟩
  · intro v id hid
    obtain ⟨id1, nd, hid1, hnd, hch⟩ := hC v (hkeys v ⟨id, hid⟩)
    rw [hid] at hid1
    cases hid1
    obtain ⟨nd0, hnd0, ht⟩ := hI.mapLive v id hid
    rw [hnd] at hnd0
    cases hnd0
    refine ⟨nd, hnd, ht, ?_⟩
    rw [map_target_eq_targetsOf g1 nd.children (hI.closedC id nd hnd), hch]

theorem C5_build_acyclic_witness :
    ∃ fuel g1, (DependencyGraph.init 0).build diamondMakefile fuel 0 = some g1 ∧
      KeysNodup g1 ∧
      (∀ v, InMap g1 v ↔ diamondMakefile.Reaches 0 v) ∧
      (∀ id nd, g1.heap id = some nd → hashValue g1.m_nodeContainer nd.target = some id) ∧
      (∀ v id, hashValue g1.m_nodeContainer v = some id →
        ∃ nd, g1.heap id = some nd ∧ nd.target = v ∧
          nd.children.map (fun c => (g1.heap c).map Node.target) =
            (dropRepetitions (diamondMakefile.resolvedDependents v)).map some) :=
  C5_build_acyclic diamondMakefile diamond_acyclic 0 0




/-! ## `build` does not depend on the addresses of the nodes -/

theorem addr_sub_add (a k : Nat) (h : ¬ a < k) : a - k + k = a := by omega

theorem addr_not_lt (a k : Nat) : ¬ a + k < k := by omega

theorem addr_add_inj (a b k : Nat) : a + k = b + k ↔ a = b := by omega

theorem addr_ne_of_lt (a b k : Nat) (h : a < k) : a ≠ b + k := by omega

theorem addr_sub_ne (a b k : Nat) (h1 : ¬ a < k) (h2 : a ≠ b + k) : a - k ≠ b := by omega

theorem shift_heap_add (k : Nat) (g : DependencyGraph) (id : NodeId) :
    (g.shift k).heap (id + k) = (g.heap id).map (Node.shift k) := by
  simp [DependencyGraph.shift, addr_not_lt id k]

theorem hashValue_shift (k : Nat) (h : List (TargetId × NodeId)) (t : TargetId) :
    hashValue (h.map (fun e => (e.1, e.2 + k))) t = (hashValue h t).map (· + k) := by
  induction h with
  | nil => rfl
  | cons e rest ih =>
    obtain ⟨a, b⟩ := e
    by_cases hk : a = t
    · simp [hashValue, hk]
    · simp [hashValue, hk, ih]

theorem hashInsert_shift (k : Nat) (h : List (TargetId × NodeId)) (t : TargetId)
    (n : NodeId) :
    (hashInsert h t n).map (fun e => (e.1, e.2 + k)) =
      hashInsert (h.map (fun e => (e.1, e.2 + k))) t (n + k) := by
  unfold hashInsert hashRemove
  rw [List.map_append, List.filter_map]
  rfl

theorem mem_map_add (k : Nat) (l : List NodeId) (c : NodeId) :
    c + k ∈ l.map (· + k) ↔ c ∈ l := by
  simp

theorem linkChild_shift (k : Nat) (p c j : NodeId) (nd : Node) :
    Node.shift k (linkChild p c j nd) =
      linkChild (p + k) (c + k) (j + k) (Node.shift k nd) := by
  have m1 : (c + k ∈ List.map (fun x => x + k) nd.children) ↔ c ∈ nd.children := by simp
  unfold linkChild Node.shift
  simp only [addr_add_inj, m1]
  by_cases h1 : j = p ∧ c ∉ nd.children
  · simp [h1]
  · simp [h1]

theorem linkParent_shift (k : Nat) (p c j : NodeId) (nd : Node) :
    Node.shift k (linkParent p c j nd) =
      linkParent (p + k) (c + k) (j + k) (Node.shift k nd) := by
  have m2 : (p + k ∈ List.map (fun x => x + k) nd.parents) ↔ p ∈ nd.parents := by simp
  unfold linkParent Node.shift
  simp only [addr_add_inj, m2]
  by_cases h2 : j = c ∧ p ∉ nd.parents
  · simp [h2]
  · simp [h2]

theorem linkNode_shift (k : Nat) (p c j : NodeId) (nd : Node) :
    Node.shift k (linkNode p c j nd) = linkNode (p + k) (c + k) (j + k) (Node.shift k nd) := by
  unfold linkNode
  rw [linkParent_shift, linkChild_shift]

theorem addEdge_shift (k : Nat) (g g1 : DependencyGraph) (p c : NodeId)
    (h : g.addEdge p c = some g1) :
    (g.shift k).addEdge (p + k) (c + k) = some (g1.shift k) := by
  obtain ⟨⟨pn, hp⟩, ⟨cn, hc⟩⟩ := addEdge_live g g1 p c h
  rw [addEdge_eq g p c pn cn hp hc] at h
  cases h
  rw [addEdge_eq (g.shift k) (p + k) (c + k) (Node.shift k pn) (Node.shift k cn)
    (by rw [shift_heap_add, hp]; rfl) (by rw [shift_heap_add, hc]; rfl)]
  simp only [DependencyGraph.shift, Option.some.injEq, DependencyGraph.mk.injEq, true_and,
    and_true]
  funext id
  by_cases hid : id < k
  · simp [hid]
  · simp only [hid, if_false]
    cases hx : g.heap (id - k) with
    | none => rfl
    | some x =>
      have e : id - k + k = id := addr_sub_add id k hid
      simp only [Option.map_some', Option.some.injEq]
      rw [linkNode_shift, e]

theorem allocNode_shift (k : Nat) (g : DependencyGraph) (t : TargetId) :
    (g.allocNode t).shift k = (g.shift k).allocNode t := by
  simp only [DependencyGraph.shift, DependencyGraph.allocNode, DependencyGraph.mk.injEq,
    true_and]
  refine ⟨?_, Nat.add_right_comm _ _ _⟩
  funext id
  by_cases hid : id < k
  · have hne : id ≠ g.nextAddr + k := addr_ne_of_lt id g.nextAddr k hid
    simp [hid, Function.update_noteq hne]
  · by_cases h2 : id = g.nextAddr + k
    · subst h2
      have h4 : g.nextAddr + k - k = g.nextAddr := Nat.add_sub_cancel _ _
      simp only [hid, if_false, Function.update_same]
      rw [h4, Function.update_same]
      rfl
    · have h3 : id - k ≠ g.nextAddr := addr_sub_ne id g.nextAddr k hid h2
      simp [hid, Function.update_noteq h2, Function.update_noteq h3]

theorem createNode_shift (k : Nat) (g g1 : DependencyGraph) (t : TargetId)
    (parent : Option NodeId) (n : NodeId) (h : g.createNode t parent = some (n, g1)) :
    (g.shift k).createNode t (parent.map (· + k)) = some (n + k, g1.shift k) := by
  unfold DependencyGraph.createNode at h ⊢
  cases parent with
  | none =>
    simp only [Option.some.injEq, Prod.mk.injEq] at h
    obtain ⟨h1, h2⟩ := h
    subst h1 h2
    simp only [Option.map_none', Option.some.injEq, Prod.mk.injEq]
    refine ⟨rfl, ?_⟩
    rw [← allocNode_shift]
    simp only [DependencyGraph.shift, hashInsert_shift]
  | some p =>
    simp only [Option.map_some'] at h ⊢
    cases hE : (g.allocNode t).addEdge p g.nextAddr with
    | none => simp [hE] at h
    | some g2 =>
      simp only [hE, Option.some.injEq, Prod.mk.injEq] at h
      obtain ⟨h1, h2⟩ := h
      subst h1 h2
      have hE2 := addEdge_shift k _ g2 p g.nextAddr hE
      rw [allocNode_shift] at hE2
      have hna : (g.shift k).nextAddr = g.nextAddr + k := rfl
      rw [hna, hE2]
      simp only [Option.some.injEq, Prod.mk.injEq, true_and]
      simp only [DependencyGraph.shift, hashInsert_shift]

theorem internalBuildLoop_shift (k : Nat) (mk : Makefile)
    (rec1 rec2 : DependencyGraph → NodeId → Option DependencyGraph) (node : NodeId)
    (hrec : ∀ g n g1, rec1 g n = some g1 → rec2 (g.shift k) (n + k) = some (g1.shift k)) :
    ∀ (deps : List QString) (g g1 : DependencyGraph),
      internalBuildLoop mk rec1 node deps g = some g1 →
      internalBuildLoop mk rec2 (node + k) deps (g.shift k) = some (g1.shift k) := by
  intro deps
  induction deps with
  | nil =>
    intro g g1 h
    simp only [internalBuildLoop, Option.some.injEq] at h ⊢
    rw [h]
  | cons d rest ih =>
    intro g g1 h
    unfold internalBuildLoop at h ⊢
    cases ht : mk.target d with
    | none =>
      simp only [ht] at h ⊢
      exact ih g g1 h
    | some dependent =>
      simp only [ht] at h ⊢
      have hv2 : hashValue (g.shift k).m_nodeContainer dependent =
          (hashValue g.m_nodeContainer dependent).map (· + k) := hashValue_shift k _ _
      rw [hv2]
      cases hv : hashValue g.m_nodeContainer dependent with
      | some child =>
        simp only [hv, Option.map_some'] at h ⊢
        cases hE : g.addEdge node child with
        | none => simp [hE] at h
        | some g2 =>
          simp only [hE, Option.map_some'] at h
          rw [addEdge_shift k g g2 node child hE]
          simp only [Option.map_some']
          cases hR : rec1 g2 child with
          | none => simp [hR] at h
          | some g3 =>
            simp only [hR] at h
            rw [hrec g2 child g3 hR]
            exact ih g3 g1 h
      | none =>
        simp only [hv, Option.map_none'] at h ⊢
        cases hC : g.createNode dependent (some node) with
        | none => simp [hC] at h
        | some r =>
          obtain ⟨child, g2⟩ := r
          simp only [hC] at h
          have hC2 := createNode_shift k g g2 dependent (some node) child hC
          simp only [Option.map_some'] at hC2
          rw [hC2]
          simp only
          cases hR : rec1 g2 child with
          | none => simp [hR] at h
          | some g3 =>
            simp only [hR] at h
            rw [hrec g2 child g3 hR]
            exact ih g3 g1 h

theorem internalBuild_shift (k : Nat) (mk : Makefile) :
    ∀ (fuel : Nat) (g : DependencyGraph) (n : NodeId) (g1 : DependencyGraph),
      internalBuild mk fuel g n = some g1 →
      internalBuild mk fuel (g.shift k) (n + k) = some (g1.shift k) := by
  intro fuel
  induction fuel with
  | zero =>
    intro g n g1 h
    simp [internalBuild] at h
  | succ fuel ih =>
    intro g n g1 h
    unfold internalBuild at h ⊢
    rw [shift_heap_add]
    cases hn : g.heap n with
    | none => simp [hn] at h
    | some nd =>
      simp only [hn, Option.map_some'] at h ⊢
      exact internalBuildLoop_shift k mk (internalBuild mk fuel) (internalBuild mk fuel) n
        ih _ g g1 h

theorem init_shift (k base : Nat) :
    (DependencyGraph.init base).shift k = DependencyGraph.init (base + k) := by
  simp only [DependencyGraph.shift, DependencyGraph.init, DependencyGraph.mk.injEq,
    Option.map_none', List.map_nil, true_and, and_true]
  funext id
  by_cases hid : id < k <;> simp [hid]

theorem build_shift (k : Nat) (mk : Makefile) (fuel : Nat) (g g1 : DependencyGraph)
    (target : TargetId) (h : g.build mk fuel target = some g1) :
    (g.shift k).build mk fuel target = some (g1.shift k) := by
  unfold DependencyGraph.build at h ⊢
  cases hC : g.createNode target none with
  | none => simp [hC] at h
  | some r =>
    obtain ⟨root, g2⟩ := r
    simp only [hC] at h
    have hC2 := createNode_shift k g g2 target none root hC
    simp only [Option.map_none'] at hC2
    rw [hC2]
    exact internalBuild_shift k mk fuel _ root g1 h

/-- Moving the nodes of a graph to other addresses does not change its structural view. -/
theorem view_shift (k : Nat) (g : DependencyGraph) : (g.shift k).view = g.view := by
  have hT : ∀ id, (g.shift k).targetAt (id + k) = g.targetAt id := by
    intro id
    unfold DependencyGraph.targetAt
    rw [shift_heap_add]
    cases g.heap id <;> rfl
  have hL : ∀ l : List NodeId, (l.map (· + k)).map (g.shift k).targetAt = l.map g.targetAt := by
    intro l
    rw [List.map_map]
    apply List.map_congr_left
    intro id _
    exact hT id
  have hN : ∀ id, (g.shift k).nodeView (id + k) = g.nodeView id := by
    intro id
    unfold DependencyGraph.nodeView
    rw [shift_heap_add]
    cases hx : g.heap id with
    | none => rfl
    | some x =>
      simp only [Option.map_some', Node.shift, Option.some.injEq, NodeView.mk.injEq, true_and,
        and_true]
      exact ⟨hL x.children, hL x.parents⟩
  unfold DependencyGraph.view
  simp only [GraphView.mk.injEq]
  refine ⟨?_, ?_, ?_, rfl⟩
  · show (g.m_root.map (· + k)).map (g.shift k).targetAt = g.m_root.map g.targetAt
    cases g.m_root with
    | none => rfl
    | some r => simp [hT]
  · show (g.m_nodeContainer.map (fun e => (e.1, e.2 + k))).map
        (fun e => (e.1, (g.shift k).nodeView e.2)) = _
    rw [List.map_map]
    apply List.map_congr_left
    intro e _
    simp [hN]
  · exact hL g.m_nodesToRemove


/-! ## `build`, `clear`, `build` -/

theorem addEdge_pristine (g g1 : DependencyGraph) (p c : NodeId) (hP : Pristine g)
    (h : g.addEdge p c = some g1) : Pristine g1 := by
  obtain ⟨⟨pn, hp⟩, ⟨cn, hc⟩⟩ := addEdge_live g g1 p c h
  rw [addEdge_eq g p c pn cn hp hc] at h
  cases h
  refine ⟨?_, hP.2.1, hP.2.2⟩
  intro id nd1 hnd1
  simp only [Option.map_eq_some'] at hnd1
  obtain ⟨nd, hnd, rfl⟩ := hnd1
  exact hP.1 id nd hnd

theorem allocNode_pristine (g : DependencyGraph) (t : TargetId) (hP : Pristine g) :
    Pristine (g.allocNode t) := by
  refine ⟨?_, hP.2.1, hP.2.2⟩
  intro id nd hnd
  unfold DependencyGraph.allocNode at hnd
  by_cases hid : id = g.nextAddr
  · subst hid
    simp only [Function.update_same, Option.some.injEq] at hnd
    subst hnd
    rfl
  · simp only [Function.update_noteq hid] at hnd
    exact hP.1 id nd hnd

theorem createNode_pristine (g g1 : DependencyGraph) (t : TargetId) (parent : Option NodeId)
    (n : NodeId) (hP : Pristine g) (h : g.createNode t parent = some (n, g1)) :
    Pristine g1 := by
  unfold DependencyGraph.createNode at h
  cases parent with
  | none =>
    simp only [Option.some.injEq, Prod.mk.injEq] at h
    obtain ⟨_, h2⟩ := h
    subst h2
    exact allocNode_pristine g t hP
  | some p =>
    simp only at h
    cases hE : (g.allocNode t).addEdge p g.nextAddr with
    | none => simp [hE] at h
    | some g2 =>
      simp only [hE, Option.some.injEq, Prod.mk.injEq] at h
      obtain ⟨_, h2⟩ := h
      subst h2
      exact addEdge_pristine _ g2 p g.nextAddr (allocNode_pristine g t hP) hE

theorem build_pristine (mk : Makefile) (fuel : Nat) (g g1 : DependencyGraph)
    (target : TargetId) (hP : Pristine g) (h : g.build mk fuel target = some g1) :
    Pristine g1 := by
  unfold DependencyGraph.build at h
  cases hC : g.createNode target none with
  | none => simp [hC] at h
  | some r =>
    obtain ⟨root, g2⟩ := r
    simp only [hC] at h
    have h2 := createNode_pristine g g2 target none root hP hC
    exact internalBuild_preserves Pristine mk
      (fun g p c g1 hP h => addEdge_pristine g g1 p c hP h)
      (fun g t p n g1 hP h => createNode_pristine g g1 t p n hP h)
      fuel { g2 with m_root := some root } root g1 h2 h

theorem init_pristine (base : NodeId) : Pristine (DependencyGraph.init base) := by
  refine ⟨?_, rfl, rfl⟩
  intro id nd h
  simp [DependencyGraph.init] at h

/-- After `clear` a graph in which every live node is in the node container is the empty
graph, with the next free address unchanged. -/
theorem clear_eq_init (g : DependencyGraph) (hG : RegInv g) :
    g.clear = DependencyGraph.init g.nextAddr := by
  simp only [DependencyGraph.clear, DependencyGraph.init, DependencyGraph.mk.injEq, true_and,
    and_true]
  funext id
  cases hx : g.heap id with
  | none => simp
  | some x =>
    have hmem := hashValue_mem g.m_nodeContainer x.target id (hG id x hx)
    have : id ∈ g.m_nodeContainer.map Prod.snd := List.mem_map.2 ⟨(x.target, id), hmem, rfl⟩
    simp [this]

/-- C6: round trip. For every acyclic makefile and target `T`, `build(T)` on a fresh graph
returns a graph `g1`, `build(T)` after `clear()` on it returns a graph `g2`, and `g2` is
structurally equal to `g1`: the same root, the same node set with the same ordered children
and parents lists and states, the same auxiliary lists; in both graphs every node is in
state Unknown and the auxiliary lists are empty. -/
theorem C6_build_clear_build (mk : Makefile) (hA : mk.Acyclic) (base : NodeId)
    (target : TargetId) :
    ∃ fuel g1 g2, (DependencyGraph.init base).build mk fuel target = some g1 ∧
      g1.clear.build mk fuel target = some g2 ∧ g2.view = g1.view ∧
      Pristine g1 ∧ Pristine g2 := by
  obtain ⟨rank, hR⟩ := hA
  obtain ⟨g0, hb0, _⟩ :=
    build_init_spec mk rank hR (rank target + 1) 0 target (Nat.lt_succ_self _)
  have hshift : ∀ b, (DependencyGraph.init b).build mk (rank target + 1) target =
      some (g0.shift b) := by
    intro b
    have h := build_shift b mk (rank target + 1) _ g0 target hb0
    rw [init_shift, Nat.zero_add] at h
    exact h
  obtain ⟨g1, hb1, _, hG1, _⟩ :=
    build_init_spec mk rank hR (rank target + 1) base target (Nat.lt_succ_self _)
  have e1 : g1 = g0.shift base := by
    have h := hshift base
    rw [hb1] at h
    exact Option.some.inj h
  have hb2 : g1.clear.build mk (rank target + 1) target = some (g0.shift g1.nextAddr) := by
    rw [clear_eq_init g1 hG1]
    exact hshift g1.nextAddr
  refine ⟨rank target + 1, g1, g0.shift g1.nextAddr, hb1, hb2, ?_, ?_, ?_⟩
  · rw [view_shift, e1, view_shift]
  · exact build_pristine mk _ _ g1 target (init_pristine base) hb1
  · have h := hshift g1.nextAddr
    exact build_pristine mk _ _ _ target (init_pristine g1.nextAddr) h

theorem C6_build_clear_build_witness :
    ∃ fuel g1 g2, (DependencyGraph.init 0).build diamondMakefile fuel 0 = some g1 ∧
      g1.clear.build diamondMakefile fuel 0 = some g2 ∧ g2.view = g1.view ∧
      Pristine g1 ∧ Pristine g2 :=
  C6_build_clear_build diamondMakefile diamond_acyclic 0 0


/-! ## The search for an available target -/

/-- A second up-to-date check of a target gives the answer of the first. -/
theorem isTargetUpToDate_idem (w : World) (b : DescriptionBlock) :
    isTargetUpToDate w (isTargetUpToDate w b).2 = isTargetUpToDate w b := by
  unfold isTargetUpToDate probeTarget
  by_cases h1 : b.m_bFileExists = true
  · by_cases h2 : b.m_timeStamp.isValid = true
    · simp [h1, h2]
    · simp [h1, h2]
  · by_cases h3 : (w.fileInfo b.targetName).exists_ = true
    · by_cases h4 : (w.fileInfo b.targetName).lastModified.isValid = true
      · simp [h1, h3, h4]
      · simp [h1, h3, h4]
    · simp [h1, h3]

/-- The invariant of the node memory does not mention the states of the nodes. -/
theorem heapInv_of_edges (g g1 : DependencyGraph) (hI : HeapInv g)
    (hmap : g1.m_nodeContainer = g.m_nodeContainer) (hnext : g1.nextAddr = g.nextAddr)
    (hshape : ∀ id, (g1.heap id).map Node.edges = (g.heap id).map Node.edges) :
    HeapInv g1 := by
  have old : ∀ id x1, g1.heap id = some x1 →
      ∃ x, g.heap id = some x ∧ x.target = x1.target ∧ x.children = x1.children ∧
        x.parents = x1.parents := by
    intro id x1 h
    have hs := hshape id
    rw [h] at hs
    cases hx : g.heap id with
    | none => simp [hx] at hs
    | some x =>
      simp only [hx, Option.map_some', Option.some.injEq, Node.edges, Prod.mk.injEq] at hs
      exact ⟨x, rfl, hs.1.symm, hs.2.1.symm, hs.2.2.symm⟩
  have keep : ∀ id x, g.heap id = some x → ∃ x1, g1.heap id = some x1 ∧
      x1.target = x.target := by
    intro id x h
    have hs := hshape id
    rw [h] at hs
    cases hx : g1.heap id with
    | none => simp [hx] at hs
    | some x1 =>
      simp only [hx, Option.map_some', Option.some.injEq, Node.edges, Prod.mk.injEq] at hs
      exact ⟨x1, rfl, hs.1⟩
  constructor
  · intro id x1 h c hc
    obtain ⟨x, hx, _, hch, _⟩ := old id x1 h
    obtain ⟨cn, hcn⟩ := hI.closedC id x hx c (hch ▸ hc)
    obtain ⟨cn1, hcn1, _⟩ := keep c cn hcn
    exact ⟨cn1, hcn1⟩
  · intro id x1 h p hp
    obtain ⟨x, hx, _, _, hpa⟩ := old id x1 h
    obtain ⟨pn, hpn⟩ := hI.closedP id x hx p (hpa ▸ hp)
    obtain ⟨pn1, hpn1, _⟩ := keep p pn hpn
    exact ⟨pn1, hpn1⟩
  · intro p c pn1 cn1 h1 h2
    obtain ⟨pn, hpn, _, hch, _⟩ := old p pn1 h1
    obtain ⟨cn, hcn, _, _, hpa⟩ := old c cn1 h2
    rw [← hch, ← hpa]
    exact hI.sym p c pn cn hpn hcn
  · intro id x1 h
    obtain ⟨x, hx, _, hch, _⟩ := old id x1 h
    exact hch ▸ hI.nodupC id x hx
  · intro id x1 h
    obtain ⟨x, hx, _, _, hpa⟩ := old id x1 h
    exact hpa ▸ hI.nodupP id x hx
  · intro id hid
    rw [hnext] at hid
    have hs := hshape id
    rw [hI.fresh id hid] at hs
    cases hx : g1.heap id with
    | none => rfl
    | some x1 => simp [hx] at hs
  · intro t id h
    rw [hmap] at h
    obtain ⟨x, hx, ht⟩ := hI.mapLive t id h
    obtain ⟨x1, hx1, ht1⟩ := keep id x hx
    exact ⟨x1, hx1, ht1.trans ht⟩

theorem regInv_of_edges (g g1 : DependencyGraph) (hG : RegInv g)
    (hmap : g1.m_nodeContainer = g.m_nodeContainer)
    (hshape : ∀ id, (g1.heap id).map Node.edges = (g.heap id).map Node.edges) :
    RegInv g1 := by
  intro id x1 h
  have hs := hshape id
  rw [h] at hs
  cases hx : g.heap id with
  | none => simp [hx] at hs
  | some x =>
    simp only [hx, Option.map_some', Option.some.injEq, Node.edges, Prod.mk.injEq] at hs
    rw [hmap, hs.1]
    exact hG id x hx

/-- Changing the state of a node that is not Executing keeps the core invariant; the
deferred-removal list may change as well. -/
theorem coreInv_setState (g : DependencyGraph) (node : NodeId) (nd : Node) (s : NodeState)
    (l : List NodeId) (hC : CoreInv g) (hn : g.heap node = some nd)
    (hs : nd.state ≠ NodeState.ExecutingState) :
    CoreInv { g.setNode node { nd with state := s } with m_nodesToRemove := l } := by
  have hshape : ∀ id, (Function.update g.heap node (some { nd with state := s }) id).map
      Node.edges = (g.heap id).map Node.edges := by
    intro id
    by_cases hid : id = node
    · subst hid
      simp [hn, Node.edges]
    · rw [Function.update_noteq hid]
  refine ⟨heapInv_of_edges g _ hC.heap rfl rfl hshape, regInv_of_edges g _ hC.reg rfl hshape, ?_⟩
  intro t ht
  obtain ⟨id, x, hmap, hx, hst⟩ := hC.leaves t ht
  have hid : id ≠ node := by
    rintro rfl
    rw [hn] at hx
    cases hx
    exact hs hst
  exact ⟨id, x, hmap, by simp [DependencyGraph.setNode, Function.update_noteq hid, hx], hst⟩

theorem removalInv_setBlock (w : World) (mk : Makefile) (g : DependencyGraph)
    (l : List NodeId) (t : TargetId) (h : RemovalInv w mk g l) :
    RemovalInv w (mk.setBlock t (isTargetUpToDate w (mk.blocks t)).2) g l := by
  refine ⟨h.1, ?_⟩
  intro id hid
  obtain ⟨nd, hnd, hst, hup⟩ := h.2 id hid
  refine ⟨nd, hnd, hst, ?_⟩
  unfold Makefile.setBlock
  by_cases ht : nd.target = t
  · subst ht
    simp only [Function.update_same]
    rw [isTargetUpToDate_idem]
    exact hup
  · simp only [Function.update_noteq ht]
    exact hup


theorem findAvailableTargetLoop_spec (w : World)
    (recurse : Makefile → DependencyGraph → NodeId →
      Option (Option TargetId × Makefile × DependencyGraph))
    (hrec : ∀ mk g c r mk1 g1, SearchInv w mk g → recurse mk g c = some (r, mk1, g1) →
      SearchInv w mk1 g1 ∧ ∀ t, r = some t → ExecutingInMap g1 t) :
    ∀ (children : List NodeId) (mk : Makefile) (g : DependencyGraph) (r : Option TargetId)
      (mk1 : Makefile) (g1 : DependencyGraph), SearchInv w mk g →
      findAvailableTargetLoop recurse children mk g = some (r, mk1, g1) →
      SearchInv w mk1 g1 ∧ ∀ t, r = some t → ExecutingInMap g1 t := by
  intro children
  induction children with
  | nil =>
    intro mk g r mk1 g1 hS h
    simp only [findAvailableTargetLoop, Option.some.injEq, Prod.mk.injEq] at h
    obtain ⟨h1, h2, h3⟩ := h
    subst h1 h2 h3
    exact ⟨hS, fun t ht => by cases ht⟩
  | cons c rest ih =>
    intro mk g r mk1 g1 hS h
    unfold findAvailableTargetLoop at h
    cases hR : recurse mk g c with
    | none => simp [hR] at h
    | some res =>
      obtain ⟨r2, mk2, g2⟩ := res
      have h2 := hrec mk g c r2 mk2 g2 hS hR
      cases r2 with
      | some result =>
        simp only [hR, Option.some.injEq, Prod.mk.injEq] at h
        obtain ⟨e1, e2, e3⟩ := h
        subst e1 e2 e3
        exact h2
      | none =>
        simp only [hR] at h
        exact ih mk2 g2 r mk1 g1 h2.1 h

/-- The per-node search keeps the invariant, and a target it returns has its node in the node
map in state Executing. -/
theorem findAvailableTargetNode_spec (w : World) :
    ∀ (fuel : Nat) (mk : Makefile) (g : DependencyGraph) (node : NodeId)
      (r : Option TargetId) (mk1 : Makefile) (g1 : DependencyGraph), SearchInv w mk g →
      findAvailableTargetNode w fuel mk g node = some (r, mk1, g1) →
      SearchInv w mk1 g1 ∧ ∀ t, r = some t → ExecutingInMap g1 t := by
  intro fuel
  induction fuel with
  | zero =>
    intro mk g node r mk1 g1 _ h
    simp [findAvailableTargetNode] at h
  | succ fuel ih =>
    intro mk g node r mk1 g1 hS h
    unfold findAvailableTargetNode at h
    cases hn : g.heap node with
    | none => simp [hn] at h
    | some nd =>
      simp only [hn] at h
      by_cases hleaf : nd.children.isEmpty = true
      · simp only [hleaf, if_true] at h
        by_cases hex : nd.state = NodeState.ExecutingState
        · simp only [hex, if_true, Option.some.injEq, Prod.mk.injEq] at h
          obtain ⟨e1, e2, e3⟩ := h
          subst e1 e2 e3
          exact ⟨hS, fun t ht => by cases ht⟩
        · simp only [hex, if_false] at h
          have hrem := removalInv_setBlock w mk g g.m_nodesToRemove nd.target hS.removal
          by_cases hup : (isTargetUpToDate w (mk.blocks nd.target)).1 = true
          · simp only [hup, if_true] at h
            by_cases hst : nd.state = NodeState.UpToDateState
            · simp only [hst, ne_eq, not_true_eq_false, if_false, Option.some.injEq,
                Prod.mk.injEq] at h
              obtain ⟨e1, e2, e3⟩ := h
              subst e1 e2 e3
              exact ⟨⟨hS.core, hrem⟩, fun t ht => by cases ht⟩
            · simp only [ne_eq, hst, not_false_eq_true, if_true, Option.some.injEq,
                Prod.mk.injEq] at h
              obtain ⟨e1, e2, e3⟩ := h
              subst e1 e2 e3
              refine ⟨⟨coreInv_setState g node nd _ _ hS.core hn hex, ?_⟩,
                fun t ht => by cases ht⟩
              have hnotin : node ∉ g.m_nodesToRemove := by
                intro hm
                obtain ⟨x, hx, hxs, _⟩ := hS.removal.2 node hm
                rw [hn] at hx
                cases hx
                exact hst hxs
              constructor
              · exact List.Nodup.append hS.removal.1 (List.nodup_singleton node) (by
                  intro a ha hb
                  rw [List.mem_singleton] at hb
                  exact hnotin (hb ▸ ha))
              · intro id hid
                rcases List.mem_append.1 hid with hid | hid
                · obtain ⟨x, hx, hxs, hxu⟩ := hrem.2 id hid
                  have hne : id ≠ node := fun e => hnotin (e ▸ hid)
                  exact ⟨x, by simp [DependencyGraph.setNode, Function.update_noteq hne, hx],
                    hxs, hxu⟩
                · rw [List.mem_singleton] at hid
                  subst hid
                  refine ⟨{ nd with state := NodeState.UpToDateState },
                    by simp [DependencyGraph.setNode], rfl, ?_⟩
                  simp only [Makefile.setBlock, Function.update_same]
                  rw [isTargetUpToDate_idem]
                  exact hup
          · simp only [hup, Bool.false_eq_true, if_false, Option.some.injEq,
              Prod.mk.injEq] at h
            obtain ⟨e1, e2, e3⟩ := h
            subst e1 e2 e3
            have hnotin : node ∉ g.m_nodesToRemove := by
              intro hm
              obtain ⟨x, hx, _, hxu⟩ := hS.removal.2 node hm
              rw [hn] at hx
              cases hx
              exact hup hxu
            have hcore := coreInv_setState g node nd NodeState.ExecutingState
              g.m_nodesToRemove hS.core hn hex
            refine ⟨⟨hcore, hrem.1, ?_⟩, ?_⟩
            · intro id hid
              obtain ⟨x, hx, hxs, hxu⟩ := hrem.2 id hid
              have hne : id ≠ node := fun e => hnotin (e ▸ hid)
              exact ⟨x, by simp [DependencyGraph.setNode, Function.update_noteq hne, hx],
                hxs, hxu⟩
            · intro t ht
              cases ht
              exact ⟨node, { nd with state := NodeState.ExecutingState }, hS.core.reg node nd hn,
                by simp [DependencyGraph.setNode], rfl⟩
      · simp only [hleaf, Bool.false_eq_true, if_false] at h
        exact findAvailableTargetLoop_spec w (findAvailableTargetNode w fuel) ih
          nd.children mk g r mk1 g1 hS h


theorem coreInv_congr (g g1 : DependencyGraph) (hC : CoreInv g) (h1 : g1.heap = g.heap)
    (h2 : g1.nextAddr = g.nextAddr) (h3 : g1.m_nodeContainer = g.m_nodeContainer)
    (h4 : ∀ t ∈ g1.m_leaves, ExecutingInMap g t) : CoreInv g1 := by
  refine ⟨heapInv_congr g g1 hC.heap h1 h2 h3, ?_, ?_⟩
  · intro id nd h
    rw [h1] at h
    rw [h3]
    exact hC.reg id nd h
  · intro t ht
    obtain ⟨id, nd, hmap, hnd, hst⟩ := h4 t ht
    exact ⟨id, nd, by rw [h3]; exact hmap, by rw [h1]; exact hnd, hst⟩

/-- Removing a node that no collected leaf points to keeps the core invariant; the other
nodes keep their states. -/
theorem removeNode_coreInv (g g1 : DependencyGraph) (node : NodeId) (hC : CoreInv g)
    (hleaf : ∀ t ∈ g.m_leaves, hashValue g.m_nodeContainer t ≠ some node)
    (h : g.removeNode node = some g1) :
    CoreInv g1 ∧ g1.m_leaves = g.m_leaves ∧ g1.m_nodesToRemove = g.m_nodesToRemove ∧
      (∀ id x, id ≠ node → g.heap id = some x →
        ∃ x1, g1.heap id = some x1 ∧ x1.state = x.state) := by
  cases hn : g.heap node with
  | none => simp [DependencyGraph.removeNode, hn] at h
  | some nd =>
    obtain ⟨g2, h2, hheap, hmap, _, htr, hlv, hnext⟩ := removeNode_spec g node nd hC.heap hn
    have e : g2 = g1 := by
      rw [h2] at h
      exact Option.some.inj h
    subst e
    have keep : ∀ id x, id ≠ node → g.heap id = some x →
        g2.heap id = some (unlinkNode node x) := by
      intro id x hid hx
      rw [hheap]
      simp [hid, hx]
    have hne : ∀ id x, id ≠ node → g.heap id = some x → x.target ≠ nd.target := by
      intro id x hid hx ht
      have r1 := hC.reg id x hx
      have r2 := hC.reg node nd hn
      rw [ht, r2] at r1
      cases r1
      exact hid rfl
    refine ⟨⟨heapInv_unlink g g2 node nd hC.heap hn hheap hmap hnext, ?_, ?_⟩, hlv, htr, ?_⟩
    · intro id x1 hx1
      rw [hheap] at hx1
      by_cases hid : id = node
      · simp [hid] at hx1
      · simp only [hid, if_false, Option.map_eq_some'] at hx1
        obtain ⟨x, hx, rfl⟩ := hx1
        rw [hmap, hashValue_remove]
        have := hne id x hid hx
        simp only [unlinkNode, this, if_false]
        exact hC.reg id x hx
    · intro t ht
      rw [hlv] at ht
      obtain ⟨id, x, hm, hx, hst⟩ := hC.leaves t ht
      have hid : id ≠ node := by
        rintro rfl
        exact hleaf t ht hm
      obtain ⟨x0, hx0, hx0t⟩ := hC.heap.mapLive t id hm
      rw [hx] at hx0
      cases hx0
      refine ⟨id, unlinkNode node x, ?_, keep id x hid hx, hst⟩
      rw [hmap, hashValue_remove]
      have := hne id x hid hx
      rw [hx0t] at this
      simp only [this, if_false]
      exact hm
    · intro id x hid hx
      exact ⟨unlinkNode node x, keep id x hid hx, rfl⟩

theorem build_init_coreInv (mk : Makefile) (hA : mk.Acyclic) (fuel : Nat) (base : NodeId)
    (target : TargetId) (g : DependencyGraph)
    (h : (DependencyGraph.init base).build mk fuel target = some g) :
    CoreInv g ∧ g.m_nodesToRemove = [] := by
  obtain ⟨rank, hR⟩ := hA
  obtain ⟨g1, hb1, hI, hG, _⟩ := build_init_spec mk rank hR (max fuel (rank target + 1)) base
    target (by omega)
  have hb2 := build_mono_le mk fuel (max fuel (rank target + 1)) (Nat.le_max_left _ _) _
    target g h
  rw [hb1] at hb2
  have e : g1 = g := Option.some.inj hb2
  subst e
  have hP := build_pristine mk fuel _ g1 target (init_pristine base) h
  refine ⟨⟨hI, hG, ?_⟩, hP.2.1⟩
  intro t ht
  rw [hP.2.2] at ht
  cases ht

theorem diamondGraph_find :
    (diamondGraph.findAvailableTarget emptyWorld noRules 10 diamondMakefile).map Prod.fst =
      some (some 3) := by
  rfl

/-! ## The scheduler: token accounting -/

theorem available_length_le (v : TokenView) (h1 : v.available.Nodup)
    (h2 : ∀ x ∈ v.available, x ∈ v.processes) : 0 ≤ v.running := by
  have h := (List.subperm_of_subset h1 h2).length_le
  unfold TokenView.running
  omega

theorem available_length_lt (v : TokenView) (e : ExecId) (h1 : v.available.Nodup)
    (h2 : ∀ x ∈ v.available, x ∈ v.processes) (he : e ∈ v.processes)
    (hne : e ∉ v.available) : 1 ≤ v.running := by
  have hnd : (e :: v.available).Nodup := List.nodup_cons.2 ⟨hne, h1⟩
  have hsub : ∀ x ∈ e :: v.available, x ∈ v.processes := by
    intro x hx
    rcases List.mem_cons.1 hx with rfl | hx
    · exact he
    · exact h2 x hx
  have h := (List.subperm_of_subset hnd hsub).length_le
  simp only [List.length_cons] at h
  unfold TokenView.running
  omega

/-- Every step of the token view keeps the invariant of the token accounting. -/
theorem tokenStep_inv (v v1 : TokenView) (hI : TokenInv v) (h : TokenStep v v1) :
    TokenInv v1 := by
  have hrun := available_length_le v hI.availNodup hI.availSub
  cases h with
  | stay => exact hI
  | caught hab hac =>
    have hl := (hI.live hab).2 hac
    refine ⟨hI.availNodup, hI.availSub, fun h => (by cases h), fun _ => ⟨hac, ?_, ?_, ?_⟩⟩
    · show 0 ≤ v.count
      omega
    · show v.running - 1 ≤ v.count
      omega
    · show v.count ≤ v.running
      omega
  | freeStart e rest ab hab hac hav hr =>
    have hl := (hI.live hab).2 hac
    have hnd : rest.Nodup := by
      have := hI.availNodup
      rw [hav] at this
      exact (List.nodup_cons.1 this).2
    have hsub : ∀ x ∈ rest, x ∈ v.processes := by
      intro x hx
      exact hI.availSub x (by rw [hav]; exact List.mem_cons_of_mem e hx)
    have hlen : (v.available.length : Int) = (rest.length : Int) + 1 := by
      rw [hav]
      simp
    have hr2 : (v.processes.length : Int) - (v.available.length : Int) = 0 := hr
    have hrun1 : ((v.processes.length : Int) - (rest.length : Int)) = 1 := by omega
    have hc : v.count = 0 := by
      rw [hl, hr]
      rfl
    refine ⟨hnd, hsub, ?_, ?_⟩
    · intro _
      refine ⟨fun h => ?_, fun _ => ?_⟩
      · rw [hac] at h
        cases h
      · show v.count = max 0 ((v.processes.length : Int) - (rest.length : Int) - 1)
        rw [hrun1, hc]
        rfl
    · intro _
      refine ⟨hac, ?_, ?_, ?_⟩
      · show 0 ≤ v.count
        omega
      · show (v.processes.length : Int) - (rest.length : Int) - 1 ≤ v.count
        omega
      · show v.count ≤ (v.processes.length : Int) - (rest.length : Int)
        omega
  | request hab hac hr =>
    have hl := (hI.live hab).2 hac
    refine ⟨hI.availNodup, hI.availSub, ?_, ?_⟩
    · intro _
      refine ⟨fun _ => ?_, fun h => by cases h⟩
      show v.count + 1 = v.running
      omega
    · intro h
      rw [hab] at h
      cases h
  | grantedAborted hac hab =>
    have := (hI.dead hab).1
    rw [hac] at this
    cases this
  | grantedStart e rest ab hac hab hav =>
    have hl := (hI.live hab).1 hac
    have hnd : rest.Nodup := by
      have := hI.availNodup
      rw [hav] at this
      exact (List.nodup_cons.1 this).2
    have hsub : ∀ x ∈ rest, x ∈ v.processes := by
      intro x hx
      exact hI.availSub x (by rw [hav]; exact List.mem_cons_of_mem e hx)
    have hlen : (v.available.length : Int) = (rest.length : Int) + 1 := by
      rw [hav]
      simp
    have hr2 : v.running = (v.processes.length : Int) - (v.available.length : Int) := rfl
    refine ⟨hnd, hsub, ?_, ?_⟩
    · intro _
      refine ⟨fun h => (by cases h), fun _ => ?_⟩
      show v.count = max 0 ((v.processes.length : Int) - (rest.length : Int) - 1)
      omega
    · intro _
      refine ⟨rfl, ?_, ?_, ?_⟩
      · show 0 ≤ v.count
        omega
      · show (v.processes.length : Int) - (rest.length : Int) - 1 ≤ v.count
        omega
      · show v.count ≤ (v.processes.length : Int) - (rest.length : Int)
        omega
  | finish e abort he hne =>
    have hrun1 := available_length_lt v e hI.availNodup hI.availSub he hne
    have hnd : (v.available ++ [e]).Nodup :=
      List.Nodup.append hI.availNodup (List.nodup_singleton e) (by
        intro a ha hb
        rw [List.mem_singleton] at hb
        exact hne (hb ▸ ha))
    have hsub : ∀ x ∈ v.available ++ [e], x ∈ v.processes := by
      intro x hx
      rcases List.mem_append.1 hx with hx | hx
      · exact hI.availSub x hx
      · rw [List.mem_singleton] at hx
        exact hx ▸ he
    have hr2 : v.running = (v.processes.length : Int) - (v.available.length : Int) := rfl
    have hlen : ((v.available ++ [e]).length : Int) = (v.available.length : Int) + 1 := by
      simp
    have key : ∀ (c : Int), c = (if v.count > 0 then v.count - 1 else v.count) →
        (v.aborted = false → v.acquiring = true →
          c = (v.processes.length : Int) - ((v.available ++ [e]).length : Int)) ∧
        (v.aborted = false → v.acquiring = false →
          c = max 0 ((v.processes.length : Int) - ((v.available ++ [e]).length : Int) - 1)) ∧
        (0 ≤ c ∧ (v.processes.length : Int) - ((v.available ++ [e]).length : Int) - 1 ≤ c ∧
          c ≤ (v.processes.length : Int) - ((v.available ++ [e]).length : Int)) := by
      intro c hc
      by_cases hab : v.aborted = false
      · by_cases hac : v.acquiring = true
        · have hl := (hI.live hab).1 hac
          have hpos : v.count > 0 := by omega
          rw [if_pos hpos] at hc
          refine ⟨fun _ _ => by omega, fun _ h => ?_, by omega, by omega, by omega⟩
          rw [hac] at h
          cases h
        · have hac2 : v.acquiring = false := by simpa using hac
          have hl := (hI.live hab).2 hac2
          by_cases hpos : v.count > 0
          · rw [if_pos hpos] at hc
            refine ⟨fun _ h => ?_, fun _ _ => by omega, by omega, by omega, by omega⟩
            rw [hac2] at h
            cases h
          · rw [if_neg hpos] at hc
            refine ⟨fun _ h => ?_, fun _ _ => by omega, by omega, by omega, by omega⟩
            rw [hac2] at h
            cases h
      · have hab2 : v.aborted = true := by simpa using hab
        obtain ⟨_, d1, d2, d3⟩ := hI.dead hab2
        by_cases hpos : v.count > 0
        · rw [if_pos hpos] at hc
          refine ⟨fun h => absurd h hab, fun h => absurd h hab, by omega, by omega, by omega⟩
        · rw [if_neg hpos] at hc
          refine ⟨fun h => absurd h hab, fun h => absurd h hab, by omega, by omega, by omega⟩
    obtain ⟨k1, k2, k3⟩ := key _ rfl
    refine ⟨hnd, hsub, ?_, ?_⟩
    · intro hab1
      have hab1' : (v.aborted || abort) = false := hab1
      simp only [Bool.or_eq_false_iff] at hab1'
      obtain ⟨ha, hb⟩ := hab1'
      subst hb
      refine ⟨fun hq => ?_, fun hq => ?_⟩
      · have hq' : (v.acquiring && !false) = true := hq
        simp only [Bool.not_false, Bool.and_true] at hq'
        exact k1 ha hq'
      · have hq' : (v.acquiring && !false) = false := hq
        simp only [Bool.not_false, Bool.and_true] at hq'
        exact k2 ha hq'
    · intro hab1
      have hab1' : (v.aborted || abort) = true := hab1
      refine ⟨?_, k3⟩
      show (v.acquiring && !abort) = false
      by_cases hab : v.aborted = true
      · rw [(hI.dead hab).1]
        rfl
      · have : abort = true := by
          simp only [Bool.or_eq_true] at hab1'
          rcases hab1' with h | h
          · exact absurd h hab
          · exact h
        rw [this]
        simp


theorem finishBuild_tokenView {G : Type} (api : Collaborators G) (s : TargetExecutor G)
    (c : Int) : (TargetExecutor.finishBuild api s c).tokenView = s.tokenView := rfl

theorem catchException_tokenView {G : Type} (api : Collaborators G) (s : TargetExecutor G)
    (e : String) :
    (TargetExecutor.catchException api s e).tokenView = { s.tokenView with aborted := true } :=
  rfl

theorem findNextTarget_tokenView {G : Type} (api : Collaborators G) :
    ∀ (fuel : Nat) (s s1 : TargetExecutor G) (r : Except String Unit),
      TargetExecutor.findNextTarget api fuel s = some (r, s1) →
      s1.tokenView = s.tokenView ∧ s1.m_jobClient = s.m_jobClient := by
  intro fuel
  induction fuel with
  | zero =>
    intro s s1 r h
    simp [TargetExecutor.findNextTarget] at h
  | succ fuel ih =>
    intro s s1 r h
    unfold TargetExecutor.findNextTarget at h
    rcases hf : api.findAvailableTarget api.options.buildAllTargets s.m_depgraph with ⟨res, d⟩
    rw [hf] at h
    cases res with
    | error e =>
      simp only [Option.some.injEq, Prod.mk.injEq] at h
      rw [← h.2]
      exact ⟨rfl, rfl⟩
    | ok next =>
      cases next with
      | none =>
        simp only [Option.some.injEq, Prod.mk.injEq] at h
        rw [← h.2]
        exact ⟨rfl, rfl⟩
      | some t =>
        simp only at h
        by_cases h1 : api.commandsIsEmpty t d = true
        · simp only [h1, if_true] at h
          obtain ⟨e1, e2⟩ := ih _ s1 r h
          exact ⟨e1.trans rfl, e2.trans rfl⟩
        · simp only [h1, Bool.false_eq_true, if_false] at h
          by_cases h2 : (api.options.buildUnrelatedTargetsOnError && api.isUnbuildable t d) = true
          · simp only [h2, if_true] at h
            obtain ⟨e1, e2⟩ := ih _ s1 r h
            exact ⟨e1.trans rfl, e2.trans rfl⟩
          · simp only [h2, Bool.false_eq_true, if_false, Option.some.injEq, Prod.mk.injEq] at h
            rw [← h.2]
            exact ⟨rfl, rfl⟩

theorem buildNextTarget_tokenView {G : Type} (api : Collaborators G)
    (s s1 : TargetExecutor G) (h : TargetExecutor.buildNextTarget api s = some s1) :
    (s.m_bAborted = true ∧ s1 = s) ∨
    (s.m_bAborted = false ∧ ∃ e rest ab, s.m_availableProcesses = e :: rest ∧
      s1.tokenView = { s.tokenView with available := rest, aborted := ab }) := by
  unfold TargetExecutor.buildNextTarget at h
  cases hn : s.m_nextTarget with
  | none => simp [hn] at h
  | some next =>
    simp only [hn] at h
    by_cases hab : s.m_bAborted = true
    · simp only [hab, if_true, Option.some.injEq] at h
      exact Or.inl ⟨hab, h.symm⟩
    · have hab2 : s.m_bAborted = false := by simpa using hab
      simp only [hab2, Bool.false_eq_true, if_false] at h
      right
      refine ⟨hab2, ?_⟩
      cases hav : s.m_availableProcesses with
      | nil => simp [hav] at h
      | cons e rest =>
        simp only [hav] at h
        rcases hst : api.start e next s.m_depgraph with ⟨res, d⟩
        rw [hst] at h
        cases res with
        | error msg =>
          simp only [Option.some.injEq] at h
          refine ⟨e, rest, true, rfl, ?_⟩
          rw [← h, catchException_tokenView]
          simp [TargetExecutor.tokenView, TargetExecutor.isAcquiring]
        | ok u =>
          simp only [Option.some.injEq] at h
          refine ⟨e, rest, false, rfl, ?_⟩
          rw [← h]
          simp [TargetExecutor.tokenView, TargetExecutor.isAcquiring, hab2]

theorem ensureNextTarget_tokenView {G : Type} (api : Collaborators G) (fuel : Nat)
    (s s1 : TargetExecutor G) (r : Except String Unit)
    (h : TargetExecutor.ensureNextTarget api fuel s = some (r, s1)) :
    s1.tokenView = s.tokenView ∧ s1.m_jobClient = s.m_jobClient := by
  unfold TargetExecutor.ensureNextTarget at h
  by_cases hnt : s.m_nextTarget.isNone = true
  · rw [if_pos hnt] at h
    exact findNextTarget_tokenView api fuel s s1 r h
  · rw [if_neg hnt] at h
    simp only [Option.some.injEq, Prod.mk.injEq] at h
    rw [← h.2]
    exact ⟨rfl, rfl⟩

theorem dispatch_tokenStep {G : Type} (api : Collaborators G) (jc : JobClient)
    (s s1 : TargetExecutor G) (r : Except String Unit)
    (hab : s.m_bAborted = false) (hjc : s.m_jobClient = some jc)
    (hacq : jc.isAcquiring = false)
    (h : TargetExecutor.dispatch api jc s = some (r, s1)) :
    (∀ u, r = Except.ok u → TokenStep s.tokenView s1.tokenView) ∧
    (∀ e, r = Except.error e → s1.tokenView = s.tokenView) := by
  have hacq2 : s.tokenView.acquiring = false := by
    simp [TargetExecutor.tokenView, TargetExecutor.isAcquiring, hjc, hacq]
  have hrun : s.numberOfRunningProcesses = s.tokenView.running := rfl
  unfold TargetExecutor.dispatch at h
  cases hnt : s.m_nextTarget with
  | some t =>
    simp only [hnt] at h
    by_cases hz : s.numberOfRunningProcesses = 0
    · rw [if_pos hz] at h
      cases hb : TargetExecutor.buildNextTarget api s with
      | none => simp [hb] at h
      | some s2 =>
        simp only [hb, Option.map_some', Option.some.injEq, Prod.mk.injEq] at h
        obtain ⟨h1, h2⟩ := h
        subst h1 h2
        refine ⟨fun _ _ => ?_, fun e he => by cases he⟩
        rcases buildNextTarget_tokenView api s s2 hb with ⟨ha, _⟩ | ⟨_, e, rest, ab, hav, hv1⟩
        · rw [hab] at ha
          cases ha
        · rw [hv1]
          exact TokenStep.freeStart _ e rest ab hab hacq2 hav (by rw [← hrun]; exact hz)
    · rw [if_neg hz] at h
      simp only [Option.some.injEq, Prod.mk.injEq] at h
      obtain ⟨h1, h2⟩ := h
      subst h1 h2
      refine ⟨fun _ _ => ?_, fun e he => by cases he⟩
      exact TokenStep.request s.tokenView hab hacq2 (by rw [← hrun]; exact hz)
  | none =>
    simp only [hnt] at h
    by_cases hz : s.numberOfRunningProcesses = 0
    · rw [if_pos hz] at h
      cases hp : s.m_pendingTargets with
      | nil =>
        simp only [hp, Option.some.injEq, Prod.mk.injEq] at h
        obtain ⟨h1, h2⟩ := h
        subst h1 h2
        refine ⟨fun _ _ => ?_, fun e he => by cases he⟩
        rw [finishBuild_tokenView]
        exact TokenStep.stay _
      | cons next rest =>
        simp only [hp] at h
        cases next with
        | none => simp at h
        | some t =>
          simp only at h
          rcases hb : api.build t (api.invalidateTimeStamps (api.clear s.m_depgraph)) with
            ⟨res, d⟩
          rw [hb] at h
          cases res with
          | error e =>
            simp only [Option.some.injEq, Prod.mk.injEq] at h
            obtain ⟨h1, h2⟩ := h
            subst h1 h2
            exact ⟨fun u hu => (by cases hu), fun _ _ => rfl⟩
          | ok u2 =>
            simp only [Option.some.injEq, Prod.mk.injEq] at h
            obtain ⟨h1, h2⟩ := h
            subst h1 h2
            refine ⟨fun _ _ => ?_, fun e he => by cases he⟩
            exact TokenStep.stay s.tokenView
    · rw [if_neg hz] at h
      simp only [Option.some.injEq, Prod.mk.injEq] at h
      obtain ⟨h1, h2⟩ := h
      subst h1 h2
      exact ⟨fun _ _ => TokenStep.stay _, fun e he => by cases he⟩

theorem startProcesses_tokenStep {G : Type} (api : Collaborators G) (fuel : Nat)
    (s s1 : TargetExecutor G) (h : s.startProcesses api fuel = some s1) :
    TokenStep s.tokenView s1.tokenView := by
  unfold TargetExecutor.startProcesses at h
  by_cases hab : s.m_bAborted = true
  · rw [if_pos hab] at h
    rw [← Option.some.inj h]
    exact TokenStep.stay _
  · have hab2 : s.m_bAborted = false := by simpa using hab
    rw [if_neg hab] at h
    cases hjc : s.m_jobClient with
    | none => simp [hjc] at h
    | some jc =>
      simp only [hjc] at h
      by_cases hg : (jc.isAcquiring || s.m_availableProcesses.isEmpty) = true
      · rw [if_pos hg] at h
        rw [← Option.some.inj h]
        exact TokenStep.stay _
      · rw [if_neg hg] at h
        have hg2 : jc.isAcquiring = false ∧ s.m_availableProcesses.isEmpty = false := by
          simpa using hg
        have hacq : s.tokenView.acquiring = false := by
          simp [TargetExecutor.tokenView, TargetExecutor.isAcquiring, hjc, hg2.1]
        cases hF : TargetExecutor.ensureNextTarget api fuel s with
        | none => simp [hF] at h
        | some res =>
          obtain ⟨r, s0⟩ := res
          obtain ⟨hv, hjc0⟩ := ensureNextTarget_tokenView api fuel s s0 r hF
          have hab0 : s0.m_bAborted = false := by
            have : s0.tokenView.aborted = s.tokenView.aborted := by rw [hv]
            exact this.trans hab2
          simp only [hF] at h
          cases r with
          | error e =>
            simp only [Option.some.injEq] at h
            rw [← h, catchException_tokenView, hv]
            exact TokenStep.caught _ hab2 hacq
          | ok u =>
            simp only at h
            cases hD : TargetExecutor.dispatch api jc s0 with
            | none => simp [hD] at h
            | some res2 =>
              obtain ⟨r2, s2⟩ := res2
              simp only [hD] at h
              obtain ⟨d1, d2⟩ := dispatch_tokenStep api jc s0 s2 r2 hab0 (hjc0.trans hjc)
                hg2.1 hD
              cases r2 with
              | error e =>
                simp only [Option.some.injEq] at h
                rw [← h, catchException_tokenView, d2 e rfl, hv]
                exact TokenStep.caught _ hab2 hacq
              | ok u2 =>
                simp only [Option.some.injEq] at h
                rw [← h, ← hv]
                exact d1 u2 rfl


theorem releaseToken_tokenView {G : Type} (s s1 : TargetExecutor G)
    (h : s.releaseToken = some s1) :
    s1.tokenView =
      { s.tokenView with
        count := if s.tokenView.count > 0 then s.tokenView.count - 1 else s.tokenView.count } := by
  unfold TargetExecutor.releaseToken at h
  by_cases hc : s.m_jobAcquisitionCount > 0
  · rw [if_pos hc] at h
    cases hjc : s.m_jobClient with
    | none => simp [hjc] at h
    | some jc =>
      simp only [hjc, Option.some.injEq] at h
      rw [← h]
      have hc2 : s.tokenView.count > 0 := hc
      simp [TargetExecutor.tokenView, TargetExecutor.isAcquiring, hjc, JobClient.release, hc]
  · rw [if_neg hc] at h
    rw [← Option.some.inj h]
    have hc2 : ¬ s.tokenView.count > 0 := hc
    simp [hc2]

theorem electStreaming_tokenView {G : Type} (s s1 : TargetExecutor G) (e : ExecId)
    (h : s.electStreaming e = some s1) : s1.tokenView = s.tokenView := by
  unfold TargetExecutor.electStreaming at h
  by_cases hb : (!(s.executors e).m_bufferedOutput) = true
  · rw [if_pos hb] at h
    simp only at h
    by_cases ha : (s.m_processes.filter (fun c =>
        (setBufferedOutput s.executors e true c).m_active)).isEmpty = true
    · rw [if_pos ha] at h
      cases hav : s.m_availableProcesses with
      | nil => simp [hav] at h
      | cons first rest =>
        simp only [hav, Option.some.injEq] at h
        rw [← h]
        simp [TargetExecutor.tokenView, TargetExecutor.isAcquiring, hav]
    · rw [if_neg ha] at h
      rw [← Option.some.inj h]
      rfl
  · rw [if_neg hb] at h
    rw [← Option.some.inj h]

theorem waitForJobClient_tokenView {G : Type} (s s1 : TargetExecutor G)
    (h : s.waitForJobClient = some s1) :
    s1.tokenView = { s.tokenView with acquiring := false } := by
  unfold TargetExecutor.waitForJobClient at h
  cases hjc : s.m_jobClient with
  | none => simp [hjc] at h
  | some jc =>
    simp only [hjc] at h
    by_cases ha : (!jc.isAcquiring) = true
    · rw [if_pos ha] at h
      rw [← Option.some.inj h]
      have : jc.isAcquiring = false := by simpa using ha
      simp [TargetExecutor.tokenView, TargetExecutor.isAcquiring, hjc, this]
    · rw [if_neg ha] at h
      rw [← Option.some.inj h]
      simp [TargetExecutor.tokenView, TargetExecutor.isAcquiring, JobClient.grant,
        JobClient.release]

theorem onChildFinished_tokenView {G : Type} (api : Collaborators G)
    (s s1 : TargetExecutor G) (e : ExecId) (f : Bool)
    (h : TargetExecutor.onChildFinished api s e f = some s1) :
    s1.tokenView =
      { s.tokenView with
        available := s.tokenView.available ++ [e]
        count := if s.tokenView.count > 0 then s.tokenView.count - 1 else s.tokenView.count
        aborted := s.tokenView.aborted ||
          (f && !api.options.buildUnrelatedTargetsOnError)
        acquiring := s.tokenView.acquiring &&
          !(f && !api.options.buildUnrelatedTargetsOnError) } := by
  unfold TargetExecutor.onChildFinished at h
  cases ht : (s.executors e).m_pTarget with
  | none => simp [ht] at h
  | some target =>
    simp only [ht] at h
    generalize hs2 : ({ (if f = true then
          if api.options.buildUnrelatedTargetsOnError = true then
            { s with
              m_allCommandsSuccessfullyExecuted := false
              m_depgraph := api.markParentsRecursivlyUnbuildable target s.m_depgraph
              stderr := s.stderr ++ [StderrLine.continuing] }
          else { s with m_allCommandsSuccessfullyExecuted := false }
        else s) with
        m_depgraph := api.removeLeaf target (api.clearCacheForFile target
          (if f = true then
            if api.options.buildUnrelatedTargetsOnError = true then
              { s with
                m_allCommandsSuccessfullyExecuted := false
                m_depgraph := api.markParentsRecursivlyUnbuildable target s.m_depgraph
                stderr := s.stderr ++ [StderrLine.continuing] }
            else { s with m_allCommandsSuccessfullyExecuted := false }
          else s).m_depgraph) } : TargetExecutor G) = s2 at h
    have hv2 : s2.tokenView = s.tokenView := by
      rw [← hs2]
      by_cases hf : f = true <;> by_cases hk : api.options.buildUnrelatedTargetsOnError = true <;>
        simp [hf, hk, TargetExecutor.tokenView, TargetExecutor.isAcquiring]
    cases hr : s2.releaseToken with
    | none => simp [hr] at h
    | some s3 =>
      simp only [hr] at h
      have hv3 := releaseToken_tokenView s2 s3 hr
      cases he : TargetExecutor.electStreaming
          { s3 with m_availableProcesses := s3.m_availableProcesses ++ [e] } e with
      | none => simp [he] at h
      | some s5 =>
        simp only [he] at h
        have hv5 := electStreaming_tokenView _ s5 e he
        have hv4 : ({ s3 with m_availableProcesses := s3.m_availableProcesses ++ [e] } :
            TargetExecutor G).tokenView =
            { s3.tokenView with available := s3.tokenView.available ++ [e] } := rfl
        by_cases hab : (f && !api.options.buildUnrelatedTargetsOnError) = true
        · rw [if_pos hab] at h
          cases hw : TargetExecutor.waitForJobClient
              { s5 with
                m_bAborted := true
                m_depgraph := api.clear s5.m_depgraph
                m_pendingTargets := [] } with
          | none => simp [hw] at h
          | some s7 =>
            simp only [hw, Option.some.injEq] at h
            have hv7 := waitForJobClient_tokenView _ s7 hw
            rw [← h, finishBuild_tokenView, hv7]
            have hv6 : ({ s5 with
                m_bAborted := true
                m_depgraph := api.clear s5.m_depgraph
                m_pendingTargets := [] } : TargetExecutor G).tokenView =
                { s5.tokenView with aborted := true } := rfl
            rw [hv6, hv5, hv4, hv3, hv2, hab]
            simp
        · rw [if_neg hab] at h
          rw [← Option.some.inj h, hv5, hv4, hv3, hv2]
          have hab2 : (f && !api.options.buildUnrelatedTargetsOnError) = false := by
            simpa using hab
          rw [hab2]
          simp

/-- Every event changes the token view by a token step. -/
theorem step_tokenStep {G : Type} (api : Collaborators G) (fuel : Nat) (ev : Event)
    (s s1 : TargetExecutor G) (h : TargetExecutor.step api fuel ev s = some s1) :
    TokenStep s.tokenView s1.tokenView := by
  cases ev with
  | startProcesses => exact startProcesses_tokenStep api fuel s s1 h
  | acquired =>
    unfold TargetExecutor.step at h
    cases hjc : s.m_jobClient with
    | none => simp [hjc] at h
    | some jc =>
      simp only [hjc] at h
      by_cases ha : jc.isAcquiring = true
      · rw [if_pos ha] at h
        have hacq : s.tokenView.acquiring = true := by
          simp [TargetExecutor.tokenView, TargetExecutor.isAcquiring, hjc, ha]
        rcases buildNextTarget_tokenView api _ s1 h with ⟨hab, he⟩ | ⟨hab, e, rest, ab, hav, hv⟩
        · rw [he]
          exact TokenStep.grantedAborted s.tokenView hacq hab
        · rw [hv]
          exact TokenStep.grantedStart s.tokenView e rest ab hacq hab hav
      · rw [if_neg ha] at h
        cases h
  | childFinished e f =>
    simp only [TargetExecutor.step] at h
    by_cases hr : e ∈ s.m_processes ∧ e ∉ s.m_availableProcesses
    · rw [if_pos hr] at h
      rw [onChildFinished_tokenView api _ s1 e f h]
      exact TokenStep.finish s.tokenView e _ hr.1 hr.2
    · rw [if_neg hr] at h
      cases h


theorem selectGoals_tokenView {G : Type} (api : Collaborators G) (s s1 : TargetExecutor G)
    (targets : List QString) (r : Except String TargetId)
    (h : TargetExecutor.selectGoals api s targets = (r, s1)) : s1.tokenView = s.tokenView := by
  unfold TargetExecutor.selectGoals at h
  cases targets with
  | nil =>
    simp only at h
    by_cases he : api.targetsIsEmpty = true
    · rw [if_pos he] at h
      rw [← (Prod.mk.inj h).2]
    · rw [if_neg he] at h
      rw [← (Prod.mk.inj h).2]
  | cons name others =>
    simp only at h
    cases ht : api.target name with
    | none =>
      simp only [ht] at h
      rw [← (Prod.mk.inj h).2]
    | some t =>
      simp only [ht] at h
      rw [← (Prod.mk.inj h).2]
      rfl

theorem apply_tokenView {G : Type} (api : Collaborators G) (n : Nat) (d : G)
    (targets : List QString) (s : TargetExecutor G)
    (h : TargetExecutor.apply api (TargetExecutor.construct n d) targets = (Except.ok (), s)) :
    s.tokenView = ⟨List.range n, List.range n, 0, false, false⟩ := by
  unfold TargetExecutor.apply at h
  simp only [TargetExecutor.construct] at h
  by_cases hj : api.jobClientStart = true
  · simp only [hj, if_true] at h
    rcases hsel : TargetExecutor.selectGoals api
      ({ m_processes := List.range n, m_availableProcesses := List.range n,
         executors := fun i => ⟨none, false, decide (i ≠ 0)⟩, m_nextTarget := none,
         m_pendingTargets := [], m_jobAcquisitionCount := 0, m_bAborted := false,
         m_allCommandsSuccessfullyExecuted := true, m_jobClient := some ⟨false, 0⟩,
         m_depgraph := d, finishedSignals := [], stderr := [] } : TargetExecutor G)
      targets with ⟨r, s3⟩
    have hv3 := selectGoals_tokenView api _ s3 targets r hsel
    rw [hsel] at h
    cases r with
    | error e => simp at h
    | ok descblock =>
      simp only at h
      rcases hb : api.build descblock s3.m_depgraph with ⟨rb, d1⟩
      rw [hb] at h
      cases rb with
      | error e => simp at h
      | ok u =>
        simp only at h
        by_cases hd : api.options.dumpDependencyGraph = true
        · rw [if_pos hd] at h
          rw [← (Prod.mk.inj h).2, finishBuild_tokenView]
          exact hv3
        · rw [if_neg hd] at h
          rw [← (Prod.mk.inj h).2]
          exact hv3
  · simp only [hj, Bool.false_eq_true, if_false] at h
    simp at h

theorem tokenInv_initial (n : Nat) :
    TokenInv ⟨List.range n, List.range n, 0, false, false⟩ := by
  refine ⟨List.nodup_range n, fun x hx => hx, fun _ => ⟨fun h => (by cases h), fun _ => ?_⟩,
    fun h => (by cases h)⟩
  show (0 : Int) = max 0 (((List.range n).length : Int) - ((List.range n).length : Int) - 1)
  omega

/-- Every reachable scheduler state satisfies the invariant of the token accounting. -/
theorem schedReach_tokenInv {G : Type} (api : Collaborators G) (s : TargetExecutor G)
    (h : SchedReach api s) : TokenInv s.tokenView := by
  induction h with
  | applied d targets s ha =>
    rw [apply_tokenView api _ d targets s ha]
    exact tokenInv_initial _
  | step fuel ev _ hs ih => exact tokenStep_inv _ _ ih (step_tokenStep api fuel ev _ _ hs)

theorem schedReach_run {G : Type} (api : Collaborators G) (fuel : Nat) :
    ∀ (evs : List Event) (s s1 : TargetExecutor G), SchedReach api s →
      TargetExecutor.run api fuel evs s = some s1 → SchedReach api s1 := by
  intro evs
  induction evs with
  | nil =>
    intro s s1 hr h
    simp only [TargetExecutor.run, Option.some.injEq] at h
    exact h ▸ hr
  | cons ev rest ih =>
    intro s s1 hr h
    unfold TargetExecutor.run at h
    cases hs : TargetExecutor.step api fuel ev s with
    | none => simp [hs] at h
    | some s2 =>
      simp only [hs] at h
      exact ih s2 s1 (SchedReach.step fuel ev hr hs) h

theorem requestedState_reach : SchedReach busyApi requestedState :=
  schedReach_run busyApi 1 [Event.startProcesses, Event.startProcesses]
    (appliedState busyApi) requestedState
    (SchedReach.applied () [] (appliedState busyApi) rfl) rfl

/-- C9 (as stated, refuted): after `apply` and two scheduler ticks with two jobs, one process
runs and a token has been requested and not yet acquired; `jobAcquisitionCount` is 1 and
`max(0, numberOfRunningProcesses - 1)` is 0. -/
theorem C9_counterexample :
    SchedReach busyApi requestedState ∧ requestedState.isAcquiring = true ∧
    requestedState.m_jobAcquisitionCount = 1 ∧ requestedState.numberOfRunningProcesses = 1 ∧
    ¬ (requestedState.m_jobAcquisitionCount ≤
        max 0 (requestedState.numberOfRunningProcesses - 1)) := by
  have h1 : requestedState.m_jobAcquisitionCount = 1 := by rfl
  have h2 : requestedState.numberOfRunningProcesses = 1 := by rfl
  refine ⟨requestedState_reach, by rfl, h1, h2, ?_⟩
  rw [h1, h2]
  decide

/-- C9 (amended): in every scheduler state reachable from `apply` through `startProcesses`,
`buildNextTarget` (token acquired) and `onChildFinished`, `jobAcquisitionCount` is at most
`numberOfRunningProcesses`; it is at most `max(0, numberOfRunningProcesses - 1)` in every such
state in which the build is not aborted and no token request is pending; and from the moment
`startProcesses` has requested a token until the token is acquired, in a build that is not
aborted, it equals `numberOfRunningProcesses`. -/
theorem C9_job_acquisition_count {G : Type} (api : Collaborators G) (s : TargetExecutor G)
    (h : SchedReach api s) :
    s.m_jobAcquisitionCount ≤ s.numberOfRunningProcesses ∧
    (s.m_bAborted = false → s.isAcquiring = false →
      s.m_jobAcquisitionCount ≤ max 0 (s.numberOfRunningProcesses - 1)) ∧
    (s.m_bAborted = false → s.isAcquiring = true →
      s.m_jobAcquisitionCount = s.numberOfRunningProcesses) := by
  have hI := schedReach_tokenInv api s h
  have hrun : s.numberOfRunningProcesses = s.tokenView.running := rfl
  have hge := available_length_le s.tokenView hI.availNodup hI.availSub
  have hc : s.m_jobAcquisitionCount = s.tokenView.count := rfl
  refine ⟨?_, ?_, ?_⟩
  · rw [hrun, hc]
    cases hab : s.tokenView.aborted with
    | true => exact (hI.dead hab).2.2.2
    | false =>
      cases hac : s.tokenView.acquiring with
      | true =>
        rw [(hI.live hab).1 hac]
      | false =>
        rw [(hI.live hab).2 hac]
        omega
  · intro hab hac
    rw [hrun, hc, (hI.live hab).2 hac]
  · intro hab hac
    rw [hrun, hc]
    exact (hI.live hab).1 hac

theorem C9_job_acquisition_count_witness :
    SchedReach busyApi requestedState ∧
    (requestedState.m_jobAcquisitionCount ≤ requestedState.numberOfRunningProcesses ∧
    (requestedState.m_bAborted = false → requestedState.isAcquiring = false →
      requestedState.m_jobAcquisitionCount ≤
        max 0 (requestedState.numberOfRunningProcesses - 1)) ∧
    (requestedState.m_bAborted = false → requestedState.isAcquiring = true →
      requestedState.m_jobAcquisitionCount = requestedState.numberOfRunningProcesses)) :=
  ⟨requestedState_reach, C9_job_acquisition_count busyApi requestedState requestedState_reach⟩

/-- C10: in every scheduler state reachable from `apply` through `startProcesses`,
`buildNextTarget` (token acquired) and `onChildFinished`, in any interleaving of the events,
`jobAcquisitionCount + 1 ≥ numberOfRunningProcesses`. -/
theorem C10_tokens_cover_running {G : Type} (api : Collaborators G) (s : TargetExecutor G)
    (h : SchedReach api s) :
    s.m_jobAcquisitionCount + 1 ≥ s.numberOfRunningProcesses := by
  have hI := schedReach_tokenInv api s h
  have hrun : s.numberOfRunningProcesses = s.tokenView.running := rfl
  have hge := available_length_le s.tokenView hI.availNodup hI.availSub
  have hc : s.m_jobAcquisitionCount = s.tokenView.count := rfl
  rw [hrun, hc]
  cases hab : s.tokenView.aborted with
  | true =>
    have := (hI.dead hab).2.2.1
    omega
  | false =>
    cases hac : s.tokenView.acquiring with
    | true =>
      rw [(hI.live hab).1 hac]
      omega
    | false =>
      rw [(hI.live hab).2 hac]
      omega


theorem C10_tokens_cover_running_witness :
    SchedReach busyApi requestedState ∧
    requestedState.m_jobAcquisitionCount + 1 ≥ requestedState.numberOfRunningProcesses :=
  ⟨requestedState_reach, C10_tokens_cover_running busyApi requestedState requestedState_reach⟩

/-! ## The scheduler: exit codes -/

theorem finishBuild_zero_signalView {G : Type} (api : Collaborators G)
    (s : TargetExecutor G) :
    (TargetExecutor.finishBuild api s 0).signalView =
      SignalView.finished api.options.buildUnrelatedTargetsOnError s.signalView := by
  simp [TargetExecutor.finishBuild, TargetExecutor.signalView, SignalView.finished,
    TargetExecutor.errorLines]

theorem catchException_signalView {G : Type} (api : Collaborators G) (s : TargetExecutor G)
    (e : String) :
    (TargetExecutor.catchException api s e).signalView = s.signalView.caught := by
  simp [TargetExecutor.catchException, TargetExecutor.finishBuild, TargetExecutor.signalView,
    SignalView.caught, TargetExecutor.errorLines, List.filter_append, StderrLine.isError]

theorem findNextTarget_signalView {G : Type} (api : Collaborators G) :
    ∀ (fuel : Nat) (s s1 : TargetExecutor G) (r : Except String Unit),
      TargetExecutor.findNextTarget api fuel s = some (r, s1) →
      s1.signalView = s.signalView := by
  intro fuel
  induction fuel with
  | zero =>
    intro s s1 r h
    simp [TargetExecutor.findNextTarget] at h
  | succ fuel ih =>
    intro s s1 r h
    unfold TargetExecutor.findNextTarget at h
    rcases hf : api.findAvailableTarget api.options.buildAllTargets s.m_depgraph with ⟨res, d⟩
    rw [hf] at h
    cases res with
    | error e =>
      simp only [Option.some.injEq, Prod.mk.injEq] at h
      rw [← h.2]
      rfl
    | ok next =>
      cases next with
      | none =>
        simp only [Option.some.injEq, Prod.mk.injEq] at h
        rw [← h.2]
        rfl
      | some t =>
        simp only at h
        by_cases h1 : api.commandsIsEmpty t d = true
        · simp only [h1, if_true] at h
          rw [ih _ s1 r h]
          rfl
        · simp only [h1, Bool.false_eq_true, if_false] at h
          by_cases h2 : (api.options.buildUnrelatedTargetsOnError && api.isUnbuildable t d) = true
          · simp only [h2, if_true] at h
            rw [ih _ s1 r h]
            simp [TargetExecutor.signalView, TargetExecutor.errorLines, List.filter_append,
              StderrLine.isError]
          · simp only [h2, Bool.false_eq_true, if_false, Option.some.injEq, Prod.mk.injEq] at h
            rw [← h.2]
            rfl

theorem ensureNextTarget_signalView {G : Type} (api : Collaborators G) (fuel : Nat)
    (s s1 : TargetExecutor G) (r : Except String Unit)
    (h : TargetExecutor.ensureNextTarget api fuel s = some (r, s1)) :
    s1.signalView = s.signalView := by
  unfold TargetExecutor.ensureNextTarget at h
  by_cases hnt : s.m_nextTarget.isNone = true
  · rw [if_pos hnt] at h
    exact findNextTarget_signalView api fuel s s1 r h
  · rw [if_neg hnt] at h
    simp only [Option.some.injEq, Prod.mk.injEq] at h
    rw [← h.2]

theorem buildNextTarget_signalView {G : Type} (api : Collaborators G)
    (s s1 : TargetExecutor G) (h : TargetExecutor.buildNextTarget api s = some s1) :
    s1.signalView = s.signalView ∨ s1.signalView = s.signalView.caught := by
  unfold TargetExecutor.buildNextTarget at h
  cases hn : s.m_nextTarget with
  | none => simp [hn] at h
  | some next =>
    simp only [hn] at h
    by_cases hab : s.m_bAborted = true
    · rw [if_pos hab] at h
      rw [← Option.some.inj h]
      exact Or.inl rfl
    · rw [if_neg hab] at h
      cases hav : s.m_availableProcesses with
      | nil => simp [hav] at h
      | cons e rest =>
        simp only [hav] at h
        rcases hst : api.start e next s.m_depgraph with ⟨res, d⟩
        rw [hst] at h
        cases res with
        | error msg =>
          simp only [Option.some.injEq] at h
          right
          rw [← h, catchException_signalView]
          rfl
        | ok u =>
          simp only [Option.some.injEq] at h
          left
          rw [← h]
          rfl

theorem dispatch_signalView {G : Type} (api : Collaborators G) (jc : JobClient)
    (s s1 : TargetExecutor G) (r : Except String Unit)
    (h : TargetExecutor.dispatch api jc s = some (r, s1)) :
    (∀ e, r = Except.error e → s1.signalView = s.signalView) ∧
    (∀ u, r = Except.ok u →
      s1.signalView = s.signalView ∨ s1.signalView = s.signalView.caught ∨
      s1.signalView =
        SignalView.finished api.options.buildUnrelatedTargetsOnError s.signalView) := by
  unfold TargetExecutor.dispatch at h
  cases hnt : s.m_nextTarget with
  | some t =>
    simp only [hnt] at h
    by_cases hz : s.numberOfRunningProcesses = 0
    · rw [if_pos hz] at h
      cases hb : TargetExecutor.buildNextTarget api s with
      | none => simp [hb] at h
      | some s2 =>
        simp only [hb, Option.map_some', Option.some.injEq, Prod.mk.injEq] at h
        obtain ⟨h1, h2⟩ := h
        subst h1 h2
        refine ⟨fun e he => (by cases he), fun _ _ => ?_⟩
        rcases buildNextTarget_signalView api s s2 hb with h3 | h3
        · exact Or.inl h3
        · exact Or.inr (Or.inl h3)
    · rw [if_neg hz] at h
      simp only [Option.some.injEq, Prod.mk.injEq] at h
      obtain ⟨h1, h2⟩ := h
      subst h1 h2
      exact ⟨fun e he => (by cases he), fun _ _ => Or.inl rfl⟩
  | none =>
    simp only [hnt] at h
    by_cases hz : s.numberOfRunningProcesses = 0
    · rw [if_pos hz] at h
      cases hp : s.m_pendingTargets with
      | nil =>
        simp only [hp, Option.some.injEq, Prod.mk.injEq] at h
        obtain ⟨h1, h2⟩ := h
        subst h1 h2
        exact ⟨fun e he => (by cases he),
          fun _ _ => Or.inr (Or.inr (finishBuild_zero_signalView api s))⟩
      | cons next rest =>
        simp only [hp] at h
        cases next with
        | none => simp at h
        | some t =>
          simp only at h
          rcases hb : api.build t (api.invalidateTimeStamps (api.clear s.m_depgraph)) with
            ⟨res, d⟩
          rw [hb] at h
          cases res with
          | error e =>
            simp only [Option.some.injEq, Prod.mk.injEq] at h
            obtain ⟨h1, h2⟩ := h
            subst h1 h2
            exact ⟨fun _ _ => rfl, fun u hu => (by cases hu)⟩
          | ok u2 =>
            simp only [Option.some.injEq, Prod.mk.injEq] at h
            obtain ⟨h1, h2⟩ := h
            subst h1 h2
            exact ⟨fun e he => (by cases he), fun _ _ => Or.inl rfl⟩
    · rw [if_neg hz] at h
      simp only [Option.some.injEq, Prod.mk.injEq] at h
      obtain ⟨h1, h2⟩ := h
      subst h1 h2
      exact ⟨fun e he => (by cases he), fun _ _ => Or.inl rfl⟩

theorem startProcesses_signalView {G : Type} (api : Collaborators G) (fuel : Nat)
    (s s1 : TargetExecutor G) (h : s.startProcesses api fuel = some s1) :
    s1.signalView = s.signalView ∨ s1.signalView = s.signalView.caught ∨
      s1.signalView =
        SignalView.finished api.options.buildUnrelatedTargetsOnError s.signalView := by
  unfold TargetExecutor.startProcesses at h
  by_cases hab : s.m_bAborted = true
  · rw [if_pos hab] at h
    rw [← Option.some.inj h]
    exact Or.inl rfl
  · rw [if_neg hab] at h
    cases hjc : s.m_jobClient with
    | none => simp [hjc] at h
    | some jc =>
      simp only [hjc] at h
      by_cases hg : (jc.isAcquiring || s.m_availableProcesses.isEmpty) = true
      · rw [if_pos hg] at h
        rw [← Option.some.inj h]
        exact Or.inl rfl
      · rw [if_neg hg] at h
        cases hF : TargetExecutor.ensureNextTarget api fuel s with
        | none => simp [hF] at h
        | some res =>
          obtain ⟨r, s0⟩ := res
          have hv := ensureNextTarget_signalView api fuel s s0 r hF
          simp only [hF] at h
          cases r with
          | error e =>
            simp only [Option.some.injEq] at h
            rw [← h, catchException_signalView, hv]
            exact Or.inr (Or.inl rfl)
          | ok u =>
            simp only at h
            cases hD : TargetExecutor.dispatch api jc s0 with
            | none => simp [hD] at h
            | some res2 =>
              obtain ⟨r2, s2⟩ := res2
              simp only [hD] at h
              obtain ⟨d1, d2⟩ := dispatch_signalView api jc s0 s2 r2 hD
              cases r2 with
              | error e =>
                simp only [Option.some.injEq] at h
                rw [← h, catchException_signalView, d1 e rfl, hv]
                exact Or.inr (Or.inl rfl)
              | ok u2 =>
                simp only [Option.some.injEq] at h
                rw [← h, ← hv]
                exact d2 u2 rfl


theorem releaseToken_signalView {G : Type} (s s1 : TargetExecutor G)
    (h : s.releaseToken = some s1) : s1.signalView = s.signalView := by
  unfold TargetExecutor.releaseToken at h
  by_cases hc : s.m_jobAcquisitionCount > 0
  · rw [if_pos hc] at h
    cases hjc : s.m_jobClient with
    | none => simp [hjc] at h
    | some jc =>
      simp only [hjc, Option.some.injEq] at h
      rw [← h]
      rfl
  · rw [if_neg hc] at h
    rw [← Option.some.inj h]

theorem electStreaming_signalView {G : Type} (s s1 : TargetExecutor G) (e : ExecId)
    (h : s.electStreaming e = some s1) : s1.signalView = s.signalView := by
  unfold TargetExecutor.electStreaming at h
  by_cases hb : (!(s.executors e).m_bufferedOutput) = true
  · rw [if_pos hb] at h
    simp only at h
    by_cases ha : (s.m_processes.filter (fun c =>
        (setBufferedOutput s.executors e true c).m_active)).isEmpty = true
    · rw [if_pos ha] at h
      cases hav : s.m_availableProcesses with
      | nil => simp [hav] at h
      | cons first rest =>
        simp only [hav, Option.some.injEq] at h
        rw [← h]
        rfl
    · rw [if_neg ha] at h
      rw [← Option.some.inj h]
      rfl
  · rw [if_neg hb] at h
    rw [← Option.some.inj h]

theorem waitForJobClient_signalView {G : Type} (s s1 : TargetExecutor G)
    (h : s.waitForJobClient = some s1) : s1.signalView = s.signalView := by
  unfold TargetExecutor.waitForJobClient at h
  cases hjc : s.m_jobClient with
  | none => simp [hjc] at h
  | some jc =>
    simp only [hjc] at h
    by_cases ha : (!jc.isAcquiring) = true
    · rw [if_pos ha] at h
      rw [← Option.some.inj h]
    · rw [if_neg ha] at h
      rw [← Option.some.inj h]
      rfl

theorem onChildFinished_signalView {G : Type} (api : Collaborators G)
    (s s1 : TargetExecutor G) (e : ExecId) (f : Bool)
    (h : TargetExecutor.onChildFinished api s e f = some s1) :
    s1.signalView =
      SignalView.childFinished api.options.buildUnrelatedTargetsOnError f s.signalView := by
  unfold TargetExecutor.onChildFinished at h
  cases ht : (s.executors e).m_pTarget with
  | none => simp [ht] at h
  | some target =>
    simp only [ht] at h
    generalize hs2 : ({ (if f = true then
          if api.options.buildUnrelatedTargetsOnError = true then
            { s with
              m_allCommandsSuccessfullyExecuted := false
              m_depgraph := api.markParentsRecursivlyUnbuildable target s.m_depgraph
              stderr := s.stderr ++ [StderrLine.continuing] }
          else { s with m_allCommandsSuccessfullyExecuted := false }
        else s) with
        m_depgraph := api.removeLeaf target (api.clearCacheForFile target
          (if f = true then
            if api.options.buildUnrelatedTargetsOnError = true then
              { s with
                m_allCommandsSuccessfullyExecuted := false
                m_depgraph := api.markParentsRecursivlyUnbuildable target s.m_depgraph
                stderr := s.stderr ++ [StderrLine.continuing] }
            else { s with m_allCommandsSuccessfullyExecuted := false }
          else s).m_depgraph) } : TargetExecutor G) = s2 at h
    have hv2 : s2.signalView =
        { s.signalView with allOk := s.signalView.allOk && !f } := by
      rw [← hs2]
      by_cases hf : f = true <;> by_cases hk : api.options.buildUnrelatedTargetsOnError = true <;>
        simp [hf, hk, TargetExecutor.signalView, TargetExecutor.errorLines, List.filter_append,
          StderrLine.isError]
    cases hr : s2.releaseToken with
    | none => simp [hr] at h
    | some s3 =>
      simp only [hr] at h
      have hv3 := releaseToken_signalView s2 s3 hr
      cases he : TargetExecutor.electStreaming
          { s3 with m_availableProcesses := s3.m_availableProcesses ++ [e] } e with
      | none => simp [he] at h
      | some s5 =>
        simp only [he] at h
        have hv5 := electStreaming_signalView _ s5 e he
        have hv4 : ({ s3 with m_availableProcesses := s3.m_availableProcesses ++ [e] } :
            TargetExecutor G).signalView = s3.signalView := rfl
        by_cases hab : (f && !api.options.buildUnrelatedTargetsOnError) = true
        · rw [if_pos hab] at h
          cases hw : TargetExecutor.waitForJobClient
              { s5 with
                m_bAborted := true
                m_depgraph := api.clear s5.m_depgraph
                m_pendingTargets := [] } with
          | none => simp [hw] at h
          | some s7 =>
            simp only [hw, Option.some.injEq] at h
            have hv7 := waitForJobClient_signalView _ s7 hw
            have hv6 : ({ s5 with
                m_bAborted := true
                m_depgraph := api.clear s5.m_depgraph
                m_pendingTargets := [] } : TargetExecutor G).signalView = s5.signalView := rfl
            have hfin : (TargetExecutor.finishBuild api s7 2).signalView =
                { s7.signalView with signals := s7.signalView.signals ++ [2] } := by
              simp [TargetExecutor.finishBuild, TargetExecutor.signalView,
                TargetExecutor.errorLines]
            rw [← h, hfin, hv7, hv6, hv5, hv4, hv3, hv2]
            simp [SignalView.childFinished, hab]
        · rw [if_neg hab] at h
          rw [← Option.some.inj h, hv5, hv4, hv3, hv2]
          simp [SignalView.childFinished, hab]

/-- What one event does to the emitted exit codes, the `Error:` lines and the success
flag. -/
theorem step_signalView {G : Type} (api : Collaborators G) (fuel : Nat) (ev : Event)
    (s s1 : TargetExecutor G) (h : TargetExecutor.step api fuel ev s = some s1) :
    (∃ e f, ev = Event.childFinished e f ∧
      s1.signalView =
        SignalView.childFinished api.options.buildUnrelatedTargetsOnError f s.signalView) ∨
    ((∀ e f, ev ≠ Event.childFinished e f) ∧
      (s1.signalView = s.signalView ∨ s1.signalView = s.signalView.caught ∨
        s1.signalView =
          SignalView.finished api.options.buildUnrelatedTargetsOnError s.signalView)) := by
  cases ev with
  | startProcesses =>
    exact Or.inr ⟨fun e f he => (by cases he), startProcesses_signalView api fuel s s1 h⟩
  | acquired =>
    right
    refine ⟨fun e f he => (by cases he), ?_⟩
    simp only [TargetExecutor.step] at h
    cases hjc : s.m_jobClient with
    | none => simp [hjc] at h
    | some jc =>
      simp only [hjc] at h
      by_cases ha : jc.isAcquiring = true
      · rw [if_pos ha] at h
        rcases buildNextTarget_signalView api _ s1 h with h3 | h3
        · exact Or.inl h3
        · exact Or.inr (Or.inl h3)
      · rw [if_neg ha] at h
        cases h
  | childFinished e f =>
    left
    simp only [TargetExecutor.step] at h
    by_cases hr : e ∈ s.m_processes ∧ e ∉ s.m_availableProcesses
    · rw [if_pos hr] at h
      have h2 := onChildFinished_signalView api _ s1 e f h
      exact ⟨e, f, rfl, h2⟩
    · rw [if_neg hr] at h
      cases h

/-- The success flag is false exactly when it was false or a command failed. -/
theorem run_allOk {G : Type} (api : Collaborators G) (fuel : Nat) :
    ∀ (evs : List Event) (s s1 : TargetExecutor G),
      TargetExecutor.run api fuel evs s = some s1 →
      (s1.m_allCommandsSuccessfullyExecuted = false ↔
        s.m_allCommandsSuccessfullyExecuted = false ∨ CommandFailedIn evs) := by
  intro evs
  induction evs with
  | nil =>
    intro s s1 h
    simp only [TargetExecutor.run, Option.some.injEq] at h
    subst h
    simp [CommandFailedIn]
  | cons ev rest ih =>
    intro s s1 h
    unfold TargetExecutor.run at h
    cases hs : TargetExecutor.step api fuel ev s with
    | none => simp [hs] at h
    | some s2 =>
      simp only [hs] at h
      rw [ih s2 s1 h]
      have hstep := step_signalView api fuel ev s s2 hs
      have key : s2.m_allCommandsSuccessfullyExecuted = false ↔
          s.m_allCommandsSuccessfullyExecuted = false ∨ ∃ e, ev = Event.childFinished e true := by
        rcases hstep with ⟨e, f, hev, hv⟩ | ⟨hne, hv⟩
        · have : s2.signalView.allOk = (s.signalView.allOk && !f) := by rw [hv]; rfl
          have h2 : s2.m_allCommandsSuccessfullyExecuted =
              (s.m_allCommandsSuccessfullyExecuted && !f) := this
          rw [h2, hev]
          cases f <;> cases s.m_allCommandsSuccessfullyExecuted <;> simp
        · have : s2.signalView.allOk = s.signalView.allOk := by
            rcases hv with hv | hv | hv <;> rw [hv] <;> rfl
          have h2 : s2.m_allCommandsSuccessfullyExecuted =
              s.m_allCommandsSuccessfullyExecuted := this
          rw [h2]
          constructor
          · exact Or.inl
          · rintro (h3 | ⟨e, he⟩)
            · exact h3
            · exact absurd he (hne e true)
      rw [key]
      unfold CommandFailedIn
      constructor
      · rintro ((h1 | ⟨e, he⟩) | ⟨e, he⟩)
        · exact Or.inl h1
        · exact Or.inr ⟨e, by rw [he]; exact List.mem_cons_self _ _⟩
        · exact Or.inr ⟨e, List.mem_cons_of_mem _ he⟩
      · rintro (h1 | ⟨e, he⟩)
        · exact Or.inl (Or.inl h1)
        · rcases List.mem_cons.1 he with he | he
          · exact Or.inl (Or.inr ⟨e, he.symm⟩)
          · exact Or.inr ⟨e, he⟩


theorem thrownState_reach : SchedReach throwingApi thrownState :=
  schedReach_run throwingApi 1 [Event.startProcesses] (appliedState throwingApi) thrownState
    (SchedReach.applied () [] (appliedState throwingApi) rfl) rfl

/-- C8 (as stated, refuted): with keep-going off and no command failed (none was even
started), the scheduler tick in which `findAvailableTarget` throws passes the exit code 1 to
`finished`. -/
theorem C8_counterexample :
    SchedReach throwingApi thrownState ∧ thrownState.finishedSignals = [1] ∧
    throwingApi.options.buildUnrelatedTargetsOnError = false ∧
    thrownState.m_allCommandsSuccessfullyExecuted = true ∧
    ¬ CommandFailedIn [Event.startProcesses] := by
  refine ⟨thrownState_reach, by rfl, by rfl, by rfl, ?_⟩
  rintro ⟨e, he⟩
  simp at he

/-- The value of a code passed to `finished` by an event of a run that starts with the success
flag set: 2 exactly for a fail-fast abort, 1 exactly for an exception caught or a failure
under keep-going, 0 otherwise; and at most one code is passed. -/
theorem exit_code_values {G : Type} (api : Collaborators G) (fuel : Nat)
    (s0 s s1 : TargetExecutor G) (evs : List Event) (ev : Event)
    (h0 : s0.m_allCommandsSuccessfullyExecuted = true)
    (hrun : TargetExecutor.run api fuel evs s0 = some s)
    (hstep : TargetExecutor.step api fuel ev s = some s1) :
    ∃ codes, s1.finishedSignals = s.finishedSignals ++ codes ∧ codes.length ≤ 1 ∧
      ∀ c ∈ codes,
        (c = 2 ↔ FailFastAbort api ev) ∧
        (c = 1 ↔ ¬ FailFastAbort api ev ∧
          (ExceptionCaught s s1 ∨
            (api.options.buildUnrelatedTargetsOnError = true ∧ CommandFailedIn (evs ++ [ev])))) ∧
        (c = 0 ↔ ¬ FailFastAbort api ev ∧ ¬ ExceptionCaught s s1 ∧
          ¬ (api.options.buildUnrelatedTargetsOnError = true ∧
            CommandFailedIn (evs ++ [ev]))) := by
  have hall := run_allOk api fuel evs s0 s hrun
  have hfail : s.m_allCommandsSuccessfullyExecuted = false ↔ CommandFailedIn evs := by
    rw [hall, h0]
    simp
  rcases step_signalView api fuel ev s s1 hstep with ⟨e, f, hev, hv⟩ | ⟨hne, hv⟩
  · have hsig : s1.finishedSignals = s.finishedSignals ++
        (if (f && !api.options.buildUnrelatedTargetsOnError) = true then [2] else []) := by
      have : s1.signalView.signals = s.signalView.signals ++
          (if (f && !api.options.buildUnrelatedTargetsOnError) = true then [2] else []) := by
        rw [hv]
        rfl
      exact this
    have herr : s1.errorLines = s.errorLines := by
      have : s1.signalView.errors = s.signalView.errors := by rw [hv]; rfl
      exact this
    by_cases hab : (f && !api.options.buildUnrelatedTargetsOnError) = true
    · rw [if_pos hab] at hsig
      have hf : f = true ∧ api.options.buildUnrelatedTargetsOnError = false := by
        simpa using hab
      have hFF : FailFastAbort api ev := ⟨e, by rw [hev, hf.1], hf.2⟩
      refine ⟨[2], hsig, by simp, ?_⟩
      intro c hc
      rw [List.mem_singleton] at hc
      subst hc
      refine ⟨⟨fun _ => hFF, fun _ => rfl⟩, ⟨fun h => (by cases h), fun h => absurd hFF h.1⟩,
        ⟨fun h => (by cases h), fun h => absurd hFF h.1⟩⟩
    · rw [if_neg hab] at hsig
      exact ⟨[], hsig, by simp, fun c hc => (by cases hc)⟩
  · have hnoFF : ¬ FailFastAbort api ev := by
      rintro ⟨e, he, _⟩
      exact hne e true he
    have hfail2 : CommandFailedIn (evs ++ [ev]) ↔ CommandFailedIn evs := by
      unfold CommandFailedIn
      constructor
      · rintro ⟨e, he⟩
        rcases List.mem_append.1 he with he | he
        · exact ⟨e, he⟩
        · rw [List.mem_singleton] at he
          exact absurd he.symm (hne e true)
      · rintro ⟨e, he⟩
        exact ⟨e, List.mem_append_left _ he⟩
    rcases hv with hv | hv | hv
    · refine ⟨[], ?_, by simp, fun c hc => (by cases hc)⟩
      have : s1.signalView.signals = s.signalView.signals := by rw [hv]
      rw [List.append_nil]
      exact this
    · have hsig : s1.finishedSignals = s.finishedSignals ++ [1] := by
        have : s1.signalView.signals = s.signalView.signals ++ [1] := by rw [hv]; rfl
        exact this
      have herr : ExceptionCaught s s1 := by
        have : s1.signalView.errors = s.signalView.errors + 1 := by rw [hv]; rfl
        exact this
      refine ⟨[1], hsig, by simp, ?_⟩
      intro c hc
      rw [List.mem_singleton] at hc
      subst hc
      refine ⟨⟨fun h => (by cases h), fun h => absurd h hnoFF⟩,
        ⟨fun _ => ⟨hnoFF, Or.inl herr⟩, fun _ => rfl⟩,
        ⟨fun h => (by cases h), fun h => absurd herr h.2.1⟩⟩
    · have hsig : s1.finishedSignals = s.finishedSignals ++
          [if (!s.m_allCommandsSuccessfullyExecuted &&
            api.options.buildUnrelatedTargetsOnError) = true then 1 else 0] := by
        have : s1.signalView.signals = s.signalView.signals ++
            [if (!s.signalView.allOk && api.options.buildUnrelatedTargetsOnError) = true
              then 1 else 0] := by
          rw [hv]
          rfl
        exact this
      have herr : ¬ ExceptionCaught s s1 := by
        have : s1.signalView.errors = s.signalView.errors := by rw [hv]; rfl
        have h2 : s1.errorLines = s.errorLines := this
        unfold ExceptionCaught
        omega
      by_cases hk : (!s.m_allCommandsSuccessfullyExecuted &&
          api.options.buildUnrelatedTargetsOnError) = true
      · rw [if_pos hk] at hsig
        have hk2 : s.m_allCommandsSuccessfullyExecuted = false ∧
            api.options.buildUnrelatedTargetsOnError = true := by simpa using hk
        have hyes : api.options.buildUnrelatedTargetsOnError = true ∧
            CommandFailedIn (evs ++ [ev]) := ⟨hk2.2, hfail2.2 (hfail.1 hk2.1)⟩
        refine ⟨[1], hsig, by simp, ?_⟩
        intro c hc
        rw [List.mem_singleton] at hc
        subst hc
        refine ⟨⟨fun h => (by cases h), fun h => absurd h hnoFF⟩,
          ⟨fun _ => ⟨hnoFF, Or.inr hyes⟩, fun _ => rfl⟩,
          ⟨fun h => (by cases h), fun h => absurd hyes h.2.2⟩⟩
      · rw [if_neg hk] at hsig
        have hno : ¬ (api.options.buildUnrelatedTargetsOnError = true ∧
            CommandFailedIn (evs ++ [ev])) := by
          rintro ⟨h1, h2⟩
          apply hk
          have := hfail.2 (hfail2.1 h2)
          simp [this, h1]
        refine ⟨[0], hsig, by simp, ?_⟩
        intro c hc
        rw [List.mem_singleton] at hc
        subst hc
        refine ⟨⟨fun h => (by cases h), fun h => absurd h hnoFF⟩,
          ⟨fun h => (by cases h), fun h => ?_⟩, ⟨fun _ => ⟨hnoFF, herr, hno⟩, fun _ => rfl⟩⟩
        rcases h.2 with h3 | h3
        · exact absurd h3 herr
        · exact absurd h3 hno

theorem buildNextTarget_codes {G : Type} (api : Collaborators G)
    (s s1 : TargetExecutor G) (h : TargetExecutor.buildNextTarget api s = some s1) :
    s1.finishedSignals = s.finishedSignals ∨ s1.errorLines = s.errorLines + 1 := by
  rcases buildNextTarget_signalView api s s1 h with hv | hv
  · left
    have : s1.signalView.signals = s.signalView.signals := by rw [hv]
    exact this
  · right
    have : s1.signalView.errors = s.signalView.errors + 1 := by rw [hv]; rfl
    exact this

theorem catchException_errorLines {G : Type} (api : Collaborators G) (s : TargetExecutor G)
    (e : String) : (TargetExecutor.catchException api s e).errorLines = s.errorLines + 1 := by
  have : (TargetExecutor.catchException api s e).signalView.errors = s.signalView.errors + 1 := by
    rw [catchException_signalView]
    rfl
  exact this

/-- A `startProcesses` that finds the build complete calls `finishBuild(0)`, and only such a
one passes a code to `finished` without an exception caught. -/
theorem startProcesses_complete {G : Type} (api : Collaborators G) (fuel : Nat)
    (s s1 : TargetExecutor G) (h : s.startProcesses api fuel = some s1) :
    (BuildComplete api fuel Event.startProcesses s →
      s1.signalView =
        SignalView.finished api.options.buildUnrelatedTargetsOnError s.signalView) ∧
    (s1.finishedSignals ≠ s.finishedSignals → s1.errorLines = s.errorLines →
      BuildComplete api fuel Event.startProcesses s) := by
  unfold TargetExecutor.startProcesses at h
  by_cases hab : s.m_bAborted = true
  · rw [if_pos hab] at h
    have e := Option.some.inj h
    subst e
    refine ⟨fun hB => ?_, fun hne _ => absurd rfl hne⟩
    rw [hB.2.1] at hab
    cases hab
  · rw [if_neg hab] at h
    have hab2 : s.m_bAborted = false := by simpa using hab
    cases hjc : s.m_jobClient with
    | none => simp [hjc] at h
    | some jc =>
      simp only [hjc] at h
      by_cases hg : (jc.isAcquiring || s.m_availableProcesses.isEmpty) = true
      · rw [if_pos hg] at h
        have e := Option.some.inj h
        subst e
        refine ⟨fun hB => ?_, fun hne _ => absurd rfl hne⟩
        obtain ⟨_, _, ⟨jc2, hjc2, hacq⟩, hav, _⟩ := hB
        rw [hjc] at hjc2
        cases hjc2
        rw [hacq, Bool.false_or, List.isEmpty_iff] at hg
        exact absurd hg hav
      · rw [if_neg hg] at h
        have hg2 : jc.isAcquiring = false ∧ s.m_availableProcesses ≠ [] := by
          simpa [List.isEmpty_iff] using hg
        cases hF : TargetExecutor.ensureNextTarget api fuel s with
        | none => simp [hF] at h
        | some res =>
          obtain ⟨r, s0⟩ := res
          have hv := ensureNextTarget_signalView api fuel s s0 r hF
          have hsig0 : s0.finishedSignals = s.finishedSignals := by
            have : s0.signalView.signals = s.signalView.signals := by rw [hv]
            exact this
          have herr0 : s0.errorLines = s.errorLines := by
            have : s0.signalView.errors = s.signalView.errors := by rw [hv]
            exact this
          simp only [hF] at h
          cases r with
          | error e =>
            simp only [Option.some.injEq] at h
            subst h
            refine ⟨fun hB => ?_, fun _ herr => ?_⟩
            · obtain ⟨_, _, _, _, s2, hs2, _⟩ := hB
              rw [hF] at hs2
              cases hs2
            · rw [catchException_errorLines, herr0] at herr
              omega
          | ok u =>
            simp only at h
            cases hD : TargetExecutor.dispatch api jc s0 with
            | none => simp [hD] at h
            | some res2 =>
              obtain ⟨r2, s2⟩ := res2
              simp only [hD] at h
              unfold TargetExecutor.dispatch at hD
              cases hnt : s0.m_nextTarget with
              | some t =>
                simp only [hnt] at hD
                have hnoB : ¬ BuildComplete api fuel Event.startProcesses s := by
                  rintro ⟨_, _, _, _, s3, hs3, hn3, _⟩
                  rw [hF] at hs3
                  cases hs3
                  rw [hnt] at hn3
                  cases hn3
                refine ⟨fun hB => absurd hB hnoB, fun hne herr => ?_⟩
                exfalso
                by_cases hz : s0.numberOfRunningProcesses = 0
                · rw [if_pos hz] at hD
                  cases hb : TargetExecutor.buildNextTarget api s0 with
                  | none => simp [hb] at hD
                  | some s4 =>
                    simp only [hb, Option.map_some', Option.some.injEq, Prod.mk.injEq] at hD
                    obtain ⟨h1, h2⟩ := hD
                    subst h1 h2
                    simp only [Option.some.injEq] at h
                    subst h
                    rcases buildNextTarget_codes api s0 s4 hb with h3 | h3
                    · exact hne (h3.trans hsig0)
                    · rw [h3, herr0] at herr
                      omega
                · rw [if_neg hz] at hD
                  simp only [Option.some.injEq, Prod.mk.injEq] at hD
                  obtain ⟨h1, h2⟩ := hD
                  subst h1 h2
                  simp only [Option.some.injEq] at h
                  subst h
                  exact hne hsig0
              | none =>
                simp only [hnt] at hD
                by_cases hz : s0.numberOfRunningProcesses = 0
                · rw [if_pos hz] at hD
                  cases hp : s0.m_pendingTargets with
                  | nil =>
                    simp only [hp, Option.some.injEq, Prod.mk.injEq] at hD
                    obtain ⟨h1, h2⟩ := hD
                    subst h1 h2
                    simp only [Option.some.injEq] at h
                    subst h
                    have hB : BuildComplete api fuel Event.startProcesses s :=
                      ⟨rfl, hab2, ⟨jc, hjc, hg2.1⟩, hg2.2, s0, hF, hnt, hz, hp⟩
                    refine ⟨fun _ => ?_, fun _ _ => hB⟩
                    rw [finishBuild_zero_signalView, hv]
                  | cons next rest =>
                    have hnoB : ¬ BuildComplete api fuel Event.startProcesses s := by
                      rintro ⟨_, _, _, _, s3, hs3, _, _, hp3⟩
                      rw [hF] at hs3
                      cases hs3
                      rw [hp] at hp3
                      cases hp3
                    refine ⟨fun hB => absurd hB hnoB, fun hne herr => ?_⟩
                    exfalso
                    simp only [hp] at hD
                    cases next with
                    | none => simp at hD
                    | some t =>
                      simp only at hD
                      rcases hb : api.build t
                          (api.invalidateTimeStamps (api.clear s0.m_depgraph)) with ⟨res, d⟩
                      rw [hb] at hD
                      cases res with
                      | error e =>
                        simp only [Option.some.injEq, Prod.mk.injEq] at hD
                        obtain ⟨h1, h2⟩ := hD
                        subst h1 h2
                        simp only [Option.some.injEq] at h
                        subst h
                        rw [catchException_errorLines] at herr
                        have herr2 : s0.errorLines + 1 = s.errorLines := herr
                        omega
                      | ok u2 =>
                        simp only [Option.some.injEq, Prod.mk.injEq] at hD
                        obtain ⟨h1, h2⟩ := hD
                        subst h1 h2
                        simp only [Option.some.injEq] at h
                        subst h
                        exact hne hsig0
                · have hnoB : ¬ BuildComplete api fuel Event.startProcesses s := by
                    rintro ⟨_, _, _, _, s3, hs3, _, hz3, _⟩
                    rw [hF] at hs3
                    cases hs3
                    exact hz hz3
                  refine ⟨fun hB => absurd hB hnoB, fun hne _ => ?_⟩
                  rw [if_neg hz] at hD
                  simp only [Option.some.injEq, Prod.mk.injEq] at hD
                  obtain ⟨h1, h2⟩ := hD
                  subst h1 h2
                  simp only [Option.some.injEq] at h
                  subst h
                  exact absurd hsig0 hne

/-- C8 (amended): the exit-code law. In a run of the scheduler that starts with the success
flag set (as `apply` leaves it), every event passes at most one code to `finished`. It passes
one exactly when it is a fail-fast abort (a command failed with keep-going off), when an
exception is caught by `startProcesses` or `buildNextTarget` in it, or when it is a
`startProcesses` that finds the build complete. A fail-fast abort passes 2 and a caught
exception passes 1. The code passed is 2 if and only if the event is a fail-fast abort; 1 if
and only if it is not and either an exception was caught in this event, or keep-going is on
and at least one command has failed; and 0 otherwise. -/
theorem C8_exit_code_law {G : Type} (api : Collaborators G) (fuel : Nat)
    (s0 s s1 : TargetExecutor G) (evs : List Event) (ev : Event)
    (h0 : s0.m_allCommandsSuccessfullyExecuted = true)
    (hrun : TargetExecutor.run api fuel evs s0 = some s)
    (hstep : TargetExecutor.step api fuel ev s = some s1) :
    ∃ codes, s1.finishedSignals = s.finishedSignals ++ codes ∧ codes.length ≤ 1 ∧
      (codes ≠ [] ↔
        FailFastAbort api ev ∨ ExceptionCaught s s1 ∨ BuildComplete api fuel ev s) ∧
      (FailFastAbort api ev → codes = [2]) ∧
      (ExceptionCaught s s1 → codes = [1]) ∧
      ∀ c ∈ codes,
        (c = 2 ↔ FailFastAbort api ev) ∧
        (c = 1 ↔ ¬ FailFastAbort api ev ∧
          (ExceptionCaught s s1 ∨
            (api.options.buildUnrelatedTargetsOnError = true ∧ CommandFailedIn (evs ++ [ev])))) ∧
        (c = 0 ↔ ¬ FailFastAbort api ev ∧ ¬ ExceptionCaught s s1 ∧
          ¬ (api.options.buildUnrelatedTargetsOnError = true ∧
            CommandFailedIn (evs ++ [ev]))) := by
  obtain ⟨codes, hsig, hlen, hval⟩ := exit_code_values api fuel s0 s s1 evs ev h0 hrun hstep
  have hcodes : ∀ l, s1.finishedSignals = s.finishedSignals ++ l → codes = l := by
    intro l hl
    rw [hsig] at hl
    exact List.append_cancel_left hl
  have hview := step_signalView api fuel ev s s1 hstep
  have hFF : FailFastAbort api ev → codes = [2] := by
    rintro ⟨e, he, hk⟩
    rcases hview with ⟨e1, f1, hev, hv⟩ | ⟨hne, _⟩
    · rw [he] at hev
      cases hev
      apply hcodes
      have : s1.signalView.signals = s.signalView.signals ++
          (if (true && !api.options.buildUnrelatedTargetsOnError) = true then [2] else []) := by
        rw [hv]
        rfl
      rw [hk] at this
      exact this
    · exact absurd he (hne e true)
  have hExc : ExceptionCaught s s1 → codes = [1] := by
    intro hE
    unfold ExceptionCaught at hE
    rcases hview with ⟨e1, f1, _, hv⟩ | ⟨_, hv | hv | hv⟩
    · have : s1.signalView.errors = s.signalView.errors := by rw [hv]; rfl
      have h2 : s1.errorLines = s.errorLines := this
      omega
    · have : s1.signalView.errors = s.signalView.errors := by rw [hv]
      have h2 : s1.errorLines = s.errorLines := this
      omega
    · apply hcodes
      have : s1.signalView.signals = s.signalView.signals ++ [1] := by rw [hv]; rfl
      exact this
    · have : s1.signalView.errors = s.signalView.errors := by rw [hv]; rfl
      have h2 : s1.errorLines = s.errorLines := this
      omega
  refine ⟨codes, hsig, hlen, ⟨?_, ?_⟩, hFF, hExc, hval⟩
  · intro hne
    have hsne : s1.finishedSignals ≠ s.finishedSignals := by
      intro e
      apply hne
      apply hcodes
      rw [List.append_nil]
      exact e
    cases ev with
    | startProcesses =>
      by_cases herr : s1.errorLines = s.errorLines
      · exact Or.inr (Or.inr ((startProcesses_complete api fuel s s1 hstep).2 hsne herr))
      · refine Or.inr (Or.inl ?_)
        rcases startProcesses_signalView api fuel s s1 hstep with hv | hv | hv
        · exact absurd (by
            have : s1.signalView.errors = s.signalView.errors := by rw [hv]
            exact this) herr
        · have : s1.signalView.errors = s.signalView.errors + 1 := by rw [hv]; rfl
          exact this
        · exact absurd (by
            have : s1.signalView.errors = s.signalView.errors := by rw [hv]; rfl
            exact this) herr
    | acquired =>
      simp only [TargetExecutor.step] at hstep
      cases hjc : s.m_jobClient with
      | none => simp [hjc] at hstep
      | some jc =>
        simp only [hjc] at hstep
        by_cases ha : jc.isAcquiring = true
        · rw [if_pos ha] at hstep
          rcases buildNextTarget_codes api _ s1 hstep with h3 | h3
          · exact absurd h3 hsne
          · exact Or.inr (Or.inl h3)
        · rw [if_neg ha] at hstep
          cases hstep
    | childFinished e f =>
      rcases hview with ⟨e1, f1, hev, hv⟩ | ⟨hne2, _⟩
      · cases hev
        have hs : s1.signalView.signals = s.signalView.signals ++
            (if (f && !api.options.buildUnrelatedTargetsOnError) = true then [2] else []) := by
          rw [hv]
          rfl
        by_cases hab : (f && !api.options.buildUnrelatedTargetsOnError) = true
        · have hf : f = true ∧ api.options.buildUnrelatedTargetsOnError = false := by
            simpa using hab
          exact Or.inl ⟨e, by rw [hf.1], hf.2⟩
        · rw [if_neg hab, List.append_nil] at hs
          exact absurd hs hsne
      · exact absurd rfl (hne2 e f)
  · rintro (hF | hE | hB) hnil
    · rw [hFF hF] at hnil
      cases hnil
    · rw [hExc hE] at hnil
      cases hnil
    · have hev := hB.1
      subst hev
      have hv := (startProcesses_complete api fuel s s1 hstep).1 hB
      have hs : s1.signalView.signals = s.signalView.signals ++
          [if (!s.signalView.allOk && api.options.buildUnrelatedTargetsOnError) = true
            then 1 else 0] := by
        rw [hv]
        rfl
      have := hcodes _ hs
      rw [hnil] at this
      cases this

theorem C8_exit_code_law_witness :
    (appliedState throwingApi).m_allCommandsSuccessfullyExecuted = true ∧
    TargetExecutor.run throwingApi 1 [] (appliedState throwingApi) =
      some (appliedState throwingApi) ∧
    TargetExecutor.step throwingApi 1 Event.startProcesses (appliedState throwingApi) =
      some thrownState ∧
    ∃ codes, thrownState.finishedSignals = (appliedState throwingApi).finishedSignals ++ codes ∧
      codes.length ≤ 1 ∧
      (codes ≠ [] ↔
        FailFastAbort throwingApi Event.startProcesses ∨
        ExceptionCaught (appliedState throwingApi) thrownState ∨
        BuildComplete throwingApi 1 Event.startProcesses (appliedState throwingApi)) ∧
      (FailFastAbort throwingApi Event.startProcesses → codes = [2]) ∧
      (ExceptionCaught (appliedState throwingApi) thrownState → codes = [1]) ∧
      ∀ c ∈ codes,
        (c = 2 ↔ FailFastAbort throwingApi Event.startProcesses) ∧
        (c = 1 ↔ ¬ FailFastAbort throwingApi Event.startProcesses ∧
          (ExceptionCaught (appliedState throwingApi) thrownState ∨
            (throwingApi.options.buildUnrelatedTargetsOnError = true ∧
              CommandFailedIn ([] ++ [Event.startProcesses])))) ∧
        (c = 0 ↔ ¬ FailFastAbort throwingApi Event.startProcesses ∧
          ¬ ExceptionCaught (appliedState throwingApi) thrownState ∧
          ¬ (throwingApi.options.buildUnrelatedTargetsOnError = true ∧
            CommandFailedIn ([] ++ [Event.startProcesses]))) :=
  ⟨rfl, rfl, rfl,
    C8_exit_code_law throwingApi 1 (appliedState throwingApi) (appliedState throwingApi)
      thrownState [] Event.startProcesses rfl rfl rfl⟩


/-! ## The scheduler: the streaming executor -/

theorem threeRunning_reach : SchedReach (countingApi threeJobs) threeRunning :=
  schedReach_run (countingApi threeJobs) 1
    [Event.startProcesses, Event.startProcesses, Event.acquired, Event.startProcesses,
      Event.acquired] threeApplied threeRunning
    (SchedReach.applied 0 [] threeApplied rfl) rfl

/-- C11 (the code at the failing input): with three jobs, all three executors running and
executor 0 the only one with unbuffered output, `onChildFinished(executor 0, false)` sets the
output of both executors that are still active, 1 and 2, to unbuffered: two executors of the
pool have `bufferedOutput = false` in a reachable state. -/
theorem C11_two_executors_unbuffered :
    SchedReach (countingApi threeJobs) streamerFinished ∧
    threeRunning.streaming = [0] ∧ threeRunning.active = [0, 1, 2] ∧
    TargetExecutor.step (countingApi threeJobs) 1 (Event.childFinished 0 false) threeRunning =
      some streamerFinished ∧
    streamerFinished.active = [1, 2] ∧ streamerFinished.streaming = [1, 2] := by
  refine ⟨SchedReach.step 1 (Event.childFinished 0 false) threeRunning_reach rfl,
    by rfl, by rfl, by rfl, by rfl, by rfl⟩


/-! ## The scheduler: the goals of `apply` -/

theorem apply_first_goal_unknown {G : Type} (api : Collaborators G) (s : TargetExecutor G)
    (targetName : QString) (others : List QString) (hstart : api.jobClientStart = true)
    (h : api.target targetName = none) :
    ∃ e s1, TargetExecutor.apply api s (targetName :: others) = (Except.error e, s1) ∧
      s1.m_pendingTargets = s.m_pendingTargets ∧ s1.m_depgraph = s.m_depgraph ∧
      s1.finishedSignals = s.finishedSignals := by
  unfold TargetExecutor.apply
  cases hj : s.m_jobClient with
  | none =>
    simp only [hstart, TargetExecutor.selectGoals, h, if_true]
    exact ⟨_, _, rfl, rfl, rfl, rfl⟩
  | some jc =>
    simp only [TargetExecutor.selectGoals, h]
    exact ⟨_, _, rfl, rfl, rfl, rfl⟩

theorem apply_no_targets {G : Type} (api : Collaborators G) (s : TargetExecutor G)
    (hstart : api.jobClientStart = true) (h : api.targetsIsEmpty = true) :
    ∃ s1, TargetExecutor.apply api s [] = (Except.error "no targets in makefile", s1) ∧
      s1.m_pendingTargets = s.m_pendingTargets ∧ s1.m_depgraph = s.m_depgraph := by
  unfold TargetExecutor.apply
  cases hj : s.m_jobClient with
  | none => simp [hstart, TargetExecutor.selectGoals, h]
  | some jc => simp [TargetExecutor.selectGoals, h]

/-- C13 (the code at the failing input): `apply(makefile, ["all", "nosuch"])`, where `all`
names a target and `nosuch` does not, returns without an error: it queues a null pointer in
`m_pendingTargets` and builds the graph of `all`. Only the first goal name is checked. The
tick of the scheduler that takes the null pointer from the queue passes it to `build`, which
dereferences it. -/
theorem C13_later_goal_unchecked :
    loggingApi.target "all" = some 0 ∧ loggingApi.target "nosuch" = none ∧
    TargetExecutor.apply loggingApi (TargetExecutor.construct 2 []) ["all", "nosuch"] =
      (Except.ok (), unknownLaterGoal) ∧
    unknownLaterGoal.m_pendingTargets = [none] ∧ unknownLaterGoal.m_depgraph = [0] ∧
    unknownLaterGoal.startProcesses loggingApi 1 = none := by
  refine ⟨by decide, by decide, by rfl, by rfl, by rfl, by rfl⟩


/-! ## The scheduler: after an abort -/

/-- C17: once `m_bAborted` is set, `startProcesses` returns the state unchanged, and so does
`buildNextTarget` (called with the `m_nextTarget` it asserts): no executor is started, no job
token is requested, and `m_nextTarget`, `m_availableProcesses`, `m_jobAcquisitionCount` and
the graph stay as they are. When the signal `acquired` arrives in an aborted state, only the
job client changes: the request is no longer pending. -/
theorem C17_aborted_dispatches_nothing {G : Type} (api : Collaborators G) (fuel : Nat)
    (s : TargetExecutor G) (h : s.m_bAborted = true) :
    s.startProcesses api fuel = some s ∧
    (∀ t, s.m_nextTarget = some t → TargetExecutor.buildNextTarget api s = some s) ∧
    (∀ t jc, s.m_nextTarget = some t → s.m_jobClient = some jc → jc.isAcquiring = true →
      TargetExecutor.step api fuel Event.acquired s =
        some { s with m_jobClient := some jc.grant }) := by
  refine ⟨?_, ?_, ?_⟩
  · unfold TargetExecutor.startProcesses
    rw [if_pos h]
  · intro t ht
    unfold TargetExecutor.buildNextTarget
    rw [ht]
    simp only
    rw [if_pos h]
  · intro t jc ht hjc hacq
    simp only [TargetExecutor.step, hjc, hacq, if_true]
    unfold TargetExecutor.buildNextTarget
    simp only [ht]
    rw [if_pos h]

theorem C17_aborted_dispatches_nothing_witness :
    abortedState.m_bAborted = true ∧ abortedState.m_nextTarget = some 0 ∧
    (abortedState.startProcesses busyApi 1 = some abortedState ∧
    (∀ t, abortedState.m_nextTarget = some t →
      TargetExecutor.buildNextTarget busyApi abortedState = some abortedState) ∧
    (∀ t jc, abortedState.m_nextTarget = some t → abortedState.m_jobClient = some jc →
      jc.isAcquiring = true →
      TargetExecutor.step busyApi 1 Event.acquired abortedState =
        some { abortedState with m_jobClient := some jc.grant })) :=
  ⟨rfl, rfl, C17_aborted_dispatches_nothing busyApi 1 abortedState rfl⟩


/-! ## `remove(target)`: what changes and what stays -/

/-- C16: in a graph that satisfies the representation invariant (edge symmetry, edge lists
that point to live nodes and hold no node twice), `remove(target)` of a target with a node
returns a graph in which the target has no entry in the node map, the node is freed, no
remaining node lists it among its children or parents, the root is null if the node was the
root and unchanged otherwise, and every other node keeps its target, its state and its other
edges in their order; the other entries of the node map and the lists `m_leaves` and
`m_nodesToRemove` are unchanged. `remove` of a target without a node returns the graph
unchanged. -/
theorem C16_remove_frame (g : DependencyGraph) (target : TargetId) (hI : HeapInv g) :
    (∀ node, hashValue g.m_nodeContainer target = some node →
      ∃ g1, g.remove target = some g1 ∧
        hashValue g1.m_nodeContainer target = none ∧
        (∀ u, u ≠ target →
          hashValue g1.m_nodeContainer u = hashValue g.m_nodeContainer u) ∧
        g1.heap node = none ∧
        (∀ id x1, g1.heap id = some x1 → node ∉ x1.children ∧ node ∉ x1.parents) ∧
        g1.m_root = (if g.m_root = some node then none else g.m_root) ∧
        (∀ id x, id ≠ node → g.heap id = some x →
          ∃ x1, g1.heap id = some x1 ∧ x1.target = x.target ∧ x1.state = x.state ∧
            x1.children = x.children.filter (fun c => c ≠ node) ∧
            x1.parents = x.parents.filter (fun p => p ≠ node)) ∧
        g1.m_leaves = g.m_leaves ∧ g1.m_nodesToRemove = g.m_nodesToRemove) ∧
    (hashValue g.m_nodeContainer target = none → g.remove target = some g) := by
  constructor
  · intro node hnode
    obtain ⟨nd, hnd, htg⟩ := hI.mapLive target node hnode
    obtain ⟨g1, hrem, hheap, hmap, hroot, hntr, hleaves, _⟩ := removeNode_spec g node nd hI hnd
    have hrw : g.remove target = g.removeNode node := by
      unfold DependencyGraph.remove
      rw [hnode]
    refine ⟨g1, hrw.trans hrem, ?_, ?_, ?_, ?_, hroot, ?_, hleaves, hntr⟩
    · rw [hmap, htg]
      rw [hashValue_remove, if_pos rfl]
    · intro u hu
      rw [hmap, htg]
      rw [hashValue_remove, if_neg hu]
    · rw [hheap node, if_pos rfl]
    · intro id x1 hx1
      rw [hheap id] at hx1
      by_cases hid : id = node
      · rw [if_pos hid] at hx1
        cases hx1
      · rw [if_neg hid] at hx1
        cases hx : g.heap id with
        | none =>
          rw [hx] at hx1
          cases hx1
        | some x =>
          rw [hx] at hx1
          have hx1eq : unlinkNode node x = x1 := Option.some.inj hx1
          subst hx1eq
          constructor
          · intro hmem
            exact (List.Nodup.mem_erase_iff (hI.nodupC id x hx)).1 hmem |>.1 rfl
          · intro hmem
            exact (List.Nodup.mem_erase_iff (hI.nodupP id x hx)).1 hmem |>.1 rfl
    · intro id x hid hx
      refine ⟨unlinkNode node x, ?_, rfl, rfl, ?_, ?_⟩
      · rw [hheap id, if_neg hid, hx]
        rfl
      · show x.children.erase node = _
        rw [List.Nodup.erase_eq_filter (hI.nodupC id x hx) node]
        apply List.filter_congr
        intro c _
        by_cases hc : c = node <;> simp [hc]
      · show x.parents.erase node = _
        rw [List.Nodup.erase_eq_filter (hI.nodupP id x hx) node]
        apply List.filter_congr
        intro c _
        by_cases hc : c = node <;> simp [hc]
  · intro hnone
    unfold DependencyGraph.remove
    rw [hnone]

theorem diamondGraph_heapInv : HeapInv diamondGraph :=
  build_heapInv diamondMakefile 4 _ _ 0 (init_heapInv 0) diamondGraph_built

theorem C16_remove_frame_witness :
    HeapInv diamondGraph ∧ hashValue diamondGraph.m_nodeContainer 3 = some 2 ∧
    ((∀ node, hashValue diamondGraph.m_nodeContainer 3 = some node →
      ∃ g1, diamondGraph.remove 3 = some g1 ∧
        hashValue g1.m_nodeContainer 3 = none ∧
        (∀ u, u ≠ 3 →
          hashValue g1.m_nodeContainer u = hashValue diamondGraph.m_nodeContainer u) ∧
        g1.heap node = none ∧
        (∀ id x1, g1.heap id = some x1 → node ∉ x1.children ∧ node ∉ x1.parents) ∧
        g1.m_root = (if diamondGraph.m_root = some node then none else diamondGraph.m_root) ∧
        (∀ id x, id ≠ node → diamondGraph.heap id = some x →
          ∃ x1, g1.heap id = some x1 ∧ x1.target = x.target ∧ x1.state = x.state ∧
            x1.children = x.children.filter (fun c => c ≠ node) ∧
            x1.parents = x.parents.filter (fun p => p ≠ node)) ∧
        g1.m_leaves = diamondGraph.m_leaves ∧
        g1.m_nodesToRemove = diamondGraph.m_nodesToRemove) ∧
    (hashValue diamondGraph.m_nodeContainer 3 = none →
      diamondGraph.remove 3 = some diamondGraph)) :=
  ⟨diamondGraph_heapInv, by rfl, C16_remove_frame diamondGraph 3 diamondGraph_heapInv⟩


/-! ## The scheduler: what `findNextTarget` leaves -/

theorem skipAll_append {G : Type} (api : Collaborators G) (t : TargetId) :
    ∀ (l : List TargetId) (d d1 d2 : G), api.skipAll l d = some d1 →
      api.findAvailableTarget api.options.buildAllTargets d1 = (Except.ok (some t), d2) →
      api.skips t d2 = true →
      api.skipAll (l ++ [t]) d = some (api.removeLeaf t d2) := by
  intro l
  induction l with
  | nil =>
    intro d d1 d2 h hf hs
    simp only [Collaborators.skipAll] at h
    cases h
    simp [Collaborators.skipAll, hf, hs]
  | cons u rest ih =>
    intro d d1 d2 h hf hs
    simp only [List.cons_append, Collaborators.skipAll] at h ⊢
    rcases hfd : api.findAvailableTarget api.options.buildAllTargets d with ⟨r, d3⟩
    rw [hfd] at h
    cases r with
    | error e => simp at h
    | ok o =>
      cases o with
      | none => simp at h
      | some t1 =>
        simp only at h ⊢
        by_cases hc : t1 = u ∧ api.skips u d3 = true
        · rw [if_pos hc] at h ⊢
          exact ih _ _ _ h hf hs
        · rw [if_neg hc] at h
          cases h

theorem findNextTarget_post {G : Type} (api : Collaborators G) :
    ∀ (fuel : Nat) (s s1 : TargetExecutor G) (skipped : List TargetId) (d0 : G),
      api.skipAll skipped d0 = some s.m_depgraph →
      TargetExecutor.findNextTarget api fuel s = some (Except.ok (), s1) →
      ∃ skipped1 d, api.skipAll skipped1 d0 = some d ∧
        api.findAvailableTarget api.options.buildAllTargets d =
          (Except.ok s1.m_nextTarget, s1.m_depgraph) ∧
        ∀ t, s1.m_nextTarget = some t → api.skips t s1.m_depgraph = false := by
  intro fuel
  induction fuel with
  | zero =>
    intro s s1 skipped d0 _ h
    simp [TargetExecutor.findNextTarget] at h
  | succ fuel ih =>
    intro s s1 skipped d0 hsk h
    unfold TargetExecutor.findNextTarget at h
    rcases hfd : api.findAvailableTarget api.options.buildAllTargets s.m_depgraph with ⟨r, d⟩
    rw [hfd] at h
    cases r with
    | error e => simp at h
    | ok next =>
      cases next with
      | none =>
        simp only [Option.some.injEq, Prod.mk.injEq, true_and] at h
        subst h
        exact ⟨skipped, s.m_depgraph, hsk, hfd, fun t ht => (by cases ht)⟩
      | some t =>
        simp only at h
        by_cases hce : api.commandsIsEmpty t d = true
        · rw [if_pos hce] at h
          refine ih _ s1 (skipped ++ [t]) d0 ?_ h
          exact skipAll_append api t skipped d0 _ d hsk hfd
            (by simp [Collaborators.skips, hce])
        · rw [if_neg hce] at h
          by_cases hub : (api.options.buildUnrelatedTargetsOnError &&
              api.isUnbuildable t d) = true
          · rw [if_pos hub] at h
            refine ih _ s1 (skipped ++ [t]) d0 ?_ h
            exact skipAll_append api t skipped d0 _ d hsk hfd
              (by simp only [Collaborators.skips, hub, Bool.or_true])
          · rw [if_neg hub] at h
            simp only [Option.some.injEq, Prod.mk.injEq, true_and] at h
            subst h
            refine ⟨skipped, s.m_depgraph, hsk, hfd, ?_⟩
            intro t1 ht1
            have ht : t = t1 := Option.some.inj ht1
            subst ht
            simp only [Collaborators.skips]
            simp only [Bool.not_eq_true] at hce hub
            rw [hce, hub]
            rfl

/-- C12: when `findNextTarget` returns, there is a list of targets that it skipped, each of
them handed out by `findAvailableTarget`, found to have an empty command list or (with
keep-going on) to be unbuildable, and removed from the graph with `removeLeaf`; `m_nextTarget`
is what `findAvailableTarget` answered on the graph after these removals, and it is either
null or a target whose command list is not empty and which, when keep-going is on, is not
marked unbuildable. -/
theorem C12_findNextTarget_post {G : Type} (api : Collaborators G) (fuel : Nat)
    (s s1 : TargetExecutor G)
    (h : TargetExecutor.findNextTarget api fuel s = some (Except.ok (), s1)) :
    ∃ skipped d, api.skipAll skipped s.m_depgraph = some d ∧
      api.findAvailableTarget api.options.buildAllTargets d =
        (Except.ok s1.m_nextTarget, s1.m_depgraph) ∧
      ∀ t, s1.m_nextTarget = some t →
        api.commandsIsEmpty t s1.m_depgraph = false ∧
        (api.options.buildUnrelatedTargetsOnError = true →
          api.isUnbuildable t s1.m_depgraph = false) := by
  obtain ⟨skipped, d, h1, h2, h3⟩ := findNextTarget_post api fuel s s1 [] s.m_depgraph rfl h
  refine ⟨skipped, d, h1, h2, ?_⟩
  intro t ht
  have h4 := h3 t ht
  simp only [Collaborators.skips, Bool.or_eq_false_iff, Bool.and_eq_false_imp] at h4
  exact h4

theorem C12_findNextTarget_post_witness :
    TargetExecutor.findNextTarget queueApi 5 queueState = some (Except.ok (), queueStateNext) ∧
    queueStateNext.m_nextTarget = some 5 ∧
    queueApi.skipAll [0, 7] queueState.m_depgraph = some queueStateNext.m_depgraph ∧
    ∃ skipped d, queueApi.skipAll skipped queueState.m_depgraph = some d ∧
      queueApi.findAvailableTarget queueApi.options.buildAllTargets d =
        (Except.ok queueStateNext.m_nextTarget, queueStateNext.m_depgraph) ∧
      ∀ t, queueStateNext.m_nextTarget = some t →
        queueApi.commandsIsEmpty t queueStateNext.m_depgraph = false ∧
        (queueApi.options.buildUnrelatedTargetsOnError = true →
          queueApi.isUnbuildable t queueStateNext.m_depgraph = false) :=
  ⟨rfl, rfl, rfl, C12_findNextTarget_post queueApi 5 queueState queueStateNext rfl⟩


/-! ## `isSubJOM`: the walk over the process table -/

theorem processFind_erase (h : List (DWORD × PROCESSENTRY32)) (pid q : DWORD) :
    processFind (processErase h pid) q = if q = pid then none else processFind h q := by
  induction h with
  | nil => simp [processErase, processFind]
  | cons e rest ih =>
    obtain ⟨k, v⟩ := e
    unfold processErase at ih ⊢
    by_cases hk : k = pid
    · subst hk
      by_cases hq : q = k
      · subst hq
        simpa [List.filter, processFind] using ih
      · have hq2 : ¬ k = q := fun hh => hq hh.symm
        simpa [List.filter, processFind, hq, hq2] using ih
    · by_cases hq : k = q
      · subst hq
        simp [List.filter, processFind, hk]
      · simpa [List.filter, processFind, hk, hq] using ih

theorem processErase_length_le (h : List (DWORD × PROCESSENTRY32)) (pid : DWORD) :
    (processErase h pid).length ≤ h.length :=
  List.length_filter_le _ _

theorem processErase_length_lt (h : List (DWORD × PROCESSENTRY32)) (pid : DWORD)
    (pe : PROCESSENTRY32) (hf : processFind h pid = some pe) :
    (processErase h pid).length < h.length := by
  induction h with
  | nil => simp [processFind] at hf
  | cons e rest ih =>
    obtain ⟨k, v⟩ := e
    by_cases hk : k = pid
    · have h1 : processErase ((k, v) :: rest) pid = processErase rest pid := by
        simp [processErase, List.filter, hk]
      rw [h1]
      have := processErase_length_le rest pid
      simp only [List.length_cons]
      omega
    · have h1 : processErase ((k, v) :: rest) pid = (k, v) :: processErase rest pid := by
        simp [processErase, List.filter, hk]
      rw [h1]
      have hf2 : processFind rest pid = some pe := by
        simpa [processFind, hk] using hf
      have := ih hf2
      simp only [List.length_cons]
      omega

theorem ancestorLoop_total (name : QString) (cur : DWORD) :
    ∀ (fuel : Nat) (h : List (DWORD × PROCESSENTRY32)) (pid : DWORD), h.length < fuel →
      ∃ b, ancestorLoop name cur fuel h pid = some b := by
  intro fuel
  induction fuel with
  | zero =>
    intro h pid hlt
    omega
  | succ fuel ih =>
    intro h pid hlt
    unfold ancestorLoop
    by_cases h0 : pid = 0
    · exact ⟨false, by rw [if_pos h0]⟩
    · rw [if_neg h0]
      cases hf : processFind h pid with
      | none => exact ⟨false, rfl⟩
      | some pe =>
        simp only
        by_cases hm : pe.th32ProcessID ≠ cur ∧ pe.szExeFile = name
        · exact ⟨true, by rw [if_pos hm]⟩
        · rw [if_neg hm]
          apply ih
          have := processErase_length_lt h pid pe hf
          omega

theorem ancestorVisits_spec (name : QString) (cur : DWORD) :
    ∀ (fuel : Nat) (h : List (DWORD × PROCESSENTRY32)) (pid : DWORD), h.length < fuel →
      ∃ v, ancestorVisits name cur fuel h pid = some v ∧ v.Nodup ∧
        (∀ p ∈ v, ∃ pe, processFind h p = some pe) ∧ v.length ≤ h.length := by
  intro fuel
  induction fuel with
  | zero =>
    intro h pid hlt
    omega
  | succ fuel ih =>
    intro h pid hlt
    unfold ancestorVisits
    by_cases h0 : pid = 0
    · exact ⟨[], by rw [if_pos h0], List.nodup_nil, fun p hp => (by cases hp), Nat.zero_le _⟩
    · rw [if_neg h0]
      cases hf : processFind h pid with
      | none => exact ⟨[], rfl, List.nodup_nil, fun p hp => (by cases hp), Nat.zero_le _⟩
      | some pe =>
        simp only
        have hlen := processErase_length_lt h pid pe hf
        by_cases hm : pe.th32ProcessID ≠ cur ∧ pe.szExeFile = name
        · refine ⟨[pid], by rw [if_pos hm], List.nodup_singleton _, ?_, ?_⟩
          · intro p hp
            rw [List.mem_singleton] at hp
            subst hp
            exact ⟨pe, hf⟩
          · simp only [List.length_singleton]
            omega
        · rw [if_neg hm]
          obtain ⟨v, hv, hnd, hmem, hle⟩ :=
            ih (processErase h pid) pe.th32ParentProcessID (by omega)
          refine ⟨pid :: v, by rw [hv]; rfl, ?_, ?_, ?_⟩
          · refine List.nodup_cons.2 ⟨?_, hnd⟩
            intro hin
            obtain ⟨pe2, h2⟩ := hmem pid hin
            rw [processFind_erase, if_pos rfl] at h2
            cases h2
          · intro p hp
            rcases List.mem_cons.1 hp with hp | hp
            · subst hp
              exact ⟨pe, hf⟩
            · obtain ⟨pe2, h2⟩ := hmem p hp
              rw [processFind_erase] at h2
              by_cases hpp : p = pid
              · rw [if_pos hpp] at h2
                cases h2
              · rw [if_neg hpp] at h2
                exact ⟨pe2, h2⟩
          · simp only [List.length_cons]
            omega


theorem processFind_key (h : List (DWORD × PROCESSENTRY32)) (hk : KeyIsPid h) (p : DWORD)
    (pe : PROCESSENTRY32) (hf : processFind h p = some pe) : pe.th32ProcessID = p := by
  induction h with
  | nil => simp [processFind] at hf
  | cons e rest ih =>
    obtain ⟨k, v⟩ := e
    by_cases hkp : k = p
    · have hv : v = pe := by simpa [processFind, hkp] using hf
      have := hk (k, v) (List.mem_cons_self _ _)
      rw [← hv, ← hkp]
      exact this
    · have hf2 : processFind rest p = some pe := by simpa [processFind, hkp] using hf
      exact ih (fun e he => hk e (List.mem_cons_of_mem _ he)) hf2

theorem keyIsPid_erase (h : List (DWORD × PROCESSENTRY32)) (pid : DWORD) (hk : KeyIsPid h) :
    KeyIsPid (processErase h pid) :=
  fun e he => hk e (List.mem_of_mem_filter he)

theorem keyIsPid_foldl (entries : List PROCESSENTRY32) :
    ∀ h : List (DWORD × PROCESSENTRY32), KeyIsPid h →
      KeyIsPid (entries.foldl (fun h pe => processInsert h pe.th32ProcessID pe) h) := by
  induction entries with
  | nil => intro h hk; exact hk
  | cons pe rest ih =>
    intro h hk
    apply ih
    intro e he
    rcases List.mem_append.1 he with he | he
    · exact keyIsPid_erase h _ hk e he
    · rw [List.mem_singleton] at he
      subst he
      rfl

theorem keyIsPid_table (entries : List PROCESSENTRY32) : KeyIsPid (processTable entries) :=
  keyIsPid_foldl entries [] (fun e he => (by cases he))

theorem processTable_length_foldl (entries : List PROCESSENTRY32) :
    ∀ h : List (DWORD × PROCESSENTRY32),
      (entries.foldl (fun h pe => processInsert h pe.th32ProcessID pe) h).length ≤
        h.length + entries.length := by
  induction entries with
  | nil => intro h; simp
  | cons pe rest ih =>
    intro h
    have h1 := ih (processInsert h pe.th32ProcessID pe)
    have h2 : (processInsert h pe.th32ProcessID pe).length ≤ h.length + 1 := by
      unfold processInsert
      have := processErase_length_le h pe.th32ProcessID
      simp only [List.length_append, List.length_singleton]
      omega
    simp only [List.foldl_cons, List.length_cons]
    omega

theorem processTable_length (entries : List PROCESSENTRY32) :
    (processTable entries).length ≤ entries.length := by
  have := processTable_length_foldl entries []
  simpa [processTable] using this

theorem parentLink_of_erase (h : List (DWORD × PROCESSENTRY32)) (pid a b : DWORD)
    (hl : ParentLink (processErase h pid) a b) : ParentLink h a b := by
  obtain ⟨ha, pe, hf, hp⟩ := hl
  rw [processFind_erase] at hf
  by_cases hap : a = pid
  · rw [if_pos hap] at hf
    cases hf
  · rw [if_neg hap] at hf
    exact ⟨ha, pe, hf, hp⟩

theorem reach_avoid (h : List (DWORD × PROCESSENTRY32)) (pid parent p : DWORD)
    (pe : PROCESSENTRY32) (hf : processFind h pid = some pe)
    (hpar : pe.th32ParentProcessID = parent) (a : DWORD)
    (hr : Relation.ReflTransGen (ParentLink h) a p) :
    Relation.ReflTransGen (ParentLink (processErase h pid)) a p ∨
      Relation.ReflTransGen (ParentLink (processErase h pid)) parent p := by
  induction hr using Relation.ReflTransGen.head_induction_on with
  | refl => exact Or.inl Relation.ReflTransGen.refl
  | @head a c hstep _ ih =>
    rcases ih with ih | ih
    · by_cases hap : a = pid
      · obtain ⟨_, pe2, hf2, hp2⟩ := hstep
        rw [hap, hf] at hf2
        have : pe = pe2 := Option.some.inj hf2
        subst this
        rw [hpar] at hp2
        subst hp2
        exact Or.inr ih
      · obtain ⟨ha, pe2, hf2, hp2⟩ := hstep
        refine Or.inl (Relation.ReflTransGen.head ⟨ha, pe2, ?_, hp2⟩ ih)
        rw [processFind_erase, if_neg hap]
        exact hf2
    · exact Or.inr ih

theorem ancestorLoop_spec (name : QString) (cur : DWORD) :
    ∀ (fuel : Nat) (h : List (DWORD × PROCESSENTRY32)) (pid : DWORD) (b : Bool),
      ancestorLoop name cur fuel h pid = some b →
      (b = true ↔ ∃ p pe, ReachedProcess h pid p pe ∧ pe.th32ProcessID ≠ cur ∧
        pe.szExeFile = name) := by
  intro fuel
  induction fuel with
  | zero =>
    intro h pid b hb
    simp [ancestorLoop] at hb
  | succ fuel ih =>
    intro h pid b hb
    unfold ancestorLoop at hb
    by_cases h0 : pid = 0
    · rw [if_pos h0] at hb
      have hbf : b = false := (Option.some.inj hb).symm
      subst hbf
      constructor
      · intro hh; cases hh
      · rintro ⟨p, pe, ⟨hr, hp0, _⟩, _⟩
        rcases Relation.ReflTransGen.cases_head hr with heq | ⟨c, hstep, _⟩
        · exact absurd (heq ▸ h0) hp0
        · exact absurd h0 hstep.1
    · rw [if_neg h0] at hb
      cases hf : processFind h pid with
      | none =>
        rw [hf] at hb
        have hbf : b = false := (Option.some.inj hb).symm
        subst hbf
        constructor
        · intro hh; cases hh
        · rintro ⟨p, pe, ⟨hr, _, hfp⟩, _⟩
          rcases Relation.ReflTransGen.cases_head hr with heq | ⟨c, hstep, _⟩
          · rw [← heq, hf] at hfp
            cases hfp
          · obtain ⟨_, pe2, hf2, _⟩ := hstep
            rw [hf] at hf2
            cases hf2
      | some pe =>
        rw [hf] at hb
        simp only at hb
        by_cases hm : pe.th32ProcessID ≠ cur ∧ pe.szExeFile = name
        · rw [if_pos hm] at hb
          have hbt : b = true := (Option.some.inj hb).symm
          subst hbt
          constructor
          · intro _
            exact ⟨pid, pe, ⟨Relation.ReflTransGen.refl, h0, hf⟩, hm.1, hm.2⟩
          · intro _; rfl
        · rw [if_neg hm] at hb
          have hI := ih (processErase h pid) pe.th32ParentProcessID b hb
          rw [hI]
          constructor
          · rintro ⟨p, pe2, ⟨hr, hp0, hfp⟩, hm2⟩
            rw [processFind_erase] at hfp
            by_cases hpp : p = pid
            · rw [if_pos hpp] at hfp
              cases hfp
            · rw [if_neg hpp] at hfp
              refine ⟨p, pe2, ⟨?_, hp0, hfp⟩, hm2⟩
              exact Relation.ReflTransGen.head ⟨h0, pe, hf, rfl⟩
                (Relation.ReflTransGen.mono (fun a b hl => parentLink_of_erase h pid a b hl) hr)
          · rintro ⟨p, pe2, ⟨hr, hp0, hfp⟩, hm2⟩
            have hpp : p ≠ pid := by
              intro hpp
              rw [hpp, hf] at hfp
              have : pe = pe2 := Option.some.inj hfp
              subst this
              exact hm hm2
            have hfp2 : processFind (processErase h pid) p = some pe2 := by
              rw [processFind_erase, if_neg hpp]
              exact hfp
            rcases reach_avoid h pid pe.th32ParentProcessID p pe hf rfl pid hr with hr2 | hr2
            · rcases Relation.ReflTransGen.cases_head hr2 with heq | ⟨c, hstep, _⟩
              · exact absurd heq.symm hpp
              · obtain ⟨_, pe3, hf3, _⟩ := hstep
                rw [processFind_erase, if_pos rfl] at hf3
                cases hf3
            · exact ⟨p, pe2, ⟨hr2, hp0, hfp2⟩, hm2⟩


/-- C18: on every snapshot of the process table, for every current process id and executable
name, `isSubJOM` returns (given room for one iteration per table entry), and it returns true
if and only if some process other than the current one, reached from the current process by
following parent links through entries of the table (the walk stops at process id 0 and at an
id without entry), has exactly that executable name. -/
theorem C18_isSubJOM_iff (entries : List PROCESSENTRY32) (dwCurrentProcessId : DWORD)
    (processExeName : QString) (fuel : Nat) (hfuel : (processTable entries).length < fuel) :
    ∃ b, isSubJOM fuel (some entries) dwCurrentProcessId processExeName = some b ∧
      (b = true ↔ ∃ p pe, ReachedProcess (processTable entries) dwCurrentProcessId p pe ∧
        p ≠ dwCurrentProcessId ∧ pe.szExeFile = processExeName) := by
  obtain ⟨b, hb⟩ := ancestorLoop_total processExeName dwCurrentProcessId fuel
    (processTable entries) dwCurrentProcessId hfuel
  refine ⟨b, hb, ?_⟩
  rw [ancestorLoop_spec processExeName dwCurrentProcessId fuel _ _ b hb]
  constructor
  · rintro ⟨p, pe, hr, hne, hname⟩
    have hk := processFind_key _ (keyIsPid_table entries) p pe hr.2.2
    exact ⟨p, pe, hr, hk ▸ hne, hname⟩
  · rintro ⟨p, pe, hr, hne, hname⟩
    have hk := processFind_key _ (keyIsPid_table entries) p pe hr.2.2
    exact ⟨p, pe, hr, hk.symm ▸ hne, hname⟩

theorem C18_isSubJOM_iff_witness :
    (processTable nestedSnapshot).length < 6 ∧
    isSubJOM 6 (some nestedSnapshot) 30 "jom.exe" = some true ∧
    isSubJOM 6 (some nestedSnapshot) 99 "jom.exe" = some false ∧
    ∃ b, isSubJOM 6 (some nestedSnapshot) 30 "jom.exe" = some b ∧
      (b = true ↔ ∃ p pe, ReachedProcess (processTable nestedSnapshot) 30 p pe ∧
        p ≠ 30 ∧ pe.szExeFile = "jom.exe") :=
  ⟨by decide, by rfl, by rfl, C18_isSubJOM_iff nestedSnapshot 30 "jom.exe" 6 (by decide)⟩

theorem ancestorVisits_isSome (name : QString) (cur : DWORD) :
    ∀ (fuel : Nat) (h : List (DWORD × PROCESSENTRY32)) (pid : DWORD),
      (ancestorVisits name cur fuel h pid).isSome = (ancestorLoop name cur fuel h pid).isSome := by
  intro fuel
  induction fuel with
  | zero => intro h pid; rfl
  | succ fuel ih =>
    intro h pid
    unfold ancestorVisits ancestorLoop
    by_cases h0 : pid = 0
    · rw [if_pos h0, if_pos h0]
      rfl
    · rw [if_neg h0, if_neg h0]
      cases hf : processFind h pid with
      | none => rfl
      | some pe =>
        simp only
        by_cases hm : pe.th32ProcessID ≠ cur ∧ pe.szExeFile = name
        · rw [if_pos hm, if_pos hm]
          rfl
        · rw [if_neg hm, if_neg hm, ← ih]
          cases ancestorVisits name cur fuel (processErase h pid) pe.th32ParentProcessID <;> rfl

theorem cyclicSnapshot_walk :
    isSubJOM 4 (some cyclicSnapshot) 1 "nmake.exe" = some false ∧
    ancestorVisits "nmake.exe" 1 4 (processTable cyclicSnapshot) 1 = some [1, 2] ∧
    isSubJOM 4 (some cyclicSnapshot) 3 "nmake.exe" = some false ∧
    ancestorVisits "nmake.exe" 3 4 (processTable cyclicSnapshot) 3 = some [3] := by
  refine ⟨by rfl, by rfl, by rfl, by rfl⟩

/-- C23: on every snapshot of the process table, also one with a cycle of parent links or a
process that is its own parent, the walk of `isSubJOM` ends within one iteration per table
entry: with room for that many iterations (and with any more) `isSubJOM` returns, the entries
it visits are entries of the table, no entry is visited twice, and there are at most as many
visits as the snapshot has entries. -/
theorem C23_ancestor_walk_terminates (entries : List PROCESSENTRY32)
    (dwCurrentProcessId : DWORD) (processExeName : QString) (extra : Nat) :
    ∃ b v,
      isSubJOM ((processTable entries).length + 1 + extra) (some entries) dwCurrentProcessId
        processExeName = some b ∧
      ancestorVisits processExeName dwCurrentProcessId
        ((processTable entries).length + 1 + extra) (processTable entries)
        dwCurrentProcessId = some v ∧
      v.Nodup ∧ (∀ p ∈ v, ∃ pe, processFind (processTable entries) p = some pe) ∧
      v.length ≤ entries.length := by
  have hlt : (processTable entries).length < (processTable entries).length + 1 + extra := by
    omega
  obtain ⟨b, hb⟩ := ancestorLoop_total processExeName dwCurrentProcessId _
    (processTable entries) dwCurrentProcessId hlt
  obtain ⟨v, hv, hnd, hmem, hle⟩ := ancestorVisits_spec processExeName dwCurrentProcessId _
    (processTable entries) dwCurrentProcessId hlt
  exact ⟨b, v, hb, hv, hnd, hmem, le_trans hle (processTable_length entries)⟩


/-! ## The scheduler: `buildNextTarget` finds a target and a free executor -/

theorem releaseToken_nextTarget {G : Type} (s s1 : TargetExecutor G)
    (h : s.releaseToken = some s1) : s1.m_nextTarget = s.m_nextTarget := by
  unfold TargetExecutor.releaseToken at h
  by_cases hc : s.m_jobAcquisitionCount > 0
  · rw [if_pos hc] at h
    cases hjc : s.m_jobClient with
    | none => simp [hjc] at h
    | some jc =>
      simp only [hjc, Option.some.injEq] at h
      rw [← h]
  · rw [if_neg hc] at h
    rw [← Option.some.inj h]

theorem electStreaming_nextTarget {G : Type} (s s1 : TargetExecutor G) (e : ExecId)
    (h : s.electStreaming e = some s1) : s1.m_nextTarget = s.m_nextTarget := by
  unfold TargetExecutor.electStreaming at h
  by_cases hb : (!(s.executors e).m_bufferedOutput) = true
  · rw [if_pos hb] at h
    simp only at h
    by_cases ha : (s.m_processes.filter (fun c =>
        (setBufferedOutput s.executors e true c).m_active)).isEmpty = true
    · rw [if_pos ha] at h
      cases hav : s.m_availableProcesses with
      | nil => simp [hav] at h
      | cons first rest =>
        simp only [hav, Option.some.injEq] at h
        rw [← h]
    · rw [if_neg ha] at h
      rw [← Option.some.inj h]
  · rw [if_neg hb] at h
    rw [← Option.some.inj h]

theorem waitForJobClient_nextTarget {G : Type} (s s1 : TargetExecutor G)
    (h : s.waitForJobClient = some s1) : s1.m_nextTarget = s.m_nextTarget := by
  unfold TargetExecutor.waitForJobClient at h
  cases hjc : s.m_jobClient with
  | none => simp [hjc] at h
  | some jc =>
    simp only [hjc] at h
    by_cases ha : (!jc.isAcquiring) = true
    · rw [if_pos ha] at h
      rw [← Option.some.inj h]
    · rw [if_neg ha] at h
      rw [← Option.some.inj h]

theorem onChildFinished_nextTarget {G : Type} (api : Collaborators G)
    (s s1 : TargetExecutor G) (e : ExecId) (f : Bool)
    (h : TargetExecutor.onChildFinished api s e f = some s1) :
    s1.m_nextTarget = s.m_nextTarget := by
  unfold TargetExecutor.onChildFinished at h
  cases ht : (s.executors e).m_pTarget with
  | none => simp [ht] at h
  | some target =>
    simp only [ht] at h
    generalize hs2 : ({ (if f = true then
          if api.options.buildUnrelatedTargetsOnError = true then
            { s with
              m_allCommandsSuccessfullyExecuted := false
              m_depgraph := api.markParentsRecursivlyUnbuildable target s.m_depgraph
              stderr := s.stderr ++ [StderrLine.continuing] }
          else { s with m_allCommandsSuccessfullyExecuted := false }
        else s) with
        m_depgraph := api.removeLeaf target (api.clearCacheForFile target
          (if f = true then
            if api.options.buildUnrelatedTargetsOnError = true then
              { s with
                m_allCommandsSuccessfullyExecuted := false
                m_depgraph := api.markParentsRecursivlyUnbuildable target s.m_depgraph
                stderr := s.stderr ++ [StderrLine.continuing] }
            else { s with m_allCommandsSuccessfullyExecuted := false }
          else s).m_depgraph) } : TargetExecutor G) = s2 at h
    have hv2 : s2.m_nextTarget = s.m_nextTarget := by
      rw [← hs2]
      by_cases hf : f = true <;> by_cases hk : api.options.buildUnrelatedTargetsOnError = true <;>
        simp [hf, hk]
    cases hr : s2.releaseToken with
    | none => simp [hr] at h
    | some s3 =>
      simp only [hr] at h
      have hv3 := releaseToken_nextTarget s2 s3 hr
      cases he : TargetExecutor.electStreaming
          { s3 with m_availableProcesses := s3.m_availableProcesses ++ [e] } e with
      | none => simp [he] at h
      | some s5 =>
        simp only [he] at h
        have hv5 : s5.m_nextTarget = s3.m_nextTarget := by
          have := electStreaming_nextTarget _ s5 e he
          exact this
        by_cases hab : (f && !api.options.buildUnrelatedTargetsOnError) = true
        · rw [if_pos hab] at h
          cases hw : TargetExecutor.waitForJobClient
              { s5 with
                m_bAborted := true
                m_depgraph := api.clear s5.m_depgraph
                m_pendingTargets := [] } with
          | none => simp [hw] at h
          | some s7 =>
            simp only [hw, Option.some.injEq] at h
            have hv7 : s7.m_nextTarget = s5.m_nextTarget := by
              have := waitForJobClient_nextTarget _ s7 hw
              exact this
            rw [← h]
            show s7.m_nextTarget = _
            rw [hv7, hv5, hv3, hv2]
        · rw [if_neg hab] at h
          rw [← Option.some.inj h, hv5, hv3, hv2]


theorem acquiringInv_of_not_acquiring {G : Type} (s : TargetExecutor G)
    (h : s.tokenView.acquiring = false) : AcquiringInv s := by
  intro ha
  have h2 : s.isAcquiring = false := h
  rw [h2] at ha
  cases ha

theorem dispatch_acquiringInv {G : Type} (api : Collaborators G) (jc : JobClient)
    (s s1 : TargetExecutor G) (r : Except String Unit)
    (hab : s.m_bAborted = false) (hjc : s.m_jobClient = some jc)
    (hacq : jc.isAcquiring = false) (hav : s.m_availableProcesses ≠ [])
    (h : TargetExecutor.dispatch api jc s = some (r, s1)) : AcquiringInv s1 := by
  have hacq2 : s.tokenView.acquiring = false := by
    simp [TargetExecutor.tokenView, TargetExecutor.isAcquiring, hjc, hacq]
  unfold TargetExecutor.dispatch at h
  cases hnt : s.m_nextTarget with
  | some t =>
    simp only [hnt] at h
    by_cases hz : s.numberOfRunningProcesses = 0
    · rw [if_pos hz] at h
      cases hb : TargetExecutor.buildNextTarget api s with
      | none => simp [hb] at h
      | some s2 =>
        simp only [hb, Option.map_some', Option.some.injEq, Prod.mk.injEq] at h
        obtain ⟨h1, h2⟩ := h
        subst h1 h2
        apply acquiringInv_of_not_acquiring
        rcases buildNextTarget_tokenView api s s2 hb with ⟨ha, _⟩ | ⟨_, e, rest, ab, _, hv1⟩
        · rw [hab] at ha
          cases ha
        · rw [hv1]
          exact hacq2
    · rw [if_neg hz] at h
      simp only [Option.some.injEq, Prod.mk.injEq] at h
      obtain ⟨h1, h2⟩ := h
      subst h1 h2
      intro _
      exact ⟨rfl, hav⟩
  | none =>
    simp only [hnt] at h
    by_cases hz : s.numberOfRunningProcesses = 0
    · rw [if_pos hz] at h
      cases hp : s.m_pendingTargets with
      | nil =>
        simp only [hp, Option.some.injEq, Prod.mk.injEq] at h
        obtain ⟨h1, h2⟩ := h
        subst h1 h2
        apply acquiringInv_of_not_acquiring
        rw [finishBuild_tokenView]
        exact hacq2
      | cons next rest =>
        simp only [hp] at h
        cases next with
        | none => simp at h
        | some t =>
          simp only at h
          rcases hb : api.build t (api.invalidateTimeStamps (api.clear s.m_depgraph)) with
            ⟨res, d⟩
          rw [hb] at h
          cases res with
          | error e =>
            simp only [Option.some.injEq, Prod.mk.injEq] at h
            obtain ⟨h1, h2⟩ := h
            subst h1 h2
            exact acquiringInv_of_not_acquiring _ hacq2
          | ok u2 =>
            simp only [Option.some.injEq, Prod.mk.injEq] at h
            obtain ⟨h1, h2⟩ := h
            subst h1 h2
            exact acquiringInv_of_not_acquiring _ hacq2
    · rw [if_neg hz] at h
      simp only [Option.some.injEq, Prod.mk.injEq] at h
      obtain ⟨h1, h2⟩ := h
      subst h1 h2
      exact acquiringInv_of_not_acquiring _ hacq2

theorem catchException_acquiringInv {G : Type} (api : Collaborators G)
    (s : TargetExecutor G) (e : String) (h : s.tokenView.acquiring = false) :
    AcquiringInv (TargetExecutor.catchException api s e) := by
  apply acquiringInv_of_not_acquiring
  rw [catchException_tokenView]
  exact h

theorem startProcesses_acquiringInv {G : Type} (api : Collaborators G) (fuel : Nat)
    (s s1 : TargetExecutor G) (hI : AcquiringInv s)
    (h : s.startProcesses api fuel = some s1) : AcquiringInv s1 := by
  unfold TargetExecutor.startProcesses at h
  by_cases hab : s.m_bAborted = true
  · rw [if_pos hab] at h
    rw [← Option.some.inj h]
    exact hI
  · have hab2 : s.m_bAborted = false := by simpa using hab
    rw [if_neg hab] at h
    cases hjc : s.m_jobClient with
    | none => simp [hjc] at h
    | some jc =>
      simp only [hjc] at h
      by_cases hg : (jc.isAcquiring || s.m_availableProcesses.isEmpty) = true
      · rw [if_pos hg] at h
        rw [← Option.some.inj h]
        exact hI
      · rw [if_neg hg] at h
        have hg2 : jc.isAcquiring = false ∧ s.m_availableProcesses.isEmpty = false := by
          simpa using hg
        have hacq : s.tokenView.acquiring = false := by
          simp [TargetExecutor.tokenView, TargetExecutor.isAcquiring, hjc, hg2.1]
        have hav : s.m_availableProcesses ≠ [] := by
          intro hnil
          rw [hnil] at hg2
          simp at hg2
        cases hF : TargetExecutor.ensureNextTarget api fuel s with
        | none => simp [hF] at h
        | some res =>
          obtain ⟨r, s0⟩ := res
          obtain ⟨hv, hjc0⟩ := ensureNextTarget_tokenView api fuel s s0 r hF
          have hab0 : s0.m_bAborted = false := by
            have : s0.tokenView.aborted = s.tokenView.aborted := by rw [hv]
            exact this.trans hab2
          have hav0 : s0.m_availableProcesses ≠ [] := by
            have : s0.tokenView.available = s.tokenView.available := by rw [hv]
            have h2 : s0.m_availableProcesses = s.m_availableProcesses := this
            rw [h2]
            exact hav
          simp only [hF] at h
          cases r with
          | error e =>
            simp only [Option.some.injEq] at h
            rw [← h]
            exact catchException_acquiringInv api s0 e (by rw [hv]; exact hacq)
          | ok u =>
            simp only at h
            cases hD : TargetExecutor.dispatch api jc s0 with
            | none => simp [hD] at h
            | some res2 =>
              obtain ⟨r2, s2⟩ := res2
              simp only [hD] at h
              have hd := dispatch_acquiringInv api jc s0 s2 r2 hab0 (hjc0.trans hjc)
                hg2.1 hav0 hD
              obtain ⟨_, d2⟩ := dispatch_tokenStep api jc s0 s2 r2 hab0 (hjc0.trans hjc)
                hg2.1 hD
              cases r2 with
              | error e =>
                simp only [Option.some.injEq] at h
                rw [← h]
                exact catchException_acquiringInv api s2 e
                  (by rw [d2 e rfl, hv]; exact hacq)
              | ok u2 =>
                simp only [Option.some.injEq] at h
                rw [← h]
                exact hd

theorem step_acquiringInv {G : Type} (api : Collaborators G) (fuel : Nat) (ev : Event)
    (s s1 : TargetExecutor G) (hI : AcquiringInv s)
    (h : TargetExecutor.step api fuel ev s = some s1) : AcquiringInv s1 := by
  cases ev with
  | startProcesses => exact startProcesses_acquiringInv api fuel s s1 hI h
  | acquired =>
    unfold TargetExecutor.step at h
    cases hjc : s.m_jobClient with
    | none => simp [hjc] at h
    | some jc =>
      simp only [hjc] at h
      by_cases ha : jc.isAcquiring = true
      · rw [if_pos ha] at h
        apply acquiringInv_of_not_acquiring
        rcases buildNextTarget_tokenView api _ s1 h with ⟨_, he⟩ | ⟨_, e, rest, ab, _, hv⟩
        · rw [he]
          rfl
        · rw [hv]
          rfl
      · rw [if_neg ha] at h
        cases h
  | childFinished e f =>
    simp only [TargetExecutor.step] at h
    by_cases hr : e ∈ s.m_processes ∧ e ∉ s.m_availableProcesses
    · rw [if_pos hr] at h
      have hv := onChildFinished_tokenView api _ s1 e f h
      have hn := onChildFinished_nextTarget api _ s1 e f h
      intro hacq1
      have hacq1v : s1.tokenView.acquiring = true := hacq1
      rw [hv] at hacq1v
      have hacq : s.isAcquiring = true := by
        have h3 : (s.isAcquiring && !(f && !api.options.buildUnrelatedTargetsOnError)) = true :=
          hacq1v
        exact (Bool.and_eq_true _ _ ▸ h3).1
      have hav1 : s1.m_availableProcesses = s.m_availableProcesses ++ [e] := by
        have : s1.tokenView.available = s.m_availableProcesses ++ [e] := by rw [hv]; rfl
        exact this
      refine ⟨?_, ?_⟩
      · rw [hn]
        exact (hI hacq).1
      · rw [hav1]
        simp
    · rw [if_neg hr] at h
      cases h

theorem schedReach_acquiringInv {G : Type} (api : Collaborators G) (s : TargetExecutor G)
    (h : SchedReach api s) : AcquiringInv s := by
  induction h with
  | applied depgraph targets s ha =>
    apply acquiringInv_of_not_acquiring
    rw [apply_tokenView api _ depgraph targets s ha]
  | step fuel ev _ hs ih => exact step_acquiringInv api fuel ev _ _ ih hs

theorem tokenStep_processes (v v1 : TokenView) (h : TokenStep v v1) :
    v1.processes = v.processes := by
  cases h <;> rfl

theorem schedReach_processes {G : Type} (api : Collaborators G) (s : TargetExecutor G)
    (h : SchedReach api s) : s.m_processes = List.range api.options.maxNumberOfJobs := by
  induction h with
  | applied depgraph targets s ha =>
    have := apply_tokenView api _ depgraph targets s ha
    have h2 : s.tokenView.processes = List.range api.options.maxNumberOfJobs := by rw [this]
    exact h2
  | step fuel ev _ hs ih =>
    have := tokenStep_processes _ _ (step_tokenStep api fuel ev _ _ hs)
    exact this.trans ih


theorem buildNextTarget_defined {G : Type} (api : Collaborators G) (s : TargetExecutor G)
    (t : TargetId) (hn : s.m_nextTarget = some t) (hav : s.m_availableProcesses ≠ []) :
    ∃ s1, TargetExecutor.buildNextTarget api s = some s1 := by
  unfold TargetExecutor.buildNextTarget
  rw [hn]
  simp only
  by_cases hab : s.m_bAborted = true
  · rw [if_pos hab]
    exact ⟨s, rfl⟩
  · rw [if_neg hab]
    cases hl : s.m_availableProcesses with
    | nil => exact absurd hl hav
    | cons e rest =>
      simp only
      rcases hst : api.start e t s.m_depgraph with ⟨r, d⟩
      cases r with
      | error msg => exact ⟨_, rfl⟩
      | ok u => exact ⟨_, rfl⟩

/-- C21: in every scheduler state reachable from `apply`, the number of running processes is
at most `maxNumberOfJobs`; while a token request is pending the build is not aborted,
`m_nextTarget` is not null and `m_availableProcesses` is not empty, so `buildNextTarget`,
run by the signal `acquired`, takes the first available executor and returns; and when
`startProcesses` has passed its guard and has a target, the build is not aborted, an executor
is available and `buildNextTarget`, called from there, returns. -/
theorem C21_buildNextTarget_runs {G : Type} (api : Collaborators G) (s : TargetExecutor G)
    (h : SchedReach api s) :
    s.numberOfRunningProcesses ≤ (api.options.maxNumberOfJobs : Int) ∧
    (s.isAcquiring = true →
      s.m_bAborted = false ∧ (∃ t, s.m_nextTarget = some t) ∧ s.m_availableProcesses ≠ [] ∧
      ∀ fuel, ∃ s1, TargetExecutor.step api fuel Event.acquired s = some s1) ∧
    (∀ fuel s1 t, s.m_bAborted = false → s.isAcquiring = false →
      s.m_availableProcesses ≠ [] →
      TargetExecutor.ensureNextTarget api fuel s = some (Except.ok (), s1) →
      s1.m_nextTarget = some t →
      s1.m_bAborted = false ∧ s1.m_availableProcesses ≠ [] ∧
        ∃ s2, TargetExecutor.buildNextTarget api s1 = some s2) := by
  have hT := schedReach_tokenInv api s h
  have hA := schedReach_acquiringInv api s h
  have hP := schedReach_processes api s h
  refine ⟨?_, ?_, ?_⟩
  · unfold TargetExecutor.numberOfRunningProcesses
    rw [hP, List.length_range]
    omega
  · intro hacq
    obtain ⟨hn, hav⟩ := hA hacq
    have hab : s.m_bAborted = false := by
      cases hb : s.m_bAborted with
      | false => rfl
      | true =>
        have h1 : s.tokenView.acquiring = false := (hT.dead hb).1
        have h2 : s.isAcquiring = false := h1
        rw [h2] at hacq
        cases hacq
    obtain ⟨t, ht⟩ := Option.isSome_iff_exists.1 hn
    refine ⟨hab, ⟨t, ht⟩, hav, ?_⟩
    intro fuel
    unfold TargetExecutor.isAcquiring at hacq
    cases hjc : s.m_jobClient with
    | none =>
      rw [hjc] at hacq
      cases hacq
    | some jc =>
      rw [hjc] at hacq
      simp only at hacq
      simp only [TargetExecutor.step, hjc, hacq, if_true]
      exact buildNextTarget_defined api _ t ht hav
  · intro fuel s1 t hab hacq hav hE ht
    obtain ⟨hv, _⟩ := ensureNextTarget_tokenView api fuel s s1 _ hE
    have hab1 : s1.m_bAborted = false := by
      have : s1.tokenView.aborted = s.tokenView.aborted := by rw [hv]
      exact this.trans hab
    have hav1 : s1.m_availableProcesses ≠ [] := by
      have : s1.tokenView.available = s.tokenView.available := by rw [hv]
      have h2 : s1.m_availableProcesses = s.m_availableProcesses := this
      rw [h2]
      exact hav
    exact ⟨hab1, hav1, buildNextTarget_defined api s1 t ht hav1⟩

theorem C21_buildNextTarget_runs_witness :
    SchedReach busyApi requestedState ∧ requestedState.isAcquiring = true ∧
    (requestedState.numberOfRunningProcesses ≤ (busyApi.options.maxNumberOfJobs : Int) ∧
    (requestedState.isAcquiring = true →
      requestedState.m_bAborted = false ∧ (∃ t, requestedState.m_nextTarget = some t) ∧
      requestedState.m_availableProcesses ≠ [] ∧
      ∀ fuel, ∃ s1, TargetExecutor.step busyApi fuel Event.acquired requestedState = some s1) ∧
    (∀ fuel s1 t, requestedState.m_bAborted = false → requestedState.isAcquiring = false →
      requestedState.m_availableProcesses ≠ [] →
      TargetExecutor.ensureNextTarget busyApi fuel requestedState = some (Except.ok (), s1) →
      s1.m_nextTarget = some t →
      s1.m_bAborted = false ∧ s1.m_availableProcesses ≠ [] ∧
        ∃ s2, TargetExecutor.buildNextTarget busyApi s1 = some s2)) :=
  ⟨requestedState_reach, rfl, C21_buildNextTarget_runs busyApi requestedState requestedState_reach⟩


/-! ## The search for an available target is a walk over the leaves -/

theorem sameShape_refl (g : DependencyGraph) : SameShape g g := fun _ => rfl

theorem sameShape_trans (g g1 g2 : DependencyGraph) (h1 : SameShape g g1)
    (h2 : SameShape g1 g2) : SameShape g g2 := fun id => (h2 id).trans (h1 id)

theorem sameShape_setState (g : DependencyGraph) (node : NodeId) (nd : Node) (s : NodeState)
    (l : List NodeId) (hn : g.heap node = some nd) :
    SameShape g { g.setNode node { nd with state := s } with m_nodesToRemove := l } := by
  intro id
  by_cases hid : id = node
  · subst hid
    simp [DependencyGraph.setNode, hn, Node.edges]
  · simp [DependencyGraph.setNode, Function.update_noteq hid]

theorem sameShape_children (g g1 : DependencyGraph) (h : SameShape g g1) (id : NodeId)
    (nd : Node) (hn : g.heap id = some nd) :
    ∃ nd1, g1.heap id = some nd1 ∧ nd1.children = nd.children ∧ nd1.target = nd.target ∧
      nd1.parents = nd.parents := by
  have := h id
  rw [hn] at this
  cases h1 : g1.heap id with
  | none =>
    rw [h1] at this
    cases this
  | some nd1 =>
    rw [h1] at this
    simp only [Option.map_some', Option.some.injEq, Node.edges, Prod.mk.injEq] at this
    exact ⟨nd1, rfl, this.2.1, this.1, this.2.2⟩

theorem sameShape_symm (g g1 : DependencyGraph) (h : SameShape g g1) : SameShape g1 g :=
  fun id => (h id).symm

theorem leavesUnder_shape (g g1 : DependencyGraph) (h : SameShape g g1) :
    ∀ (fuel : Nat) (node : NodeId), leavesUnder g1 fuel node = leavesUnder g fuel node := by
  intro fuel
  induction fuel with
  | zero => intro node; rfl
  | succ fuel ih =>
    intro node
    unfold leavesUnder
    cases hn : g.heap node with
    | none =>
      have := h node
      rw [hn] at this
      cases h1 : g1.heap node with
      | none => rfl
      | some nd1 =>
        rw [h1] at this
        cases this
    | some nd =>
      obtain ⟨nd1, h1, hc, _, _⟩ := sameShape_children g g1 h node nd hn
      rw [h1]
      simp only [hc]
      have : leavesUnder g1 fuel = leavesUnder g fuel := funext ih
      rw [this]

theorem visitLeaf_shape (w : World) (mk : Makefile) (g : DependencyGraph) (node : NodeId)
    (nd : Node) (hn : g.heap node = some nd) :
    SameShape g (visitLeaf w mk g node nd).2.2 := by
  unfold visitLeaf
  by_cases h1 : nd.state = NodeState.ExecutingState
  · rw [if_pos h1]
    exact sameShape_refl g
  · rw [if_neg h1]
    simp only
    by_cases h2 : (isTargetUpToDate w (mk.blocks nd.target)).1 = true
    · rw [if_pos h2]
      by_cases h3 : nd.state ≠ NodeState.UpToDateState
      · rw [if_pos h3]
        exact sameShape_setState g node nd _ _ hn
      · rw [if_neg h3]
        exact sameShape_refl g
    · rw [if_neg h2]
      exact sameShape_setState g node nd _ g.m_nodesToRemove hn

theorem visitLeaves_shape (w : World) :
    ∀ (l : List NodeId) (mk : Makefile) (g : DependencyGraph) (r : Option TargetId)
      (mk1 : Makefile) (g1 : DependencyGraph),
      visitLeaves w l mk g = some (r, mk1, g1) → SameShape g g1 := by
  intro l
  induction l with
  | nil =>
    intro mk g r mk1 g1 h
    simp only [visitLeaves, Option.some.injEq, Prod.mk.injEq] at h
    rw [← h.2.2]
    exact sameShape_refl g
  | cons leaf rest ih =>
    intro mk g r mk1 g1 h
    unfold visitLeaves at h
    cases hn : g.heap leaf with
    | none => simp [hn] at h
    | some nd =>
      simp only [hn] at h
      have hs := visitLeaf_shape w mk g leaf nd hn
      rcases hv : visitLeaf w mk g leaf nd with ⟨r2, mk2, g2⟩
      rw [hv] at h hs
      cases r2 with
      | some t =>
        simp only [Option.some.injEq, Prod.mk.injEq] at h
        rw [← h.2.2]
        exact hs
      | none =>
        simp only at h
        exact sameShape_trans _ _ _ hs (ih mk2 g2 r mk1 g1 h)

theorem visitLeaves_append (w : World) :
    ∀ (l1 l2 : List NodeId) (mk : Makefile) (g : DependencyGraph),
      visitLeaves w (l1 ++ l2) mk g =
        match visitLeaves w l1 mk g with
        | none => none
        | some (some t, mk1, g1) => some (some t, mk1, g1)
        | some (none, mk1, g1) => visitLeaves w l2 mk1 g1 := by
  intro l1
  induction l1 with
  | nil =>
    intro l2 mk g
    simp [visitLeaves]
  | cons leaf rest ih =>
    intro l2 mk g
    simp only [List.cons_append, visitLeaves]
    cases hn : g.heap leaf with
    | none => rfl
    | some nd =>
      simp only
      rcases hv : visitLeaf w mk g leaf nd with ⟨r2, mk2, g2⟩
      cases r2 with
      | some t => rfl
      | none =>
        simp only
        exact ih l2 mk2 g2

theorem search_eq_visitLeaves (w : World) (g0 : DependencyGraph) (rank : NodeId → Nat)
    (hC : ∀ id nd, g0.heap id = some nd → ∀ c ∈ nd.children, ∃ cn, g0.heap c = some cn)
    (hR : NodeRankedBy g0 rank) :
    ∀ (fuel : Nat) (node : NodeId) (nd0 : Node), g0.heap node = some nd0 → rank node < fuel →
      ∀ (mk : Makefile) (g : DependencyGraph), SameShape g0 g →
        findAvailableTargetNode w fuel mk g node =
          visitLeaves w (leavesUnder g0 fuel node) mk g := by
  intro fuel
  induction fuel with
  | zero =>
    intro node nd0 _ hlt
    omega
  | succ fuel ih =>
    intro node nd0 hn0 hlt mk g hS
    obtain ⟨nd, hn, hch, _, _⟩ := sameShape_children g0 g hS node nd0 hn0
    unfold findAvailableTargetNode leavesUnder
    rw [hn, hn0]
    simp only
    by_cases hleaf : nd0.children.isEmpty = true
    · rw [if_pos hleaf, if_pos (hch ▸ hleaf)]
      simp only [visitLeaves, hn]
      unfold visitLeaf
      by_cases h1 : nd.state = NodeState.ExecutingState
      · simp [h1]
      · simp only [h1, if_false]
        by_cases h2 : (isTargetUpToDate w (mk.blocks nd.target)).1 = true
        · simp only [h2, if_true]
          by_cases h3 : nd.state ≠ NodeState.UpToDateState
          · simp [h3]
          · simp [h3]
        · simp [h2]
    · rw [if_neg hleaf, if_neg (hch ▸ hleaf), hch]
      have hloop : ∀ (cs : List NodeId), (∀ c ∈ cs, c ∈ nd0.children) →
          ∀ (mk : Makefile) (g : DependencyGraph), SameShape g0 g →
            findAvailableTargetLoop (findAvailableTargetNode w fuel) cs mk g =
              visitLeaves w (cs.flatMap (leavesUnder g0 fuel)) mk g := by
        intro cs
        induction cs with
        | nil =>
          intro _ mk g _
          rfl
        | cons c rest ihc =>
          intro hsub mk g hS
          have hc := hsub c (List.mem_cons_self _ _)
          obtain ⟨cn, hcn⟩ := hC node nd0 hn0 c hc
          have hrc : rank c < fuel := by
            have := hR node nd0 hn0 c hc
            omega
          simp only [findAvailableTargetLoop, List.flatMap_cons]
          rw [visitLeaves_append, ih c cn hcn hrc mk g hS]
          cases hv : visitLeaves w (leavesUnder g0 fuel c) mk g with
          | none => rfl
          | some res =>
            obtain ⟨r2, mk2, g2⟩ := res
            cases r2 with
            | some t => rfl
            | none =>
              simp only
              exact ihc (fun x hx => hsub x (List.mem_cons_of_mem _ hx)) mk2 g2
                (sameShape_trans _ _ _ hS (visitLeaves_shape w _ mk g none mk2 g2 hv))
      exact hloop nd0.children (fun c hc => hc) mk g hS

theorem upToDate_setBlock (w : World) (mk : Makefile) (t u : TargetId) :
    (isTargetUpToDate w
      ((mk.setBlock t (isTargetUpToDate w (mk.blocks t)).2).blocks u)).1 =
      (isTargetUpToDate w (mk.blocks u)).1 := by
  by_cases hu : u = t
  · subst hu
    simp only [Makefile.setBlock, Function.update_same]
    rw [isTargetUpToDate_idem]
  · simp only [Makefile.setBlock, Function.update_noteq hu]

theorem visitLeaf_cases (w : World) (mk : Makefile) (g : DependencyGraph) (node : NodeId)
    (nd : Node) :
    (nd.state = NodeState.ExecutingState ∧ visitLeaf w mk g node nd = (none, mk, g)) ∨
    (nd.state ≠ NodeState.ExecutingState ∧
      (isTargetUpToDate w (mk.blocks nd.target)).1 = true ∧
      nd.state = NodeState.UpToDateState ∧
      visitLeaf w mk g node nd =
        (none, mk.setBlock nd.target (isTargetUpToDate w (mk.blocks nd.target)).2, g)) ∨
    (nd.state ≠ NodeState.ExecutingState ∧
      (isTargetUpToDate w (mk.blocks nd.target)).1 = true ∧
      nd.state ≠ NodeState.UpToDateState ∧
      visitLeaf w mk g node nd =
        (none, mk.setBlock nd.target (isTargetUpToDate w (mk.blocks nd.target)).2,
          { g.setNode node { nd with state := NodeState.UpToDateState } with
            m_nodesToRemove := g.m_nodesToRemove ++ [node] })) ∨
    (nd.state ≠ NodeState.ExecutingState ∧
      (isTargetUpToDate w (mk.blocks nd.target)).1 = false ∧
      visitLeaf w mk g node nd =
        (some nd.target, mk.setBlock nd.target (isTargetUpToDate w (mk.blocks nd.target)).2,
          g.setNode node { nd with state := NodeState.ExecutingState })) := by
  unfold visitLeaf
  by_cases h1 : nd.state = NodeState.ExecutingState
  · exact Or.inl ⟨h1, by rw [if_pos h1]⟩
  · rw [if_neg h1]
    simp only
    by_cases h2 : (isTargetUpToDate w (mk.blocks nd.target)).1 = true
    · rw [if_pos h2]
      by_cases h3 : nd.state ≠ NodeState.UpToDateState
      · rw [if_pos h3]
        exact Or.inr (Or.inr (Or.inl ⟨h1, h2, h3, rfl⟩))
      · rw [if_neg h3]
        exact Or.inr (Or.inl ⟨h1, h2, by simpa using h3, rfl⟩)
    · rw [if_neg h2]
      exact Or.inr (Or.inr (Or.inr ⟨h1, by simpa using h2, rfl⟩))

theorem heap_setState (g : DependencyGraph) (node : NodeId) (nd : Node) (l : List NodeId)
    (id : NodeId) :
    ({ g.setNode node nd with m_nodesToRemove := l } : DependencyGraph).heap id =
      if id = node then some nd else g.heap id := by
  by_cases hid : id = node
  · subst hid
    simp [DependencyGraph.setNode]
  · simp [DependencyGraph.setNode, Function.update_noteq hid, hid]

theorem heap_setNode (g : DependencyGraph) (node : NodeId) (nd : Node) (id : NodeId) :
    (g.setNode node nd).heap id = if id = node then some nd else g.heap id := by
  by_cases hid : id = node
  · subst hid
    simp [DependencyGraph.setNode]
  · simp [DependencyGraph.setNode, Function.update_noteq hid, hid]

theorem visitLeaf_skipped (w : World) (mk mk1 : Makefile) (g g1 : DependencyGraph)
    (node : NodeId) (nd : Node) (hn : g.heap node = some nd)
    (h : visitLeaf w mk g node nd = (none, mk1, g1)) :
    LeafSkipped w mk g node ∧
    (nd.state ≠ NodeState.ExecutingState → LeafSettled w mk1 g1 node) ∧
    (∀ id, LeafSkipped w mk1 g1 id ↔ LeafSkipped w mk g id) := by
  rcases visitLeaf_cases w mk g node nd with ⟨h1, hv⟩ | ⟨h1, h2, h3, hv⟩ | ⟨h1, h2, h3, hv⟩ |
      ⟨h1, h2, hv⟩
  · rw [hv] at h
    simp only [Prod.mk.injEq, true_and] at h
    obtain ⟨hm, hg⟩ := h
    subst hm hg
    exact ⟨⟨nd, hn, Or.inl h1⟩, fun hne => absurd h1 hne, fun id => Iff.rfl⟩
  · rw [hv] at h
    simp only [Prod.mk.injEq, true_and] at h
    obtain ⟨hm, hg⟩ := h
    subst hm hg
    refine ⟨⟨nd, hn, Or.inr h2⟩, fun _ => ⟨nd, hn, h3, ?_⟩, fun id => ?_⟩
    · rw [upToDate_setBlock]
      exact h2
    · unfold LeafSkipped
      simp only [upToDate_setBlock]
  · rw [hv] at h
    simp only [Prod.mk.injEq, true_and] at h
    obtain ⟨hm, hg⟩ := h
    subst hm hg
    refine ⟨⟨nd, hn, Or.inr h2⟩,
      fun _ => ⟨{ nd with state := NodeState.UpToDateState }, ?_, rfl, ?_⟩, fun id => ?_⟩
    · rw [heap_setState, if_pos rfl]
    · rw [upToDate_setBlock]
      exact h2
    · unfold LeafSkipped
      simp only [upToDate_setBlock]
      by_cases hid : id = node
      · subst hid
        constructor
        · rintro ⟨x, hx, _⟩
          exact ⟨nd, hn, Or.inr h2⟩
        · rintro ⟨x, hx, _⟩
          refine ⟨{ nd with state := NodeState.UpToDateState }, ?_, Or.inr h2⟩
          rw [heap_setState, if_pos rfl]
      · constructor
        · rintro ⟨x, hx, hc⟩
          rw [heap_setState, if_neg hid] at hx
          exact ⟨x, hx, hc⟩
        · rintro ⟨x, hx, hc⟩
          refine ⟨x, ?_, hc⟩
          rw [heap_setState, if_neg hid]
          exact hx
  · rw [hv] at h
    simp at h

theorem visitLeaf_found (w : World) (mk mk1 : Makefile) (g g1 : DependencyGraph)
    (node : NodeId) (nd : Node) (t : TargetId)
    (h : visitLeaf w mk g node nd = (some t, mk1, g1)) :
    nd.state ≠ NodeState.ExecutingState ∧
    (isTargetUpToDate w (mk.blocks nd.target)).1 = false ∧ t = nd.target ∧
    g1 = g.setNode node { nd with state := NodeState.ExecutingState } := by
  rcases visitLeaf_cases w mk g node nd with ⟨h1, hv⟩ | ⟨h1, h2, h3, hv⟩ | ⟨h1, h2, h3, hv⟩ |
      ⟨h1, h2, hv⟩
  · rw [hv] at h
    simp at h
  · rw [hv] at h
    simp at h
  · rw [hv] at h
    simp at h
  · rw [hv] at h
    simp only [Prod.mk.injEq, Option.some.injEq] at h
    exact ⟨h1, h2, h.1.symm, h.2.2.symm⟩

theorem visitLeaf_settled (w : World) (mk : Makefile) (g : DependencyGraph)
    (node : NodeId) (nd : Node) (hn : g.heap node = some nd) (id : NodeId)
    (hs : LeafSettled w mk g id) :
    LeafSettled w (visitLeaf w mk g node nd).2.1 (visitLeaf w mk g node nd).2.2 id := by
  obtain ⟨x, hx, hst, hup⟩ := hs
  rcases visitLeaf_cases w mk g node nd with ⟨h1, hv⟩ | ⟨h1, h2, h3, hv⟩ | ⟨h1, h2, h3, hv⟩ |
      ⟨h1, h2, hv⟩
  · rw [hv]
    exact ⟨x, hx, hst, hup⟩
  · rw [hv]
    exact ⟨x, hx, hst, by rw [upToDate_setBlock]; exact hup⟩
  · rw [hv]
    have hid : id ≠ node := by
      intro hid
      rw [hid, hn] at hx
      have : nd = x := Option.some.inj hx
      subst this
      exact h3 hst
    refine ⟨x, ?_, hst, by rw [upToDate_setBlock]; exact hup⟩
    rw [heap_setState, if_neg hid]
    exact hx
  · rw [hv]
    have hid : id ≠ node := by
      intro hid
      rw [hid, hn] at hx
      have : nd = x := Option.some.inj hx
      subst this
      rw [hup] at h2
      cases h2
    refine ⟨x, ?_, hst, by rw [upToDate_setBlock]; exact hup⟩
    rw [heap_setNode, if_neg hid]
    exact hx

theorem visitLeaves_settled (w : World) :
    ∀ (l : List NodeId) (mk : Makefile) (g : DependencyGraph) (r : Option TargetId)
      (mk1 : Makefile) (g1 : DependencyGraph) (id : NodeId),
      visitLeaves w l mk g = some (r, mk1, g1) → LeafSettled w mk g id →
      LeafSettled w mk1 g1 id := by
  intro l
  induction l with
  | nil =>
    intro mk g r mk1 g1 id h hs
    simp only [visitLeaves, Option.some.injEq, Prod.mk.injEq] at h
    rw [← h.2.1, ← h.2.2]
    exact hs
  | cons leaf rest ih =>
    intro mk g r mk1 g1 id h hs
    unfold visitLeaves at h
    cases hn : g.heap leaf with
    | none => simp [hn] at h
    | some nd =>
      simp only [hn] at h
      have hs2 := visitLeaf_settled w mk g leaf nd hn id hs
      rcases hv : visitLeaf w mk g leaf nd with ⟨r2, mk2, g2⟩
      rw [hv] at h hs2
      cases r2 with
      | some t =>
        simp only [Option.some.injEq, Prod.mk.injEq] at h
        rw [← h.2.1, ← h.2.2]
        exact hs2
      | none =>
        simp only at h
        exact ih mk2 g2 r mk1 g1 id h hs2

theorem visitLeaf_executing (w : World) (mk mk1 : Makefile) (g g1 : DependencyGraph)
    (node : NodeId) (nd : Node) (hn : g.heap node = some nd)
    (h : visitLeaf w mk g node nd = (none, mk1, g1)) (id : NodeId) :
    IsExecuting g1 id ↔ IsExecuting g id := by
  rcases visitLeaf_cases w mk g node nd with ⟨h1, hv⟩ | ⟨h1, h2, h3, hv⟩ | ⟨h1, h2, h3, hv⟩ |
      ⟨h1, h2, hv⟩
  · rw [hv] at h
    simp only [Prod.mk.injEq, true_and] at h
    rw [← h.2]
  · rw [hv] at h
    simp only [Prod.mk.injEq, true_and] at h
    rw [← h.2]
  · rw [hv] at h
    simp only [Prod.mk.injEq, true_and] at h
    rw [← h.2]
    unfold IsExecuting
    by_cases hid : id = node
    · subst hid
      constructor
      · rintro ⟨x, hx, hs⟩
        rw [heap_setState, if_pos rfl] at hx
        rw [← Option.some.inj hx] at hs
        cases hs
      · rintro ⟨x, hx, hs⟩
        rw [hn] at hx
        rw [← Option.some.inj hx] at hs
        exact absurd hs h1
    · constructor
      · rintro ⟨x, hx, hs⟩
        rw [heap_setState, if_neg hid] at hx
        exact ⟨x, hx, hs⟩
      · rintro ⟨x, hx, hs⟩
        refine ⟨x, ?_, hs⟩
        rw [heap_setState, if_neg hid]
        exact hx
  · rw [hv] at h
    simp at h

theorem visitLeaves_spec (w : World) :
    ∀ (l : List NodeId) (mk : Makefile) (g : DependencyGraph) (r : Option TargetId)
      (mk1 : Makefile) (g1 : DependencyGraph),
      visitLeaves w l mk g = some (r, mk1, g1) →
      (r = none → ∀ id ∈ l, LeafSkipped w mk g id ∧
        (IsExecuting g id ∨ LeafSettled w mk1 g1 id)) ∧
      (∀ t, r = some t → ∃ pre leaf lnd post, l = pre ++ leaf :: post ∧
        (∀ id ∈ pre, LeafSkipped w mk g id ∧ (IsExecuting g id ∨ LeafSettled w mk1 g1 id)) ∧
        ¬ LeafSkipped w mk g leaf ∧ g.heap leaf = some lnd ∧ t = lnd.target ∧
        IsExecuting g1 leaf) := by
  intro l
  induction l with
  | nil =>
    intro mk g r mk1 g1 h
    simp only [visitLeaves, Option.some.injEq, Prod.mk.injEq] at h
    refine ⟨fun _ id hid => (by cases hid), fun t ht => ?_⟩
    rw [← h.1] at ht
    cases ht
  | cons leaf rest ih =>
    intro mk g r mk1 g1 h
    unfold visitLeaves at h
    cases hn : g.heap leaf with
    | none => simp [hn] at h
    | some nd =>
      simp only [hn] at h
      rcases hv : visitLeaf w mk g leaf nd with ⟨r2, mk2, g2⟩
      rw [hv] at h
      cases r2 with
      | some t2 =>
        simp only [Option.some.injEq, Prod.mk.injEq] at h
        obtain ⟨hr, hm, hg⟩ := h
        subst hr hm hg
        obtain ⟨f1, f2, f3, f4⟩ := visitLeaf_found w mk mk2 g g2 leaf nd t2 hv
        refine ⟨fun hh => (by cases hh), fun t ht => ?_⟩
        have htt : t2 = t := Option.some.inj ht
        subst htt
        refine ⟨[], leaf, nd, rest, rfl, fun id hid => (by cases hid), ?_, hn, f3, ?_⟩
        · rintro ⟨x, hx, hc⟩
          rw [hn] at hx
          have : nd = x := Option.some.inj hx
          subst this
          rcases hc with hc | hc
          · exact f1 hc
          · rw [hc] at f2
            cases f2
        · rw [f4]
          exact ⟨{ nd with state := NodeState.ExecutingState },
            by rw [heap_setNode, if_pos rfl], rfl⟩
      | none =>
        simp only at h
        obtain ⟨s1, s2, s3⟩ := visitLeaf_skipped w mk mk2 g g2 leaf nd hn hv
        have hex := visitLeaf_executing w mk mk2 g g2 leaf nd hn hv
        obtain ⟨i1, i2⟩ := ih mk2 g2 r mk1 g1 h
        have hhead : IsExecuting g leaf ∨ LeafSettled w mk1 g1 leaf := by
          by_cases he : nd.state = NodeState.ExecutingState
          · exact Or.inl ⟨nd, hn, he⟩
          · exact Or.inr (visitLeaves_settled w rest mk2 g2 r mk1 g1 leaf h (s2 he))
        refine ⟨fun hr id hid => ?_, fun t ht => ?_⟩
        · rcases List.mem_cons.1 hid with hid | hid
          · subst hid
            exact ⟨s1, hhead⟩
          · obtain ⟨j1, j2⟩ := i1 hr id hid
            exact ⟨(s3 id).1 j1, j2.imp (hex id).1 (fun hh => hh)⟩
        · obtain ⟨pre, lf, lnd, post, hl, hpre, hns, hlf, htg, hexe⟩ := i2 t ht
          obtain ⟨lnd0, hlf0, _, htg0, _⟩ :=
            sameShape_children g2 g
              (sameShape_symm g g2 (by have := visitLeaf_shape w mk g leaf nd hn; rw [hv] at this; exact this))
              lf lnd hlf
          refine ⟨leaf :: pre, lf, lnd0, post, by rw [hl]; rfl, ?_, ?_, hlf0, ?_, hexe⟩
          · intro id hid
            rcases List.mem_cons.1 hid with hid | hid
            · subst hid
              exact ⟨s1, hhead⟩
            · obtain ⟨j1, j2⟩ := hpre id hid
              exact ⟨(s3 id).1 j1, j2.imp (hex id).1 (fun hh => hh)⟩
          · exact fun hsk => hns ((s3 lf).2 hsk)
          · rw [htg, htg0]

theorem visitLeaves_total (w : World) :
    ∀ (l : List NodeId) (mk : Makefile) (g : DependencyGraph),
      (∀ id ∈ l, ∃ x, g.heap id = some x) → ∃ res, visitLeaves w l mk g = some res := by
  intro l
  induction l with
  | nil => intro mk g _; exact ⟨_, rfl⟩
  | cons leaf rest ih =>
    intro mk g hl
    obtain ⟨nd, hn⟩ := hl leaf (List.mem_cons_self _ _)
    unfold visitLeaves
    rw [hn]
    simp only
    have hs := visitLeaf_shape w mk g leaf nd hn
    rcases hv : visitLeaf w mk g leaf nd with ⟨r2, mk2, g2⟩
    rw [hv] at hs
    cases r2 with
    | some t => exact ⟨_, rfl⟩
    | none =>
      simp only
      apply ih
      intro id hid
      obtain ⟨x, hx⟩ := hl id (List.mem_cons_of_mem _ hid)
      obtain ⟨x1, hx1, _⟩ := sameShape_children g g2 hs id x hx
      exact ⟨x1, hx1⟩

theorem leavesUnder_live (g : DependencyGraph) :
    ∀ (fuel : Nat) (node id : NodeId), id ∈ leavesUnder g fuel node →
      ∃ x, g.heap id = some x ∧ x.children = [] := by
  intro fuel
  induction fuel with
  | zero =>
    intro node id h
    simp [leavesUnder] at h
  | succ fuel ih =>
    intro node id h
    unfold leavesUnder at h
    cases hn : g.heap node with
    | none => simp [hn] at h
    | some nd =>
      simp only [hn] at h
      by_cases hleaf : nd.children.isEmpty = true
      · rw [if_pos hleaf] at h
        rw [List.mem_singleton] at h
        subst h
        exact ⟨nd, hn, List.isEmpty_iff.1 hleaf⟩
      · rw [if_neg hleaf] at h
        obtain ⟨c, _, hc⟩ := List.mem_flatMap.1 h
        exact ih c id hc

theorem build_init_full (mk : Makefile) (rank : TargetId → Nat) (hR : mk.RankedBy rank)
    (fuel : Nat) (base : NodeId) (target : TargetId) (g : DependencyGraph)
    (h : (DependencyGraph.init base).build mk fuel target = some g) :
    HeapInv g ∧ RegInv g ∧ Complete mk g target ∧ (∀ v, InMap g v → mk.Reaches target v) ∧
      hashValue g.m_nodeContainer target = some base ∧ Pristine g := by
  obtain ⟨g1, hb1, hI, hG, hC, hK, hroot⟩ :=
    build_init_spec mk rank hR (max fuel (rank target + 1)) base target (by omega)
  have hb2 := build_mono_le mk fuel (max fuel (rank target + 1)) (Nat.le_max_left _ _) _
    target g h
  rw [hb1] at hb2
  have e : g1 = g := Option.some.inj hb2
  subst e
  exact ⟨hI, hG, hC, hK, hroot, build_pristine mk fuel _ g1 target (init_pristine base) h⟩

theorem build_nodeRanked (mk : Makefile) (rank : TargetId → Nat) (hR : mk.RankedBy rank)
    (fuel : Nat) (base : NodeId) (target : TargetId) (g : DependencyGraph)
    (h : (DependencyGraph.init base).build mk fuel target = some g) :
    NodeRankedBy g (nodeRank g rank) := by
  obtain ⟨hI, hG, hC, hK, _, _⟩ := build_init_full mk rank hR fuel base target g h
  intro id nd hn c hc
  obtain ⟨cn, hcn⟩ := hI.closedC id nd hn c hc
  obtain ⟨id1, nd1, hid1, hnd1, hch⟩ := hC nd.target (hK nd.target ⟨id, hG id nd hn⟩)
  rw [hG id nd hn] at hid1
  have e1 : id = id1 := Option.some.inj hid1
  subst e1
  rw [hn] at hnd1
  have e2 : nd = nd1 := Option.some.inj hnd1
  subst e2
  have hmem : cn.target ∈ g.targetsOf nd.children :=
    (mem_targetsOf g nd.children cn.target).2 ⟨c, hc, cn, hcn, rfl⟩
  rw [hch, mem_dropRepetitions] at hmem
  have := hR nd.target cn.target hmem
  simp only [nodeRank, hn, hcn]
  exact this

/-- C19: in a graph that satisfies the representation invariant and whose children relation
is acyclic, `findAvailableTarget(n)` on a live node `n` returns, and it does what a walk over
the leaves under `n` in depth-first, first-child order does: it returns null if and only if
every leaf under `n` is Executing or up to date; otherwise it returns the target of the first
leaf in that order which is neither, and marks that leaf Executing. Every leaf met before
(all leaves, when null is returned) was Executing, or is marked UpToDate afterwards. Targets
and edges are unchanged. -/
theorem C19_depth_first_search (w : World) (mk : Makefile) (g : DependencyGraph)
    (rank : NodeId → Nat) (hI : HeapInv g) (hR : NodeRankedBy g rank) (n : NodeId)
    (nd : Node) (hn : g.heap n = some nd) (fuel : Nat) (hfuel : rank n < fuel) :
    ∃ r mk1 g1, findAvailableTargetNode w fuel mk g n = some (r, mk1, g1) ∧ SameShape g g1 ∧
      (r = none ↔ ∀ id ∈ leavesUnder g fuel n, LeafSkipped w mk g id) ∧
      (r = none → ∀ id ∈ leavesUnder g fuel n,
        IsExecuting g id ∨ LeafSettled w mk1 g1 id) ∧
      (∀ t, r = some t → ∃ pre leaf lnd post, leavesUnder g fuel n = pre ++ leaf :: post ∧
        (∀ id ∈ pre, LeafSkipped w mk g id ∧ (IsExecuting g id ∨ LeafSettled w mk1 g1 id)) ∧
        g.heap leaf = some lnd ∧ lnd.state ≠ NodeState.ExecutingState ∧
        (isTargetUpToDate w (mk.blocks lnd.target)).1 = false ∧ t = lnd.target ∧
        IsExecuting g1 leaf) := by
  have heq := search_eq_visitLeaves w g rank hI.closedC hR fuel n nd hn hfuel mk g
    (sameShape_refl g)
  obtain ⟨⟨r, mk1, g1⟩, hv⟩ := visitLeaves_total w (leavesUnder g fuel n) mk g
    (fun id hid => by
      obtain ⟨x, hx, _⟩ := leavesUnder_live g fuel n id hid
      exact ⟨x, hx⟩)
  obtain ⟨s1, s2⟩ := visitLeaves_spec w _ mk g r mk1 g1 hv
  refine ⟨r, mk1, g1, heq.trans hv, visitLeaves_shape w _ mk g r mk1 g1 hv, ?_, ?_, ?_⟩
  · constructor
    · intro hr id hid
      exact (s1 hr id hid).1
    · intro hall
      cases r with
      | none => rfl
      | some t =>
        obtain ⟨pre, leaf, lnd, post, hl, _, hns, _⟩ := s2 t rfl
        exact absurd (hall leaf (by rw [hl]; simp)) hns
  · intro hr id hid
    exact (s1 hr id hid).2
  · intro t ht
    obtain ⟨pre, leaf, lnd, post, hl, hpre, hns, hlf, htg, hexe⟩ := s2 t ht
    refine ⟨pre, leaf, lnd, post, hl, hpre, hlf, ?_, ?_, htg, hexe⟩
    · intro he
      exact hns ⟨lnd, hlf, Or.inl he⟩
    · cases hu : (isTargetUpToDate w (mk.blocks lnd.target)).1 with
      | false => rfl
      | true => exact absurd ⟨lnd, hlf, Or.inr hu⟩ hns

theorem diamondGraph_nodeRanked :
    NodeRankedBy diamondGraph (nodeRank diamondGraph diamondRank) :=
  build_nodeRanked diamondMakefile diamondRank diamond_ranked 4 0 0 diamondGraph
    diamondGraph_built

theorem C19_depth_first_search_witness :
    HeapInv diamondGraph ∧ NodeRankedBy diamondGraph (nodeRank diamondGraph diamondRank) ∧
    leavesUnder diamondGraph 4 0 = [2, 2] ∧
    (findAvailableTargetNode emptyWorld 4 diamondMakefile diamondGraph 0).map Prod.fst =
      some (some 3) ∧
    ∃ r mk1 g1,
      findAvailableTargetNode emptyWorld 4 diamondMakefile diamondGraph 0 = some (r, mk1, g1) ∧
      SameShape diamondGraph g1 ∧
      (r = none ↔ ∀ id ∈ leavesUnder diamondGraph 4 0,
        LeafSkipped emptyWorld diamondMakefile diamondGraph id) ∧
      (r = none → ∀ id ∈ leavesUnder diamondGraph 4 0,
        IsExecuting diamondGraph id ∨ LeafSettled emptyWorld mk1 g1 id) ∧
      (∀ t, r = some t → ∃ pre leaf lnd post,
        leavesUnder diamondGraph 4 0 = pre ++ leaf :: post ∧
        (∀ id ∈ pre, LeafSkipped emptyWorld diamondMakefile diamondGraph id ∧
          (IsExecuting diamondGraph id ∨ LeafSettled emptyWorld mk1 g1 id)) ∧
        diamondGraph.heap leaf = some lnd ∧ lnd.state ≠ NodeState.ExecutingState ∧
        (isTargetUpToDate emptyWorld (diamondMakefile.blocks lnd.target)).1 = false ∧
        t = lnd.target ∧ IsExecuting g1 leaf) :=
  ⟨diamondGraph_heapInv, diamondGraph_nodeRanked, by rfl, by rfl,
    C19_depth_first_search emptyWorld diamondMakefile diamondGraph
      (nodeRank diamondGraph diamondRank) diamondGraph_heapInv diamondGraph_nodeRanked 0
      ⟨0, [1, 3], [], NodeState.UnknownState⟩ (by rfl) 4 (by decide)⟩


/-! ## Removing the nodes of the deferred-removal list -/

theorem hashRemove_length_le (h : List (TargetId × NodeId)) (t : TargetId) :
    (hashRemove h t).length ≤ h.length :=
  List.length_filter_le _ _

theorem hashRemove_length_lt (h : List (TargetId × NodeId)) (t : TargetId) (v : NodeId)
    (hv : hashValue h t = some v) : (hashRemove h t).length < h.length := by
  induction h with
  | nil => simp [hashValue] at hv
  | cons e rest ih =>
    obtain ⟨k, x⟩ := e
    by_cases hk : k = t
    · have h1 : hashRemove ((k, x) :: rest) t = hashRemove rest t := by
        simp [hashRemove, List.filter, hk]
      rw [h1]
      have := hashRemove_length_le rest t
      simp only [List.length_cons]
      omega
    · have h1 : hashRemove ((k, x) :: rest) t = (k, x) :: hashRemove rest t := by
        simp [hashRemove, List.filter, hk]
      rw [h1]
      have hv2 : hashValue rest t = some v := by simpa [hashValue, hk] using hv
      have := ih hv2
      simp only [List.length_cons]
      omega

theorem pruneNode_nil (nd : Node) : pruneNode [] nd = nd := by
  simp [pruneNode]

theorem pruneNode_unlink (node : NodeId) (rest : List NodeId) (nd : Node)
    (hc : nd.children.Nodup) (hp : nd.parents.Nodup) :
    pruneNode rest (unlinkNode node nd) = pruneNode (node :: rest) nd := by
  have key : ∀ l : List NodeId, l.Nodup →
      (l.erase node).filter (fun c => decide (c ∉ rest)) =
        l.filter (fun c => decide (c ∉ node :: rest)) := by
    intro l hl
    rw [List.Nodup.erase_eq_filter hl node, List.filter_filter]
    apply List.filter_congr
    intro c _
    by_cases h1 : c = node <;> by_cases h2 : c ∈ rest <;> simp [h1, h2]
  simp only [pruneNode, unlinkNode, key nd.children hc, key nd.parents hp]

theorem removeNodes_full :
    ∀ (l : List NodeId) (g : DependencyGraph), CoreInv g → l.Nodup →
      (∀ id ∈ l, ∃ nd, g.heap id = some nd ∧ nd.state = NodeState.UpToDateState) →
      ∃ g1, g.removeNodes l = some g1 ∧ CoreInv g1 ∧
        (∀ id, g1.heap id = if id ∈ l then none else (g.heap id).map (pruneNode l)) ∧
        g1.m_root = g.m_root.bind (fun r => if r ∈ l then none else some r) ∧
        g1.m_leaves = g.m_leaves ∧ g1.m_nodesToRemove = g.m_nodesToRemove ∧
        g1.size + l.length ≤ g.size := by
  intro l
  induction l with
  | nil =>
    intro g hC _ _
    refine ⟨g, rfl, hC, ?_, ?_, rfl, rfl, ?_⟩
    · intro id
      simp only [List.not_mem_nil, if_false]
      cases g.heap id with
      | none => rfl
      | some x => simp [pruneNode_nil]
    · cases g.m_root <;> simp
    · simp
  | cons node rest ih =>
    intro g hC hnd hall
    obtain ⟨nd, hn, hst⟩ := hall node (List.mem_cons_self node rest)
    obtain ⟨g2, h2, hheap, hmap, hroot, htr, hlv, _⟩ := removeNode_spec g node nd hC.heap hn
    have hleaf : ∀ t ∈ g.m_leaves, hashValue g.m_nodeContainer t ≠ some node := by
      intro t ht hm
      obtain ⟨id, x, hm2, hx, hxs⟩ := hC.leaves t ht
      rw [hm] at hm2
      cases hm2
      rw [hn] at hx
      cases hx
      rw [hst] at hxs
      cases hxs
    obtain ⟨hC2, _, _, hkeep⟩ := removeNode_coreInv g g2 node hC hleaf h2
    have hnotin : node ∉ rest := (List.nodup_cons.1 hnd).1
    obtain ⟨g1, h1, hC1, hheap1, hroot1, hlv1, htr1, hsz1⟩ :=
      ih g2 hC2 (List.nodup_cons.1 hnd).2 (by
        intro id hid
        obtain ⟨x, hx, hxs⟩ := hall id (List.mem_cons_of_mem node hid)
        have hne : id ≠ node := fun e => hnotin (e ▸ hid)
        obtain ⟨x1, hx1, hx1s⟩ := hkeep id x hne hx
        exact ⟨x1, hx1, hx1s.trans hxs⟩)
    refine ⟨g1, ?_, hC1, ?_, ?_, hlv1.trans hlv, htr1.trans htr, ?_⟩
    · unfold DependencyGraph.removeNodes
      rw [List.foldlM_cons, h2]
      exact h1
    · intro id
      rw [hheap1 id, hheap id]
      by_cases hid : id = node
      · subst hid
        simp
      · by_cases hir : id ∈ rest
        · simp [hir]
        · simp only [hir, if_false, hid, List.mem_cons, or_self]
          cases hx : g.heap id with
          | none => rfl
          | some x =>
            simp only [Option.map_some', Option.some.injEq]
            exact pruneNode_unlink node rest x (hC.heap.nodupC id x hx)
              (hC.heap.nodupP id x hx)
    · rw [hroot1, hroot]
      cases hr : g.m_root with
      | none => simp
      | some r =>
        by_cases hrn : r = node
        · subst hrn
          simp
        · have : ¬ (some r = some node) := fun e => hrn (Option.some.inj e)
          simp only [this, if_false, Option.some_bind, List.mem_cons, hrn, false_or]
    · have hlt : g2.size < g.size := by
        unfold DependencyGraph.size
        rw [hmap]
        exact hashRemove_length_lt _ _ node (hC.reg node nd hn)
      simp only [List.length_cons]
      omega


/-! ## One search pass -/

theorem visitLeaf_frame (w : World) (mk : Makefile) (g : DependencyGraph) (node : NodeId)
    (nd : Node) :
    (visitLeaf w mk g node nd).2.2.m_root = g.m_root ∧
    (visitLeaf w mk g node nd).2.2.m_nodeContainer = g.m_nodeContainer ∧
    (visitLeaf w mk g node nd).2.2.m_leaves = g.m_leaves ∧
    (visitLeaf w mk g node nd).2.2.nextAddr = g.nextAddr := by
  rcases visitLeaf_cases w mk g node nd with ⟨_, hv⟩ | ⟨_, _, _, hv⟩ | ⟨_, _, _, hv⟩ |
      ⟨_, _, hv⟩ <;> rw [hv] <;> exact ⟨rfl, rfl, rfl, rfl⟩

theorem visitLeaves_frame (w : World) :
    ∀ (l : List NodeId) (mk : Makefile) (g : DependencyGraph) (r : Option TargetId)
      (mk1 : Makefile) (g1 : DependencyGraph),
      visitLeaves w l mk g = some (r, mk1, g1) →
      g1.m_root = g.m_root ∧ g1.m_nodeContainer = g.m_nodeContainer ∧
        g1.m_leaves = g.m_leaves ∧ g1.nextAddr = g.nextAddr := by
  intro l
  induction l with
  | nil =>
    intro mk g r mk1 g1 h
    simp only [visitLeaves, Option.some.injEq, Prod.mk.injEq] at h
    rw [← h.2.2]
    exact ⟨rfl, rfl, rfl, rfl⟩
  | cons leaf rest ih =>
    intro mk g r mk1 g1 h
    unfold visitLeaves at h
    cases hn : g.heap leaf with
    | none => simp [hn] at h
    | some nd =>
      simp only [hn] at h
      have hf := visitLeaf_frame w mk g leaf nd
      rcases hv : visitLeaf w mk g leaf nd with ⟨r2, mk2, g2⟩
      rw [hv] at h hf
      cases r2 with
      | some t =>
        simp only [Option.some.injEq, Prod.mk.injEq] at h
        rw [← h.2.2]
        exact hf
      | none =>
        simp only at h
        obtain ⟨a, b, c, d⟩ := ih mk2 g2 r mk1 g1 h
        exact ⟨a.trans hf.1, b.trans hf.2.1, c.trans hf.2.2.1, d.trans hf.2.2.2⟩

theorem nodeRanked_shape (g g1 : DependencyGraph) (rank : NodeId → Nat)
    (hS : SameShape g g1) (hR : NodeRankedBy g rank) : NodeRankedBy g1 rank := by
  intro id nd1 hn1 c hc
  obtain ⟨nd, hn, hch, _, _⟩ := sameShape_children g1 g (sameShape_symm g g1 hS) id nd1 hn1
  exact hR id nd hn c (hch ▸ hc)

theorem rootLive_shape (g g1 : DependencyGraph) (hS : SameShape g g1)
    (hroot : g1.m_root = g.m_root) (hL : RootLive g) : RootLive g1 := by
  intro r hr
  obtain ⟨nd, hn⟩ := hL r (hroot ▸ hr)
  obtain ⟨nd1, hn1, _⟩ := sameShape_children g g1 hS r nd hn
  exact ⟨nd1, hn1⟩

theorem search_pass (w : World) (mk : Makefile) (g : DependencyGraph) (rank : NodeId → Nat)
    (hS : SearchInv w mk g) (hR : NodeRankedBy g rank) (n : NodeId) (nd : Node)
    (hn : g.heap n = some nd) (fuel : Nat) (hfuel : rank n < fuel) :
    ∃ r mk1 g1, findAvailableTargetNode w fuel mk g n = some (r, mk1, g1) ∧
      visitLeaves w (leavesUnder g fuel n) mk g = some (r, mk1, g1) ∧
      SearchInv w mk1 g1 ∧ SameShape g g1 ∧ g1.m_root = g.m_root ∧
      g1.m_nodeContainer = g.m_nodeContainer ∧ g1.m_leaves = g.m_leaves ∧
      (∀ t, r = some t → ExecutingInMap g1 t ∧ t ∉ g.m_leaves) := by
  have heq := search_eq_visitLeaves w g rank hS.core.heap.closedC hR fuel n nd hn hfuel mk g
    (sameShape_refl g)
  obtain ⟨⟨r, mk1, g1⟩, hv⟩ := visitLeaves_total w (leavesUnder g fuel n) mk g
    (fun id hid => by
      obtain ⟨x, hx, _⟩ := leavesUnder_live g fuel n id hid
      exact ⟨x, hx⟩)
  have hF := heq.trans hv
  obtain ⟨hS1, hex⟩ := findAvailableTargetNode_spec w fuel mk g n r mk1 g1 hS hF
  obtain ⟨f1, f2, f3, _⟩ := visitLeaves_frame w _ mk g r mk1 g1 hv
  refine ⟨r, mk1, g1, hF, hv, hS1, visitLeaves_shape w _ mk g r mk1 g1 hv, f1, f2, f3, ?_⟩
  intro t ht
  refine ⟨hex t ht, ?_⟩
  intro hmem
  obtain ⟨_, leaf, lnd, _, _, _, hns, hlf, htg, _⟩ := (visitLeaves_spec w _ mk g r mk1 g1 hv).2 t ht
  obtain ⟨id, x, hm, hx, hxs⟩ := hS.core.leaves t hmem
  have hreg := hS.core.reg leaf lnd hlf
  rw [← htg, hm] at hreg
  have e : id = leaf := Option.some.inj hreg
  subst e
  rw [hlf] at hx
  have e2 : lnd = x := Option.some.inj hx
  subst e2
  exact hns ⟨lnd, hlf, Or.inl hxs⟩


/-! ## The loops of `findAvailableTarget()` end -/

theorem pruned_ranked (l : List NodeId) (g g1 : DependencyGraph) (rank : NodeId → Nat)
    (hheap : ∀ id, g1.heap id = if id ∈ l then none else (g.heap id).map (pruneNode l))
    (hR : NodeRankedBy g rank) : NodeRankedBy g1 rank := by
  intro id nd1 hn1 c hc
  rw [hheap id] at hn1
  by_cases hid : id ∈ l
  · rw [if_pos hid] at hn1
    cases hn1
  · rw [if_neg hid] at hn1
    cases hx : g.heap id with
    | none =>
      rw [hx] at hn1
      cases hn1
    | some x =>
      rw [hx] at hn1
      have e : pruneNode l x = nd1 := Option.some.inj hn1
      subst e
      exact hR id x hx c (List.mem_of_mem_filter hc)

theorem pruned_rootLive (l : List NodeId) (g g1 : DependencyGraph)
    (hheap : ∀ id, g1.heap id = if id ∈ l then none else (g.heap id).map (pruneNode l))
    (hroot : g1.m_root = g.m_root.bind (fun r => if r ∈ l then none else some r))
    (hL : RootLive g) : RootLive g1 := by
  intro r hr
  rw [hroot] at hr
  cases hg : g.m_root with
  | none =>
    rw [hg] at hr
    cases hr
  | some r0 =>
    rw [hg] at hr
    simp only [Option.some_bind] at hr
    by_cases hin : r0 ∈ l
    · rw [if_pos hin] at hr
      cases hr
    · rw [if_neg hin] at hr
      have e : r0 = r := Option.some.inj hr
      subst e
      obtain ⟨nd, hn⟩ := hL r0 hg
      exact ⟨pruneNode l nd, by rw [hheap r0, if_neg hin, hn]; rfl⟩

theorem size_pos_of_live (g : DependencyGraph) (hG : RegInv g) (id : NodeId) (nd : Node)
    (hn : g.heap id = some nd) : 0 < g.size := by
  have h := hG id nd hn
  unfold DependencyGraph.size
  cases hc : g.m_nodeContainer with
  | nil =>
    rw [hc] at h
    simp [hashValue] at h
  | cons e rest => simp

theorem hashValue_mem_keys (h : List (TargetId × NodeId)) (t : TargetId) (v : NodeId)
    (hv : hashValue h t = some v) : t ∈ h.map Prod.fst := by
  induction h with
  | nil => simp [hashValue] at hv
  | cons e rest ih =>
    obtain ⟨k, x⟩ := e
    by_cases hk : k = t
    · simp [hk]
    · have hv2 : hashValue rest t = some v := by simpa [hashValue, hk] using hv
      exact List.mem_cons_of_mem _ (ih hv2)

theorem leaves_length_le (g : DependencyGraph) (hC : CoreInv g) (hnd : g.m_leaves.Nodup) :
    g.m_leaves.length ≤ g.size := by
  have hsub : g.m_leaves ⊆ g.m_nodeContainer.map Prod.fst := by
    intro t ht
    obtain ⟨id, _, hm, _, _⟩ := hC.leaves t ht
    exact hashValue_mem_keys _ t id hm
  have := (List.subperm_of_subset hnd hsub).length_le
  simpa [DependencyGraph.size] using this

theorem searchPasses_total (w : World) (searchFuel : Nat) (rank : NodeId → Nat)
    (hbound : ∀ id, rank id < searchFuel) :
    ∀ (k : Nat) (mk : Makefile) (g : DependencyGraph), SearchInv w mk g →
      NodeRankedBy g rank → RootLive g → g.size ≤ k + g.m_nodesToRemove.length →
      ∃ p mk1 g1, searchPasses w searchFuel (k + 1) mk g = some (p, mk1, g1) ∧
        SearchInv w mk1 g1 ∧ NodeRankedBy g1 rank ∧ RootLive g1 ∧ g1.size ≤ g.size ∧
        g1.m_leaves = g.m_leaves ∧
        (∀ t, p = Pass.result (some t) → ExecutingInMap g1 t ∧ t ∉ g.m_leaves) ∧
        (p = Pass.returned ∨ p = Pass.result none → g1.m_nodesToRemove = []) ∧
        (p = Pass.returned → g1.m_root = none) := by
  intro k
  induction k with
  | zero =>
    intro mk g hS hR hL hsz
    obtain ⟨g2, h2, hC2, hheap, hroot, hlv, _, hsize⟩ :=
      removeNodes_full g.m_nodesToRemove g hS.core hS.removal.1
        (fun id hid => by
          obtain ⟨nd, hnd, hst, _⟩ := hS.removal.2 id hid
          exact ⟨nd, hnd, hst⟩)
    have hL2 := pruned_rootLive _ g g2 hheap hroot hL
    have hR2 := pruned_ranked _ g g2 rank hheap hR
    have hS2 : SearchInv w mk { g2 with m_nodesToRemove := [] } :=
      ⟨coreInv_congr g2 _ hC2 rfl rfl rfl (fun t ht => hC2.leaves t ht),
        List.nodup_nil, fun id hid => by cases hid⟩
    unfold searchPasses
    rw [h2]
    simp only
    generalize hG : ({ g2 with m_nodesToRemove := [] } : DependencyGraph) = G at hS2 ⊢
    have hGheap : G.heap = g2.heap := by rw [← hG]
    have hGroot : G.m_root = g2.m_root := by rw [← hG]
    have hGsize : G.size = g2.size := by rw [← hG]; rfl
    have hGlv : G.m_leaves = g2.m_leaves := by rw [← hG]
    have hGR : NodeRankedBy G rank := by
      intro id nd hn c hc
      rw [hGheap] at hn
      exact hR2 id nd hn c hc
    cases hr : g2.m_root with
    | some root =>
      obtain ⟨nd, hn⟩ := hL2 root hr
      have := size_pos_of_live g2 hC2.reg root nd hn
      omega
    | none =>
      refine ⟨Pass.returned, mk, G, rfl, hS2, hGR, ?_, ?_, hGlv.trans hlv,
        fun t ht => (by cases ht), fun _ => by rw [← hG], fun _ => hGroot.trans hr⟩
      · intro r hr2
        rw [hGroot, hr] at hr2
        cases hr2
      · rw [hGsize]
        omega
  | succ k ih =>
    intro mk g hS hR hL hsz
    obtain ⟨g2, h2, hC2, hheap, hroot, hlv, _, hsize⟩ :=
      removeNodes_full g.m_nodesToRemove g hS.core hS.removal.1
        (fun id hid => by
          obtain ⟨nd, hnd, hst, _⟩ := hS.removal.2 id hid
          exact ⟨nd, hnd, hst⟩)
    have hL2 := pruned_rootLive _ g g2 hheap hroot hL
    have hR2 := pruned_ranked _ g g2 rank hheap hR
    have hS2 : SearchInv w mk { g2 with m_nodesToRemove := [] } :=
      ⟨coreInv_congr g2 _ hC2 rfl rfl rfl (fun t ht => hC2.leaves t ht),
        List.nodup_nil, fun id hid => by cases hid⟩
    unfold searchPasses
    rw [h2]
    simp only
    generalize hG : ({ g2 with m_nodesToRemove := [] } : DependencyGraph) = G at hS2 ⊢
    have hGheap : G.heap = g2.heap := by rw [← hG]
    have hGroot : G.m_root = g2.m_root := by rw [← hG]
    have hGsize : G.size = g2.size := by rw [← hG]; rfl
    have hGlv : G.m_leaves = g2.m_leaves := by rw [← hG]
    have hGR : NodeRankedBy G rank := by
      intro id nd hn c hc
      rw [hGheap] at hn
      exact hR2 id nd hn c hc
    cases hr : g2.m_root with
    | none =>
      refine ⟨Pass.returned, mk, G, rfl, hS2, hGR, ?_, ?_, hGlv.trans hlv,
        fun t ht => (by cases ht), fun _ => by rw [← hG], fun _ => hGroot.trans hr⟩
      · intro r hr2
        rw [hGroot, hr] at hr2
        cases hr2
      · rw [hGsize]
        omega
    | some root =>
      simp only
      obtain ⟨nd, hn⟩ := hL2 root hr
      obtain ⟨r, mk3, g3, hF, _, hS3, hSh, hroot3, hmap3, hlv3, hex3⟩ :=
        search_pass w mk G rank hS2 hGR root nd (hGheap ▸ hn) searchFuel (hbound root)
      rw [hF]
      simp only
      have hR3 := nodeRanked_shape G g3 rank hSh hGR
      have hL3 : RootLive g3 := rootLive_shape G g3 hSh hroot3 (by
        intro r0 hr0
        rw [hGroot] at hr0
        obtain ⟨x, hx⟩ := hL2 r0 hr0
        exact ⟨x, hGheap ▸ hx⟩)
      have hsz3 : g3.size = g2.size := by
        unfold DependencyGraph.size
        rw [hmap3, ← hG]
      by_cases hc : (r.isNone && !g3.m_nodesToRemove.isEmpty) = true
      · rw [if_pos hc]
        have hne : g3.m_nodesToRemove ≠ [] := by
          intro he
          rw [he] at hc
          simp at hc
        have hlen : 1 ≤ g3.m_nodesToRemove.length := by
          cases hl : g3.m_nodesToRemove with
          | nil => exact absurd hl hne
          | cons a b => simp
        obtain ⟨p, mk1, g1, hP, a1, a2, a3, a4, a5, a6, a7, a8⟩ :=
          ih mk3 g3 hS3 hR3 hL3 (by omega)
        refine ⟨p, mk1, g1, hP, a1, a2, a3, by omega, ?_, ?_, a7, a8⟩
        · rw [a5, hlv3, hGlv, hlv]
        · intro t ht
          obtain ⟨b1, b2⟩ := a6 t ht
          refine ⟨b1, ?_⟩
          rw [hlv3, hGlv, hlv] at b2
          exact b2
      · rw [if_neg hc]
        refine ⟨Pass.result r, mk3, g3, rfl, hS3, hR3, hL3, by omega, ?_, ?_, ?_, ?_⟩
        · rw [hlv3, hGlv, hlv]
        · intro t ht
          simp only [Pass.result.injEq] at ht
          obtain ⟨b1, b2⟩ := hex3 t ht
          refine ⟨b1, ?_⟩
          rw [hGlv, hlv] at b2
          exact b2
        · rintro (hp | hp)
          · cases hp
          · simp only [Pass.result.injEq] at hp
            subst hp
            simpa [List.isEmpty_iff] using hc
        · intro hp
          cases hp


theorem collectLeaves_total (w : World) (searchFuel passFuel : Nat) (rank : NodeId → Nat)
    (hbound : ∀ id, rank id < searchFuel) :
    ∀ (k : Nat) (mk : Makefile) (g : DependencyGraph), SearchInv w mk g →
      NodeRankedBy g rank → RootLive g → g.m_leaves.Nodup → g.size ≤ passFuel →
      g.size + 1 ≤ k + g.m_leaves.length →
      ∃ p mk1 g1, collectLeaves w searchFuel (passFuel + 1) k mk g = some (p, mk1, g1) ∧
        (p = Pass.returned → g1.m_root = none) := by
  intro k
  induction k with
  | zero =>
    intro mk g hS _ _ hnd _ hsz
    have := leaves_length_le g hS.core hnd
    omega
  | succ k ih =>
    intro mk g hS hR hL hnd hpf hsz
    obtain ⟨p, mk1, g1, hP, hS1, hR1, hL1, hsz1, hlv1, hex1, _, hret⟩ :=
      searchPasses_total w searchFuel rank hbound passFuel mk g hS hR hL (by omega)
    unfold collectLeaves
    rw [hP]
    cases p with
    | returned => exact ⟨Pass.returned, mk1, g1, rfl, hret⟩
    | result r =>
      cases r with
      | none => exact ⟨Pass.result none, mk1, g1, rfl, fun hp => by cases hp⟩
      | some t =>
        simp only
        obtain ⟨hex, hnotin⟩ := hex1 t rfl
        apply ih
        · refine ⟨coreInv_congr g1 _ hS1.core rfl rfl rfl ?_, hS1.removal⟩
          intro u hu
          rcases List.mem_append.1 hu with hu | hu
          · exact hS1.core.leaves u hu
          · rw [List.mem_singleton] at hu
            subst hu
            exact hex
        · exact hR1
        · exact hL1
        · show (g1.m_leaves ++ [t]).Nodup
          rw [hlv1]
          exact List.Nodup.append hnd (List.nodup_singleton t)
            (by
              intro a ha hb
              rw [List.mem_singleton] at hb
              exact hnotin (hb ▸ ha))
        · show g1.size ≤ passFuel
          omega
        · show g1.size + 1 ≤ k + (g1.m_leaves ++ [t]).length
          rw [hlv1, List.length_append, List.length_singleton]
          omega

theorem findAvailableTarget_total (w : World) (air : List TargetId → Makefile → Makefile)
    (mk : Makefile) (g : DependencyGraph) (rank : NodeId → Nat) (hS : SearchInv w mk g)
    (hR : NodeRankedBy g rank) (hL : RootLive g) (fuel : Nat)
    (hrank : ∀ id, rank id < fuel) (hsize : g.size < fuel) :
    ∃ r mk1 g1, g.findAvailableTarget w air fuel mk = some (r, mk1, g1) := by
  unfold DependencyGraph.findAvailableTarget
  cases hl : g.m_leaves with
  | cons leaf rest => exact ⟨_, _, _, rfl⟩
  | nil =>
    simp only
    obtain ⟨pk, hpk⟩ : ∃ pk, fuel = pk + 1 := ⟨fuel - 1, by omega⟩
    obtain ⟨p, mk1, g1, hP, _⟩ := collectLeaves_total w fuel pk rank hrank fuel mk g hS hR hL
      (by rw [hl]; exact List.nodup_nil) (by omega) (by rw [hl]; simp; omega)
    rw [← hpk] at hP
    rw [hP]
    cases p with
    | returned => exact ⟨_, _, _, rfl⟩
    | result r =>
      simp only
      cases hl1 : g1.m_leaves with
      | nil => exact ⟨_, _, _, rfl⟩
      | cons leaf rest => exact ⟨_, _, _, rfl⟩

theorem searchInv_of_core (w : World) (mk : Makefile) (g : DependencyGraph) (hC : CoreInv g)
    (hE : g.m_nodesToRemove = []) : SearchInv w mk g := by
  refine ⟨hC, ?_⟩
  rw [hE]
  exact ⟨List.nodup_nil, fun id hid => by cases hid⟩

theorem nodeRank_le (g : DependencyGraph) (rank : TargetId → Nat) (b : Nat)
    (hb : ∀ t, rank t ≤ b) (id : NodeId) : nodeRank g rank id ≤ b := by
  unfold nodeRank
  cases g.heap id with
  | none => exact Nat.zero_le b
  | some nd => exact hb nd.target

/-- C22 (as stated, refuted): on the graph with the single node `A`, which is not up to date,
the outer loop of `findAvailableTarget()` runs twice, once to find `A` and once more to find
nothing: one iteration, as many as there are nodes, does not suffice, two do. -/
theorem C22_counterexample :
    singleGraph.size = 1 ∧
    collectLeaves emptyWorld 1 1 1 singleMakefile singleGraph = none ∧
    (collectLeaves emptyWorld 1 1 2 singleMakefile singleGraph).map Prod.fst =
      some (Pass.result none) ∧
    singleGraph.findAvailableTarget emptyWorld noRules 1 singleMakefile = none ∧
    (singleGraph.findAvailableTarget emptyWorld noRules 2 singleMakefile).map Prod.fst =
      some (some 0) := by
  refine ⟨by rfl, by rfl, by rfl, by rfl, by rfl⟩

/-- C22 (amended): on a graph that satisfies the invariant of the search (which includes edge
symmetry), whose children relation is acyclic and whose root is live, for every file probe,
the public `findAvailableTarget` returns: the removals at the start of a pass take as many
nodes out of the graph as the deferred-removal list holds, and with room for one iteration
more than there are nodes in each of the two nested loops (and a recursion depth above the
rank of the nodes) both loops end. -/
theorem C22_findAvailableTarget_terminates (w : World)
    (air : List TargetId → Makefile → Makefile) (mk : Makefile) (g : DependencyGraph)
    (rank : NodeId → Nat) (hS : SearchInv w mk g) (hR : NodeRankedBy g rank)
    (hL : RootLive g) :
    (∃ g1, g.removeNodes g.m_nodesToRemove = some g1 ∧
      g1.size + g.m_nodesToRemove.length ≤ g.size) ∧
    (∀ searchFuel passFuel fuel, (∀ id, rank id < searchFuel) → g.m_leaves = [] →
      g.size + 1 ≤ passFuel → g.size + 1 ≤ fuel →
      ∃ out, collectLeaves w searchFuel passFuel fuel mk g = some out) ∧
    (∀ fuel, (∀ id, rank id < fuel) → g.size + 1 ≤ fuel →
      ∃ r mk1 g1, g.findAvailableTarget w air fuel mk = some (r, mk1, g1)) := by
  refine ⟨?_, ?_, ?_⟩
  · obtain ⟨g1, h1, _, _, _, _, _, hsz⟩ :=
      removeNodes_full g.m_nodesToRemove g hS.core hS.removal.1
        (fun id hid => by
          obtain ⟨nd, hnd, hst, _⟩ := hS.removal.2 id hid
          exact ⟨nd, hnd, hst⟩)
    exact ⟨g1, h1, hsz⟩
  · intro searchFuel passFuel fuel hrank hlv hpf hf
    obtain ⟨pk, hpk⟩ : ∃ pk, passFuel = pk + 1 := ⟨passFuel - 1, by omega⟩
    subst hpk
    obtain ⟨p, mk1, g1, hP, _⟩ := collectLeaves_total w searchFuel pk rank hrank fuel mk g hS
      hR hL (by rw [hlv]; exact List.nodup_nil) (by omega) (by rw [hlv]; simp; omega)
    exact ⟨_, hP⟩
  · intro fuel hrank hsize
    exact findAvailableTarget_total w air mk g rank hS hR hL fuel hrank (by omega)

theorem diamondGraph_searchInv (w : World) : SearchInv w diamondMakefile diamondGraph := by
  obtain ⟨hC, hE⟩ := build_init_coreInv diamondMakefile diamond_acyclic 4 0 0 diamondGraph
    diamondGraph_built
  exact searchInv_of_core w diamondMakefile diamondGraph hC hE

theorem diamondGraph_rootLive : RootLive diamondGraph := by
  intro r hr
  have h0 : diamondGraph.m_root = some 0 := by rfl
  rw [h0] at hr
  have e : 0 = r := Option.some.inj hr
  subst e
  exact ⟨⟨0, [1, 3], [], NodeState.UnknownState⟩, by rfl⟩

theorem C22_findAvailableTarget_terminates_witness :
    SearchInv emptyWorld diamondMakefile diamondGraph ∧
    NodeRankedBy diamondGraph (nodeRank diamondGraph diamondRank) ∧ RootLive diamondGraph ∧
    diamondGraph.size = 4 ∧
    (∀ id, nodeRank diamondGraph diamondRank id < 5) ∧
    (diamondGraph.findAvailableTarget emptyWorld noRules 5 diamondMakefile).map Prod.fst =
      some (some 3) ∧
    ((∃ g1, diamondGraph.removeNodes diamondGraph.m_nodesToRemove = some g1 ∧
      g1.size + diamondGraph.m_nodesToRemove.length ≤ diamondGraph.size) ∧
    (∀ searchFuel passFuel fuel,
      (∀ id, nodeRank diamondGraph diamondRank id < searchFuel) → diamondGraph.m_leaves = [] →
      diamondGraph.size + 1 ≤ passFuel → diamondGraph.size + 1 ≤ fuel →
      ∃ out, collectLeaves emptyWorld searchFuel passFuel fuel diamondMakefile diamondGraph =
        some out) ∧
    (∀ fuel, (∀ id, nodeRank diamondGraph diamondRank id < fuel) →
      diamondGraph.size + 1 ≤ fuel →
      ∃ r mk1 g1, diamondGraph.findAvailableTarget emptyWorld noRules fuel diamondMakefile =
        some (r, mk1, g1))) :=
  ⟨diamondGraph_searchInv emptyWorld, diamondGraph_nodeRanked, diamondGraph_rootLive, by rfl,
    fun id => Nat.lt_succ_of_le (nodeRank_le diamondGraph diamondRank 4
      (fun t => by unfold diamondRank; omega) id),
    by rfl,
    C22_findAvailableTarget_terminates emptyWorld noRules diamondMakefile diamondGraph
      (nodeRank diamondGraph diamondRank) (diamondGraph_searchInv emptyWorld)
      diamondGraph_nodeRanked diamondGraph_rootLive⟩


/-! ## A search pass over a graph whose targets are all up to date -/

theorem leavesUnder_nonempty (g : DependencyGraph) (rank : NodeId → Nat)
    (hC : ∀ id nd, g.heap id = some nd → ∀ c ∈ nd.children, ∃ cn, g.heap c = some cn)
    (hR : NodeRankedBy g rank) :
    ∀ (fuel : Nat) (node : NodeId) (nd : Node), g.heap node = some nd → rank node < fuel →
      leavesUnder g fuel node ≠ [] := by
  intro fuel
  induction fuel with
  | zero =>
    intro node nd _ hlt
    omega
  | succ fuel ih =>
    intro node nd hn hlt
    unfold leavesUnder
    rw [hn]
    simp only
    by_cases hleaf : nd.children.isEmpty = true
    · rw [if_pos hleaf]
      simp
    · rw [if_neg hleaf]
      cases hch : nd.children with
      | nil =>
        rw [hch] at hleaf
        simp at hleaf
      | cons c rest =>
        have hc : c ∈ nd.children := by rw [hch]; exact List.mem_cons_self _ _
        obtain ⟨cn, hcn⟩ := hC node nd hn c hc
        have hrc : rank c < fuel := by
          have := hR node nd hn c hc
          omega
        have := ih c cn hcn hrc
        simp only [List.flatMap_cons]
        intro he
        exact this (List.append_eq_nil.1 he).1

theorem visitLeaf_upToDate (w : World) (mk : Makefile) (g : DependencyGraph) (node : NodeId)
    (nd : Node) (u : TargetId) :
    (isTargetUpToDate w ((visitLeaf w mk g node nd).2.1.blocks u)).1 =
      (isTargetUpToDate w (mk.blocks u)).1 := by
  rcases visitLeaf_cases w mk g node nd with ⟨_, hv⟩ | ⟨_, _, _, hv⟩ | ⟨_, _, _, hv⟩ |
      ⟨_, _, hv⟩ <;> rw [hv]
  · exact upToDate_setBlock w mk nd.target u
  · exact upToDate_setBlock w mk nd.target u
  · exact upToDate_setBlock w mk nd.target u

theorem visitLeaf_list (w : World) (mk : Makefile) (g : DependencyGraph) (node : NodeId)
    (nd : Node) :
    (∀ id, id ∈ (visitLeaf w mk g node nd).2.2.m_nodesToRemove →
      id ∈ g.m_nodesToRemove ∨ id = node) ∧
    (∀ id, id ∈ g.m_nodesToRemove → id ∈ (visitLeaf w mk g node nd).2.2.m_nodesToRemove) ∧
    (∀ id x1, (visitLeaf w mk g node nd).2.2.heap id = some x1 →
      x1.state = NodeState.UpToDateState →
      (∃ x, g.heap id = some x ∧ x.state = NodeState.UpToDateState) ∨
        id ∈ (visitLeaf w mk g node nd).2.2.m_nodesToRemove) := by
  rcases visitLeaf_cases w mk g node nd with ⟨_, hv⟩ | ⟨_, _, _, hv⟩ | ⟨_, _, _, hv⟩ |
      ⟨_, _, hv⟩ <;> rw [hv]
  · exact ⟨fun id h => Or.inl h, fun id h => h, fun id x1 h1 h2 => Or.inl ⟨x1, h1, h2⟩⟩
  · exact ⟨fun id h => Or.inl h, fun id h => h, fun id x1 h1 h2 => Or.inl ⟨x1, h1, h2⟩⟩
  · refine ⟨?_, ?_, ?_⟩
    · intro id h
      rcases List.mem_append.1 h with h | h
      · exact Or.inl h
      · exact Or.inr (List.mem_singleton.1 h)
    · intro id h
      exact List.mem_append_left _ h
    · intro id x1 h1 h2
      by_cases hid : id = node
      · exact Or.inr (List.mem_append_right _ (List.mem_singleton.2 hid))
      · rw [heap_setState, if_neg hid] at h1
        exact Or.inl ⟨x1, h1, h2⟩
  · refine ⟨fun id h => Or.inl h, fun id h => h, ?_⟩
    intro id x1 h1 h2
    by_cases hid : id = node
    · rw [heap_setNode, if_pos hid] at h1
      rw [← Option.some.inj h1] at h2
      cases h2
    · rw [heap_setNode, if_neg hid] at h1
      exact Or.inl ⟨x1, h1, h2⟩

theorem visitLeaves_list (w : World) :
    ∀ (l : List NodeId) (mk : Makefile) (g : DependencyGraph) (r : Option TargetId)
      (mk1 : Makefile) (g1 : DependencyGraph),
      visitLeaves w l mk g = some (r, mk1, g1) →
      (∀ id, id ∈ g1.m_nodesToRemove → id ∈ g.m_nodesToRemove ∨ id ∈ l) ∧
      (∀ id, id ∈ g.m_nodesToRemove → id ∈ g1.m_nodesToRemove) ∧
      (∀ id x1, g1.heap id = some x1 → x1.state = NodeState.UpToDateState →
        (∃ x, g.heap id = some x ∧ x.state = NodeState.UpToDateState) ∨
          id ∈ g1.m_nodesToRemove) ∧
      (∀ u, (isTargetUpToDate w (mk1.blocks u)).1 = (isTargetUpToDate w (mk.blocks u)).1) ∧
      (r = none → ∀ id, IsExecuting g1 id ↔ IsExecuting g id) := by
  intro l
  induction l with
  | nil =>
    intro mk g r mk1 g1 h
    simp only [visitLeaves, Option.some.injEq, Prod.mk.injEq] at h
    obtain ⟨_, hm, hg⟩ := h
    subst hm hg
    exact ⟨fun id h => Or.inl h, fun id h => h, fun id x1 h1 h2 => Or.inl ⟨x1, h1, h2⟩,
      fun u => rfl, fun _ id => Iff.rfl⟩
  | cons leaf rest ih =>
    intro mk g r mk1 g1 h
    unfold visitLeaves at h
    cases hn : g.heap leaf with
    | none => simp [hn] at h
    | some nd =>
      simp only [hn] at h
      obtain ⟨a1, a2, a3⟩ := visitLeaf_list w mk g leaf nd
      have a4 := visitLeaf_upToDate w mk g leaf nd
      rcases hv : visitLeaf w mk g leaf nd with ⟨r2, mk2, g2⟩
      rw [hv] at h a1 a2 a3 a4
      cases r2 with
      | some t =>
        simp only [Option.some.injEq, Prod.mk.injEq] at h
        obtain ⟨hr, hm, hg⟩ := h
        subst hr hm hg
        refine ⟨?_, a2, a3, a4, fun hh => (by cases hh)⟩
        intro id hid
        rcases a1 id hid with h1 | h1
        · exact Or.inl h1
        · exact Or.inr (h1 ▸ List.mem_cons_self _ _)
      | none =>
        simp only at h
        obtain ⟨b1, b2, b3, b4, b5⟩ := ih mk2 g2 r mk1 g1 h
        have hex := visitLeaf_executing w mk mk2 g g2 leaf nd hn hv
        refine ⟨?_, fun id hid => b2 id (a2 id hid), ?_, fun u => (b4 u).trans (a4 u),
          fun hr id => (b5 hr id).trans (hex id)⟩
        · intro id hid
          rcases b1 id hid with h1 | h1
          · rcases a1 id h1 with h2 | h2
            · exact Or.inl h2
            · exact Or.inr (h2 ▸ List.mem_cons_self _ _)
          · exact Or.inr (List.mem_cons_of_mem _ h1)
        · intro id x1 h1 h2
          rcases b3 id x1 h1 h2 with ⟨x, hx, hxs⟩ | h3
          · rcases a3 id x hx hxs with h4 | h4
            · exact Or.inl h4
            · exact Or.inr (b2 id h4)
          · exact Or.inr h3


theorem pruned_rooted (l : List NodeId) (g g1 : DependencyGraph)
    (hheap : ∀ id, g1.heap id = if id ∈ l then none else (g.heap id).map (pruneNode l))
    (hroot : g1.m_root = g.m_root.bind (fun r => if r ∈ l then none else some r))
    (hleaf : ∀ id ∈ l, ∃ nd, g.heap id = some nd ∧ nd.children = [])
    (hR : Rooted g) : Rooted g1 := by
  constructor
  · intro r hr id nd1 hn1
    rw [hroot] at hr
    cases hg : g.m_root with
    | none =>
      rw [hg] at hr
      cases hr
    | some r0 =>
      rw [hg] at hr
      simp only [Option.some_bind] at hr
      by_cases hin : r0 ∈ l
      · rw [if_pos hin] at hr
        cases hr
      · rw [if_neg hin] at hr
        have e : r0 = r := Option.some.inj hr
        subst e
        have hid : id ∉ l := by
          intro hid
          rw [hheap id, if_pos hid] at hn1
          cases hn1
        rw [hheap id, if_neg hid] at hn1
        cases hx : g.heap id with
        | none =>
          rw [hx] at hn1
          cases hn1
        | some x =>
          have hreach := hR.1 r0 hg id x hx
          have key : ∀ b, NodeReach g r0 b → b ∉ l → NodeReach g1 r0 b := by
            intro b hb
            induction hb with
            | refl => intro _; exact Relation.ReflTransGen.refl
            | @tail a b _ hab ih =>
              intro hbl
              obtain ⟨xa, hxa, hmem⟩ := hab
              have hal : a ∉ l := by
                intro hal
                obtain ⟨ya, hya, hyc⟩ := hleaf a hal
                rw [hxa] at hya
                have e : xa = ya := Option.some.inj hya
                subst e
                rw [hyc] at hmem
                cases hmem
              refine Relation.ReflTransGen.tail (ih hal) ⟨pruneNode l xa, ?_, ?_⟩
              · rw [hheap a, if_neg hal, hxa]
                rfl
              · simp only [pruneNode, List.mem_filter, decide_eq_true_eq]
                exact ⟨hmem, hbl⟩
          exact key id hreach hid
  · intro hr id
    rw [hheap id]
    by_cases hid : id ∈ l
    · rw [if_pos hid]
    · rw [if_neg hid]
      rw [hroot] at hr
      cases hg : g.m_root with
      | none => rw [hR.2 hg id]; rfl
      | some r0 =>
        rw [hg] at hr
        simp only [Option.some_bind] at hr
        by_cases hin : r0 ∈ l
        · obtain ⟨y0, hy0, hyc⟩ := hleaf r0 hin
          cases hx : g.heap id with
          | none => rfl
          | some x =>
            have hreach := hR.1 r0 hg id x hx
            rcases Relation.ReflTransGen.cases_head hreach with heq | ⟨c, ⟨z, hz, hmem⟩, _⟩
            · exact absurd (heq ▸ hin) hid
            · rw [hy0] at hz
              have e : y0 = z := Option.some.inj hz
              subst e
              rw [hyc] at hmem
              cases hmem
        · rw [if_neg hin] at hr
          cases hr

theorem rooted_shape (g g1 : DependencyGraph) (hS : SameShape g g1)
    (hroot : g1.m_root = g.m_root) (hR : Rooted g) : Rooted g1 := by
  constructor
  · intro r hr id nd1 hn1
    obtain ⟨nd, hn, _⟩ := sameShape_children g1 g (sameShape_symm g g1 hS) id nd1 hn1
    have hreach := hR.1 r (hroot ▸ hr) id nd hn
    refine Relation.ReflTransGen.mono ?_ hreach
    intro a b ⟨x, hx, hmem⟩
    obtain ⟨x1, hx1, hch, _⟩ := sameShape_children g g1 hS a x hx
    exact ⟨x1, hx1, hch ▸ hmem⟩
  · intro hr id
    have h0 := hR.2 (hroot ▸ hr) id
    have := hS id
    rw [h0] at this
    cases h1 : g1.heap id with
    | none => rfl
    | some x =>
      rw [h1] at this
      cases this

theorem container_empty (g : DependencyGraph) (hI : HeapInv g)
    (h : ∀ id, g.heap id = none) : g.m_nodeContainer = [] := by
  cases hc : g.m_nodeContainer with
  | nil => rfl
  | cons e rest =>
    obtain ⟨k, v⟩ := e
    have hv : hashValue g.m_nodeContainer k = some v := by
      rw [hc]
      simp [hashValue]
    obtain ⟨nd, hn, _⟩ := hI.mapLive k v hv
    rw [h v] at hn
    cases hn

theorem build_init_root (mk : Makefile) (fuel : Nat) (base : NodeId) (target : TargetId)
    (g : DependencyGraph) (h : (DependencyGraph.init base).build mk fuel target = some g) :
    g.m_root = some base := by
  rw [build_init_eq] at h
  have hP := internalBuild_preserves (fun g => HeapInv g ∧ g.m_root = some base) mk
    (fun g p c g1 hI h => by
      refine ⟨addEdge_heapInv g g1 p c hI.1 h, ?_⟩
      obtain ⟨⟨pn, hp⟩, ⟨cn, hc⟩⟩ := addEdge_live g g1 p c h
      rw [addEdge_eq g p c pn cn hp hc] at h
      cases h
      exact hI.2)
    (fun g t p n g1 hI h => by
      obtain ⟨h1, _, _, _, hroot, _⟩ := createNode_spec g g1 t p n hI.1 h
      exact ⟨h1, hroot.trans hI.2⟩)
    fuel _ base g ⟨?_, rfl⟩ h
  · exact hP.2
  · exact heapInv_congr _ _ (heapInv_insert _ target base
      ⟨target, [], [], NodeState.UnknownState⟩
      (heapInv_alloc (DependencyGraph.init base) target (init_heapInv base))
      (by simp [DependencyGraph.init, DependencyGraph.allocNode]) rfl) rfl rfl rfl

theorem build_rooted (mk : Makefile) (rank : TargetId → Nat) (hR : mk.RankedBy rank)
    (fuel : Nat) (base : NodeId) (target : TargetId) (g : DependencyGraph)
    (h : (DependencyGraph.init base).build mk fuel target = some g) :
    Rooted g ∧ RootLive g := by
  obtain ⟨hI, hG, hC, hK, hbase, _⟩ := build_init_full mk rank hR fuel base target g h
  have hroot := build_init_root mk fuel base target g h
  have key : ∀ v, mk.Reaches target v →
      ∀ id, hashValue g.m_nodeContainer v = some id → NodeReach g base id := by
    intro v hv
    induction hv with
    | refl =>
      intro id hid
      rw [hbase] at hid
      rw [← Option.some.inj hid]
      exact Relation.ReflTransGen.refl
    | @tail u v hu huv ih =>
      intro id hid
      obtain ⟨idu, ndu, hidu, hndu, hch⟩ := hC u hu
      have hmem : v ∈ g.targetsOf ndu.children := by
        rw [hch, mem_dropRepetitions]
        exact huv
      obtain ⟨c, hc, cn, hcn, hct⟩ := (mem_targetsOf g ndu.children v).1 hmem
      have hreg := hG c cn hcn
      rw [hct, hid] at hreg
      have e : id = c := Option.some.inj hreg
      subst e
      exact Relation.ReflTransGen.tail (ih idu hidu) ⟨ndu, hndu, hc⟩
  refine ⟨⟨?_, ?_⟩, ?_⟩
  · intro r hr id nd hn
    rw [hroot] at hr
    rw [← Option.some.inj hr]
    exact key nd.target (hK nd.target ⟨id, hG id nd hn⟩) id (hG id nd hn)
  · intro hr
    rw [hroot] at hr
    cases hr
  · intro r hr
    rw [hroot] at hr
    rw [← Option.some.inj hr]
    obtain ⟨nd, hn, _⟩ := hI.mapLive target base hbase
    exact ⟨nd, hn⟩


theorem upToDate_drain (w : World) (rank : NodeId → Nat) (mk : Makefile)
    (g : DependencyGraph) (hJ : UpToDateInv w rank mk g) :
    ∃ g2, g.removeNodes g.m_nodesToRemove = some g2 ∧
      g2.size + g.m_nodesToRemove.length ≤ g.size ∧
      UpToDateInv w rank mk { g2 with m_nodesToRemove := [] } ∧
      (∀ id nd, g2.heap id = some nd → nd.state ≠ NodeState.UpToDateState) := by
  obtain ⟨g2, h2, hC2, hheap, hroot, hlv, _, hsize⟩ :=
    removeNodes_full g.m_nodesToRemove g hJ.inv.core hJ.inv.removal.1
      (fun id hid => by
        obtain ⟨nd, hnd, hst, _⟩ := hJ.inv.removal.2 id hid
        exact ⟨nd, hnd, hst⟩)
  have origin : ∀ id nd, g2.heap id = some nd →
      id ∉ g.m_nodesToRemove ∧ ∃ x, g.heap id = some x ∧ nd.state = x.state ∧
        nd.target = x.target := by
    intro id nd hn
    rw [hheap id] at hn
    by_cases hid : id ∈ g.m_nodesToRemove
    · rw [if_pos hid] at hn
      cases hn
    · rw [if_neg hid] at hn
      cases hx : g.heap id with
      | none =>
        rw [hx] at hn
        cases hn
      | some x =>
        rw [hx] at hn
        have e : pruneNode g.m_nodesToRemove x = nd := Option.some.inj hn
        subst e
        exact ⟨hid, x, rfl, rfl, rfl⟩
  have noUp : ∀ id nd, g2.heap id = some nd → nd.state ≠ NodeState.UpToDateState := by
    intro id nd hn hst
    obtain ⟨hid, x, hx, hs, _⟩ := origin id nd hn
    exact hid (hJ.listed id x hx (hs ▸ hst))
  refine ⟨g2, h2, hsize, ?_, noUp⟩
  refine
    { inv := ⟨coreInv_congr g2 _ hC2 rfl rfl rfl (fun t ht => hC2.leaves t ht),
        List.nodup_nil, fun id hid => by cases hid⟩
      ranked := pruned_ranked _ g g2 rank hheap hJ.ranked
      rootLive := pruned_rootLive _ g g2 hheap hroot hJ.rootLive
      rooted := pruned_rooted _ g g2 hheap hroot (fun id hid => by
        obtain ⟨nd, hnd, _, _⟩ := hJ.inv.removal.2 id hid
        exact ⟨nd, hnd, hJ.listLeaves id hid nd hnd⟩) hJ.rooted
      noLeaves := hlv.trans hJ.noLeaves
      noExec := ?_
      upToDate := ?_
      listed := ?_
      listLeaves := fun id hid => by cases hid }
  · rintro id ⟨nd, hn, hst⟩
    obtain ⟨_, x, hx, hs, _⟩ := origin id nd hn
    exact hJ.noExec id ⟨x, hx, hs ▸ hst⟩
  · intro id nd hn
    obtain ⟨_, x, hx, _, ht⟩ := origin id nd hn
    have := hJ.upToDate id x hx
    rw [← ht] at this
    exact this
  · intro id nd hn hst
    exact absurd hst (noUp id nd hn)

theorem upToDate_visit (w : World) (rank : NodeId → Nat) (mk : Makefile)
    (g : DependencyGraph) (hJ : UpToDateInv w rank mk g) (hE : g.m_nodesToRemove = [])
    (hnoUp : ∀ id nd, g.heap id = some nd → nd.state ≠ NodeState.UpToDateState)
    (root : NodeId) (hroot : g.m_root = some root) (fuel : Nat) (hfuel : rank root < fuel) :
    ∃ mk1 g1, findAvailableTargetNode w fuel mk g root = some (none, mk1, g1) ∧
      UpToDateInv w rank mk1 g1 ∧ g1.m_nodesToRemove ≠ [] ∧ g1.size = g.size := by
  obtain ⟨nd, hn⟩ := hJ.rootLive root hroot
  obtain ⟨r, mk1, g1, hF, hv, hS1, hSh, hroot1, hmap1, hlv1, _⟩ :=
    search_pass w mk g rank hJ.inv hJ.ranked root nd hn fuel hfuel
  obtain ⟨s1, s2⟩ := visitLeaves_spec w _ mk g r mk1 g1 hv
  obtain ⟨l1, _, l3, l4, l5⟩ := visitLeaves_list w _ mk g r mk1 g1 hv
  have hr : r = none := by
    cases r with
    | none => rfl
    | some t =>
      obtain ⟨_, leaf, lnd, _, _, _, hns, hlf, _, _⟩ := s2 t rfl
      exact absurd ⟨lnd, hlf, Or.inr (hJ.upToDate leaf lnd hlf)⟩ hns
  subst hr
  have hne := leavesUnder_nonempty g rank hJ.inv.core.heap.closedC hJ.ranked fuel root nd hn
    hfuel
  have hlist : g1.m_nodesToRemove ≠ [] := by
    cases hl : leavesUnder g fuel root with
    | nil => exact absurd hl hne
    | cons a rest =>
      have ha : a ∈ leavesUnder g fuel root := by rw [hl]; exact List.mem_cons_self _ _
      rcases (s1 rfl a ha).2 with hex | ⟨x1, hx1, hst, _⟩
      · exact absurd hex (hJ.noExec a)
      · rcases l3 a x1 hx1 hst with ⟨x, hx, hxs⟩ | hin
        · exact absurd hxs (hnoUp a x hx)
        · intro he
          rw [he] at hin
          cases hin
  refine ⟨mk1, g1, hF, ?_, hlist, by unfold DependencyGraph.size; rw [hmap1]⟩
  refine
    { inv := hS1
      ranked := nodeRanked_shape g g1 rank hSh hJ.ranked
      rootLive := rootLive_shape g g1 hSh hroot1 hJ.rootLive
      rooted := rooted_shape g g1 hSh hroot1 hJ.rooted
      noLeaves := hlv1.trans hJ.noLeaves
      noExec := fun id hex => hJ.noExec id ((l5 rfl id).1 hex)
      upToDate := ?_
      listed := ?_
      listLeaves := ?_ }
  · intro id x1 hx1
    obtain ⟨x, hx, _, ht, _⟩ := sameShape_children g1 g (sameShape_symm g g1 hSh) id x1 hx1
    rw [l4, ← ht]
    exact hJ.upToDate id x hx
  · intro id x1 hx1 hst
    rcases l3 id x1 hx1 hst with ⟨x, hx, hxs⟩ | hin
    · exact absurd hxs (hnoUp id x hx)
    · exact hin
  · intro id hid x1 hx1
    rcases l1 id hid with h0 | h0
    · rw [hE] at h0
      cases h0
    · obtain ⟨x, hx, hxc⟩ := leavesUnder_live g fuel root id h0
      obtain ⟨y, hy, hyc, _⟩ := sameShape_children g g1 hSh id x hx
      rw [hx1] at hy
      rw [Option.some.inj hy, hyc]
      exact hxc

theorem upToDate_passes (w : World) (searchFuel : Nat) (rank : NodeId → Nat)
    (hbound : ∀ id, rank id < searchFuel) :
    ∀ (k : Nat) (mk : Makefile) (g : DependencyGraph), UpToDateInv w rank mk g →
      g.size ≤ k + g.m_nodesToRemove.length →
      ∃ mk1 g1, searchPasses w searchFuel (k + 1) mk g = some (Pass.returned, mk1, g1) ∧
        g1.m_nodeContainer = [] ∧ g1.m_root = none ∧ g1.m_leaves = [] ∧
        g1.m_nodesToRemove = [] ∧ ∀ id, g1.heap id = none := by
  intro k
  induction k with
  | zero =>
    intro mk g hJ hsz
    obtain ⟨g2, h2, hsize, hJ2, hnoUp⟩ := upToDate_drain w rank mk g hJ
    unfold searchPasses
    rw [h2]
    simp only
    generalize hG : ({ g2 with m_nodesToRemove := [] } : DependencyGraph) = G at hJ2 ⊢
    have hGheap : G.heap = g2.heap := by rw [← hG]
    have hGroot : G.m_root = g2.m_root := by rw [← hG]
    cases hr : g2.m_root with
    | some root =>
      obtain ⟨nd, hn⟩ := hJ2.rootLive root (hGroot.trans hr)
      have := size_pos_of_live G hJ2.inv.core.reg root nd hn
      have e : G.size = g2.size := by rw [← hG]; rfl
      omega
    | none =>
      have hempty := hJ2.rooted.2 (hGroot.trans hr)
      exact ⟨mk, G, rfl, container_empty G hJ2.inv.core.heap hempty, hGroot.trans hr,
        hJ2.noLeaves, by rw [← hG], hempty⟩
  | succ k ih =>
    intro mk g hJ hsz
    obtain ⟨g2, h2, hsize, hJ2, hnoUp⟩ := upToDate_drain w rank mk g hJ
    unfold searchPasses
    rw [h2]
    simp only
    generalize hG : ({ g2 with m_nodesToRemove := [] } : DependencyGraph) = G at hJ2 ⊢
    have hGheap : G.heap = g2.heap := by rw [← hG]
    have hGroot : G.m_root = g2.m_root := by rw [← hG]
    have hGlist : G.m_nodesToRemove = [] := by rw [← hG]
    have hGsize : G.size = g2.size := by rw [← hG]; rfl
    cases hr : g2.m_root with
    | none =>
      have hempty := hJ2.rooted.2 (hGroot.trans hr)
      exact ⟨mk, G, rfl, container_empty G hJ2.inv.core.heap hempty, hGroot.trans hr,
        hJ2.noLeaves, hGlist, hempty⟩
    | some root =>
      simp only
      obtain ⟨mk3, g3, hF, hJ3, hne, hsz3⟩ := upToDate_visit w rank mk G hJ2 hGlist
        (fun id nd hn => hnoUp id nd (hGheap ▸ hn)) root (hGroot.trans hr) searchFuel
        (hbound root)
      rw [hF]
      simp only
      have hc : ((none : Option TargetId).isNone && !g3.m_nodesToRemove.isEmpty) = true := by
        cases hl : g3.m_nodesToRemove with
        | nil => exact absurd hl hne
        | cons a b => rfl
      rw [if_pos hc]
      have hlen : 1 ≤ g3.m_nodesToRemove.length := by
        cases hl : g3.m_nodesToRemove with
        | nil => exact absurd hl hne
        | cons a b => simp
      exact ih mk3 g3 hJ3 (by omega)


/-! ## Building a goal that is up to date -/

theorem startProcesses_nothing_to_do {G : Type} (api : Collaborators G)
    (s : TargetExecutor G) (jc : JobClient) (d1 : G) (fuel : Nat)
    (hab : s.m_bAborted = false) (hjc : s.m_jobClient = some jc)
    (hacq : jc.isAcquiring = false) (hav : s.m_availableProcesses ≠ [])
    (hnt : s.m_nextTarget = none) (hrun : s.numberOfRunningProcesses = 0)
    (hpend : s.m_pendingTargets = []) (hok : s.m_allCommandsSuccessfullyExecuted = true)
    (hfind : api.findAvailableTarget api.options.buildAllTargets s.m_depgraph =
      (Except.ok none, d1)) :
    ∃ s1, s.startProcesses api (fuel + 1) = some s1 ∧
      s1.finishedSignals = s.finishedSignals ++ [0] ∧
      s1.m_availableProcesses = s.m_availableProcesses ∧ s1.executors = s.executors ∧
      s1.m_nextTarget = none ∧ s1.m_jobAcquisitionCount = s.m_jobAcquisitionCount ∧
      s1.m_jobClient = s.m_jobClient ∧ s1.m_depgraph = d1 ∧ s1.stderr = s.stderr := by
  have hav2 : s.m_availableProcesses.isEmpty = false := by
    cases hl : s.m_availableProcesses with
    | nil => exact absurd hl hav
    | cons a b => rfl
  have hE : TargetExecutor.ensureNextTarget api (fuel + 1) s =
      some (Except.ok (), { s with m_nextTarget := none, m_depgraph := d1 }) := by
    unfold TargetExecutor.ensureNextTarget
    rw [hnt]
    simp only [Option.isNone_none, if_true]
    unfold TargetExecutor.findNextTarget
    rw [hfind]
  have hD : TargetExecutor.dispatch api jc
      { s with m_nextTarget := none, m_depgraph := d1 } =
      some (Except.ok (), TargetExecutor.finishBuild api
        { s with m_nextTarget := none, m_depgraph := d1 } 0) := by
    unfold TargetExecutor.dispatch
    simp only
    have hrun2 : ({ s with m_nextTarget := none, m_depgraph := d1 } :
        TargetExecutor G).numberOfRunningProcesses = 0 := hrun
    rw [if_pos hrun2]
    simp only [hpend]
  refine ⟨TargetExecutor.finishBuild api { s with m_nextTarget := none, m_depgraph := d1 } 0,
    ?_, ?_, rfl, rfl, rfl, rfl, rfl, rfl, rfl⟩
  · generalize hX : TargetExecutor.finishBuild api
        { s with m_nextTarget := none, m_depgraph := d1 } 0 = X at hD ⊢
    unfold TargetExecutor.startProcesses
    rw [if_neg (by rw [hab]; exact Bool.false_ne_true)]
    simp only [hjc]
    rw [if_neg (by rw [hacq, hav2]; exact Bool.false_ne_true)]
    rw [hE]
    simp only
    rw [hD]
  · simp [TargetExecutor.finishBuild, hok]

/-- C14: for a makefile with an acyclic dependents relation, a graph built from a goal on an
empty graph, and a file probe under which every target reachable from the goal is up to date:
from some bound on the loops on, the public `findAvailableTarget` returns null, with no
target collected in `m_leaves`, and leaves the graph empty with a null root; and a scheduler
that holds this graph, has every executor available, no target at hand and no pending goal,
starts no executor and requests no token in its next `startProcesses`, and emits
`finished(0)`. -/
theorem C14_up_to_date_goal (w : World) (air : List TargetId → Makefile → Makefile)
    (mk : Makefile) (hA : mk.Acyclic) (base : NodeId) (target : TargetId) (fuel0 : Nat)
    (g0 : DependencyGraph)
    (hb : (DependencyGraph.init base).build mk fuel0 target = some g0)
    (hup : ∀ t, mk.Reaches target t → (isTargetUpToDate w (mk.blocks t)).1 = true) :
    ∃ fuel, ∀ fuel1, fuel ≤ fuel1 → ∃ mk1 g1,
      g0.findAvailableTarget w air fuel1 mk = some (none, mk1, g1) ∧
      g1.isEmpty = true ∧ g1.m_root = none ∧ g1.m_leaves = [] ∧ g1.m_nodesToRemove = [] ∧
      ∀ (api : Collaborators (Makefile × DependencyGraph))
        (s : TargetExecutor (Makefile × DependencyGraph)) (jc : JobClient) (tick : Nat),
        SearchesGraph w air fuel1 api → s.m_depgraph = (mk, g0) → s.m_bAborted = false →
        s.m_jobClient = some jc → jc.isAcquiring = false → s.m_availableProcesses ≠ [] →
        s.m_nextTarget = none → s.numberOfRunningProcesses = 0 → s.m_pendingTargets = [] →
        s.m_allCommandsSuccessfullyExecuted = true →
        ∃ s1, s.startProcesses api (tick + 1) = some s1 ∧
          s1.finishedSignals = s.finishedSignals ++ [0] ∧
          s1.m_availableProcesses = s.m_availableProcesses ∧ s1.executors = s.executors ∧
          s1.m_nextTarget = none ∧ s1.m_jobAcquisitionCount = s.m_jobAcquisitionCount ∧
          s1.m_jobClient = s.m_jobClient ∧ s1.m_depgraph = (mk1, g1) := by
  obtain ⟨rank, hR⟩ := hA
  obtain ⟨hI, hG, hC, hK, hbase, hP⟩ := build_init_full mk rank hR fuel0 base target g0 hb
  obtain ⟨hC0, hE0⟩ := build_init_coreInv mk ⟨rank, hR⟩ fuel0 base target g0 hb
  obtain ⟨hRooted, hRootLive⟩ := build_rooted mk rank hR fuel0 base target g0 hb
  have hNR := build_nodeRanked mk rank hR fuel0 base target g0 hb
  have hJ : UpToDateInv w (nodeRank g0 rank) mk g0 :=
    { inv := searchInv_of_core w mk g0 hC0 hE0
      ranked := hNR
      rootLive := hRootLive
      rooted := hRooted
      noLeaves := hP.2.2
      noExec := by
        rintro id ⟨nd, hn, hst⟩
        rw [hP.1 id nd hn] at hst
        cases hst
      upToDate := fun id nd hn => hup nd.target (hK nd.target ⟨id, hG id nd hn⟩)
      listed := by
        intro id nd hn hst
        rw [hP.1 id nd hn] at hst
        cases hst
      listLeaves := by
        intro id hid
        rw [hE0] at hid
        cases hid }
  obtain ⟨b, hb2⟩ : ∃ b, ∀ id, nodeRank g0 rank id < b := by
    refine ⟨(g0.m_nodeContainer.map (fun e => rank e.1)).sum + 1, ?_⟩
    intro id
    unfold nodeRank
    cases hn : g0.heap id with
    | none => simp
    | some nd =>
      simp only
      have hmem : nd.target ∈ g0.m_nodeContainer.map Prod.fst :=
        hashValue_mem_keys _ _ id (hG id nd hn)
      obtain ⟨e, he, het⟩ := List.mem_map.1 hmem
      have hle : rank e.1 ≤ (g0.m_nodeContainer.map (fun e => rank e.1)).sum :=
        List.single_le_sum (fun _ _ => Nat.zero_le _) _ (List.mem_map.2 ⟨e, he, rfl⟩)
      rw [het] at hle
      omega
  refine ⟨max b (g0.size + 1), ?_⟩
  intro fuel1 hfuel1
  have hb3 : ∀ id, nodeRank g0 rank id < fuel1 := fun id =>
    lt_of_lt_of_le (hb2 id) (le_trans (Nat.le_max_left _ _) hfuel1)
  have hsz : g0.size + 1 ≤ fuel1 := le_trans (Nat.le_max_right _ _) hfuel1
  obtain ⟨pk, hpk⟩ : ∃ pk, fuel1 = pk + 1 := ⟨fuel1 - 1, by omega⟩
  obtain ⟨mk1, g1, hSP, hcont, hroot, hlv, hlist, _⟩ :=
    upToDate_passes w fuel1 (nodeRank g0 rank) hb3 pk mk g0 hJ (by omega)
  rw [← hpk] at hSP
  have hF : g0.findAvailableTarget w air fuel1 mk = some (none, mk1, g1) := by
    unfold DependencyGraph.findAvailableTarget
    rw [hP.2.2]
    simp only
    have hCL : collectLeaves w fuel1 fuel1 fuel1 mk g0 = some (Pass.returned, mk1, g1) := by
      rw [hpk]
      unfold collectLeaves
      rw [← hpk, hSP]
    rw [hCL]
  refine ⟨mk1, g1, hF, ?_, hroot, hlv, hlist, ?_⟩
  · unfold DependencyGraph.isEmpty
    rw [hcont]
    rfl
  · intro api s jc tick hapi hd hab hjc hacq hav hnt hrun hpend hok
    have hfind := hapi api.options.buildAllTargets mk g0 none mk1 g1 hF
    rw [← hd] at hfind
    obtain ⟨s1, h1, h2, h3, h4, h5, h6, h7, h8, _⟩ :=
      startProcesses_nothing_to_do api s jc (mk1, g1) tick hab hjc hacq hav hnt hrun hpend hok
        hfind
    exact ⟨s1, h1, h2, h3, h4, h5, h6, h7, h8⟩

theorem settled_upToDate (t : TargetId) :
    (isTargetUpToDate settledWorld (diamondMakefile.blocks t)).1 = true := by
  rcases t with _ | _ | _ | t <;> rfl

theorem graphApi_searchesGraph (w : World) (air : List TargetId → Makefile → Makefile)
    (fuel : Nat) (opts : Options) (mk0 : Makefile) :
    SearchesGraph w air fuel (graphApi w air fuel opts mk0) := by
  intro b mk g r mk1 g1 h
  simp only [graphApi, h]

theorem C14_up_to_date_goal_witness :
    diamondMakefile.Acyclic ∧
    (DependencyGraph.init 0).build diamondMakefile 4 0 = some diamondGraph ∧
    (∀ t, diamondMakefile.Reaches 0 t →
      (isTargetUpToDate settledWorld (diamondMakefile.blocks t)).1 = true) ∧
    (diamondGraph.findAvailableTarget settledWorld noRules 6 diamondMakefile).map
      (fun r => (r.1, r.2.2.isEmpty, r.2.2.m_root, r.2.2.m_leaves)) =
        some (none, true, none, []) ∧
    settledApplied.m_depgraph.2.view = diamondGraph.view ∧
    (settledApplied.startProcesses
      (graphApi settledWorld noRules 6 twoJobs diamondMakefile) 1).map
        (fun s => (s.finishedSignals, s.m_availableProcesses, s.m_jobAcquisitionCount)) =
      some ([0], [0, 1], 0) ∧
    ∃ fuel, ∀ fuel1, fuel ≤ fuel1 → ∃ mk1 g1,
      diamondGraph.findAvailableTarget settledWorld noRules fuel1 diamondMakefile =
        some (none, mk1, g1) ∧
      g1.isEmpty = true ∧ g1.m_root = none ∧ g1.m_leaves = [] ∧ g1.m_nodesToRemove = [] ∧
      ∀ (api : Collaborators (Makefile × DependencyGraph))
        (s : TargetExecutor (Makefile × DependencyGraph)) (jc : JobClient) (tick : Nat),
        SearchesGraph settledWorld noRules fuel1 api →
        s.m_depgraph = (diamondMakefile, diamondGraph) → s.m_bAborted = false →
        s.m_jobClient = some jc → jc.isAcquiring = false → s.m_availableProcesses ≠ [] →
        s.m_nextTarget = none → s.numberOfRunningProcesses = 0 → s.m_pendingTargets = [] →
        s.m_allCommandsSuccessfullyExecuted = true →
        ∃ s1, s.startProcesses api (tick + 1) = some s1 ∧
          s1.finishedSignals = s.finishedSignals ++ [0] ∧
          s1.m_availableProcesses = s.m_availableProcesses ∧ s1.executors = s.executors ∧
          s1.m_nextTarget = none ∧ s1.m_jobAcquisitionCount = s.m_jobAcquisitionCount ∧
          s1.m_jobClient = s.m_jobClient ∧ s1.m_depgraph = (mk1, g1) :=
  ⟨diamond_acyclic, diamondGraph_built, fun t _ => settled_upToDate t, by rfl, by rfl, by rfl,
    C14_up_to_date_goal settledWorld noRules diamondMakefile diamond_acyclic 0 0 4
      diamondGraph diamondGraph_built (fun t _ => settled_upToDate t)⟩

theorem internalDotDumpLoop_eq (recurse : NodeId → Option (List QString))
    (f : NodeId → List QString) (cs : List NodeId)
    (h : ∀ c ∈ cs, recurse c = some (f c)) :
    internalDotDumpLoop recurse cs = some (cs.flatMap f) := by
  induction cs with
  | nil => rfl
  | cons c rest ih =>
    simp only [internalDotDumpLoop, h c (List.mem_cons_self c rest),
      ih (fun x hx => h x (List.mem_cons_of_mem c hx)), Option.map_some', List.flatMap_cons]

theorem nodeName_live (mk : Makefile) (g : DependencyGraph) (id : NodeId) (nd : Node)
    (h : g.heap id = some nd) : nodeName mk g id = (mk.blocks nd.target).targetName := by
  simp only [nodeName, h]

theorem dotEdges_fuel (g : DependencyGraph) (rank : NodeId → Nat) (hR : NodeRankedBy g rank) :
    ∀ fuel fuel1 node, rank node < fuel → rank node < fuel1 →
      dotEdges g fuel node = dotEdges g fuel1 node := by
  intro fuel
  induction fuel with
  | zero => intro _ node h; exact absurd h (Nat.not_lt_zero _)
  | succ fuel ih =>
    intro fuel1 node h h1
    cases fuel1 with
    | zero => exact absurd h1 (Nat.not_lt_zero _)
    | succ fuel1 =>
      simp only [dotEdges]
      cases hn : g.heap node with
      | none => rfl
      | some nd =>
        simp only []
        apply List.flatMap_congr
        intro c hc
        have hlt := hR node nd hn c hc
        rw [ih fuel1 c (Nat.lt_of_lt_of_le hlt (Nat.le_of_lt_succ h))
          (Nat.lt_of_lt_of_le hlt (Nat.le_of_lt_succ h1))]

theorem nodeReach_rank (g : DependencyGraph) (rank : NodeId → Nat) (hR : NodeRankedBy g rank)
    (a b : NodeId) (h : NodeReach g a b) : rank b ≤ rank a := by
  induction h with
  | refl => exact Nat.le_refl _
  | tail _ hstep ih =>
    obtain ⟨nd, hn, hc⟩ := hstep
    exact Nat.le_trans (Nat.le_of_lt (hR _ nd hn _ hc)) ih

theorem dotEdges_sound (g : DependencyGraph) :
    ∀ fuel node p c, (p, c) ∈ dotEdges g fuel node → NodeReach g node p ∧ HasEdge g p c := by
  intro fuel
  induction fuel with
  | zero => intro node p c h; cases h
  | succ fuel ih =>
    intro node p c h
    simp only [dotEdges] at h
    cases hn : g.heap node with
    | none => rw [hn] at h; cases h
    | some nd =>
      rw [hn] at h
      obtain ⟨ch, hch, hmem⟩ := List.mem_flatMap.1 h
      rcases List.mem_cons.1 hmem with e | hmem
      · cases e
        exact ⟨Relation.ReflTransGen.refl, nd, hn, hch⟩
      · obtain ⟨h1, h2⟩ := ih ch p c hmem
        exact ⟨Relation.ReflTransGen.head ⟨nd, hn, hch⟩ h1, h2⟩

theorem dotEdges_complete (g : DependencyGraph) (rank : NodeId → Nat)
    (hR : NodeRankedBy g rank) :
    ∀ fuel node p c, rank node < fuel → NodeReach g node p → HasEdge g p c →
      (p, c) ∈ dotEdges g fuel node := by
  intro fuel
  induction fuel with
  | zero => intro node _ _ h; exact absurd h (Nat.not_lt_zero _)
  | succ fuel ih =>
    intro node p c hlt hreach hedge
    rcases Relation.ReflTransGen.cases_head hreach with e | ⟨ch, ⟨nd, hn, hch⟩, hrest⟩
    · subst e
      obtain ⟨nd, hn, hc⟩ := hedge
      simp only [dotEdges, hn]
      exact List.mem_flatMap.2 ⟨c, hc, List.mem_cons_self _ _⟩
    · simp only [dotEdges, hn]
      exact List.mem_flatMap.2 ⟨ch, hch, List.mem_cons_of_mem _
        (ih ch p c (Nat.lt_of_lt_of_le (hR node nd hn ch hch) (Nat.le_of_lt_succ hlt))
          hrest hedge)⟩

theorem parent_unique (g : DependencyGraph) (hI : HeapInv g) (hO : OnlyLeavesShared g)
    (p x q k : NodeId) (hk : HasEdge g p k) (hx : HasEdge g x p) (hq : HasEdge g q p) :
    x = q := by
  obtain ⟨pn, hp, hkc⟩ := hk
  obtain ⟨xn, hxn, hxc⟩ := hx
  obtain ⟨qn, hqn, hqc⟩ := hq
  have hne : pn.children ≠ [] := fun e => by rw [e] at hkc; cases hkc
  have hlen := hO p pn hp hne
  have hxp : x ∈ pn.parents := (hI.sym x p xn pn hxn hp).1 hxc
  have hqp : q ∈ pn.parents := (hI.sym q p qn pn hqn hp).1 hqc
  cases hps : pn.parents with
  | nil => rw [hps] at hxp; cases hxp
  | cons a rest =>
    rw [hps] at hxp hqp hlen
    cases rest with
    | nil =>
      rw [List.mem_singleton] at hxp hqp
      rw [hxp, hqp]
    | cons b rest =>
      simp only [List.length_cons] at hlen
      omega

theorem reach_parent (g : DependencyGraph) (hI : HeapInv g) (hO : OnlyLeavesShared g)
    (a p q k : NodeId) (hk : HasEdge g p k) (hq : HasEdge g q p) (h : NodeReach g a p) :
    a = p ∨ NodeReach g a q := by
  rcases Relation.ReflTransGen.cases_tail h with e | ⟨x, hax, hxp⟩
  · exact Or.inl e.symm
  · have e := parent_unique g hI hO p x q k hk hxp hq
    subst e
    exact Or.inr hax

theorem no_cycle (g : DependencyGraph) (rank : NodeId → Nat) (hR : NodeRankedBy g rank)
    (a b : NodeId) (hab : HasEdge g a b) (hba : NodeReach g b a) : False := by
  obtain ⟨nd, hn, hc⟩ := hab
  have h1 := hR a nd hn b hc
  have h2 := nodeReach_rank g rank hR b a hba
  exact absurd h1 (Nat.not_lt.2 h2)

theorem branches_disjoint (g : DependencyGraph) (rank : NodeId → Nat) (hI : HeapInv g)
    (hR : NodeRankedBy g rank) (hO : OnlyLeavesShared g) (n c1 c2 : NodeId)
    (h1 : HasEdge g n c1) (h2 : HasEdge g n c2) (hne : c1 ≠ c2) (p : NodeId)
    (hr1 : NodeReach g c1 p) :
    ∀ k, HasEdge g p k → NodeReach g c2 p → False := by
  induction hr1 with
  | refl =>
    intro k hk hr2
    rcases reach_parent g hI hO c2 c1 n k hk h1 hr2 with e | hr
    · exact hne e.symm
    · exact no_cycle g rank hR n c2 h2 hr
  | @tail b p hcb hbp ih =>
    intro k hk hr2
    rcases reach_parent g hI hO c2 p b k hk hbp hr2 with e | hr
    · subst e
      have e2 := parent_unique g hI hO c2 b n k hk hbp h2
      subst e2
      exact no_cycle g rank hR b c1 h1 hcb
    · exact ih p hbp hr

theorem dotEdges_nodup (g : DependencyGraph) (rank : NodeId → Nat) (hI : HeapInv g)
    (hR : NodeRankedBy g rank) (hO : OnlyLeavesShared g) :
    ∀ fuel node, (dotEdges g fuel node).Nodup := by
  intro fuel
  induction fuel with
  | zero => intro node; exact List.nodup_nil
  | succ fuel ih =>
    intro node
    simp only [dotEdges]
    cases hn : g.heap node with
    | none => exact List.nodup_nil
    | some nd =>
      simp only []
      rw [List.nodup_flatMap]
      constructor
      · intro c hc
        rw [List.nodup_cons]
        refine ⟨fun hmem => ?_, ih c⟩
        exact no_cycle g rank hR node c ⟨nd, hn, hc⟩ (dotEdges_sound g fuel c node c hmem).1
      · refine List.Pairwise.imp_of_mem ?_ (hI.nodupC node nd hn)
        intro c1 c2 hc1 hc2 hne e he1 he2
        obtain ⟨p, k⟩ := e
        rcases List.mem_cons.1 he1 with e1 | he1
        · rcases List.mem_cons.1 he2 with e2 | he2
          · cases e1
            cases e2
            exact hne rfl
          · cases e1
            exact no_cycle g rank hR node c2 ⟨nd, hn, hc2⟩
              (dotEdges_sound g fuel c2 node c1 he2).1
        · obtain ⟨hr1, hk⟩ := dotEdges_sound g fuel c1 p k he1
          rcases List.mem_cons.1 he2 with e2 | he2
          · cases e2
            exact no_cycle g rank hR node c1 ⟨nd, hn, hc1⟩ hr1
          · exact branches_disjoint g rank hI hR hO node c1 c2 ⟨nd, hn, hc1⟩ ⟨nd, hn, hc2⟩ hne
              p hr1 k hk (dotEdges_sound g fuel c2 p k he2).1

theorem tail_ranked : tailMakefile.RankedBy tailRank := by
  intro t d hd
  match t with
  | 0 =>
    have : d = 1 ∨ d = 2 := by
      simpa [Makefile.resolvedDependents, tailMakefile, mkBlock] using hd
    rcases this with rfl | rfl <;> decide
  | 1 =>
    have : d = 3 := by
      simpa [Makefile.resolvedDependents, tailMakefile, mkBlock] using hd
    subst this
    decide
  | 2 =>
    have : d = 3 := by
      simpa [Makefile.resolvedDependents, tailMakefile, mkBlock] using hd
    subst this
    decide
  | 3 =>
    have : d = 4 := by
      simpa [Makefile.resolvedDependents, tailMakefile, mkBlock] using hd
    subst this
    decide
  | n + 4 =>
    simp [Makefile.resolvedDependents, tailMakefile, mkBlock] at hd

theorem tailGraph_built :
    DependencyGraph.build tailMakefile 5 (DependencyGraph.init 0) 0 = some tailGraph := by
  rfl

theorem tailGraph_heapInv : HeapInv tailGraph :=
  build_heapInv tailMakefile 5 _ _ 0 (init_heapInv 0) tailGraph_built

theorem tailGraph_nodeRanked : NodeRankedBy tailGraph (nodeRank tailGraph tailRank) :=
  build_nodeRanked tailMakefile tailRank tail_ranked 5 0 0 tailGraph tailGraph_built

theorem diamondGraph_onlyLeavesShared : OnlyLeavesShared diamondGraph := by
  intro id nd hn hne
  by_cases h : id < 4
  · have h4 : ∀ n : Nat, n < 4 → n = 0 ∨ n = 1 ∨ n = 2 ∨ n = 3 := by
      intro n hn
      omega
    rcases h4 id h with e | e | e | e <;> subst e
    · rw [show diamondGraph.heap 0 = some ⟨0, [1, 3], [], NodeState.UnknownState⟩ from rfl] at hn
      cases hn
      decide
    · rw [show diamondGraph.heap 1 = some ⟨1, [2], [0], NodeState.UnknownState⟩ from rfl] at hn
      cases hn
      decide
    · rw [show diamondGraph.heap 2 = some ⟨3, [], [1, 3], NodeState.UnknownState⟩ from rfl] at hn
      cases hn
      exact absurd rfl hne
    · rw [show diamondGraph.heap 3 = some ⟨2, [2], [0], NodeState.UnknownState⟩ from rfl] at hn
      cases hn
      decide
  · rw [diamondGraph_heapInv.fresh id (Nat.le_of_not_lt h)] at hn
    cases hn

theorem printfChars_plain (l : List Char) (h : ∀ c ∈ l, PlainChar c) :
    printfChars l = some l := by
  induction l with
  | nil => rfl
  | cons c rest ih =>
    obtain ⟨_, h0, hp⟩ := h c (List.mem_cons_self c rest)
    unfold printfChars
    rw [if_neg h0, if_neg hp, ih (fun x hx => h x (List.mem_cons_of_mem c hx))]
    rfl

theorem toAscii_plain (s : QString) (h : ∀ c ∈ s.toList, PlainChar c) :
    toAscii s = s.toList := by
  unfold toAscii
  have : ∀ l : List Char, (∀ c ∈ l, PlainChar c) →
      l.map (fun c => if c.toNat < 256 then c else '?') = l := by
    intro l hl
    induction l with
    | nil => rfl
    | cons c rest ih =>
      rw [List.map_cons, if_pos (hl c (List.mem_cons_self c rest)).1,
        ih (fun x hx => hl x (List.mem_cons_of_mem c hx))]
  exact this s.toList h

theorem printf_plain (s : QString) (h : ∀ c ∈ s.toList, PlainChar c) :
    printf (toAscii s) = some s := by
  unfold printf
  rw [toAscii_plain s h, printfChars_plain s.toList h]
  rfl

theorem printf_line (p n : QString) (hp : ∀ c ∈ p.toList, PlainChar c)
    (hn : ∀ c ∈ n.toList, PlainChar c) :
    printf (toAscii ("  \"" ++ p ++ "\" -> \"" ++ n ++ "\";\n")) =
      some ("  \"" ++ p ++ "\" -> \"" ++ n ++ "\";\n") := by
  apply printf_plain
  intro c hc
  have h1 : ∀ c ∈ "  \"".toList, PlainChar c := by decide
  have h2 : ∀ c ∈ "\" -> \"".toList, PlainChar c := by decide
  have h3 : ∀ c ∈ "\";\n".toList, PlainChar c := by decide
  simp only [String.toList, String.data_append, List.mem_append] at hc
  rcases hc with (((hc | hc) | hc) | hc) | hc
  · exact h1 c hc
  · exact hp c hc
  · exact h2 c hc
  · exact hn c hc
  · exact h3 c hc

theorem internalDotDump_eq (mk : Makefile) (g : DependencyGraph) (rank : NodeId → Nat)
    (hC : ∀ id nd, g.heap id = some nd → ∀ c ∈ nd.children, ∃ cn, g.heap c = some cn)
    (hR : NodeRankedBy g rank) (hP : PlainNames mk g) :
    ∀ fuel node nd, g.heap node = some nd → rank node < fuel →
      (internalDotDump mk g fuel node none =
        some ((dotEdges g fuel node).map (edgeLine mk g))) ∧
      ∀ p pn, g.heap p = some pn →
        internalDotDump mk g fuel node (some (nodeName mk g p)) =
          some (edgeLine mk g (p, node) :: (dotEdges g fuel node).map (edgeLine mk g)) := by
  intro fuel
  induction fuel with
  | zero => intro node nd _ h; exact absurd h (Nat.not_lt_zero _)
  | succ fuel ih =>
    intro node nd hn hlt
    have hloop : internalDotDumpLoop
        (fun child => internalDotDump mk g fuel child (some (mk.blocks nd.target).targetName))
        nd.children =
        some (nd.children.flatMap (fun c =>
          edgeLine mk g (node, c) :: (dotEdges g fuel c).map (edgeLine mk g))) := by
      apply internalDotDumpLoop_eq
      intro c hc
      obtain ⟨cn, hcn⟩ := hC node nd hn c hc
      have hlt2 : rank c < fuel :=
        Nat.lt_of_lt_of_le (hR node nd hn c hc) (Nat.le_of_lt_succ hlt)
      have := (ih c cn hcn hlt2).2 node nd hn
      rw [nodeName_live mk g node nd hn] at this
      exact this
    have hmap : (dotEdges g (fuel + 1) node).map (edgeLine mk g) =
        nd.children.flatMap (fun c =>
          edgeLine mk g (node, c) :: (dotEdges g fuel c).map (edgeLine mk g)) := by
      simp only [dotEdges, hn, List.map_flatMap, List.map_cons]
    constructor
    · simp only [internalDotDump, hn, hloop, hmap, Option.map_some', List.nil_append]
    · intro p pn hp
      have hline := printf_line (nodeName mk g p) (mk.blocks nd.target).targetName
        (by rw [nodeName_live mk g p pn hp]; exact hP p pn hp) (hP node nd hn)
      simp only [internalDotDump, hn, hline, hloop, hmap, Option.map_some', edgeLine,
        nodeName_live mk g node nd hn, List.singleton_append]

theorem dotDump_eq (mk : Makefile) (g : DependencyGraph) (rank : NodeId → Nat)
    (hI : HeapInv g) (hR : NodeRankedBy g rank) (hP : PlainNames mk g) (root : NodeId)
    (rn : Node) (hroot : g.m_root = some root) (hlive : g.heap root = some rn) (fuel : Nat)
    (hfuel : rank root < fuel) :
    g.dotDump mk fuel = some (["digraph G \x7b\n"] ++
      (dotEdges g (rank root + 1) root).map (edgeLine mk g) ++ ["\x7d\n"]) := by
  have h1 : printf "digraph G \x7b\n".toList = some "digraph G \x7b\n" := by decide
  have h2 : printf "\x7d\n".toList = some "\x7d\n" := by decide
  unfold DependencyGraph.dotDump
  rw [h1]
  simp only []
  rw [hroot]
  simp only []
  rw [(internalDotDump_eq mk g rank hI.closedC hR hP fuel root rn hlive hfuel).1,
    dotEdges_fuel g rank hR fuel (rank root + 1) root hfuel (Nat.lt_succ_self _)]
  simp only []
  rw [h2]
  rfl

theorem pathsTo_sound (g : DependencyGraph) :
    ∀ fuel a b l, l ∈ pathsTo g fuel a b → IsPath g a l b := by
  intro fuel
  induction fuel with
  | zero => intro a b l h; cases h
  | succ fuel ih =>
    intro a b l h
    simp only [pathsTo] at h
    rcases List.mem_append.1 h with h | h
    · by_cases e : a = b
      · rw [if_pos e, List.mem_singleton] at h
        subst h
        exact e
      · rw [if_neg e] at h
        cases h
    · cases hn : g.heap a with
      | none => rw [hn] at h; cases h
      | some nd =>
        rw [hn] at h
        obtain ⟨x, hx, hl⟩ := List.mem_flatMap.1 h
        obtain ⟨l1, hl1, e⟩ := List.mem_map.1 hl
        subst e
        exact ⟨⟨nd, hn, hx⟩, ih x b l1 hl1⟩

theorem pathsTo_complete (g : DependencyGraph) (rank : NodeId → Nat)
    (hR : NodeRankedBy g rank) :
    ∀ fuel a b l, rank a < fuel → IsPath g a l b → l ∈ pathsTo g fuel a b := by
  intro fuel
  induction fuel with
  | zero => intro a _ _ h; exact absurd h (Nat.not_lt_zero _)
  | succ fuel ih =>
    intro a b l hlt hp
    simp only [pathsTo]
    cases l with
    | nil =>
      have e : a = b := hp
      exact List.mem_append_left _ (by rw [if_pos e]; exact List.mem_singleton_self _)
    | cons x rest =>
      obtain ⟨⟨nd, hn, hx⟩, hrest⟩ := hp
      apply List.mem_append_right
      rw [hn]
      exact List.mem_flatMap.2 ⟨x, hx, List.mem_map.2 ⟨rest,
        ih x b rest (Nat.lt_of_lt_of_le (hR a nd hn x hx) (Nat.le_of_lt_succ hlt)) hrest, rfl⟩⟩

theorem pathsTo_nodup (g : DependencyGraph) (hI : HeapInv g) :
    ∀ fuel a b, (pathsTo g fuel a b).Nodup := by
  intro fuel
  induction fuel with
  | zero => intro a b; exact List.nodup_nil
  | succ fuel ih =>
    intro a b
    simp only [pathsTo]
    have hhead : (if a = b then [([] : List NodeId)] else []).Nodup := by
      by_cases e : a = b
      · rw [if_pos e]; exact List.nodup_singleton _
      · rw [if_neg e]; exact List.nodup_nil
    cases hn : g.heap a with
    | none =>
      simp only [List.append_nil]
      exact hhead
    | some nd =>
      simp only []
      refine List.Nodup.append hhead ?_ ?_
      · rw [List.nodup_flatMap]
        constructor
        · intro x _
          exact (ih x b).map (fun l1 l2 h => (List.cons.inj h).2)
        · refine List.Pairwise.imp_of_mem ?_ (hI.nodupC a nd hn)
          intro x y _ _ hne l hl1 hl2
          obtain ⟨l1, _, e1⟩ := List.mem_map.1 hl1
          obtain ⟨l2, _, e2⟩ := List.mem_map.1 hl2
          rw [← e2] at e1
          exact hne (List.cons.inj e1).1
      · intro l hl1 hl2
        obtain ⟨x, _, hl⟩ := List.mem_flatMap.1 hl2
        obtain ⟨l1, _, e⟩ := List.mem_map.1 hl
        subst e
        by_cases e : a = b
        · rw [if_pos e, List.mem_singleton] at hl1
          cases hl1
        · rw [if_neg e] at hl1
          cases hl1

theorem count_branches (a p c : NodeId) (E : NodeId → List (NodeId × NodeId))
    (P : NodeId → List (List NodeId)) :
    ∀ cs : List NodeId, (∀ x ∈ cs, (E x).count (p, c) = (P x).length) →
      (cs.flatMap (fun x => (a, x) :: E x)).count (p, c) =
        (if a = p then cs.count c else 0) +
          (cs.flatMap (fun x => (P x).map (fun l => x :: l))).length := by
  intro cs
  induction cs with
  | nil =>
    intro _
    by_cases e : a = p <;> simp [e]
  | cons x rest ih =>
    intro h
    have ih2 := ih (fun y hy => h y (List.mem_cons_of_mem x hy))
    have hx := h x (List.mem_cons_self x rest)
    rw [List.flatMap_cons, List.flatMap_cons, List.count_append, List.length_append,
      List.length_map, ih2, List.count_cons, hx]
    by_cases e : a = p
    · subst e
      by_cases e2 : x = c
      · subst e2
        simp only [if_true, List.count_cons_self, beq_self_eq_true]
        omega
      · have hne : ((a, x) == (a, c)) = false := by
          simp [e2]
        have hne2 : (x == c) = false := by simp [e2]
        simp only [if_true, hne, List.count_cons, hne2]
        simp
        omega
    · have hne : ((a, x) == (p, c)) = false := by
        simp [e]
      simp only [if_neg e, hne]
      simp

theorem dotEdges_count (g : DependencyGraph) (hI : HeapInv g) (p c : NodeId)
    (hpc : HasEdge g p c) :
    ∀ fuel a, (dotEdges g fuel a).count (p, c) = (pathsTo g fuel a p).length := by
  intro fuel
  induction fuel with
  | zero => intro a; rfl
  | succ fuel ih =>
    intro a
    simp only [dotEdges, pathsTo]
    cases hn : g.heap a with
    | none =>
      have hne : a ≠ p := by
        rintro rfl
        obtain ⟨pn, hp, _⟩ := hpc
        rw [hn] at hp
        cases hp
      simp [hne]
    | some nd =>
      simp only []
      rw [count_branches a p c (dotEdges g fuel) (fun x => pathsTo g fuel x p) nd.children
        (fun x _ => ih x), List.length_append]
      by_cases e : a = p
      · subst e
        obtain ⟨pn, hp, hc⟩ := hpc
        rw [hn] at hp
        cases hp
        rw [if_pos rfl, if_pos rfl, List.count_eq_one_of_mem (hI.nodupC a nd hn) hc]
        rfl
      · rw [if_neg e, if_neg e]
        rfl

theorem plainNames_of_blocks (mk : Makefile) (g : DependencyGraph)
    (h : ∀ t, ∀ c ∈ (mk.blocks t).targetName.toList, PlainChar c) : PlainNames mk g :=
  fun _ nd _ => h nd.target

theorem tailGraph_plainNames : PlainNames tailMakefile tailGraph := by
  apply plainNames_of_blocks
  intro t
  match t with
  | 0 => decide
  | 1 => decide
  | 2 => decide
  | 3 => decide
  | n + 4 => exact (by decide : ∀ c ∈ "E".toList, PlainChar c)

theorem diamondGraph_plainNames : PlainNames diamondMakefile diamondGraph := by
  apply plainNames_of_blocks
  intro t
  match t with
  | 0 => decide
  | 1 => decide
  | 2 => decide
  | n + 3 => exact (by decide : ∀ c ∈ "D".toList, PlainChar c)

/-- C15 (as stated, refuted): in the graph of `A: B C`, `B: D`, `C: D`, `D: E`, which is
acyclic, the node `D` has the one child `E` and the two parents `B` and `C`; `dotDump` walks
the children of `D` once from `B` and once from `C`, and writes the line of the edge from `D`
to `E` twice. And a target name is not always written as it is: the line is the format of
`printf`, so for the target `a%%b` the text `a%b` is written, and `toAscii` puts `?` for the
name `Ω`. -/
theorem C15_counterexample :
    (HeapInv tailGraph ∧ NodeRankedBy tailGraph (nodeRank tailGraph tailRank) ∧
      tailGraph.m_root = some 0 ∧
      (tailGraph.heap 2).map (fun nd => (nd.target, nd.children, nd.parents)) =
        some (3, [3], [1, 4]) ∧
      ∃ lines, (∀ fuel, 5 ≤ fuel → tailGraph.dotDump tailMakefile fuel = some lines) ∧
        lines = ["digraph G \x7b\n", "  \"A\" -> \"B\";\n", "  \"B\" -> \"D\";\n",
          "  \"D\" -> \"E\";\n", "  \"A\" -> \"C\";\n", "  \"C\" -> \"D\";\n",
          "  \"D\" -> \"E\";\n", "\x7d\n"] ∧
        lines.count "  \"D\" -> \"E\";\n" = 2) ∧
    ((percentMakefile.blocks 1).targetName = "a%%b" ∧
      percentGraph.dotDump percentMakefile 2 =
        some ["digraph G \x7b\n", "  \"A\" -> \"a%b\";\n", "\x7d\n"]) ∧
    ((omegaMakefile.blocks 1).targetName = "Ω" ∧
      omegaGraph.dotDump omegaMakefile 2 =
        some ["digraph G \x7b\n", "  \"A\" -> \"?\";\n", "\x7d\n"]) := by
  refine ⟨⟨tailGraph_heapInv, tailGraph_nodeRanked, rfl, rfl, _, ?_, rfl, by decide⟩,
    ⟨rfl, by rfl⟩, ⟨rfl, by rfl⟩⟩
  intro fuel hfuel
  have e : nodeRank tailGraph tailRank 0 = 4 := rfl
  have h := dotDump_eq tailMakefile tailGraph (nodeRank tailGraph tailRank) tailGraph_heapInv
    tailGraph_nodeRanked tailGraph_plainNames 0 ⟨0, [1, 4], [], NodeState.UnknownState⟩ rfl rfl
    fuel (by rw [e]; omega)
  rw [h]
  rfl

/-- C15 (amended): on an acyclic graph that satisfies the invariant of the node memory (as
every graph that the code builds does), whose root is a live node and whose target names
consist of characters up to U+00FF other than NUL and `%`, `dotDump` writes `digraph G {`,
then the lines `  "parent" -> "child";` of a list of parent/child edges, then `}`, whenever
the depth bound exceeds the rank of the root. The listed edges are exactly the edges reachable
from the root, and an edge is listed once for each path from the root to its parent. No edge
is listed twice when every node that has children has at most one parent, which is so in a
diamond whose shared node is a leaf. -/
theorem C15_dotDump_edges (mk : Makefile) (g : DependencyGraph) (rank : NodeId → Nat)
    (hI : HeapInv g) (hR : NodeRankedBy g rank) (hP : PlainNames mk g) (root : NodeId)
    (rn : Node) (hroot : g.m_root = some root) (hlive : g.heap root = some rn) :
    ∃ edges : List (NodeId × NodeId),
      (∀ fuel, rank root < fuel →
        g.dotDump mk fuel =
          some (["digraph G \x7b\n"] ++ edges.map (edgeLine mk g) ++ ["\x7d\n"])) ∧
      (∀ p c, (p, c) ∈ edges ↔ NodeReach g root p ∧ HasEdge g p c) ∧
      (∀ p c, HasEdge g p c → ∃ paths : List (List NodeId),
        paths.Nodup ∧ (∀ l, l ∈ paths ↔ IsPath g root l p) ∧
        edges.count (p, c) = paths.length) ∧
      (OnlyLeavesShared g → edges.Nodup) := by
  refine ⟨dotEdges g (rank root + 1) root, ?_, ?_, ?_, ?_⟩
  · intro fuel hfuel
    exact dotDump_eq mk g rank hI hR hP root rn hroot hlive fuel hfuel
  · intro p c
    constructor
    · exact dotEdges_sound g (rank root + 1) root p c
    · intro h
      exact dotEdges_complete g rank hR (rank root + 1) root p c (Nat.lt_succ_self _) h.1 h.2
  · intro p c hpc
    refine ⟨pathsTo g (rank root + 1) root p, pathsTo_nodup g hI _ _ _, ?_,
      dotEdges_count g hI p c hpc _ _⟩
    intro l
    exact ⟨pathsTo_sound g _ _ _ l,
      pathsTo_complete g rank hR _ _ _ l (Nat.lt_succ_self _)⟩
  · intro hO
    exact dotEdges_nodup g rank hI hR hO (rank root + 1) root

theorem C15_dotDump_edges_witness :
    HeapInv diamondGraph ∧ NodeRankedBy diamondGraph (nodeRank diamondGraph diamondRank) ∧
    PlainNames diamondMakefile diamondGraph ∧ diamondGraph.m_root = some 0 ∧
    diamondGraph.heap 0 = some ⟨0, [1, 3], [], NodeState.UnknownState⟩ ∧
    OnlyLeavesShared diamondGraph ∧
    diamondGraph.dotDump diamondMakefile 4 = some ["digraph G \x7b\n", "  \"A\" -> \"B\";\n",
      "  \"B\" -> \"D\";\n", "  \"A\" -> \"C\";\n", "  \"C\" -> \"D\";\n", "\x7d\n"] ∧
    ∃ edges : List (NodeId × NodeId),
      (∀ fuel, nodeRank diamondGraph diamondRank 0 < fuel →
        diamondGraph.dotDump diamondMakefile fuel =
          some (["digraph G \x7b\n"] ++ edges.map (edgeLine diamondMakefile diamondGraph) ++
            ["\x7d\n"])) ∧
      (∀ p c, (p, c) ∈ edges ↔ NodeReach diamondGraph 0 p ∧ HasEdge diamondGraph p c) ∧
      (∀ p c, HasEdge diamondGraph p c → ∃ paths : List (List NodeId),
        paths.Nodup ∧ (∀ l, l ∈ paths ↔ IsPath diamondGraph 0 l p) ∧
        edges.count (p, c) = paths.length) ∧
      (OnlyLeavesShared diamondGraph → edges.Nodup) :=
  ⟨diamondGraph_heapInv, diamondGraph_nodeRanked, diamondGraph_plainNames, rfl, rfl,
    diamondGraph_onlyLeavesShared, by rfl,
    C15_dotDump_edges diamondMakefile diamondGraph (nodeRank diamondGraph diamondRank)
      diamondGraph_heapInv diamondGraph_nodeRanked diamondGraph_plainNames 0
      ⟨0, [1, 3], [], NodeState.UnknownState⟩ rfl rfl⟩

/-! ## The search while the files and the clock change -/

end NMakeFile
